import Mathlib

/-!
# The bidirectional r-index (`br_index_naive`)

A shallow embedding of `src/br_index_naive.hpp` together with the properties of
the index that are checked against it.

Conventions of the embedding.

* `uchar` and `ulint` values are natural numbers.  Every `ulint` the index
  handles on a constructed index is a BWT row, a text position or a count, all
  bounded by the BWT length, so no 64-bit wrap-around takes place; the only
  `uchar` that may wrap (`new_c++` in the constructor) is reduced modulo 256.
* A text is a list of bytes (`List Nat` with every entry below 256).
* The class `br_index_naive` is a structure that holds the index tables and
  the query state; a member function that mutates the state returns the new
  object.
* `assert` in a query function is a precondition: a violated assertion (and the
  out-of-bounds access it guards) makes the function return `none`.  The
  consistency assertions of the constructor do not steer the construction and
  are left out of the executable constructor.
-/

set_option autoImplicit false

namespace bri

/-! ## Basic types -/

/-- The type `range_t`: a closed interval `(first, second)` of BWT rows. -/
abbrev range_t := Nat × Nat

/-- The constant `TERMINATOR` of the class. -/
def TERMINATOR : Nat := 1

/-! ## Collaborators that are not part of the sources -/

/-- Modelled from the spec: the class `rle_string` of header `rle_string.hpp`
is missing from the sources.  Spec §4.1 gives its contract (`at`, `rank`,
`select`, `number_of_runs`, `run_of_position`); the plain list of symbols stands
for the run-length encoded string. -/
abbrev rle_string := List Nat

/-- Modelled from the spec: `len()`, the total length (`size()` in the source). -/
def rle_string.size (s : rle_string) : Nat := s.length

/-- Modelled from the spec: `at(i)`, the byte at position `i` (`operator[]`). -/
def rle_string.char_at (s : rle_string) (i : Nat) : Nat := s.getD i 0

/-- Modelled from the spec: `rank(i, c)`, the number of positions `j < i` with
byte `c`. -/
def rle_string.rank (s : rle_string) (i c : Nat) : Nat := (s.take i).count c

/-- Modelled from the spec: `select(k, c)`, the position of the `(k+1)`-th
occurrence of `c`; it fails when fewer than `k+1` exist. -/
def rle_string.select : rle_string → Nat → Nat → Option Nat
  | [], _, _ => none
  | x :: xs, k, c =>
    if x = c then
      match k with
      | 0 => some 0
      | k + 1 => (rle_string.select xs k c).map (· + 1)
    else (rle_string.select xs k c).map (· + 1)

/-- Modelled from the spec: `number_of_runs()`, the number of maximal
constant-character intervals. -/
def rle_string.number_of_runs : rle_string → Nat
  | [] => 0
  | [_] => 1
  | x :: y :: rest => (if x = y then 0 else 1) + rle_string.number_of_runs (y :: rest)

/-- Modelled from the spec: `run_of_position(i)`, the 0-based index of the run
that contains position `i`. -/
def rle_string.run_of_position (s : rle_string) (i : Nat) : Nat :=
  rle_string.number_of_runs (s.take (i + 1)) - 1

/-- Modelled from the spec: the class `sparse_sd_vector` of header
`sparse_sd_vector.hpp` is missing from the sources.  Spec §4.2 gives its
contract; the plain list of bits stands for the Elias–Fano encoding. -/
abbrev sparse_sd_vector := List Bool

/-- Modelled from the spec: `rank(i)`, the number of set bits in `[0, i)`. -/
def sparse_sd_vector.rank (b : sparse_sd_vector) (i : Nat) : Nat := (b.take i).count true

/-- Modelled from the spec: the number `m` of set bits. -/
def sparse_sd_vector.number_of_1 (b : sparse_sd_vector) : Nat := b.count true

/-- Modelled from the spec: `select(k)`, the position of the `(k+1)`-th set bit
(no result when fewer than `k+1` bits are set). -/
def sparse_sd_vector.select : sparse_sd_vector → Nat → Option Nat
  | [], _ => none
  | true :: _, 0 => some 0
  | true :: bs, k + 1 => (sparse_sd_vector.select bs k).map (· + 1)
  | false :: bs, k => (sparse_sd_vector.select bs k).map (· + 1)

/-- Modelled from the spec: `predecessor_rank_circular(q)` of the missing
header: with `S` the sorted set of set-bit positions, the rank `k` such that
`S[k]` is the largest element below `q` if any; otherwise `m - 1` (wrap to the
largest set position).  The bound is strict.  The callers in the sources,
`Phi` and `PhiI`, compute `delta = k < i ? i - k : i + 1` over samples stored
as `SA - 1` ("get SA[i] from SA[i+1]"): a position that were its own
predecessor would be taken for the wrap-around, so they are written for the
predecessor strictly below `q`.  The spec (§4.2) words the bound as `≤ q`, see
`predecessor_rank_circular_spec`. -/
def sparse_sd_vector.predecessor_rank_circular (b : sparse_sd_vector) (q : Nat) : Nat :=
  if sparse_sd_vector.rank b q = 0 then sparse_sd_vector.number_of_1 b - 1
  else sparse_sd_vector.rank b q - 1

/-- The circular predecessor as the specification words it (§4.2): the rank `k`
such that `S[k]` is the largest element `≤ q` if any; otherwise `m - 1`. -/
def sparse_sd_vector.predecessor_rank_circular_spec (b : sparse_sd_vector) (q : Nat) : Nat :=
  if sparse_sd_vector.rank b (q + 1) = 0 then sparse_sd_vector.number_of_1 b - 1
  else sparse_sd_vector.rank b (q + 1) - 1

/-- Lexicographic order `s ≤ t` on symbol strings, the order of the suffix
array. -/
def lexLe : List Nat → List Nat → Bool
  | [], _ => true
  | _ :: _, [] => false
  | a :: s, b :: t => decide (a < b) || (decide (a = b) && lexLe s t)

/-- Modelled from the spec: the external suffix-array builder (`sdsl::construct_sa`),
specified by interface only (spec §6): for a byte text that ends with its unique
minimal terminator it returns the starting positions of the suffixes in
lexicographic order. -/
def construct_sa (text : List Nat) : List Nat :=
  (List.range text.length).insertionSort
    (fun i j => lexLe (text.drop i) (text.drop j) = true)

/-- Modelled from the spec: the inverse suffix array of the external builder
(`sdsl::construct_isa`), `ISA[SA[i]] = i`. -/
def construct_isa (sa : List Nat) : List Nat :=
  (List.range sa.length).map (fun i => sa.indexOf i)

/-- Length of the longest common prefix of two strings. -/
def lcp : List Nat → List Nat → Nat
  | a :: s, b :: t => if a = b then lcp s t + 1 else 0
  | _, _ => 0

/-- Modelled from the spec: the class `permuted_lcp` of header `permuted_lcp.hpp`
is missing from the sources.  Spec §3: `plcp[p]` is the length of the longest
common prefix of the suffix at `p` and the suffix lexicographically preceding
it; the suffix of rank 0 has no predecessor and gets 0. -/
def permuted_lcp (text sa : List Nat) : List Nat :=
  (List.range text.length).map (fun p =>
    if sa.indexOf p = 0 then 0
    else lcp (text.drop p) (text.drop (sa.getD (sa.indexOf p - 1) 0)))

/-! ## The class -/

/-- The data members of `br_index_naive`: the index tables followed by the
query state (`range, p, j, d, rangeR, pR, jR, dR, len`). -/
structure br_index_naive where
  remap : List Nat
  remap_inv : List Nat
  sigma : Nat
  F : List Nat
  bwt : rle_string
  terminator_position : Nat
  last_SA_val : Nat
  r : Nat
  bwtR : rle_string
  terminator_positionR : Nat
  rR : Nat
  samples_first : List Nat
  samples_last : List Nat
  inv_order : List Nat
  first : sparse_sd_vector
  first_to_run : List Nat
  last : sparse_sd_vector
  last_to_run : List Nat
  samples_firstR : List Nat
  samples_lastR : List Nat
  inv_orderR : List Nat
  plcp : List Nat
  range : range_t
  p : Nat
  j : Nat
  d : Nat
  rangeR : range_t
  pR : Nat
  jR : Nat
  dR : Nat
  len : Nat
deriving DecidableEq, Repr

/-- The reasons for which the constructor aborts (`exit(1)`). -/
inductive build_error where
  | empty_input
  | alphabet_overflow
deriving DecidableEq, Repr

/-! ## Construction -/

/-- The alphabet scan of the constructor (lines 61–71): `freqs` counts the
bytes, `sigma` is incremented for every byte seen for the first time, and the
scan aborts (`none`) as soon as `sigma >= 255`. -/
def scan_alphabet : List Nat → List Nat → Nat → Option (List Nat × Nat)
  | [], freqs, sigma => some (freqs, sigma)
  | b :: rest, freqs, sigma =>
    let sigma1 := if freqs.getD b 0 = 0 then sigma + 1 else sigma
    let freqs1 := freqs.set b (freqs.getD b 0 + 1)
    if sigma1 ≥ 255 then none else scan_alphabet rest freqs1 sigma1

/-- One iteration of the remap loop (lines 73–80) on `(remap, remap_inv, new_c)`;
`new_c` is a `uchar`. -/
def remap_step (freqs : List Nat) (st : List Nat × List Nat × Nat) (c : Nat) :
    List Nat × List Nat × Nat :=
  if freqs.getD c 0 ≠ 0 then
    (st.1.set c st.2.2, st.2.1.set st.2.2 c, (st.2.2 + 1) % 256)
  else st

/-- The remap loop `for (ulint c = 2; c < 256; ++c)` with `new_c = 2`. -/
def build_remap (freqs : List Nat) : List Nat × List Nat × Nat :=
  (List.range' 2 254).foldl (remap_step freqs)
    (List.replicate 256 0, List.replicate 256 0, 2)

/-- The remapped text followed by the zero symbol (`sdsl::append_zero_symbol`). -/
def remap_text (remap : List Nat) (input : List Nat) : List Nat :=
  input.map (fun b => remap.getD b 0) ++ [0]

/-- The sample pushed by `sufsort` for row `i`: `sa[i] - 1`, or `sa.size() - 1`
when `sa[i] = 0`. -/
def sample_at (sa : List Nat) (i : Nat) : Nat :=
  if sa.getD i 0 > 0 then sa.getD i 0 - 1 else sa.length - 1

/-- The three vectors that `sufsort` fills. -/
structure sufsort_state where
  bwt_s : List Nat
  samples_first : List (Nat × Nat)
  samples_last : List (Nat × Nat)
deriving DecidableEq, Repr

/-- The body of the loop of `sufsort` for row `i`. -/
def sufsort_step (text sa : List Nat) (st : sufsort_state) (i : Nat) : sufsort_state :=
  let x := sa.getD i 0
  let bwt_s := st.bwt_s ++ [if x > 0 then text.getD (x - 1) 0 else TERMINATOR]
  let sf1 :=
    if i > 0 ∧ (i = 1 ∨ (i > 1 ∧ bwt_s.getD (i - 1) 0 ≠ bwt_s.getD (i - 2) 0)) then
      st.samples_first ++ [(sample_at sa (i - 1), st.samples_first.length)]
    else st.samples_first
  let sf2 :=
    if i > 0 ∧ i = sa.length - 1 ∧ bwt_s.getD i 0 ≠ bwt_s.getD (i - 1) 0 then
      sf1 ++ [(sample_at sa i, sf1.length)]
    else sf1
  let sl1 :=
    if i > 0 ∧ bwt_s.getD (i - 1) 0 ≠ bwt_s.getD i 0 then
      st.samples_last ++ [(sample_at sa (i - 1), st.samples_last.length)]
    else st.samples_last
  let sl2 :=
    if i > 0 ∧ i = sa.length - 1 then
      sl1 ++ [(sample_at sa i, sl1.length)]
    else sl1
  { bwt_s := bwt_s, samples_first := sf2, samples_last := sl2 }

/-- The function `sufsort`: one pass over the suffix array. -/
def sufsort (text sa : List Nat) : sufsort_state :=
  (List.range sa.length).foldl (sufsort_step text sa)
    { bwt_s := [], samples_first := [], samples_last := [] }

/-- The symbol histogram `for (uchar c : bwt_s) F[c]++`. -/
def count_symbols (bwt_s : List Nat) : List Nat :=
  bwt_s.foldl (fun F c => F.set c (F.getD c 0 + 1)) (List.replicate 256 0)

/-- The loop `for (ulint i = 255; i > 0; --i) F[i] = F[i-1]`. -/
def shift_F (F : List Nat) : List Nat :=
  (List.range 255).foldl (fun F k => F.set (255 - k) (F.getD (255 - k - 1) 0)) F

/-- The loop `for (ulint i = 1; i < 256; ++i) F[i] += F[i-1]`. -/
def accumulate_F (F : List Nat) : List Nat :=
  (List.range 255).foldl (fun F k => F.set (k + 1) (F.getD (k + 1) 0 + F.getD k 0)) F

/-- The F column (lines 164–176). -/
def build_F (bwt_s : List Nat) : List Nat :=
  accumulate_F ((shift_F (count_symbols bwt_s)).set 0 0)

/-- The loop that remembers the BWT position of the terminator (lines 180–186);
the member is initialised with 0. -/
def find_terminator (bwt_s : List Nat) : Nat :=
  (List.range bwt_s.length).foldl
    (fun t i => if bwt_s.getD i 0 = TERMINATOR then i else t) 0

/-- The order of `std::sort` on `range_t` pairs. -/
def pairLe (a b : Nat × Nat) : Bool :=
  decide (a.1 < b.1) || (decide (a.1 = b.1) && decide (a.2 ≤ b.2))

/-- The call `std::sort(v.begin(), v.end())` on a vector of pairs. -/
def sort_samples (v : List (Nat × Nat)) : List (Nat × Nat) :=
  v.insertionSort (fun a b => pairLe a b = true)

/-- The predecessor bit vector: `size` cleared bits, then the bit at the text
position of every sample is set (lines 240–257). -/
def build_bitvector (size : Nat) (v : List (Nat × Nat)) : sparse_sd_vector :=
  v.foldl (fun bv p => bv.set p.1 true) (List.replicate size false)

/-- The loops that fill `inv_order` and `inv_orderR` (lines 283–310). -/
def build_inv_order (size : Nat) (samples isa : List Nat) : List Nat :=
  samples.map (fun s => if size ≥ s + 2 then isa.getD (size - 2 - s) 0 else 0)

/-- The constructor `br_index_naive(std::string const& input, bool sais)`.  The
flag `sais` only selects the back-end of the external suffix sorter, whose
contract is the same for both, so it is not a parameter of the model. -/
def br_index_naive.construct (input : List Nat) : Except build_error br_index_naive :=
  if input.length < 1 then Except.error build_error.empty_input
  else
    match scan_alphabet input (List.replicate 256 0) 1 with
    | none => Except.error build_error.alphabet_overflow
    | some (freqs, sigma) =>
      let remap := (build_remap freqs).1
      let remap_inv := (build_remap freqs).2.1
      let text := remap_text remap input
      let sa := construct_sa text
      let isa := construct_isa sa
      let bs := sufsort text sa
      let textR := remap_text remap input.reverse
      let saR := construct_sa textR
      let isaR := construct_isa saR
      let bsR := sufsort textR saR
      let size := rle_string.size bs.bwt_s
      let r := rle_string.number_of_runs bs.bwt_s
      let rR := rle_string.number_of_runs bsR.bwt_s
      let samples_last := (List.range r).map (fun i => (bs.samples_last.getD i (0, 0)).1)
      let samples_first := (List.range r).map (fun i => (bs.samples_first.getD i (0, 0)).1)
      let samples_lastR := (List.range rR).map (fun i => (bsR.samples_last.getD i (0, 0)).1)
      let samples_firstR := (List.range rR).map (fun i => (bsR.samples_first.getD i (0, 0)).1)
      let sorted_first := sort_samples bs.samples_first
      let sorted_last := sort_samples bs.samples_last
      Except.ok
        { remap := remap
          remap_inv := remap_inv
          sigma := sigma
          F := build_F bs.bwt_s
          bwt := bs.bwt_s
          terminator_position := find_terminator bs.bwt_s
          last_SA_val := sa.getD (sa.length - 1) 0
          r := r
          bwtR := bsR.bwt_s
          terminator_positionR := find_terminator bsR.bwt_s
          rR := rR
          samples_first := samples_first
          samples_last := samples_last
          inv_order := build_inv_order size samples_last isaR
          first := build_bitvector size sorted_first
          first_to_run := (List.range r).map (fun i => (sorted_first.getD i (0, 0)).2)
          last := build_bitvector size sorted_last
          last_to_run := (List.range r).map (fun i => (sorted_last.getD i (0, 0)).2)
          samples_firstR := samples_firstR
          samples_lastR := samples_lastR
          inv_orderR := build_inv_order size samples_lastR isa
          plcp := permuted_lcp text sa
          range := (0, size - 1)
          p := 0
          j := size - 1
          d := 0
          rangeR := (0, size - 1)
          pR := 0
          jR := 0
          dR := 0
          len := 0 }

/-! ## Queries -/

/-- The member `bwt_size()`. -/
def br_index_naive.bwt_size (I : br_index_naive) : Nat := rle_string.size I.bwt

/-- The member `full_range()`. -/
def br_index_naive.full_range (I : br_index_naive) : range_t := (0, I.bwt_size - 1)

/-- The guard shared by `LF`, `LFR` and `get_char_range`:
`(c == 255 && F[c] == bwt.size()) || F[c] >= F[c+1]`.  For `c = 255` the source
reads `F[256]`, one past the end of `F`; the model reads 0 there. -/
def br_index_naive.no_symbol (I : br_index_naive) (c : Nat) : Bool :=
  (decide (c = 255) && decide (I.F.getD c 0 = rle_string.size I.bwt))
    || decide (I.F.getD c 0 ≥ I.F.getD (c + 1) 0)

/-- The overload `LF(range_t rn, uchar c)`: the BWT range of `cP` from the range
of `P`; `c` is a remapped symbol. -/
def br_index_naive.LF (I : br_index_naive) (rn : range_t) (c : Nat) : range_t :=
  if I.no_symbol c then (1, 0)
  else
    let c_before := rle_string.rank I.bwt rn.1 c
    let c_inside := rle_string.rank I.bwt (rn.2 + 1) c - c_before
    if c_inside = 0 then (1, 0)
    else
      let lb := I.F.getD c 0 + c_before
      (lb, lb + c_inside - 1)

/-- The overload `LFR(range_t rn, uchar c)` on the reverse BWT. -/
def br_index_naive.LFR (I : br_index_naive) (rn : range_t) (c : Nat) : range_t :=
  if I.no_symbol c then (1, 0)
  else
    let c_before := rle_string.rank I.bwtR rn.1 c
    let c_inside := rle_string.rank I.bwtR (rn.2 + 1) c - c_before
    if c_inside = 0 then (1, 0)
    else
      let lb := I.F.getD c 0 + c_before
      (lb, lb + c_inside - 1)

/-- The member `get_char_range(uchar c)`. -/
def br_index_naive.get_char_range (I : br_index_naive) (c_orig : Nat) : range_t :=
  let c := I.remap.getD c_orig 0
  if I.no_symbol c then (1, 0)
  else
    let lb := I.F.getD c 0
    let rb := if c < 255 then I.F.getD (c + 1) 0 - 1 else I.bwt_size - 1
    (lb, rb)

/-- The member `count()`. -/
def br_index_naive.count (I : br_index_naive) : Nat := (I.range.2 + 1) - I.range.1

/-- The member `pattern_length()`. -/
def br_index_naive.pattern_length (I : br_index_naive) : Nat := I.len

/-- The member `reset_pattern()`. -/
def br_index_naive.reset_pattern (I : br_index_naive) : br_index_naive :=
  { I with
    range := I.full_range
    p := 0
    j := I.bwt_size - 1
    d := 0
    rangeR := I.full_range
    pR := 0
    jR := 0
    dR := 0
    len := 0 }

/-- The loop `for (ulint a = 1; a < c; ++a) acc += (sr.second+1) - sr.first`
of the two extensions, for the range map `lf` (`LF(prev_range, ·)` or
`LFR(prev_rangeR, ·)`). -/
def accumulate_smaller (lf : Nat → range_t) (c : Nat) : Nat :=
  (List.range' 1 (c - 1)).foldl (fun acc a => acc + (((lf a).2 + 1) - (lf a).1)) 0

/-- The member `left_extension(uchar c)`; the result is the returned range and
the object after the call, `none` when an assertion is violated. -/
def br_index_naive.left_extension (I : br_index_naive) (c_orig : Nat) :
    Option (range_t × br_index_naive) :=
  let c := I.remap.getD c_orig 0
  let prev_range := I.range
  let range := I.LF I.range c
  if range.1 > range.2 then some ((1, 0), { I with range := range })
  else
    let acc := accumulate_smaller (fun a => I.LF prev_range a) c
    let rangeR : range_t := (I.rangeR.1 + acc, I.rangeR.1 + acc + range.2 - range.1)
    if prev_range.2 - prev_range.1 ≠ range.2 - range.1 then
      let rnk := rle_string.rank I.bwt (prev_range.2 + 1) c
      if rnk = 0 then none
      else
        match rle_string.select I.bwt (rnk - 1) c with
        | none => none
        | some p =>
          if p ≥ prev_range.1 ∧ p ≤ prev_range.2 then
            let run_of_p := rle_string.run_of_position I.bwt p
            let j :=
              if rle_string.char_at I.bwt prev_range.2 = c then I.samples_first.getD run_of_p 0
              else I.samples_last.getD run_of_p 0
            some (range,
              { I with
                range := range
                rangeR := rangeR
                p := p
                j := j
                d := 0
                pR := I.inv_order.getD run_of_p 0
                jR := rle_string.size I.bwt - 2 - j
                dR := I.len
                len := I.len + 1 })
          else none
    else
      some (range, { I with range := range, rangeR := rangeR, d := I.d + 1, len := I.len + 1 })

/-- The member `right_extension(uchar c)`; the result is the returned range
(the forward range) and the object after the call, `none` when an assertion is
violated. -/
def br_index_naive.right_extension (I : br_index_naive) (c_orig : Nat) :
    Option (range_t × br_index_naive) :=
  let c := I.remap.getD c_orig 0
  let prev_rangeR := I.rangeR
  let rangeR := I.LFR I.rangeR c
  if rangeR.1 > rangeR.2 then some ((1, 0), { I with rangeR := rangeR })
  else
    let acc := accumulate_smaller (fun a => I.LFR prev_rangeR a) c
    let range : range_t := (I.range.1 + acc, I.range.1 + acc + rangeR.2 - rangeR.1)
    if prev_rangeR.2 - prev_rangeR.1 ≠ rangeR.2 - rangeR.1 then
      let rnk := rle_string.rank I.bwtR (prev_rangeR.2 + 1) c
      if rnk = 0 then none
      else
        match rle_string.select I.bwtR (rnk - 1) c with
        | none => none
        | some pR =>
          if pR ≥ prev_rangeR.1 ∧ pR ≤ prev_rangeR.2 then
            let run_of_pR := rle_string.run_of_position I.bwtR pR
            let jR :=
              if rle_string.char_at I.bwtR prev_rangeR.2 = c then
                I.samples_firstR.getD run_of_pR 0
              else I.samples_lastR.getD run_of_pR 0
            some (range,
              { I with
                range := range
                rangeR := rangeR
                pR := pR
                jR := jR
                dR := 0
                p := I.inv_orderR.getD run_of_pR 0
                j := rle_string.size I.bwt - 2 - jR
                d := I.len
                len := I.len + 1 })
          else none
    else
      some (range, { I with range := range, rangeR := rangeR, dR := I.dR + 1, len := I.len + 1 })

/-- How a query can fail to produce a value: a violated assertion, or the
iteration budget of the model of a `while` loop is used up. -/
inductive failure where
  | assertion
  | fuel
deriving DecidableEq, Repr

/-- The member `Phi(ulint i)`. -/
def br_index_naive.Phi (I : br_index_naive) (i : Nat) : Except failure Nat :=
  if i = rle_string.size I.bwt - 1 then Except.error failure.assertion
  else
    let jr := sparse_sd_vector.predecessor_rank_circular I.first i
    if ¬ jr ≤ I.r - 1 then Except.error failure.assertion
    else
      match sparse_sd_vector.select I.first jr with
      | none => Except.error failure.assertion
      | some k =>
        if ¬ (jr < I.r - 1 ∨ k = rle_string.size I.bwt - 1) then Except.error failure.assertion
        else
          let delta := if k < i then i - k else i + 1
          if ¬ I.first_to_run.getD jr 0 > 0 then Except.error failure.assertion
          else
            match I.samples_last.get? (I.first_to_run.getD jr 0 - 1) with
            | none => Except.error failure.assertion
            | some prev_sample => Except.ok ((prev_sample + delta) % rle_string.size I.bwt)

/-- The member `PhiI(ulint i)`. -/
def br_index_naive.PhiI (I : br_index_naive) (i : Nat) : Except failure Nat :=
  if i = I.last_SA_val then Except.error failure.assertion
  else
    let jr := sparse_sd_vector.predecessor_rank_circular I.last i
    if ¬ jr ≤ I.r - 1 then Except.error failure.assertion
    else
      match sparse_sd_vector.select I.last jr with
      | none => Except.error failure.assertion
      | some k =>
        if ¬ (jr < I.r - 1 ∨ k = rle_string.size I.bwt - 1) then Except.error failure.assertion
        else
          let delta := if k < i then i - k else i + 1
          if ¬ I.last_to_run.getD jr 0 < I.r - 1 then Except.error failure.assertion
          else
            match I.samples_first.get? (I.last_to_run.getD jr 0 + 1) with
            | none => Except.error failure.assertion
            | some prev_sample => Except.ok ((prev_sample + delta) % rle_string.size I.bwt)

/-- The overload `LF(ulint i)` on a single row: with `c = bwt[i]`, the row
`F[c] + bwt.rank(i, c)`. -/
def br_index_naive.LF_row (I : br_index_naive) (i : Nat) : Nat :=
  let c := rle_string.char_at I.bwt i
  I.F.getD c 0 + rle_string.rank I.bwt i c

/-- The overload `LFR(ulint i)` on a single row of the reverse BWT. -/
def br_index_naive.LFR_row (I : br_index_naive) (i : Nat) : Nat :=
  let c := rle_string.char_at I.bwtR i
  I.F.getD c 0 + rle_string.rank I.bwtR i c

/-- The call `std::upper_bound(v.begin(), v.end(), i) - v.begin()` of the
standard library: the index of the first entry that is greater than `i`, the
length of `v` when there is none (the contract of the call on a vector that is
partitioned with respect to `i`, as the non-decreasing `F` is). -/
def upper_bound : List Nat → Nat → Nat
  | [], _ => 0
  | x :: xs, i => if i < x then 0 else upper_bound xs i + 1

/-- The member `F_at(ulint i)`: the symbol of row `i` in column `F`.  The
subtraction `upper_bound - 1` is on `ulint`: when `upper_bound` is 0 it wraps to
`2^64 - 1` and the assertion `c < 256` fails; `none` when one of the two
assertions fails. -/
def br_index_naive.F_at (I : br_index_naive) (i : Nat) : Option Nat :=
  if upper_bound I.F i = 0 then none
  else
    let c := upper_bound I.F i - 1
    if ¬ c < 256 then none
    else if ¬ i ≥ I.F.getD c 0 then none
    else some c

/-- The member `FL(ulint i)`, the inverse of `LF` on rows; `none` when an
assertion of `F_at` fails or `select` has no result. -/
def br_index_naive.FL (I : br_index_naive) (i : Nat) : Option Nat :=
  match I.F_at i with
  | none => none
  | some c => rle_string.select I.bwt (i - I.F.getD c 0) c

/-- The member `bwt_at(ulint i, bool reversed)`. -/
def br_index_naive.bwt_at (I : br_index_naive) (i : Nat) (reversed : Bool) : Nat :=
  if ¬ reversed then I.remap_inv.getD (rle_string.char_at I.bwt i) 0
  else I.remap_inv.getD (rle_string.char_at I.bwtR i) 0

/-- The first loop of `locate`: `while (plcp[pos] >= len) { pos = Phi(pos);
deq.push_front(pos); }`, with an iteration budget. -/
def br_index_naive.locate_front (I : br_index_naive) :
    Nat → Nat → List Nat → Except failure (List Nat)
  | 0, _, _ => Except.error failure.fuel
  | fuel + 1, pos, deq =>
    if I.plcp.getD pos 0 ≥ I.len then
      match I.Phi pos with
      | Except.error e => Except.error e
      | Except.ok pos1 => br_index_naive.locate_front I fuel pos1 (pos1 :: deq)
    else Except.ok deq

/-- The second loop of `locate`: `while (true) { if (pos == last_SA_val) break;
pos = PhiI(pos); if (plcp[pos] < len) break; deq.push_back(pos); }`, with an
iteration budget. -/
def br_index_naive.locate_back (I : br_index_naive) :
    Nat → Nat → List Nat → Except failure (List Nat)
  | 0, _, _ => Except.error failure.fuel
  | fuel + 1, pos, deq =>
    if pos = I.last_SA_val then Except.ok deq
    else
      match I.PhiI pos with
      | Except.error e => Except.error e
      | Except.ok pos1 =>
        if I.plcp.getD pos1 0 < I.len then Except.ok deq
        else br_index_naive.locate_back I fuel pos1 (deq ++ [pos1])

/-- The member `locate()`; `fuel` bounds the iterations of each loop. -/
def br_index_naive.locate (I : br_index_naive) (fuel : Nat) : Except failure (List Nat) :=
  if ¬ I.j ≥ I.d then Except.error failure.assertion
  else
    let sa := I.j - I.d
    match I.locate_front fuel sa [sa] with
    | Except.error e => Except.error e
    | Except.ok deq => I.locate_back fuel sa deq

/-- The private helper `contains_reserved_chars`. -/
def contains_reserved_chars : List Nat → Bool
  | [] => false
  | c :: s => if c = 0 ∨ c = 1 then true else contains_reserved_chars s

/-! ## Accessors and serialization -/

/-- The member `number_of_runs(bool reversed)`. -/
def br_index_naive.number_of_runs (I : br_index_naive) (reversed : Bool) : Nat :=
  if ¬ reversed then rle_string.number_of_runs I.bwt else rle_string.number_of_runs I.bwtR

/-- The member `get_terminator_position(bool reversed)`. -/
def br_index_naive.get_terminator_position (I : br_index_naive) (reversed : Bool) : Nat :=
  if ¬ reversed then I.terminator_position else I.terminator_positionR

/-- Modelled from the spec: the stream that `serialize` writes and `load`
reads, as a sequence of self-delimited items.  The raw writes of
`br_index_naive` are a machine word (`word`), 256 bytes (`bytes`) and 256 words
(`words`).  The `serialize`/`load` members of `rle_string`, `sparse_sd_vector`,
`permuted_lcp` and of the packed integer vectors are missing from the sources;
spec §4.6 says that every compact structure is written self-delimited with
enough metadata to round-trip, so each is one item that carries the
structure. -/
inductive stream_item where
  | word (v : Nat)
  | bytes (l : List Nat)
  | words (l : List Nat)
  | rle (s : rle_string)
  | int_vector (l : List Nat)
  | bitvector (b : sparse_sd_vector)
  | plcp (l : List Nat)
deriving DecidableEq, Repr

/-- The call `out.write((char*)v.data(), 256 * sizeof(...))`: the first 256
entries of the vector. -/
def raw_256 (v : List Nat) : List Nat := (List.range 256).map (fun i => v.getD i 0)

/-- The member `serialize(std::ostream& out)`: the items in the order in which
they are written. -/
def br_index_naive.serialize (I : br_index_naive) : List stream_item :=
  [ stream_item.word I.sigma,
    stream_item.bytes (raw_256 I.remap),
    stream_item.bytes (raw_256 I.remap_inv),
    stream_item.word I.terminator_position,
    stream_item.word I.terminator_positionR,
    stream_item.word I.last_SA_val,
    stream_item.words (raw_256 I.F),
    stream_item.rle I.bwt,
    stream_item.rle I.bwtR,
    stream_item.int_vector I.samples_first,
    stream_item.int_vector I.samples_last,
    stream_item.int_vector I.inv_order,
    stream_item.bitvector I.first,
    stream_item.int_vector I.first_to_run,
    stream_item.bitvector I.last,
    stream_item.int_vector I.last_to_run,
    stream_item.int_vector I.samples_firstR,
    stream_item.int_vector I.samples_lastR,
    stream_item.int_vector I.inv_orderR,
    stream_item.plcp I.plcp ]

/-- Reads one machine word. -/
def read_word : List stream_item → Option (Nat × List stream_item)
  | stream_item.word v :: rest => some (v, rest)
  | _ => none

/-- Reads 256 bytes. -/
def read_bytes : List stream_item → Option (List Nat × List stream_item)
  | stream_item.bytes l :: rest => some (l, rest)
  | _ => none

/-- Reads 256 words. -/
def read_words : List stream_item → Option (List Nat × List stream_item)
  | stream_item.words l :: rest => some (l, rest)
  | _ => none

/-- The call `bwt.load(in)` of an `rle_string`. -/
def read_rle : List stream_item → Option (rle_string × List stream_item)
  | stream_item.rle s :: rest => some (s, rest)
  | _ => none

/-- The call `v.load(in)` of a packed integer vector. -/
def read_int_vector : List stream_item → Option (List Nat × List stream_item)
  | stream_item.int_vector l :: rest => some (l, rest)
  | _ => none

/-- The call `b.load(in)` of a `sparse_sd_vector`. -/
def read_bitvector : List stream_item → Option (sparse_sd_vector × List stream_item)
  | stream_item.bitvector b :: rest => some (b, rest)
  | _ => none

/-- The call `plcp.load(in)`. -/
def read_plcp : List stream_item → Option (List Nat × List stream_item)
  | stream_item.plcp l :: rest => some (l, rest)
  | _ => none

/-- One read of `load`: the next item is read with `read` and stored in the
object with `set`; the result is the object and the rest of the stream. -/
def read_into {α : Type} (read : List stream_item → Option (α × List stream_item))
    (set : br_index_naive → α → br_index_naive) (st : br_index_naive × List stream_item) :
    Option (br_index_naive × List stream_item) :=
  (read st.2).map (fun a => (set st.1 a.1, a.2))

/-- The member `load(std::istream& in)` called on the object `I0`: the tables
are read and assigned in order, `r` and `rR` are recomputed from the loaded
BWTs, and the query state of `I0` is not touched; `none` when the stream does
not hold the expected item. -/
def br_index_naive.load (I0 : br_index_naive) (s0 : List stream_item) : Option br_index_naive :=
  ((((((((((((((((((((((some (I0, s0)).bind
    (read_into read_word (fun I v => { I with sigma := v }))).bind
    (read_into read_bytes (fun I v => { I with remap := v }))).bind
    (read_into read_bytes (fun I v => { I with remap_inv := v }))).bind
    (read_into read_word (fun I v => { I with terminator_position := v }))).bind
    (read_into read_word (fun I v => { I with terminator_positionR := v }))).bind
    (read_into read_word (fun I v => { I with last_SA_val := v }))).bind
    (read_into read_words (fun I v => { I with F := v }))).bind
    (read_into read_rle (fun I v => { I with bwt := v }))).bind
    (read_into read_rle (fun I v => { I with bwtR := v }))).map
    (fun st => ({ st.1 with r := rle_string.number_of_runs st.1.bwt,
                            rR := rle_string.number_of_runs st.1.bwtR }, st.2))).bind
    (read_into read_int_vector (fun I v => { I with samples_first := v }))).bind
    (read_into read_int_vector (fun I v => { I with samples_last := v }))).bind
    (read_into read_int_vector (fun I v => { I with inv_order := v }))).bind
    (read_into read_bitvector (fun I v => { I with first := v }))).bind
    (read_into read_int_vector (fun I v => { I with first_to_run := v }))).bind
    (read_into read_bitvector (fun I v => { I with last := v }))).bind
    (read_into read_int_vector (fun I v => { I with last_to_run := v }))).bind
    (read_into read_int_vector (fun I v => { I with samples_firstR := v }))).bind
    (read_into read_int_vector (fun I v => { I with samples_lastR := v }))).bind
    (read_into read_int_vector (fun I v => { I with inv_orderR := v }))).bind
    (read_into read_plcp (fun I v => { I with plcp := v }))).map Prod.fst

/-- The default constructor `br_index_naive() {}`: empty tables, the members
with an initialiser (`terminator_position`, `last_SA_val`, `r`, their reverse
counterparts) are 0, and the members without initialiser (`sigma` and the query
state) are indeterminate; the model takes one value `x` for all of them. -/
def br_index_naive.fresh (x : Nat) : br_index_naive :=
  { remap := [], remap_inv := [], sigma := x, F := [], bwt := [], terminator_position := 0,
    last_SA_val := 0, r := 0, bwtR := [], terminator_positionR := 0, rR := 0,
    samples_first := [], samples_last := [], inv_order := [], first := [], first_to_run := [],
    last := [], last_to_run := [], samples_firstR := [], samples_lastR := [], inv_orderR := [],
    plcp := [], range := (x, x), p := x, j := x, d := x, rangeR := (x, x), pR := x, jR := x,
    dR := x, len := x }

/-! ## The command line of `bri-locate` and `bri-count` -/

/-- The two programs whose `main` and `parse_args` are modelled; they differ in
the option `-c`, which only `bri-locate` has, and in the text of one message. -/
inductive cli_tool where
  | bri_locate
  | bri_count
deriving DecidableEq, Repr

/-- The error lines that `parse_args` prints before it calls `help()`:
"Error: missing parameter after -c option." (resp. `-m`), "Error: invalid
negative value after -m option." (in `bri-count`: "Error: invalid value not 0,
1, 2 after -m option."), and "Error: unknown option " followed by the
argument. -/
inductive cli_message where
  | missing_parameter (opt : String)
  | invalid_value
  | unknown_option (arg : String)
deriving DecidableEq, Repr

/-- The globals `check`, `allowed` and `nplcp` that `parse_args` sets. -/
structure cli_options where
  check : String
  allowed : Int
  nplcp : Bool
deriving DecidableEq, Repr

/-- How the argument handling of `main` ends: the process exits inside `help()`
(after the messages printed before the usage text) with the given status; or
`main` goes on to load the index with the parsed options and the two file names;
or it builds a `std::string` from the null pointer `argv[argc]` (undefined
behaviour); `out_of_fuel` is the iteration budget of the model of the `while`
loop. -/
inductive cli_outcome where
  | exited (status : Nat) (messages : List cli_message)
  | proceeds (opts : cli_options) (idx_file patt_file : String)
  | undefined
  | out_of_fuel
deriving DecidableEq, Repr

/-- The function `help()` of both programs: it prints the usage text and ends
with `exit(0)`. -/
def help (messages : List cli_message) : cli_outcome := cli_outcome.exited 0 messages

/-- The C library call `strtol(s, &e, 10)` by its standard contract: leading
white space and an optional sign are skipped, the longest run of decimal digits
is converted (clamped to the range of `long`, 64 bits), and `e` is the rest of
the string; with no digits the value is 0 and `e` is the whole string. -/
def strtol (s : List Char) : Int × List Char :=
  let t := s.dropWhile (fun c => c = ' ' ∨ (9 ≤ c.toNat ∧ c.toNat ≤ 13))
  let neg := t.head? = some '-'
  let u := if t.head? = some '-' ∨ t.head? = some '+' then t.tail else t
  let digits := u.takeWhile Char.isDigit
  if digits = [] then (0, s)
  else
    let v : Int := digits.foldl (fun a c => 10 * a + ((c.toNat : Int) - 48)) 0
    let val : Int := if neg then -v else v
    (max (-9223372036854775808) (min val 9223372036854775807), u.dropWhile Char.isDigit)

/-- One call of `parse_args(argv, argc, ptr)`: either the process exits, or the
options and `ptr` are updated (`Sum.inr`). -/
def parse_args (tool : cli_tool) (argv : List String) (opts : cli_options) (ptr : Nat) :
    cli_outcome ⊕ (cli_options × Nat) :=
  if ¬ ptr < argv.length then Sum.inl cli_outcome.undefined
  else
    let s := argv.getD ptr ""
    let ptr := ptr + 1
    if tool = cli_tool.bri_locate ∧ s = "-c" then
      if ptr + 1 ≥ argv.length then Sum.inl (help [cli_message.missing_parameter "-c"])
      else Sum.inr ({ opts with check := argv.getD ptr "" }, ptr + 1)
    else if s = "-m" then
      if ptr + 1 ≥ argv.length then Sum.inl (help [cli_message.missing_parameter "-m"])
      else
        let r := strtol (argv.getD ptr "").data
        if r.2 ≠ [] ∨ r.1 < 0 then Sum.inl (help [cli_message.invalid_value])
        else Sum.inr ({ opts with allowed := r.1 }, ptr + 1)
    else if s = "-nplcp" then Sum.inr ({ opts with nplcp := true }, ptr)
    else Sum.inl (help [cli_message.unknown_option s])

/-- The loop `while (ptr < argc - 2) parse_args(argv, argc, ptr);` of `main`
(entered with `argc ≥ 3`) and the two reads `argv[ptr]`, `argv[ptr+1]` that
follow it. -/
def cli_loop (tool : cli_tool) (argv : List String) : Nat → cli_options → Nat → cli_outcome
  | fuel, opts, ptr =>
    if ptr + 2 < argv.length then
      match fuel with
      | 0 => cli_outcome.out_of_fuel
      | fuel + 1 =>
        match parse_args tool argv opts ptr with
        | Sum.inl out => out
        | Sum.inr (opts1, ptr1) => cli_loop tool argv fuel opts1 ptr1
    else if ptr + 1 < argv.length then
      cli_outcome.proceeds opts (argv.getD ptr "") (argv.getD (ptr + 1) "")
    else cli_outcome.undefined

/-- The argument handling of `main(argc, argv)` of `bri-locate` and `bri-count`,
up to the point where the index file is opened; the globals start as
`check = ""`, `allowed = 0`, `nplcp = false`. -/
def cli_main (tool : cli_tool) (argv : List String) : cli_outcome :=
  if argv.length < 3 then help []
  else cli_loop tool argv argv.length { check := "", allowed := 0, nplcp := false } 1

/-! ## Extension sequences -/

/-- A call of one of the two extension primitives with an original byte. -/
inductive extension where
  | left (c : Nat)
  | right (c : Nat)
deriving DecidableEq, Repr

/-- The call that an `extension` denotes. -/
def br_index_naive.extend (I : br_index_naive) : extension → Option (range_t × br_index_naive)
  | extension.left c => I.left_extension c
  | extension.right c => I.right_extension c

/-- The pattern after an extension: `left c` turns `P` into `cP`, `right c`
turns it into `Pc`. -/
def extension.apply (P : List Nat) : extension → List Nat
  | extension.left c => c :: P
  | extension.right c => P ++ [c]

/-- The pattern spelled by a sequence of calls issued after `reset_pattern`. -/
def spell (ops : List extension) : List Nat := ops.foldl extension.apply []

/-- Runs the calls one after the other, whatever they return; the result is the
list of returned ranges and the final object (`none`: an assertion failed). -/
def br_index_naive.run (I : br_index_naive) : List extension → Option (List range_t × br_index_naive)
  | [] => some ([], I)
  | op :: ops =>
    match I.extend op with
    | none => none
    | some (rn, I1) =>
      match br_index_naive.run I1 ops with
      | none => none
      | some (rs, I2) => some (rn :: rs, I2)

/-- Runs the calls one after the other as long as each returns a non-empty
range; `none` when a call returns the empty range or violates an assertion. -/
def br_index_naive.extend_all (I : br_index_naive) : List extension → Option br_index_naive
  | [] => some I
  | op :: ops =>
    match I.extend op with
    | none => none
    | some (rn, I1) => if rn.1 ≤ rn.2 then br_index_naive.extend_all I1 ops else none

/-- Naive search: `P` is read at position `o` of `T`, that is `T[o..o+|P|-1] = P`. -/
def occurs_at (T P : List Nat) (o : Nat) : Bool := decide ((T.drop o).take P.length = P)

/-- Naive search: the positions of `T` at which `P` occurs. -/
def occurrences (T P : List Nat) : List Nat := (List.range T.length).filter (occurs_at T P)

/-- A valid text: non-empty, every entry a byte, no reserved byte 0 or 1. -/
def valid_text (T : List Nat) : Prop := T ≠ [] ∧ ∀ b ∈ T, 2 ≤ b ∧ b < 256

instance (T : List Nat) : Decidable (valid_text T) := by
  unfold valid_text; infer_instance

/-! ## Notions used to state the properties -/

/-- Number of distinct bytes of `T` that `freqs` has not counted yet. -/
def fresh_bytes (T freqs : List Nat) : Nat :=
  (T.toFinset.filter (fun b => freqs.getD b 0 = 0)).card

/-- Number of bytes in `[2, x)` that `freqs` has counted. -/
def bytes_below (freqs : List Nat) (x : Nat) : Nat :=
  (List.range' 2 (x - 2)).countP (fun y => decide (freqs.getD y 0 ≠ 0))

/-- The string `s` is below the pattern `P`: `below false s P` is `s < P` in
lexicographic order, `below true s P` is `s < P` or `s` starts with `P`. -/
def below (b : Bool) : List Nat → List Nat → Bool
  | _, [] => b
  | [], _ :: _ => true
  | a :: s, c :: P => decide (a < c) || (decide (a = c) && below b s P)

/-- The BWT symbol of the suffix that starts at text position `x`: the symbol
before it, the terminator for the whole text (the rule of `sufsort`). -/
def bwt_char (text : List Nat) (x : Nat) : Nat :=
  if x > 0 then text.getD (x - 1) 0 else TERMINATOR

/-- The BWT string of a text, row by row. -/
def bwt_of (text : List Nat) : List Nat := (construct_sa text).map (bwt_char text)

/-- Number of non-empty suffixes of `w` that satisfy `G`. -/
def tailsum (G : List Nat → Bool) : List Nat → Nat
  | [] => 0
  | a :: s => (if G (a :: s) then 1 else 0) + tailsum G s

/-- Number of non-empty suffixes `s` of `w` with `g x s`, where `x` is the
symbol before `s` (`x0` for `w` itself). -/
def pairsum (g : Nat → List Nat → Bool) : Nat → List Nat → Nat
  | _, [] => 0
  | x, a :: s => (if g x (a :: s) then 1 else 0) + pairsum g a s

/-- Number of suffixes of the text `w` that are below `P` (see `below`): the
first row of the BWT range of `P` for `b = false`, one past its last row for
`b = true`. -/
def rows_below (b : Bool) (w P : List Nat) : Nat := tailsum (fun s => below b s P) w

/-- The body shared by `LF(range_t, uchar)` and `LFR(range_t, uchar)`, with the
BWT that the function reads as a parameter. -/
def range_LF (F : List Nat) (size : Nat) (bwt : rle_string) (rn : range_t) (c : Nat) : range_t :=
  if (decide (c = 255) && decide (F.getD c 0 = size)) || decide (F.getD c 0 ≥ F.getD (c + 1) 0)
  then (1, 0)
  else
    let c_before := rle_string.rank bwt rn.1 c
    let c_inside := rle_string.rank bwt (rn.2 + 1) c - c_before
    if c_inside = 0 then (1, 0)
    else
      let lb := F.getD c 0 + c_before
      (lb, lb + c_inside - 1)

/-- The BWT range of the pattern `P` in the text `w`. -/
def pattern_range (w P : List Nat) : range_t := (rows_below false w P, rows_below true w P - 1)

/-- The remapped text with its terminator, over which the index of `T` is built. -/
def br_index_naive.text (I : br_index_naive) (T : List Nat) : List Nat := remap_text I.remap T

/-- The remapped pattern. -/
def br_index_naive.pattern (I : br_index_naive) (P : List Nat) : List Nat :=
  P.map (fun b => I.remap.getD b 0)

/-- The tables `remap`, `F`, `bwt` and `bwtR` of `I` are those of the text `T`:
the remap sends the bytes of `T` injectively into `[2, 254]` and every other
byte to 0, `bwt` and `bwtR` are the BWTs of the remapped text and of its
reverse, and `F[a]` counts the BWT symbols below `a`. -/
def br_index_naive.indexes (I : br_index_naive) (T : List Nat) : Prop :=
  (∀ b ∈ T, 2 ≤ I.remap.getD b 0 ∧ I.remap.getD b 0 ≤ 254) ∧
  (∀ c, c ∉ T → I.remap.getD c 0 = 0) ∧
  (∀ a ∈ T, ∀ b ∈ T, I.remap.getD a 0 = I.remap.getD b 0 → a = b) ∧
  I.bwt = bwt_of (I.text T) ∧
  I.bwtR = bwt_of (I.text T.reverse) ∧
  (∀ a, a ≤ 255 → I.F.getD a 0 = I.bwt.countP (fun x => decide (x < a)))

/-- The query state of `I` is that of the pattern `P` (given in original
bytes): both ranges are the BWT ranges of the pattern, resp. of the reversed
pattern in the reversed text, they are not empty, and `len` is its length. -/
def br_index_naive.tracks (I : br_index_naive) (T P : List Nat) : Prop :=
  (∀ b ∈ P, b ∈ T) ∧
  I.range = pattern_range (I.text T) (I.pattern P) ∧
  I.rangeR = pattern_range (I.text T.reverse) (I.pattern P).reverse ∧
  rows_below false (I.text T) (I.pattern P) < rows_below true (I.text T) (I.pattern P) ∧
  I.len = P.length

/-- The two objects have the same index tables (every member but the query
state). -/
def br_index_naive.same_tables (I J : br_index_naive) : Prop :=
  I.remap = J.remap ∧ I.remap_inv = J.remap_inv ∧ I.sigma = J.sigma ∧ I.F = J.F ∧
  I.bwt = J.bwt ∧ I.terminator_position = J.terminator_position ∧
  I.last_SA_val = J.last_SA_val ∧ I.r = J.r ∧ I.bwtR = J.bwtR ∧
  I.terminator_positionR = J.terminator_positionR ∧ I.rR = J.rR ∧
  I.samples_first = J.samples_first ∧ I.samples_last = J.samples_last ∧
  I.inv_order = J.inv_order ∧ I.first = J.first ∧ I.first_to_run = J.first_to_run ∧
  I.last = J.last ∧ I.last_to_run = J.last_to_run ∧ I.samples_firstR = J.samples_firstR ∧
  I.samples_lastR = J.samples_lastR ∧ I.inv_orderR = J.inv_orderR ∧ I.plcp = J.plcp

/-- The calls that left-extend all of `P` after `reset_pattern`: the bytes of
`P` from right to left. -/
def left_extensions (P : List Nat) : List extension := P.reverse.map extension.left

/-- The range step as the specification words it: with `a = rank(l, c)` and
`b = rank(r+1, c)`, the empty range `(1, 0)` when `b = a`, otherwise
`[F[c] + a, F[c] + b - 1]`. -/
def LF_spec (F : List Nat) (bwt : rle_string) (rn : range_t) (c : Nat) : range_t :=
  let a := rle_string.rank bwt rn.1 c
  let b := rle_string.rank bwt (rn.2 + 1) c
  if b = a then (1, 0) else (F.getD c 0 + a, F.getD c 0 + b - 1)

/-- The rows at which a maximal equal-letter run of `b` starts: row 0 and every
row whose symbol differs from the one before. -/
def run_starts (b : List Nat) : List Nat :=
  (List.range b.length).filter
    (fun s => decide (s = 0) || decide (b.getD s 0 ≠ b.getD (s - 1) 0))

/-- The rows at which a maximal equal-letter run of `b` ends: the last row and
every row whose symbol differs from the next one. -/
def run_ends (b : List Nat) : List Nat :=
  (List.range b.length).filter
    (fun e => decide (e + 1 = b.length) || decide (b.getD e 0 ≠ b.getD (e + 1) 0))

/-- The vector `v` of pairs holds the values `vals` in order, numbered
`0, 1, 2, …`: the shape of the sample vectors of `sufsort`, whose second
components are run indices. -/
def numbered (v : List (Nat × Nat)) (vals : List Nat) : Prop :=
  v.map Prod.fst = vals ∧ v.map Prod.snd = List.range vals.length

instance (v : List (Nat × Nat)) (vals : List Nat) : Decidable (numbered v vals) := by
  unfold numbered; infer_instance

/-- The sum `Σ |lf a|` over the symbols `a` with `lo ≤ a < c`, where `|rn|` is
the number of rows `(rn.second + 1) - rn.first` of a range. -/
def smaller_sum (lf : Nat → range_t) (lo c : Nat) : Nat :=
  ((List.range' lo (c - lo)).map (fun a => ((lf a).2 + 1) - (lf a).1)).sum

/-- The function `Phi` as the specification words it (§4.2, §4.3): with `k` the
rank of the largest set position `≤ i` of `first` (wrapping to the last set
bit) and `q = first.select(k)`, `delta = i - q` if `q ≤ i` and `i + 1`
otherwise, and the result is
`(samples_last[first_to_run[k] - 1] + delta) mod n`. -/
def br_index_naive.Phi_spec (I : br_index_naive) (i : Nat) : Nat :=
  let k := sparse_sd_vector.predecessor_rank_circular_spec I.first i
  let q := (sparse_sd_vector.select I.first k).getD 0
  let delta := if q ≤ i then i - q else i + 1
  (I.samples_last.getD (I.first_to_run.getD k 0 - 1) 0 + delta) % rle_string.size I.bwt

/-- The function `PhiI` as the specification words it (§4.2, §4.3): the same
with `last`, `last_to_run[k] + 1` and `samples_first`. -/
def br_index_naive.PhiI_spec (I : br_index_naive) (i : Nat) : Nat :=
  let k := sparse_sd_vector.predecessor_rank_circular_spec I.last i
  let q := (sparse_sd_vector.select I.last k).getD 0
  let delta := if q ≤ i then i - q else i + 1
  (I.samples_first.getD (I.last_to_run.getD k 0 + 1) 0 + delta) % rle_string.size I.bwt

deriving instance DecidableEq for Except

/-- The sample tables of `I` are those of the text `T`: one sample per run of
each BWT, the text position before the suffix of the first (last) row of the
run. -/
def br_index_naive.sampled (I : br_index_naive) (T : List Nat) : Prop :=
  I.samples_first = (run_starts I.bwt).map (sample_at (construct_sa (I.text T))) ∧
  I.samples_last = (run_ends I.bwt).map (sample_at (construct_sa (I.text T))) ∧
  I.samples_firstR
    = (run_starts I.bwtR).map (sample_at (construct_sa (I.text T.reverse))) ∧
  I.samples_lastR = (run_ends I.bwtR).map (sample_at (construct_sa (I.text T.reverse)))

/-- The anchor of `I` marks an occurrence of `P` in `T`: `j ≥ d` and `P` is
read at the text position `j - d`. -/
def br_index_naive.anchored (I : br_index_naive) (T P : List Nat) : Prop :=
  I.d ≤ I.j ∧ I.j - I.d ≤ T.length ∧ occurs_at T P (I.j - I.d) = true

/-! ## `bri-locate`: the check of the occurrences -/

/-- The inner loop of the check in `locate_all`: the number of positions
`i < p.size()` with `text[o+i] != p[i]`.  A read of `text` past its end is
undefined in the source; the model reads 0 there. -/
def count_mismatches (text p : List Nat) (o : Nat) : Nat :=
  (List.range p.length).countP (fun i => decide (text.getD (o + i) 0 ≠ p.getD i 0))

/-- What the check of `locate_all` prints: the line with the number of
occurrences, and the three lines of a wrong occurrence (its position, the
pattern, and the text read at the position). -/
inductive locate_message where
  | number_of_occs (allowed : Int) (n : Nat)
  | wrong_occurrence (o : Nat) (original wrong : List Nat)
deriving DecidableEq, Repr

/-- The block `if (c) { … }` of `locate_all`, for the pattern `p` and the
occurrences `occs` that are current when it is reached. -/
def check_occurrences (text p : List Nat) (allowed : Int) (occs : List Nat) :
    List locate_message :=
  locate_message.number_of_occs allowed occs.length ::
    (occs.filter (fun o => decide ((count_mismatches text p o : Int) > allowed))).map
      (fun o => locate_message.wrong_occurrence o p ((text.drop o).take p.length))

/-- One iteration of the loop of `locate_all` over the reads: the read
`reads[i]` is searched, then `p` and `occs` are assigned again for
`reads[i+1]`, the reverse complement, and then the check runs.  The result is
the number added to `occ_tot` and the lines printed.  The members
`search_with_mismatch` and `locate_samples` of the index class are not in the
sources; `search p allowed` stands for
`idx.locate_samples(idx.search_with_mismatch(p, allowed))`. -/
def locate_pair (search : List Nat → Int → List Nat) (c : Bool) (text : List Nat)
    (allowed : Int) (read0 read1 : List Nat) : Nat × List locate_message :=
  let p := read0
  let occs := search p allowed
  let occ_tot := occs.length
  let p := read1
  let occs := search p allowed
  let occ_tot := occ_tot + occs.length
  (occ_tot, if c then check_occurrences text p allowed occs else [])

/-- The loop `for (unsigned int i = 0; i < n; i += 2)` of `locate_all`; with an
odd number of reads the last iteration reads `reads[n]`, past the end, which is
undefined (`none`). -/
def locate_all_loop (search : List Nat → Int → List Nat) (c : Bool) (text : List Nat)
    (allowed : Int) : List (List Nat) → Option (Nat × List locate_message)
  | [] => some (0, [])
  | [_] => none
  | read0 :: read1 :: rest =>
    match locate_all_loop search c text allowed rest with
    | none => none
    | some (tot, msgs) =>
      some ((locate_pair search c text allowed read0 read1).1 + tot,
        (locate_pair search c text allowed read0 read1).2 ++ msgs)

/-! ## The calls made by `locate` -/

/-- The arguments with which the first loop of `locate` calls `Phi`, in the
order of the calls (the loop of `locate_front`, recording `pos` before each
`pos = Phi(pos)`). -/
def br_index_naive.locate_front_calls (I : br_index_naive) : Nat → Nat → List Nat
  | 0, _ => []
  | fuel + 1, pos =>
    if I.plcp.getD pos 0 ≥ I.len then
      pos :: (match I.Phi pos with
        | Except.error _ => []
        | Except.ok pos1 => br_index_naive.locate_front_calls I fuel pos1)
    else []

/-- The arguments with which the second loop of `locate` calls `PhiI`, in the
order of the calls (the loop of `locate_back`, recording `pos` before each
`pos = PhiI(pos)`). -/
def br_index_naive.locate_back_calls (I : br_index_naive) : Nat → Nat → List Nat
  | 0, _ => []
  | fuel + 1, pos =>
    if pos = I.last_SA_val then []
    else
      pos :: (match I.PhiI pos with
        | Except.error _ => []
        | Except.ok pos1 =>
          if I.plcp.getD pos1 0 < I.len then []
          else br_index_naive.locate_back_calls I fuel pos1)

/-- The predecessor tables of `I` are those of its samples, and `last_SA_val`
and `plcp` are those of the text `T`: the set bits of `first` (`last`) are the
entries of `samples_first` (`samples_last`), `r` of them, the `k`-th set bit is
the sample of the run `first_to_run[k]` (`last_to_run[k]`), `last_SA_val` is
the suffix-array value of the last row. -/
def br_index_naive.linked (I : br_index_naive) (T : List Nat) : Prop :=
  I.r = rle_string.number_of_runs I.bwt ∧
  I.first.length = rle_string.size I.bwt ∧
  I.last.length = rle_string.size I.bwt ∧
  sparse_sd_vector.number_of_1 I.first = I.r ∧
  sparse_sd_vector.number_of_1 I.last = I.r ∧
  (∀ p, p < rle_string.size I.bwt → (I.first.getD p false = true ↔ p ∈ I.samples_first)) ∧
  (∀ p, p < rle_string.size I.bwt → (I.last.getD p false = true ↔ p ∈ I.samples_last)) ∧
  (∀ k, k < I.r → I.first_to_run.getD k 0 < I.r ∧
    sparse_sd_vector.select I.first k
      = some (I.samples_first.getD (I.first_to_run.getD k 0) 0)) ∧
  (∀ k, k < I.r → I.last_to_run.getD k 0 < I.r ∧
    sparse_sd_vector.select I.last k
      = some (I.samples_last.getD (I.last_to_run.getD k 0) 0)) ∧
  I.last_SA_val = (construct_sa (I.text T)).getD (rle_string.size I.bwt - 1) 0 ∧
  I.plcp = permuted_lcp (I.text T) (construct_sa (I.text T))

/-! ## Tables as functions -/

theorem getD_set (l : List Nat) (i j a : Nat) :
    (l.set i a).getD j 0 = if i = j ∧ i < l.length then a else l.getD j 0 := by
  simp only [List.getD_eq_getElem?_getD, List.getElem?_set]
  by_cases h1 : i = j
  · subst h1
    by_cases h2 : i < l.length
    · simp [h2]
    · have : l[i]? = none := by simp; omega
      simp [h2, this]
  · simp [h1]

theorem getD_replicate_zero (n j : Nat) : (List.replicate n 0).getD j 0 = 0 := by
  simp only [List.getD_eq_getElem?_getD, List.getElem?_replicate]
  split_ifs <;> simp

theorem count_symbols_aux (bs F0 : List Nat) :
    (bs.foldl (fun F c => F.set c (F.getD c 0 + 1)) F0).length = F0.length ∧
    ∀ c, c < F0.length →
      (bs.foldl (fun F c => F.set c (F.getD c 0 + 1)) F0).getD c 0 = F0.getD c 0 + bs.count c := by
  induction bs generalizing F0 with
  | nil => simp
  | cons b bs ih =>
    simp only [List.foldl_cons]
    obtain ⟨h1, h2⟩ := ih (F0.set b (F0.getD b 0 + 1))
    refine ⟨by simpa using h1, fun c hc => ?_⟩
    rw [h2 c (by simpa using hc), getD_set, List.count_cons]
    by_cases hbc : b = c
    · subst hbc
      simp [hc]; omega
    · have : ¬ (b == c) = true := by simpa using hbc
      simp [hbc, this]

theorem count_symbols_length (bs : List Nat) : (count_symbols bs).length = 256 := by
  unfold count_symbols
  rw [(count_symbols_aux bs (List.replicate 256 0)).1, List.length_replicate]

theorem count_symbols_getD (bs : List Nat) (c : Nat) (hc : c < 256) :
    (count_symbols bs).getD c 0 = bs.count c := by
  unfold count_symbols
  rw [(count_symbols_aux bs (List.replicate 256 0)).2 c (by rw [List.length_replicate]; exact hc),
    getD_replicate_zero, Nat.zero_add]

theorem shift_F_aux (F : List Nat) (K : Nat) (hK : K ≤ 255) (hF : F.length = 256) :
    ((List.range K).foldl (fun F k => F.set (255 - k) (F.getD (255 - k - 1) 0)) F).length = 256 ∧
    ∀ i, ((List.range K).foldl (fun F k => F.set (255 - k) (F.getD (255 - k - 1) 0)) F).getD i 0 =
      if 255 - K < i ∧ i ≤ 255 then F.getD (i - 1) 0 else F.getD i 0 := by
  induction K with
  | zero =>
    refine ⟨by simpa using hF, fun i => ?_⟩
    have : ¬ (255 - 0 < i ∧ i ≤ 255) := by omega
    rw [if_neg this]; rfl
  | succ K ih =>
    obtain ⟨h1, h2⟩ := ih (by omega)
    rw [List.range_succ, List.foldl_append]
    simp only [List.foldl_cons, List.foldl_nil]
    refine ⟨by rw [List.length_set]; exact h1, fun i => ?_⟩
    rw [getD_set, h2 (255 - K - 1), h2 i, h1]
    by_cases hi : 255 - K = i
    · subst hi
      have e0 : 255 - K = 255 - K ∧ 255 - K < 256 := by omega
      have e1 : ¬ (255 - K < 255 - K - 1 ∧ 255 - K - 1 ≤ 255) := by omega
      have e2 : (255 - (K + 1) < 255 - K ∧ 255 - K ≤ 255) := by omega
      rw [if_pos e0, if_neg e1, if_pos e2]
    · have e0 : ¬ (255 - K = i ∧ 255 - K < 256) := by omega
      rw [if_neg e0]
      by_cases hi2 : 255 - K < i ∧ i ≤ 255
      · have e2 : (255 - (K + 1) < i ∧ i ≤ 255) := by omega
        rw [if_pos hi2, if_pos e2]
      · have e2 : ¬ (255 - (K + 1) < i ∧ i ≤ 255) := by omega
        rw [if_neg hi2, if_neg e2]

theorem accumulate_F_aux (F : List Nat) (g : Nat → Nat) (K : Nat) (hK : K ≤ 255)
    (hF : F.length = 256) (h0 : F.getD 0 0 = g 0)
    (hg : ∀ i, i < 255 → g (i + 1) = g i + F.getD (i + 1) 0) :
    ((List.range K).foldl (fun F k => F.set (k + 1) (F.getD (k + 1) 0 + F.getD k 0)) F).length = 256 ∧
    ∀ i, ((List.range K).foldl (fun F k => F.set (k + 1) (F.getD (k + 1) 0 + F.getD k 0)) F).getD i 0 =
      if i ≤ K then g i else F.getD i 0 := by
  induction K with
  | zero =>
    refine ⟨by simpa using hF, fun i => ?_⟩
    by_cases hi : i = 0
    · subst hi; simpa using h0
    · have : ¬ i ≤ 0 := by omega
      rw [if_neg this]; rfl
  | succ K ih =>
    obtain ⟨h1, h2⟩ := ih (by omega)
    rw [List.range_succ, List.foldl_append]
    simp only [List.foldl_cons, List.foldl_nil]
    refine ⟨by rw [List.length_set]; exact h1, fun i => ?_⟩
    rw [getD_set, h2 (K + 1), h2 K, h2 i, h1]
    by_cases hi : K + 1 = i
    · subst hi
      have e0 : K + 1 = K + 1 ∧ K + 1 < 256 := by omega
      have e1 : ¬ (K + 1 ≤ K) := by omega
      rw [if_pos e0, if_neg e1, if_pos (le_refl K), if_pos (le_refl _), hg K (by omega)]
      omega
    · have e0 : ¬ (K + 1 = i ∧ K + 1 < 256) := by omega
      rw [if_neg e0]
      by_cases hi2 : i ≤ K
      · have e2 : i ≤ K + 1 := by omega
        rw [if_pos hi2, if_pos e2]
      · have e2 : ¬ i ≤ K + 1 := by omega
        rw [if_neg hi2, if_neg e2]

theorem countP_lt_succ (bs : List Nat) (c : Nat) :
    bs.countP (fun x => decide (x < c + 1)) = bs.countP (fun x => decide (x < c)) + bs.count c := by
  induction bs with
  | nil => simp
  | cons b bs ih =>
    simp only [List.countP_cons, List.count_cons, ih]
    by_cases h1 : b < c
    · have h2 : b < c + 1 := by omega
      have h3 : ¬ (b == c) = true := by simp; omega
      simp [h1, h2, h3]; omega
    · by_cases h4 : b = c
      · subst h4
        simp; omega
      · have h2 : ¬ b < c + 1 := by omega
        have h3 : ¬ (b == c) = true := by simpa using h4
        simp [h1, h2, h3]

theorem shifted_F (bs : List Nat) :
    ((shift_F (count_symbols bs)).set 0 0).length = 256 ∧
    ∀ i, ((shift_F (count_symbols bs)).set 0 0).getD i 0 =
      if i = 0 ∨ 255 < i then 0 else bs.count (i - 1) := by
  unfold shift_F
  obtain ⟨s1, s2⟩ := shift_F_aux (count_symbols bs) 255 (le_refl _) (count_symbols_length bs)
  refine ⟨by rw [List.length_set]; exact s1, fun i => ?_⟩
  rw [getD_set, s2, s1]
  by_cases hi : i = 0
  · subst hi
    rw [if_pos (by omega), if_pos (by omega)]
  · have e2 : ¬ (0 = i ∧ 0 < 256) := by omega
    rw [if_neg e2]
    by_cases hi2 : 255 < i
    · have e1 : ¬ (255 - 255 < i ∧ i ≤ 255) := by omega
      rw [if_neg e1, if_pos (Or.inr hi2)]
      rw [List.getD_eq_default]; rw [count_symbols_length]; omega
    · have e1 : (255 - 255 < i ∧ i ≤ 255) := by omega
      have e3 : ¬ (i = 0 ∨ 255 < i) := by omega
      rw [if_pos e1, if_neg e3, count_symbols_getD _ _ (by omega)]

/-- The F column in closed form: `F[c]` is the number of BWT symbols below `c`. -/
theorem build_F_getD (bs : List Nat) (c : Nat) (hc : c ≤ 255) :
    (build_F bs).getD c 0 = bs.countP (fun x => decide (x < c)) := by
  obtain ⟨hlen, hval⟩ := shifted_F bs
  unfold build_F accumulate_F
  obtain ⟨_, a2⟩ := accumulate_F_aux _ (fun c => bs.countP (fun x => decide (x < c))) 255 (le_refl _) hlen
    (by rw [hval]; simp)
    (by
      intro i hi
      rw [hval]
      have e3 : ¬ (i + 1 = 0 ∨ 255 < i + 1) := by omega
      rw [if_neg e3]
      simpa using countP_lt_succ bs i)
  rw [a2 c, if_pos hc]

theorem build_F_length (bs : List Nat) : (build_F bs).length = 256 := by
  obtain ⟨hlen, hval⟩ := shifted_F bs
  unfold build_F accumulate_F
  exact (accumulate_F_aux _ (fun c => bs.countP (fun x => decide (x < c))) 255 (le_refl _) hlen
    (by rw [hval]; simp)
    (by
      intro i hi
      rw [hval]
      have e3 : ¬ (i + 1 = 0 ∨ 255 < i + 1) := by omega
      rw [if_neg e3]
      simpa using countP_lt_succ bs i)).1

/-! ## The alphabet scan -/

theorem fresh_bytes_cons (b : Nat) (rest freqs : List Nat) (hb : b < freqs.length) :
    fresh_bytes (b :: rest) freqs =
      (if freqs.getD b 0 = 0 then 1 else 0)
        + fresh_bytes rest (freqs.set b (freqs.getD b 0 + 1)) := by
  unfold fresh_bytes
  have h1 : (rest.toFinset.filter (fun x => (freqs.set b (freqs.getD b 0 + 1)).getD x 0 = 0))
      = (rest.toFinset.filter (fun x => freqs.getD x 0 = 0)).erase b := by
    ext x
    simp only [Finset.mem_filter, Finset.mem_erase, getD_set]
    by_cases hx : b = x
    · subst hx
      simp [hb]
    · have : ¬ (b = x ∧ b < freqs.length) := fun h => hx h.1
      rw [if_neg this]
      constructor
      · rintro ⟨h1, h2⟩; exact ⟨fun h => hx h.symm, h1, h2⟩
      · rintro ⟨_, h1, h2⟩; exact ⟨h1, h2⟩
  rw [h1, List.toFinset_cons, Finset.filter_insert]
  by_cases hz : freqs.getD b 0 = 0
  · rw [if_pos hz, if_pos hz]
    rw [Finset.card_insert_eq_ite]
    by_cases hm : b ∈ rest.toFinset.filter (fun x => freqs.getD x 0 = 0)
    · rw [if_pos hm, Finset.card_erase_of_mem hm]
      have : 0 < (rest.toFinset.filter (fun x => freqs.getD x 0 = 0)).card :=
        Finset.card_pos.mpr ⟨b, hm⟩
      omega
    · rw [if_neg hm, Finset.erase_eq_of_not_mem hm]; omega
  · rw [if_neg hz, if_neg hz]
    have hm : b ∉ rest.toFinset.filter (fun x => freqs.getD x 0 = 0) := by
      intro hm
      exact hz (Finset.mem_filter.mp hm).2
    rw [Finset.erase_eq_of_not_mem hm]; omega

theorem fresh_bytes_zero (T : List Nat) : fresh_bytes T (List.replicate 256 0) = T.dedup.length := by
  unfold fresh_bytes
  rw [← List.card_toFinset]
  congr 1
  exact Finset.filter_true_of_mem (fun x _ => getD_replicate_zero 256 x)

theorem scan_alphabet_none (T : List Nat) (hT : ∀ b ∈ T, b < 256) (freqs : List Nat)
    (hf : freqs.length = 256) (sigma : Nat) (hs : sigma < 255)
    (h : 255 ≤ sigma + fresh_bytes T freqs) : scan_alphabet T freqs sigma = none := by
  induction T generalizing freqs sigma with
  | nil => simp [fresh_bytes] at h; omega
  | cons b rest ih =>
    have hb : b < freqs.length := by rw [hf]; exact hT b (List.mem_cons_self _ _)
    rw [fresh_bytes_cons b rest freqs hb] at h
    simp only [scan_alphabet]
    split_ifs with h1 h2 h3
    · rfl
    · exact ih (fun x hx => hT x (List.mem_cons_of_mem _ hx)) _ (by rw [List.length_set]; exact hf) _
        (by omega) (by rw [if_pos h1] at h; omega)
    · rfl
    · exact ih (fun x hx => hT x (List.mem_cons_of_mem _ hx)) _ (by rw [List.length_set]; exact hf) _
        (by omega) (by rw [if_neg h1] at h; omega)

theorem scan_alphabet_some (T : List Nat) (hT : ∀ b ∈ T, b < 256) (freqs : List Nat)
    (hf : freqs.length = 256) (sigma : Nat)
    (h : sigma + fresh_bytes T freqs < 255) :
    ∃ f, scan_alphabet T freqs sigma = some (f, sigma + fresh_bytes T freqs) ∧ f.length = 256 ∧
      ∀ c, f.getD c 0 = freqs.getD c 0 + T.count c := by
  induction T generalizing freqs sigma with
  | nil => exact ⟨freqs, by simp [fresh_bytes, scan_alphabet], hf, by simp⟩
  | cons b rest ih =>
    have hb : b < freqs.length := by rw [hf]; exact hT b (List.mem_cons_self _ _)
    rw [fresh_bytes_cons b rest freqs hb] at h ⊢
    simp only [scan_alphabet]
    have hlen : (freqs.set b (freqs.getD b 0 + 1)).length = 256 := by rw [List.length_set]; exact hf
    have key : ∀ c, (freqs.set b (freqs.getD b 0 + 1)).getD c 0 + rest.count c
        = freqs.getD c 0 + (b :: rest).count c := by
      intro c
      rw [getD_set, List.count_cons]
      by_cases hbc : b = c
      · subst hbc
        rw [if_pos ⟨rfl, hb⟩]; simp; omega
      · have h1 : ¬ (b = c ∧ b < freqs.length) := fun h => hbc h.1
        have h2 : ¬ (b == c) = true := by simpa using hbc
        rw [if_neg h1, if_neg h2]; omega
    by_cases h1 : freqs.getD b 0 = 0
    · simp only [if_pos h1] at h ⊢
      rw [if_neg (by omega)]
      obtain ⟨f, e1, e2, e3⟩ := ih (fun x hx => hT x (List.mem_cons_of_mem _ hx)) _ hlen (sigma + 1) (by omega)
      exact ⟨f, by rw [e1]; congr 2; omega, e2, fun c => by rw [e3, key]⟩
    · simp only [if_neg h1] at h ⊢
      rw [if_neg (by omega)]
      obtain ⟨f, e1, e2, e3⟩ := ih (fun x hx => hT x (List.mem_cons_of_mem _ hx)) _ hlen sigma (by omega)
      exact ⟨f, by rw [e1]; congr 2; omega, e2, fun c => by rw [e3, key]⟩

/-! ## The remap table -/

theorem bytes_below_succ (freqs : List Nat) (x : Nat) (hx : 2 ≤ x) :
    bytes_below freqs (x + 1) = bytes_below freqs x + (if freqs.getD x 0 ≠ 0 then 1 else 0) := by
  unfold bytes_below
  have : x + 1 - 2 = (x - 2) + 1 := by omega
  rw [this, List.range'_1_concat, List.countP_append]
  have : 2 + (x - 2) = x := by omega
  rw [this]
  by_cases h : freqs.getD x 0 = 0 <;> simp [-List.getD_eq_getElem?_getD, List.countP_cons, h]

theorem bytes_below_mono (freqs : List Nat) (x y : Nat) (hx : 2 ≤ x) (hxy : x ≤ y) :
    bytes_below freqs x ≤ bytes_below freqs y := by
  induction y with
  | zero => omega
  | succ y ih =>
    by_cases h : x = y + 1
    · rw [h]
    · have := ih (by omega)
      rw [bytes_below_succ freqs y (by omega)]; omega

theorem bytes_below_le (freqs : List Nat) (x : Nat) : bytes_below freqs x ≤ x - 2 := by
  unfold bytes_below
  calc _ ≤ (List.range' 2 (x - 2)).length := List.countP_le_length _
    _ = x - 2 := by simp

theorem build_remap_aux (freqs : List Nat) (K : Nat) (hK : K ≤ 254) :
    let st := (List.range' 2 K).foldl (remap_step freqs)
      (List.replicate 256 0, List.replicate 256 0, 2)
    st.1.length = 256 ∧ st.2.2 = (2 + bytes_below freqs (2 + K)) % 256 ∧
    ∀ x, st.1.getD x 0 =
      if 2 ≤ x ∧ x < 2 + K ∧ freqs.getD x 0 ≠ 0 then (2 + bytes_below freqs x) % 256 else 0 := by
  induction K with
  | zero =>
    refine ⟨by simp only [List.range'_zero, List.foldl_nil, List.length_replicate],
      by simp only [List.range'_zero, List.foldl_nil, bytes_below]; rfl, fun x => ?_⟩
    have : ¬ (2 ≤ x ∧ x < 2 + 0 ∧ freqs.getD x 0 ≠ 0) := by omega
    rw [if_neg this]
    simp only [List.range'_zero, List.foldl_nil]
    exact getD_replicate_zero _ _
  | succ K ih =>
    obtain ⟨h1, h2, h3⟩ := ih (by omega)
    rw [List.range'_1_concat, List.foldl_append]
    simp only [List.foldl_cons, List.foldl_nil]
    generalize (List.range' 2 K).foldl (remap_step freqs)
      (List.replicate 256 0, List.replicate 256 0, 2) = st at h1 h2 h3
    have hsucc : bytes_below freqs (2 + K + 1) = bytes_below freqs (2 + K) +
        (if freqs.getD (2 + K) 0 ≠ 0 then 1 else 0) := bytes_below_succ freqs (2 + K) (by omega)
    unfold remap_step
    by_cases hz : freqs.getD (2 + K) 0 = 0
    · have hz' : ¬ freqs.getD (2 + K) 0 ≠ 0 := by simpa using hz
      rw [if_neg hz']
      rw [if_neg hz', Nat.add_zero] at hsucc
      refine ⟨h1, by rw [h2, ← Nat.add_assoc, hsucc]; rfl, fun x => ?_⟩
      rw [h3 x]
      by_cases hx : 2 ≤ x ∧ x < 2 + K ∧ freqs.getD x 0 ≠ 0
      · rw [if_pos hx, if_pos ⟨hx.1, by omega, hx.2.2⟩]
      · rw [if_neg hx, if_neg]
        rintro ⟨a, b, c⟩
        by_cases hxe : x = 2 + K
        · subst hxe; exact c hz
        · exact hx ⟨a, by omega, c⟩
    · have hz' : freqs.getD (2 + K) 0 ≠ 0 := hz
      rw [if_pos hz']
      rw [if_pos hz'] at hsucc
      refine ⟨by simp only []; rw [List.length_set]; exact h1, ?_, fun x => ?_⟩
      · simp only []
        rw [h2, ← Nat.add_assoc, hsucc]; omega
      · simp only []
        rw [getD_set, h3 x, h1, h2]
        by_cases hxe : 2 + K = x
        · subst hxe
          rw [if_pos ⟨rfl, by omega⟩, if_pos ⟨by omega, by omega, hz'⟩]
        · have e1 : ¬ (2 + K = x ∧ 2 + K < 256) := fun h => hxe h.1
          rw [if_neg e1]
          by_cases hx : 2 ≤ x ∧ x < 2 + K ∧ freqs.getD x 0 ≠ 0
          · rw [if_pos hx, if_pos ⟨hx.1, by omega, hx.2.2⟩]
          · rw [if_neg hx, if_neg]
            rintro ⟨a, b, c⟩
            exact hx ⟨a, by omega, c⟩

/-- The remap table in closed form. -/
theorem build_remap_getD (freqs : List Nat) (x : Nat) :
    (build_remap freqs).1.getD x 0 =
      if 2 ≤ x ∧ x < 256 ∧ freqs.getD x 0 ≠ 0 then (2 + bytes_below freqs x) % 256 else 0 := by
  have := (build_remap_aux freqs 254 (le_refl _)).2.2 x
  unfold build_remap
  rw [this]

/-! ## The lexicographic order -/

theorem lexLe_refl (s : List Nat) : lexLe s s = true := by
  induction s with
  | nil => rfl
  | cons a s ih => simp [lexLe, ih]

theorem lexLe_total (s t : List Nat) : lexLe s t = true ∨ lexLe t s = true := by
  induction s generalizing t with
  | nil => left; rfl
  | cons a s ih =>
    cases t with
    | nil => right; rfl
    | cons b t =>
      simp only [lexLe, Bool.or_eq_true, Bool.and_eq_true, decide_eq_true_eq]
      rcases Nat.lt_trichotomy a b with h | h | h
      · left; left; exact h
      · rcases ih t with h1 | h1
        · left; right; exact ⟨h, h1⟩
        · right; right; exact ⟨h.symm, h1⟩
      · right; left; exact h

theorem lexLe_trans (s t u : List Nat) (h1 : lexLe s t = true) (h2 : lexLe t u = true) :
    lexLe s u = true := by
  induction s generalizing t u with
  | nil => rfl
  | cons a s ih =>
    cases t with
    | nil => simp [lexLe] at h1
    | cons b t =>
      cases u with
      | nil => simp [lexLe] at h2
      | cons c u =>
        simp only [lexLe, Bool.or_eq_true, Bool.and_eq_true, decide_eq_true_eq] at h1 h2 ⊢
        rcases h1 with h1 | ⟨h1, h1'⟩
        · rcases h2 with h2 | ⟨h2, _⟩
          · left; omega
          · left; omega
        · rcases h2 with h2 | ⟨h2, h2'⟩
          · left; omega
          · right; exact ⟨by omega, ih t u h1' h2'⟩

theorem lexLe_antisymm (s t : List Nat) (h1 : lexLe s t = true) (h2 : lexLe t s = true) :
    s = t := by
  induction s generalizing t with
  | nil =>
    cases t with
    | nil => rfl
    | cons b t => simp [lexLe] at h2
  | cons a s ih =>
    cases t with
    | nil => simp [lexLe] at h1
    | cons b t =>
      simp only [lexLe, Bool.or_eq_true, Bool.and_eq_true, decide_eq_true_eq] at h1 h2
      rcases h1 with h1 | ⟨h1, h1'⟩
      · rcases h2 with h2 | ⟨h2, _⟩ <;> omega
      · rcases h2 with h2 | ⟨_, h2'⟩
        · omega
        · rw [h1, ih t h1' h2']

theorem below_mono (b : Bool) (s1 s P : List Nat) (h : lexLe s1 s = true)
    (hs : below b s P = true) : below b s1 P = true := by
  induction P generalizing s1 s with
  | nil => simpa [below] using hs
  | cons c P ih =>
    cases s1 with
    | nil => rfl
    | cons a1 s1 =>
      cases s with
      | nil => simp [lexLe] at h
      | cons a s =>
        simp only [lexLe, below, Bool.or_eq_true, Bool.and_eq_true, decide_eq_true_eq] at h hs ⊢
        rcases h with h | ⟨h, h'⟩
        · rcases hs with hs | ⟨hs, _⟩
          · left; omega
          · left; omega
        · rcases hs with hs | ⟨hs, hs'⟩
          · left; omega
          · right; exact ⟨by omega, ih s1 s h' hs'⟩

theorem below_false_true (s P : List Nat) (h : below false s P = true) : below true s P = true := by
  induction P generalizing s with
  | nil => simp [below]
  | cons c P ih =>
    cases s with
    | nil => rfl
    | cons a s =>
      simp only [below, Bool.or_eq_true, Bool.and_eq_true, decide_eq_true_eq] at h ⊢
      rcases h with h | ⟨h, h'⟩
      · left; exact h
      · right; exact ⟨h, ih s h'⟩

/-- A string starts with `P` exactly when it is below `P` in the wide sense but
not in the strict sense. -/
theorem prefix_iff_below (s P : List Nat) :
    P <+: s ↔ (below true s P = true ∧ below false s P = false) := by
  induction P generalizing s with
  | nil => simp [below]
  | cons c P ih =>
    cases s with
    | nil => simp [below]
    | cons a s =>
      simp only [below, List.cons_prefix_cons, ih s]
      by_cases h1 : a < c
      · have : c ≠ a := by omega
        simp [h1, this]
      · by_cases h2 : a = c
        · subst h2; simp
        · have : c ≠ a := fun h => h2 h.symm
          simp [h1, h2, this]

/-! ## The suffix array -/

theorem construct_sa_perm (w : List Nat) : (construct_sa w).Perm (List.range w.length) :=
  List.perm_insertionSort _ _

theorem construct_sa_length (w : List Nat) : (construct_sa w).length = w.length := by
  rw [(construct_sa_perm w).length_eq, List.length_range]

theorem construct_sa_nodup (w : List Nat) : (construct_sa w).Nodup :=
  (construct_sa_perm w).nodup_iff.mpr (List.nodup_range _)

theorem construct_sa_sorted (w : List Nat) :
    (construct_sa w).Pairwise (fun i j => lexLe (w.drop i) (w.drop j) = true) := by
  haveI : IsTotal Nat (fun i j => lexLe (w.drop i) (w.drop j) = true) :=
    ⟨fun i j => lexLe_total _ _⟩
  haveI : IsTrans Nat (fun i j => lexLe (w.drop i) (w.drop j) = true) :=
    ⟨fun i j k h1 h2 => lexLe_trans _ _ _ h1 h2⟩
  exact List.sorted_insertionSort _ _

/-- In a sorted list, the elements of a downward closed set form a prefix. -/
theorem filter_eq_take_of_sorted {α : Type} (le : α → α → Prop) (D : α → Bool) (L : List α)
    (hs : L.Pairwise le) (hD : ∀ a b, le a b → D b = true → D a = true) :
    L.filter D = L.take (L.countP D) := by
  induction L with
  | nil => rfl
  | cons a L ih =>
    rw [List.pairwise_cons] at hs
    by_cases ha : D a = true
    · rw [List.filter_cons_of_pos ha, List.countP_cons_of_pos _ _ ha, List.take_succ_cons, ih hs.2]
    · have hnone : ∀ x ∈ L, ¬ D x = true := fun x hx hdx => ha (hD a x (hs.1 x hx) hdx)
      rw [List.filter_cons_of_neg ha, List.countP_cons_of_neg _ _ ha]
      have h0 : L.countP D = 0 := List.countP_eq_zero.mpr hnone
      rw [h0, List.take_zero]
      exact List.filter_eq_nil_iff.mpr hnone

/-! ## Sums over the suffixes of a text -/

theorem countP_range_drop (G : List Nat → Bool) (w : List Nat) :
    (List.range w.length).countP (fun i => G (w.drop i)) = tailsum G w := by
  induction w with
  | nil => rfl
  | cons a s ih =>
    rw [List.length_cons, List.range_succ_eq_map, List.countP_cons, List.countP_map]
    simp only [tailsum, List.drop_zero]
    rw [← ih]
    have : (List.range s.length).countP ((fun i => G ((a :: s).drop i)) ∘ Nat.succ)
        = (List.range s.length).countP (fun i => G (s.drop i)) := by
      apply List.countP_congr
      intro x _
      simp
    rw [this]; omega

/-- The symbol before position `i`, with `x` standing before the whole string. -/
theorem countP_range_pair (g : Nat → List Nat → Bool) (x : Nat) (w : List Nat) :
    (List.range w.length).countP
        (fun i => g (if i > 0 then w.getD (i - 1) 0 else x) (w.drop i)) = pairsum g x w := by
  induction w generalizing x with
  | nil => rfl
  | cons a s ih =>
    rw [List.length_cons, List.range_succ_eq_map, List.countP_cons, List.countP_map]
    simp only [pairsum, List.drop_zero]
    rw [← ih a]
    have : (List.range s.length).countP
          ((fun i => g (if i > 0 then (a :: s).getD (i - 1) 0 else x) ((a :: s).drop i)) ∘ Nat.succ)
        = (List.range s.length).countP
          (fun i => g (if i > 0 then s.getD (i - 1) 0 else a) (s.drop i)) := by
      apply List.countP_congr
      intro i _
      simp only [Function.comp, Nat.succ_eq_add_one, List.drop_succ_cons]
      cases i with
      | zero => simp
      | succ i => simp
    rw [this]
    simp [Nat.lt_irrefl]
    omega

/-! ## The BWT string -/

theorem sufsort_step_bwt_s (text sa : List Nat) (st : sufsort_state) (i : Nat) :
    (sufsort_step text sa st i).bwt_s = st.bwt_s ++ [bwt_char text (sa.getD i 0)] := rfl

theorem sufsort_bwt_s_aux (text sa : List Nat) (K : Nat) (hK : K ≤ sa.length) :
    ((List.range K).foldl (sufsort_step text sa)
      { bwt_s := [], samples_first := [], samples_last := [] }).bwt_s
      = (sa.take K).map (bwt_char text) := by
  induction K with
  | zero => rfl
  | succ K ih =>
    rw [List.range_succ, List.foldl_append]
    simp only [List.foldl_cons, List.foldl_nil]
    rw [sufsort_step_bwt_s, ih (by omega), List.take_succ, List.map_append]
    have hK' : K < sa.length := by omega
    rw [List.getD_eq_getElem _ _ hK', List.getElem?_eq_getElem hK']
    rfl

/-- The string that `sufsort` returns is the BWT of the text. -/
theorem sufsort_bwt_s (text : List Nat) : (sufsort text (construct_sa text)).bwt_s = bwt_of text := by
  unfold sufsort bwt_of
  rw [sufsort_bwt_s_aux _ _ _ (le_refl _), List.take_length]

theorem bwt_of_length (w : List Nat) : (bwt_of w).length = w.length := by
  unfold bwt_of
  rw [List.length_map, construct_sa_length]

/-! ## Counting rows -/

theorem rows_below_eq_countP (b : Bool) (w P : List Nat) :
    rows_below b w P = (construct_sa w).countP (fun i => below b (w.drop i) P) := by
  unfold rows_below
  rw [← countP_range_drop (fun s => below b s P) w]
  exact ((construct_sa_perm w).countP_eq _).symm

theorem take_rows_below (b : Bool) (w P : List Nat) :
    (construct_sa w).take (rows_below b w P)
      = (construct_sa w).filter (fun i => below b (w.drop i) P) := by
  rw [rows_below_eq_countP]
  exact (filter_eq_take_of_sorted (fun i j => lexLe (w.drop i) (w.drop j) = true)
    (fun i => below b (w.drop i) P) (construct_sa w) (construct_sa_sorted w)
    (fun i j hij hj => below_mono b _ _ P hij hj)).symm

/-- The rank of `c` at the boundary row of a pattern counts the suffixes below
the pattern that are preceded by `c`. -/
theorem rank_rows_below (b : Bool) (w P : List Nat) (c : Nat) :
    rle_string.rank (bwt_of w) (rows_below b w P) c
      = pairsum (fun x s => below b s P && x == c) TERMINATOR w := by
  unfold rle_string.rank bwt_of
  rw [← List.map_take, take_rows_below, List.count_eq_countP, List.countP_map, List.countP_filter]
  rw [← countP_range_pair]
  rw [(construct_sa_perm w).countP_eq]
  apply List.countP_congr
  intro i _
  simp [bwt_char, Bool.and_comm]

theorem countP_bwt_of (h : Nat → Bool) (w : List Nat) :
    (bwt_of w).countP h = pairsum (fun x _ => h x) TERMINATOR w := by
  unfold bwt_of
  rw [List.countP_map, ← countP_range_pair, (construct_sa_perm w).countP_eq]
  apply List.countP_congr
  intro i _
  simp [bwt_char]

theorem getLast_getD_cons (a x : Nat) (s : List Nat) :
    (a :: s).getLast?.getD x = s.getLast?.getD a := by
  cases s with
  | nil => rfl
  | cons b s =>
    rw [List.getLast?_cons_cons]
    have h : (b :: s).getLast?.isSome = true := by
      rw [List.getLast?_isSome]; exact List.cons_ne_nil _ _
    obtain ⟨v, hv⟩ := Option.isSome_iff_exists.mp h
    rw [hv]; rfl

theorem pairsum_symbol (h : Nat → Bool) (x : Nat) (w : List Nat) :
    pairsum (fun y _ => h y) x w + (if h (w.getLast?.getD x) then 1 else 0)
      = (if h x then 1 else 0) + w.countP h := by
  induction w generalizing x with
  | nil => simp [pairsum]
  | cons a s ih =>
    rw [getLast_getD_cons]
    simp only [pairsum, List.countP_cons]
    have := ih a
    omega

/-- Symbols above the terminator are counted alike in the BWT and in the text. -/
theorem countP_bwt_of_text (h : Nat → Bool) (w : List Nat) (hw : w.getLast? = some 0)
    (h01 : h 0 = h TERMINATOR) : (bwt_of w).countP h = w.countP h := by
  have := pairsum_symbol h TERMINATOR w
  rw [hw] at this
  simp only [Option.getD_some] at this
  rw [countP_bwt_of]
  by_cases hh : h TERMINATOR = true
  · rw [if_pos (h01.trans hh), if_pos hh] at this; omega
  · rw [if_neg (by rw [h01]; exact hh), if_neg hh] at this; omega

theorem rows_below_cons_aux (b : Bool) (P : List Nat) (c x : Nat) (w : List Nat) :
    tailsum (fun s => below b s (c :: P)) w + (if x = c ∧ below b w P = true then 1 else 0)
      = w.countP (fun a => decide (a < c)) + pairsum (fun y s => below b s P && y == c) x w
        + (if w.getLast?.getD x = c ∧ below b [] P = true then 1 else 0) := by
  induction w generalizing x with
  | nil => simp [tailsum, pairsum]
  | cons a s ih =>
    rw [getLast_getD_cons]
    simp only [tailsum, pairsum, List.countP_cons, below]
    have := ih a
    by_cases h1 : a < c <;> by_cases h2 : a = c <;> by_cases h3 : x = c <;>
      by_cases h4 : below b (a :: s) P = true <;> by_cases h5 : below b s P = true <;>
      simp [h1, h2, h3, h4, h5] at this ⊢ <;> omega

/-- The step of backward search: the boundary row of `cP` from that of `P`. -/
theorem rows_below_cons (b : Bool) (w P : List Nat) (c : Nat) (hw : w.getLast? = some 0)
    (hc : 2 ≤ c) :
    rows_below b w (c :: P)
      = (bwt_of w).countP (fun a => decide (a < c)) + rle_string.rank (bwt_of w) (rows_below b w P) c := by
  rw [rank_rows_below, countP_bwt_of_text _ w hw (by simp [TERMINATOR]; omega)]
  have := rows_below_cons_aux b P c TERMINATOR w
  rw [hw] at this
  simp only [Option.getD_some] at this
  have h1 : ¬ (TERMINATOR = c ∧ below b w P = true) := by unfold TERMINATOR; omega
  have h2 : ¬ (0 = c ∧ below b [] P = true) := by omega
  rw [if_neg h1, if_neg h2] at this
  unfold rows_below
  omega

/-! ## Occurrences and the suffixes of a text -/

theorem tailsum_cons (G : List Nat → Bool) (a : Nat) (s : List Nat) :
    tailsum G (a :: s) = (if G (a :: s) then 1 else 0) + tailsum G s := rfl

theorem below_cons_cons (b : Bool) (a c : Nat) (s P : List Nat) :
    below b (a :: s) (c :: P) = (decide (a < c) || (decide (a = c) && below b s P)) := rfl

theorem tailsum_congr (G G1 : List Nat → Bool) (w : List Nat)
    (h : ∀ s, s <:+ w → s ≠ [] → G s = G1 s) : tailsum G w = tailsum G1 w := by
  induction w with
  | nil => rfl
  | cons a s ih =>
    simp only [tailsum]
    rw [h (a :: s) (List.suffix_refl _) (List.cons_ne_nil _ _),
      ih (fun u hu hne => h u (hu.trans (List.suffix_cons a s)) hne)]

theorem tailsum_add (G G1 G2 : List Nat → Bool) (w : List Nat)
    (h : ∀ s, s <:+ w → s ≠ [] →
      (if G s then 1 else 0) = (if G1 s then 1 else 0) + (if G2 s then 1 else 0)) :
    tailsum G w = tailsum G1 w + tailsum G2 w := by
  induction w with
  | nil => rfl
  | cons a s ih =>
    simp only [tailsum]
    rw [h (a :: s) (List.suffix_refl _) (List.cons_ne_nil _ _),
      ih (fun u hu hne => h u (hu.trans (List.suffix_cons a s)) hne)]
    omega

theorem tailsum_false (w : List Nat) : tailsum (fun _ => false) w = 0 := by
  induction w with
  | nil => rfl
  | cons a s ih => simp [tailsum, ih]

theorem getLast_of_suffix (w s : List Nat) (h : s <:+ w) (hs : s ≠ []) :
    s.getLast? = w.getLast? := by
  obtain ⟨u, rfl⟩ := h
  induction u with
  | nil => rfl
  | cons a u ih =>
    rw [List.cons_append]
    cases hus : u ++ s with
    | nil => simp [hs] at hus
    | cons b v => rw [List.getLast?_cons_cons, ← hus, ih]

theorem mem_of_getLast (s : List Nat) (v : Nat) (h : s.getLast? = some v) : v ∈ s := by
  induction s with
  | nil => simp at h
  | cons a s ih =>
    cases s with
    | nil => simp at h; simp [h]
    | cons b s =>
      rw [List.getLast?_cons_cons] at h
      exact List.mem_cons_of_mem _ (ih h)

/-- The last row of the range of `P` lies the number of occurrences after the
first one. -/
theorem rows_below_true (w P : List Nat) :
    rows_below true w P = rows_below false w P + tailsum (fun s => decide (P <+: s)) w := by
  unfold rows_below
  apply tailsum_add
  intro s _ _
  have h1 := prefix_iff_below s P
  have h2 := below_false_true s P
  by_cases h3 : below false s P = true
  · have h4 : ¬ P <+: s := fun h => by rw [(h1.mp h).2] at h3; exact Bool.false_ne_true h3
    simp [h3, h2 h3, h4]
  · by_cases h5 : below true s P = true
    · have h4 : P <+: s := h1.mpr ⟨h5, by simpa using h3⟩
      simp [h3, h5, h4]
    · have h4 : ¬ P <+: s := fun h => h5 (h1.mp h).1
      simp [h3, h5, h4]

theorem below_false_append_succ (s Q : List Nat) (c : Nat) :
    below false s (Q ++ [c + 1]) = below true s (Q ++ [c]) := by
  induction Q generalizing s with
  | nil =>
    cases s with
    | nil => rfl
    | cons a s =>
      simp only [List.nil_append, below]
      by_cases h1 : a < c
      · have : a < c + 1 := by omega
        simp [h1, this]
      · by_cases h2 : a = c
        · subst h2; simp
        · have : ¬ a < c + 1 := by omega
          simp [h1, h2, this]
  | cons q Q ih =>
    cases s with
    | nil => rfl
    | cons a s => rw [List.cons_append, List.cons_append, below_cons_cons, below_cons_cons, ih s]

theorem below_false_append_zero (s Q : List Nat) (h : s ≠ Q) :
    below false s (Q ++ [0]) = below false s Q := by
  induction Q generalizing s with
  | nil =>
    cases s with
    | nil => exact absurd rfl h
    | cons a s => simp [below]
  | cons q Q ih =>
    cases s with
    | nil => rfl
    | cons a s =>
      rw [List.cons_append, below_cons_cons, below_cons_cons]
      by_cases h2 : a = q
      · subst h2
        have : s ≠ Q := fun e => h (by rw [e])
        rw [ih s this]
      · simp [h2]

theorem rows_below_append_succ (w Q : List Nat) (c : Nat) :
    rows_below false w (Q ++ [c + 1]) = rows_below true w (Q ++ [c]) := by
  unfold rows_below
  exact tailsum_congr _ _ _ (fun s _ _ => below_false_append_succ s Q c)

theorem rows_below_append_zero (w Q : List Nat) (hw : w.getLast? = some 0) (hQ : 0 ∉ Q) :
    rows_below false w (Q ++ [0]) = rows_below false w Q := by
  unfold rows_below
  refine tailsum_congr _ _ _ (fun s hs hne => below_false_append_zero s Q ?_)
  intro e
  subst e
  exact hQ (mem_of_getLast s 0 ((getLast_of_suffix w s hs hne).trans hw))

/-- A pattern with a symbol that the text lacks does not occur. -/
theorem tailsum_prefix_absent (w X : List Nat) (x : Nat) (hx : x ∈ X) (hw : x ∉ w) :
    tailsum (fun s => decide (X <+: s)) w = 0 := by
  rw [← tailsum_false w]
  refine tailsum_congr _ _ _ (fun s hs _ => ?_)
  have : ¬ X <+: s := fun h => hw (hs.subset (h.subset hx))
  simp [this]

theorem prefix_append_zero_iff (X u : List Nat) (hX : 0 ∉ X) : X <+: u ++ [0] ↔ X <+: u := by
  rw [List.prefix_concat_iff]
  constructor
  · rintro (h | h)
    · exact absurd (by rw [h]; simp) hX
    · exact h
  · exact Or.inr

theorem tailsum_prefix_append_zero (X t : List Nat) (hX : 0 ∉ X) :
    tailsum (fun s => decide (X <+: s)) (t ++ [0])
      = tailsum (fun s => decide (X <+: s)) t + (if X = [] then 1 else 0) := by
  induction t with
  | nil =>
    simp only [List.nil_append, tailsum]
    have : X <+: [0] ↔ X = [] := by
      rw [show ([0] : List Nat) = [] ++ [0] from rfl, prefix_append_zero_iff X [] hX]
      exact List.prefix_nil
    simp [this]
  | cons a t ih =>
    rw [List.cons_append, tailsum_cons, tailsum_cons, ih]
    have : X <+: a :: (t ++ [0]) ↔ X <+: a :: t := by
      rw [← List.cons_append]; exact prefix_append_zero_iff X (a :: t) hX
    simp only [this]
    omega

theorem tailsum_prefix_concat (Y s : List Nat) (a : Nat) :
    tailsum (fun u => decide (Y <+: u)) (s ++ [a])
      = tailsum (fun u => decide (Y <+: u)) s
        + (if Y ≠ [] ∧ Y <:+ s ++ [a] then 1 else 0) + (if Y = [] then 1 else 0) := by
  induction s with
  | nil =>
    simp only [List.nil_append, tailsum]
    by_cases hY : Y = []
    · subst hY; simp
    · have h1 : Y <+: [a] ↔ Y <:+ [a] := by
        constructor
        · intro h
          have hl := h.length_le
          have : Y.length = 1 := by
            cases Y with
            | nil => exact absurd rfl hY
            | cons y Y => simp at hl ⊢; exact hl
          rw [h.eq_of_length (by simpa using this)]
        · intro h
          have hl := h.length_le
          have : Y.length = 1 := by
            cases Y with
            | nil => exact absurd rfl hY
            | cons y Y => simp at hl ⊢; exact hl
          rw [h.eq_of_length (by simpa using this)]
      by_cases h2 : Y <:+ [a]
      · simp [hY, h1, h2]
      · simp [hY, h1, h2]
  | cons b s ih =>
    rw [List.cons_append, tailsum_cons, tailsum_cons, ih]
    have e1 : Y <+: b :: (s ++ [a]) ↔ (Y = b :: (s ++ [a]) ∨ Y <+: b :: s) := by
      rw [← List.cons_append, List.prefix_concat_iff]
    have e2 : Y <:+ b :: (s ++ [a]) ↔ (Y = b :: (s ++ [a]) ∨ Y <:+ s ++ [a]) :=
      List.suffix_cons_iff
    have e3 : Y = b :: (s ++ [a]) → ¬ Y <+: b :: s := by
      intro h hp
      have := hp.length_le
      rw [h] at this
      simp at this
    have e4 : Y = b :: (s ++ [a]) → ¬ Y <:+ s ++ [a] := by
      intro h hp
      have := hp.length_le
      rw [h] at this
      simp at this
    have e5 : Y = b :: (s ++ [a]) → Y ≠ [] := by
      intro h; rw [h]; exact List.cons_ne_nil _ _
    by_cases h1 : Y = b :: (s ++ [a])
    · have n2 := e3 h1
      have n3 := e4 h1
      subst h1
      have a1 : decide ((b :: (s ++ [a])) <+: b :: (s ++ [a])) = true := by simp
      have a2 : ¬ decide ((b :: (s ++ [a])) <+: b :: s) = true := by simpa using n2
      have a3 : ¬ ((b :: (s ++ [a])) ≠ [] ∧ (b :: (s ++ [a])) <:+ s ++ [a]) := fun h => n3 h.2
      have a4 : ¬ ((b :: (s ++ [a])) = []) := by simp
      have a5 : ((b :: (s ++ [a])) ≠ [] ∧ (b :: (s ++ [a])) <:+ b :: (s ++ [a])) :=
        ⟨by simp, List.suffix_refl _⟩
      rw [if_pos a1, if_neg a2, if_neg a3, if_neg a4, if_pos a5]
      omega
    · simp only [e1, e2, h1, false_or, decide_eq_true_eq]
      omega

/-- Reversal keeps the number of occurrences. -/
theorem tailsum_prefix_reverse (X t : List Nat) :
    tailsum (fun s => decide (X.reverse <+: s)) t.reverse
      = tailsum (fun s => decide (X <+: s)) t := by
  induction t with
  | nil => rfl
  | cons a t ih =>
    rw [List.reverse_cons, tailsum_prefix_concat, ih]
    simp only [tailsum]
    have e1 : X.reverse <:+ t.reverse ++ [a] ↔ X <+: a :: t := by
      rw [← List.reverse_cons]; exact List.reverse_suffix
    have e2 : X.reverse = [] ↔ X = [] := List.reverse_eq_nil_iff
    by_cases h1 : X = []
    · subst h1; simp; omega
    · by_cases h2 : X <+: a :: t
      · simp [e1, e2, h1, h2]; omega
      · simp [e1, e2, h1, h2]

/-- Occurrences in the text and in the reversed text, both with their terminator. -/
theorem occurrences_reverse (X t : List Nat) (hX : 0 ∉ X) :
    tailsum (fun s => decide (X.reverse <+: s)) (t.reverse ++ [0])
      = tailsum (fun s => decide (X <+: s)) (t ++ [0]) := by
  rw [tailsum_prefix_append_zero _ _ hX,
    tailsum_prefix_append_zero _ _ (by simpa using hX), tailsum_prefix_reverse]
  simp

/-- The pattern followed by the terminator occurs once when the text ends with
the pattern, and not at all otherwise. -/
theorem tailsum_prefix_terminated (Q t : List Nat) (ht : 0 ∉ t) :
    tailsum (fun s => decide (Q ++ [0] <+: s)) (t ++ [0]) = if Q <:+ t then 1 else 0 := by
  have key : ∀ u : List Nat, 0 ∉ u → (Q ++ [0] <+: u ++ [0] ↔ Q = u) := by
    intro u hu
    constructor
    · intro h
      rcases List.prefix_concat_iff.mp h with h1 | h1
      · exact List.append_cancel_right h1
      · exact absurd (h1.subset (by simp)) hu
    · intro h; rw [h]
  induction t with
  | nil =>
    simp only [List.nil_append, tailsum]
    have := key [] (by simp)
    simp only [List.nil_append] at this
    by_cases h : Q = []
    · subst h; simp
    · simp [this, h]
  | cons a t ih =>
    rw [List.cons_append, tailsum_cons, ih (fun h => ht (List.mem_cons_of_mem _ h))]
    have k := key (a :: t) ht
    simp only [List.cons_append] at k
    have e2 : Q <:+ a :: t ↔ (Q = a :: t ∨ Q <:+ t) := List.suffix_cons_iff
    have e3 : Q = a :: t → ¬ Q <:+ t := by
      intro h hp
      have := hp.length_le
      rw [h] at this
      simp at this
    by_cases h1 : Q = a :: t
    · have := e3 h1
      simp [k, e2, h1]
      rw [h1] at this
      simp [this]
    · by_cases h2 : Q <:+ t <;> simp [k, e2, h1, h2]

/-! ## rank and select -/

theorem rank_mono (s : List Nat) (i j c : Nat) (h : i ≤ j) :
    rle_string.rank s i c ≤ rle_string.rank s j c := by
  unfold rle_string.rank
  exact (List.take_sublist_take_left s h).count_le c

theorem rank_le_count (s : List Nat) (i c : Nat) : rle_string.rank s i c ≤ s.count c := by
  unfold rle_string.rank
  exact (List.take_sublist i s).count_le c

theorem rank_zero (s : List Nat) (c : Nat) : rle_string.rank s 0 c = 0 := by
  simp [rle_string.rank]

theorem rank_cons_succ (x : Nat) (s : List Nat) (i c : Nat) :
    rle_string.rank (x :: s) (i + 1) c = (if x = c then 1 else 0) + rle_string.rank s i c := by
  unfold rle_string.rank
  rw [List.take_succ_cons, List.count_cons]
  by_cases h : x = c
  · subst h; simp
    omega
  · have : ¬ (x == c) = true := by simpa using h
    simp [h]

/-- The contract of `select` in terms of `rank`. -/
theorem select_spec (s : List Nat) (k c : Nat) (h : k < s.count c) :
    ∃ p, rle_string.select s k c = some p ∧ p < s.length ∧
      rle_string.rank s p c = k ∧ rle_string.rank s (p + 1) c = k + 1 := by
  induction s generalizing k with
  | nil => simp at h
  | cons x s ih =>
    by_cases hx : x = c
    · subst hx
      cases k with
      | zero =>
        refine ⟨0, by simp [rle_string.select], by simp, rank_zero _ _, ?_⟩
        rw [rank_cons_succ, rank_zero]; simp
      | succ k =>
        rw [List.count_cons_self] at h
        obtain ⟨p, h1, h2, h3, h4⟩ := ih k (by omega)
        refine ⟨p + 1, by simp [rle_string.select, h1], by simp; omega, ?_, ?_⟩
        · rw [rank_cons_succ, h3]; simp; omega
        · rw [rank_cons_succ, h4]; simp; omega
    · rw [List.count_cons_of_ne (fun e => hx e.symm)] at h
      obtain ⟨p, h1, h2, h3, h4⟩ := ih k h
      refine ⟨p + 1, by simp [rle_string.select, hx, h1], by simp; omega, ?_, ?_⟩
      · rw [rank_cons_succ, h3]; simp [hx]
      · rw [rank_cons_succ, h4]; simp [hx]

/-- The last `c` before row `hi` lies in `[lo, hi)` when that interval holds a `c`: the two
assertions of the extension primitives. -/
theorem select_last_in_range (s : List Nat) (lo hi c : Nat)
    (h : rle_string.rank s lo c < rle_string.rank s hi c) :
    ∃ p, rle_string.select s (rle_string.rank s hi c - 1) c = some p ∧ lo ≤ p ∧ p + 1 ≤ hi := by
  have hcount := rank_le_count s hi c
  obtain ⟨p, h1, _, h3, h4⟩ := select_spec s (rle_string.rank s hi c - 1) c (by omega)
  refine ⟨p, h1, ?_, ?_⟩
  · by_contra hlt
    have := rank_mono s (p + 1) lo c (by omega)
    omega
  · by_contra hlt
    have := rank_mono s hi p c (by omega)
    omega

/-! ## The range step -/

theorem pairsum_add (g g1 g2 : Nat → List Nat → Bool) (x : Nat) (w : List Nat)
    (h : ∀ y s, (if g y s then 1 else 0) = (if g1 y s then 1 else 0) + (if g2 y s then 1 else 0)) :
    pairsum g x w = pairsum g1 x w + pairsum g2 x w := by
  induction w generalizing x with
  | nil => rfl
  | cons a s ih =>
    simp only [pairsum]
    rw [h, ih a]; omega

theorem pairsum_zero (G : List Nat → Bool) (h : Nat → Bool) (x : Nat) (w : List Nat)
    (hx : h x = false) (hw : ∀ y ∈ w, h y = false) :
    pairsum (fun y s => G s && h y) x w = 0 := by
  induction w generalizing x with
  | nil => rfl
  | cons a s ih =>
    simp only [pairsum]
    rw [ih a (hw a (List.mem_cons_self _ _)) (fun y hy => hw y (List.mem_cons_of_mem _ hy))]
    simp [hx]

/-- The symbols of rows `[lo, hi)` of the range of `P` that equal `c`. -/
theorem rank_range (w P : List Nat) (c : Nat) :
    rle_string.rank (bwt_of w) (rows_below true w P) c
      = rle_string.rank (bwt_of w) (rows_below false w P) c
        + pairsum (fun x s => decide (P <+: s) && x == c) TERMINATOR w := by
  rw [rank_rows_below, rank_rows_below]
  apply pairsum_add
  intro y s
  have h1 := prefix_iff_below s P
  have h2 := below_false_true s P
  by_cases h3 : below false s P = true
  · have h4 : ¬ P <+: s := fun h => by rw [(h1.mp h).2] at h3; exact Bool.false_ne_true h3
    simp [h3, h2 h3, h4]
  · by_cases h5 : below true s P = true
    · have h4 : P <+: s := h1.mpr ⟨h5, by simpa using h3⟩
      simp [h3, h5, h4]
    · have h4 : ¬ P <+: s := fun h => h5 (h1.mp h).1
      simp [h3, h5, h4]

theorem rows_below_le (w P : List Nat) : rows_below false w P ≤ rows_below true w P := by
  rw [rows_below_true]; omega

/-- The size of the range that the range step returns, in every case. -/
theorem range_LF_size (F : List Nat) (n : Nat) (w P : List Nat) (c : Nat) (hc : c ≤ 254)
    (hF : ∀ a, a ≤ 255 → F.getD a 0 = (bwt_of w).countP (fun x => decide (x < a)))
    (hne : rows_below false w P < rows_below true w P) :
    ((range_LF F n (bwt_of w) (pattern_range w P) c).2 + 1)
        - (range_LF F n (bwt_of w) (pattern_range w P) c).1
      = rle_string.rank (bwt_of w) (rows_below true w P) c
        - rle_string.rank (bwt_of w) (rows_below false w P) c := by
  have hF1 : F.getD (c + 1) 0 = F.getD c 0 + (bwt_of w).count c := by
    rw [hF c (by omega), hF (c + 1) (by omega), countP_lt_succ]
  have hm := rank_mono (bwt_of w) _ _ c (rows_below_le w P)
  have hr := rank_le_count (bwt_of w) (rows_below true w P) c
  have hhi : rows_below true w P - 1 + 1 = rows_below true w P := by omega
  unfold range_LF pattern_range
  simp only [hhi]
  by_cases hg : ((decide (c = 255) && decide (F.getD c 0 = n))
      || decide (F.getD c 0 ≥ F.getD (c + 1) 0)) = true
  · rw [if_pos hg]
    have : (bwt_of w).count c = 0 := by
      simp only [Bool.or_eq_true, Bool.and_eq_true, decide_eq_true_eq] at hg
      rcases hg with ⟨h1, _⟩ | h2
      · omega
      · omega
    simp only []
    omega
  · rw [if_neg hg]
    by_cases h0 : rle_string.rank (bwt_of w) (rows_below true w P) c
        - rle_string.rank (bwt_of w) (rows_below false w P) c = 0
    · rw [if_pos h0]; simp only []; omega
    · rw [if_neg h0]; simp only []; omega

/-- The range step maps the range of `P` to the range of `cP` (or to the empty
range when `cP` does not occur). -/
theorem range_LF_pattern (F : List Nat) (n : Nat) (w P : List Nat) (c : Nat)
    (hw : w.getLast? = some 0) (hc2 : 2 ≤ c) (hc : c ≤ 254)
    (hF : ∀ a, a ≤ 255 → F.getD a 0 = (bwt_of w).countP (fun x => decide (x < a)))
    (hne : rows_below false w P < rows_below true w P) :
    range_LF F n (bwt_of w) (pattern_range w P) c
      = if rows_below false w (c :: P) < rows_below true w (c :: P) then pattern_range w (c :: P)
        else (1, 0) := by
  have hF1 : F.getD (c + 1) 0 = F.getD c 0 + (bwt_of w).count c := by
    rw [hF c (by omega), hF (c + 1) (by omega), countP_lt_succ]
  have hm := rank_mono (bwt_of w) _ _ c (rows_below_le w P)
  have hr := rank_le_count (bwt_of w) (rows_below true w P) c
  have hhi : rows_below true w P - 1 + 1 = rows_below true w P := by omega
  have hlo := rows_below_cons false w P c hw hc2
  have hhi2 := rows_below_cons true w P c hw hc2
  rw [← hF c (by omega)] at hlo hhi2
  unfold range_LF pattern_range
  simp only [hhi]
  by_cases hg : ((decide (c = 255) && decide (F.getD c 0 = n))
      || decide (F.getD c 0 ≥ F.getD (c + 1) 0)) = true
  · rw [if_pos hg]
    have : (bwt_of w).count c = 0 := by
      simp only [Bool.or_eq_true, Bool.and_eq_true, decide_eq_true_eq] at hg
      rcases hg with ⟨h1, _⟩ | h2
      · omega
      · omega
    rw [if_neg (by omega)]
  · rw [if_neg hg]
    by_cases h0 : rle_string.rank (bwt_of w) (rows_below true w P) c
        - rle_string.rank (bwt_of w) (rows_below false w P) c = 0
    · rw [if_pos h0, if_neg (by omega)]
    · rw [if_neg h0, if_pos (by omega)]
      rw [hlo, hhi2]
      congr 1
      omega

/-! ## Synchronising the range of the reversed pattern -/

theorem accumulate_smaller_one (lf : Nat → range_t) : accumulate_smaller lf 1 = 0 := rfl

theorem accumulate_smaller_succ (lf : Nat → range_t) (c : Nat) (hc : 1 ≤ c) :
    accumulate_smaller lf (c + 1) = accumulate_smaller lf c + (((lf c).2 + 1) - (lf c).1) := by
  unfold accumulate_smaller
  have h1 : c + 1 - 1 = (c - 1) + 1 := by omega
  have h2 : 1 + (c - 1) = c := by omega
  rw [h1, List.range'_1_concat, List.foldl_append, h2]
  rfl

theorem pairsum_terminator (G : List Nat → Bool) (w : List Nat) (hw : ∀ y ∈ w, y ≠ TERMINATOR) :
    pairsum (fun x s => G s && x == 1) TERMINATOR w
      = if w ≠ [] ∧ G w = true then 1 else 0 := by
  cases w with
  | nil => simp [pairsum]
  | cons a s =>
    simp only [pairsum]
    rw [pairsum_zero G (fun y => y == 1) a s
      (by simpa [TERMINATOR] using hw a (List.mem_cons_self _ _))
      (fun y hy => by simpa [TERMINATOR] using hw y (List.mem_cons_of_mem _ hy))]
    by_cases h : G (a :: s) = true <;> simp [h, TERMINATOR]

/-- The width of the range of the reversed pattern in the reversed text. -/
theorem rows_below_reverse_width (t X : List Nat) (hX : 0 ∉ X) :
    rows_below true (t.reverse ++ [0]) X.reverse
      = rows_below false (t.reverse ++ [0]) X.reverse
        + (rows_below true (t ++ [0]) X - rows_below false (t ++ [0]) X) := by
  rw [rows_below_true (t.reverse ++ [0]), rows_below_true (t ++ [0]), occurrences_reverse X t hX]
  omega

/-- The accumulated sizes of the ranges of `aP`, `a < c`, shift the first row of
the range of the reversed pattern to that of the reversed `cP`. -/
theorem accumulate_smaller_spec (F : List Nat) (n : Nat) (t P : List Nat) (c : Nat)
    (hc2 : 2 ≤ c) (hc : c ≤ 255) (ht : ∀ x ∈ t, 2 ≤ x) (hP : 0 ∉ P)
    (hF : ∀ a, a ≤ 255 → F.getD a 0 = (bwt_of (t ++ [0])).countP (fun x => decide (x < a)))
    (hne : rows_below false (t ++ [0]) P < rows_below true (t ++ [0]) P) :
    rows_below false (t.reverse ++ [0]) P.reverse
        + accumulate_smaller (fun a => range_LF F n (bwt_of (t ++ [0])) (pattern_range (t ++ [0]) P) a) c
      = rows_below false (t.reverse ++ [0]) (P.reverse ++ [c]) := by
  have hw : (t ++ [0]).getLast? = some 0 := by simp
  have hwR : (t.reverse ++ [0]).getLast? = some 0 := by simp
  have ht0 : 0 ∉ t := fun h => by have := ht 0 h; omega
  have ht1 : TERMINATOR ∉ t := fun h => by have := ht _ h; unfold TERMINATOR at this; omega
  induction c, hc2 using Nat.le_induction with
  | base =>
    rw [show (2 : Nat) = 1 + 1 from rfl, accumulate_smaller_succ _ 1 (le_refl _),
      accumulate_smaller_one, Nat.zero_add,
      range_LF_size F n (t ++ [0]) P 1 (by omega) hF hne, rank_range,
      pairsum_terminator (fun s => decide (P <+: s)) (t ++ [0]) (by
        intro y hy
        rcases List.mem_append.mp hy with h | h
        · exact fun e => ht1 (e ▸ h)
        · rw [List.mem_singleton] at h; rw [h]; unfold TERMINATOR; omega)]
    have a1 : rows_below false (t.reverse ++ [0]) (P.reverse ++ [2])
        = rows_below true (t.reverse ++ [0]) (P.reverse ++ [1]) :=
      rows_below_append_succ (t.reverse ++ [0]) P.reverse 1
    have a2 := rows_below_true (t.reverse ++ [0]) (P.reverse ++ [1])
    have a3 : rows_below false (t.reverse ++ [0]) (P.reverse ++ [1])
        = rows_below true (t.reverse ++ [0]) (P.reverse ++ [0]) :=
      rows_below_append_succ (t.reverse ++ [0]) P.reverse 0
    have a4 := rows_below_true (t.reverse ++ [0]) (P.reverse ++ [0])
    have a5 := rows_below_append_zero (t.reverse ++ [0]) P.reverse hwR (by simpa using hP)
    have a6 := tailsum_prefix_terminated P.reverse t.reverse (by simpa using ht0)
    have a7 := tailsum_prefix_absent (t.reverse ++ [0]) (P.reverse ++ [1]) 1 (by simp)
        (by
          intro h
          rcases List.mem_append.mp h with h | h
          · exact ht1 (by simpa using h)
          · simp at h)
    have e1 : P.reverse <:+ t.reverse ↔ P <+: t := List.reverse_suffix
    have e2 : P <+: t ++ [0] ↔ P <+: t := prefix_append_zero_iff P t hP
    rw [a1, a2, a3, a4, a5, a6, a7]
    by_cases h : P <+: t
    · simp [e1, e2, h]
    · simp [e1, e2, h]
  | succ c hc2 ih =>
    have ih := ih (by omega)
    rw [accumulate_smaller_succ _ c (by omega), range_LF_size F n (t ++ [0]) P c (by omega) hF hne,
      ← Nat.add_assoc, ih, rows_below_append_succ, rows_below_true (t.reverse ++ [0])]
    have h1 := rows_below_cons false (t ++ [0]) P c hw hc2
    have h2 := rows_below_cons true (t ++ [0]) P c hw hc2
    have h3 := rows_below_true (t ++ [0]) (c :: P)
    have h4 := occurrences_reverse (c :: P) t (by
      intro h
      rcases List.mem_cons.mp h with h | h
      · omega
      · exact hP h)
    rw [List.reverse_cons] at h4
    rw [h4]
    omega

/-! ## The constructed index -/

/-- What the constructor returns, table by table (those that the range
queries read) and the initial query state. -/
theorem construct_ok (T : List Nat) (I : br_index_naive)
    (h : br_index_naive.construct T = Except.ok I) :
    T ≠ [] ∧
    ∃ freqs sigma, scan_alphabet T (List.replicate 256 0) 1 = some (freqs, sigma) ∧
      I.remap = (build_remap freqs).1 ∧ I.sigma = sigma ∧
      I.bwt = bwt_of (I.text T) ∧ I.bwtR = bwt_of (I.text T.reverse) ∧
      I.F = build_F I.bwt ∧
      I.range = (0, I.bwt.length - 1) ∧ I.rangeR = (0, I.bwt.length - 1) ∧ I.len = 0 ∧
      I.p = 0 ∧ I.j = I.bwt.length - 1 ∧ I.d = 0 ∧ I.pR = 0 ∧ I.jR = 0 ∧ I.dR = 0 := by
  unfold br_index_naive.construct at h
  split at h
  · exact absurd h (by simp)
  · rename_i hlen
    split at h
    · exact absurd h (by simp)
    · rename_i freqs sigma hscan
      refine ⟨by intro e; rw [e] at hlen; simp at hlen, freqs, sigma, hscan, ?_⟩
      injection h with h
      have e1 := congrArg br_index_naive.remap h
      have e2 := congrArg br_index_naive.sigma h
      have e3 := congrArg br_index_naive.bwt h
      have e4 := congrArg br_index_naive.bwtR h
      have e5 := congrArg br_index_naive.F h
      have e6 := congrArg br_index_naive.range h
      have e7 := congrArg br_index_naive.rangeR h
      have e8 := congrArg br_index_naive.len h
      have e9 := congrArg br_index_naive.p h
      have e10 := congrArg br_index_naive.j h
      have e11 := congrArg br_index_naive.d h
      have e12 := congrArg br_index_naive.pR h
      have e13 := congrArg br_index_naive.jR h
      have e14 := congrArg br_index_naive.dR h
      dsimp only at e1 e2 e3 e4 e5 e6 e7 e8 e9 e10 e11 e12 e13 e14
      rw [sufsort_bwt_s] at e3 e4 e5 e6 e7 e10
      unfold br_index_naive.text
      rw [← e1, ← e3, ← e5, ← e6, ← e7, ← e10]
      exact ⟨rfl, e2.symm, rfl, e4.symm, rfl, rfl, rfl, e8.symm, e9.symm, rfl,
        e11.symm, e12.symm, e13.symm, e14.symm⟩

theorem bytes_below_le_dedup (T freqs : List Nat) (hf : ∀ c, freqs.getD c 0 = T.count c)
    (x : Nat) : bytes_below freqs x ≤ T.dedup.length := by
  unfold bytes_below
  rw [List.countP_eq_length_filter]
  apply List.Subperm.length_le
  apply List.subperm_of_subset
  · exact (List.nodup_range' _ _).filter _
  · intro y hy
    rw [List.mem_filter] at hy
    rw [List.mem_dedup]
    have := hy.2
    rw [hf] at this
    simp only [ne_eq, decide_not, Bool.not_eq_true', decide_eq_false_iff_not] at this
    exact List.count_pos_iff.mp (Nat.pos_of_ne_zero this)

/-- The tables of a constructed index of a valid text. -/
theorem construct_indexes (T : List Nat) (I : br_index_naive) (hT : valid_text T)
    (h : br_index_naive.construct T = Except.ok I) : I.indexes T := by
  obtain ⟨_, freqs, sigma, hscan, hremap, _, hbwt, hbwtR, hF, _⟩ := construct_ok T I h
  have hbytes : ∀ b ∈ T, b < 256 := fun b hb => (hT.2 b hb).2
  have hf : ∀ c, freqs.getD c 0 = T.count c := by
    by_cases hlt : 1 + fresh_bytes T (List.replicate 256 0) < 255
    · obtain ⟨f, e1, _, e3⟩ := scan_alphabet_some T hbytes (List.replicate 256 0)
        (List.length_replicate _ _) 1 hlt
      rw [hscan] at e1
      injection e1 with e1
      injection e1 with e1 _
      intro c
      rw [e1, e3, getD_replicate_zero, Nat.zero_add]
    · have := scan_alphabet_none T hbytes (List.replicate 256 0) (List.length_replicate _ _) 1
        (by omega) (by omega)
      rw [hscan] at this
      exact absurd this (by simp)
  have hd : T.dedup.length ≤ 253 := by
    by_contra hlt
    have := scan_alphabet_none T hbytes (List.replicate 256 0) (List.length_replicate _ _) 1
      (by omega) (by rw [fresh_bytes_zero]; omega)
    rw [hscan] at this
    exact absurd this (by simp)
  have hval : ∀ b ∈ T, I.remap.getD b 0 = 2 + bytes_below freqs b ∧ bytes_below freqs b ≤ 252 := by
    intro b hb
    have h2 := hT.2 b hb
    have hnz : freqs.getD b 0 ≠ 0 := by
      rw [hf]; exact Nat.pos_iff_ne_zero.mp (List.count_pos_iff.mpr hb)
    have hs := bytes_below_succ freqs b h2.1
    rw [if_pos hnz] at hs
    have hle := bytes_below_le_dedup T freqs hf (b + 1)
    rw [hremap, build_remap_getD, if_pos ⟨h2.1, h2.2, hnz⟩]
    exact ⟨Nat.mod_eq_of_lt (by omega), by omega⟩
  refine ⟨fun b hb => ?_, fun c hc => ?_, fun a ha b hb hab => ?_, hbwt, hbwtR, fun a ha => ?_⟩
  · have := hval b hb; omega
  · rw [hremap, build_remap_getD, if_neg]
    rintro ⟨_, _, h3⟩
    rw [hf] at h3
    exact h3 (List.count_eq_zero.mpr hc)
  · have h1 := hval a ha
    have h2 := hval b hb
    have hnza : freqs.getD a 0 ≠ 0 := by
      rw [hf]; exact Nat.pos_iff_ne_zero.mp (List.count_pos_iff.mpr ha)
    have hnzb : freqs.getD b 0 ≠ 0 := by
      rw [hf]; exact Nat.pos_iff_ne_zero.mp (List.count_pos_iff.mpr hb)
    have hsa := bytes_below_succ freqs a (hT.2 a ha).1
    have hsb := bytes_below_succ freqs b (hT.2 b hb).1
    rw [if_pos hnza] at hsa
    rw [if_pos hnzb] at hsb
    rcases Nat.lt_trichotomy a b with hlt | heq | hgt
    · have := bytes_below_mono freqs (a + 1) b (by have := (hT.2 a ha).1; omega) (by omega)
      omega
    · exact heq
    · have := bytes_below_mono freqs (b + 1) a (by have := (hT.2 b hb).1; omega) (by omega)
      omega
  · rw [hF, build_F_getD _ _ ha]

/-! ## The shape of the extension primitives -/

theorem LF_eq_range_LF (I : br_index_naive) (rn : range_t) (c : Nat) :
    I.LF rn c = range_LF I.F (rle_string.size I.bwt) I.bwt rn c := rfl

theorem LFR_eq_range_LF (I : br_index_naive) (rn : range_t) (c : Nat) :
    I.LFR rn c = range_LF I.F (rle_string.size I.bwt) I.bwtR rn c := rfl

/-- The range step returns `(1, 0)` or a non-empty range. -/
theorem range_LF_empty (F : List Nat) (n : Nat) (bwt : List Nat) (rn : range_t) (c : Nat) :
    range_LF F n bwt rn c = (1, 0) ∨
      (range_LF F n bwt rn c).1 ≤ (range_LF F n bwt rn c).2 := by
  simp only [range_LF]
  split_ifs with h1 h2
  · left; rfl
  · left; rfl
  · right; simp only []; omega

/-- A call of `left_extension` that finds no match: only `range` changes. -/
theorem left_extension_empty (I : br_index_naive) (c_orig : Nat)
    (h : (I.LF I.range (I.remap.getD c_orig 0)).1 > (I.LF I.range (I.remap.getD c_orig 0)).2) :
    I.left_extension c_orig
      = some ((1, 0), { I with range := I.LF I.range (I.remap.getD c_orig 0) }) := by
  unfold br_index_naive.left_extension
  simp only []
  rw [if_pos h]

/-- A call of `right_extension` that finds no match: only `rangeR` changes. -/
theorem right_extension_empty (I : br_index_naive) (c_orig : Nat)
    (h : (I.LFR I.rangeR (I.remap.getD c_orig 0)).1 > (I.LFR I.rangeR (I.remap.getD c_orig 0)).2) :
    I.right_extension c_orig
      = some ((1, 0), { I with rangeR := I.LFR I.rangeR (I.remap.getD c_orig 0) }) := by
  unfold br_index_naive.right_extension
  simp only []
  rw [if_pos h]

/-- A call of `left_extension` that finds a match, when the preceding range holds
the symbol (so that the assertions of the anchor refresh hold). -/
theorem left_extension_match (I : br_index_naive) (c_orig : Nat)
    (h : (I.LF I.range (I.remap.getD c_orig 0)).1 ≤ (I.LF I.range (I.remap.getD c_orig 0)).2)
    (hr : rle_string.rank I.bwt I.range.1 (I.remap.getD c_orig 0)
      < rle_string.rank I.bwt (I.range.2 + 1) (I.remap.getD c_orig 0)) :
    ∃ J, I.left_extension c_orig = some (I.LF I.range (I.remap.getD c_orig 0), J) ∧
      J.range = I.LF I.range (I.remap.getD c_orig 0) ∧
      J.rangeR = (I.rangeR.1
          + accumulate_smaller (fun a => I.LF I.range a) (I.remap.getD c_orig 0),
        I.rangeR.1 + accumulate_smaller (fun a => I.LF I.range a) (I.remap.getD c_orig 0)
          + (I.LF I.range (I.remap.getD c_orig 0)).2 - (I.LF I.range (I.remap.getD c_orig 0)).1) ∧
      J.len = I.len + 1 ∧ I.same_tables J := by
  obtain ⟨p, hsel, hp1, hp2⟩ := select_last_in_range I.bwt I.range.1 (I.range.2 + 1) _ hr
  have hrnk : ¬ rle_string.rank I.bwt (I.range.2 + 1) (I.remap.getD c_orig 0) = 0 := by omega
  unfold br_index_naive.left_extension
  simp only []
  rw [if_neg (by omega)]
  by_cases h1 : I.range.2 - I.range.1
      ≠ (I.LF I.range (I.remap.getD c_orig 0)).2 - (I.LF I.range (I.remap.getD c_orig 0)).1
  · rw [if_pos h1, if_neg hrnk, hsel]
    simp only []
    rw [if_pos ⟨hp1, by omega⟩]
    exact ⟨_, rfl, rfl, rfl, rfl, by simp [br_index_naive.same_tables]⟩
  · rw [if_neg h1]
    exact ⟨_, rfl, rfl, rfl, rfl, by simp [br_index_naive.same_tables]⟩

/-- A call of `right_extension` that finds a match. -/
theorem right_extension_match (I : br_index_naive) (c_orig : Nat)
    (h : (I.LFR I.rangeR (I.remap.getD c_orig 0)).1 ≤ (I.LFR I.rangeR (I.remap.getD c_orig 0)).2)
    (hr : rle_string.rank I.bwtR I.rangeR.1 (I.remap.getD c_orig 0)
      < rle_string.rank I.bwtR (I.rangeR.2 + 1) (I.remap.getD c_orig 0)) :
    ∃ J, I.right_extension c_orig
        = some ((I.range.1
            + accumulate_smaller (fun a => I.LFR I.rangeR a) (I.remap.getD c_orig 0),
          I.range.1 + accumulate_smaller (fun a => I.LFR I.rangeR a) (I.remap.getD c_orig 0)
            + (I.LFR I.rangeR (I.remap.getD c_orig 0)).2
            - (I.LFR I.rangeR (I.remap.getD c_orig 0)).1), J) ∧
      J.rangeR = I.LFR I.rangeR (I.remap.getD c_orig 0) ∧
      J.range = (I.range.1
          + accumulate_smaller (fun a => I.LFR I.rangeR a) (I.remap.getD c_orig 0),
        I.range.1 + accumulate_smaller (fun a => I.LFR I.rangeR a) (I.remap.getD c_orig 0)
          + (I.LFR I.rangeR (I.remap.getD c_orig 0)).2
          - (I.LFR I.rangeR (I.remap.getD c_orig 0)).1) ∧
      J.len = I.len + 1 ∧ I.same_tables J := by
  obtain ⟨p, hsel, hp1, hp2⟩ := select_last_in_range I.bwtR I.rangeR.1 (I.rangeR.2 + 1) _ hr
  have hrnk : ¬ rle_string.rank I.bwtR (I.rangeR.2 + 1) (I.remap.getD c_orig 0) = 0 := by omega
  unfold br_index_naive.right_extension
  simp only []
  rw [if_neg (by omega)]
  by_cases h1 : I.rangeR.2 - I.rangeR.1
      ≠ (I.LFR I.rangeR (I.remap.getD c_orig 0)).2 - (I.LFR I.rangeR (I.remap.getD c_orig 0)).1
  · rw [if_pos h1, if_neg hrnk, hsel]
    simp only []
    rw [if_pos ⟨hp1, by omega⟩]
    exact ⟨_, rfl, rfl, rfl, rfl, by simp [br_index_naive.same_tables]⟩
  · rw [if_neg h1]
    exact ⟨_, rfl, rfl, rfl, rfl, by simp [br_index_naive.same_tables]⟩

/-! ## One step of the bidirectional search -/

theorem getLast_append_zero (t : List Nat) : (t ++ [0]).getLast? = some 0 := by simp

theorem countP_bwt_of_reverse (h : Nat → Bool) (t : List Nat) :
    (bwt_of (t.reverse ++ [0])).countP h = (bwt_of (t ++ [0])).countP h := by
  have h1 := pairsum_symbol h TERMINATOR (t ++ [0])
  have h2 := pairsum_symbol h TERMINATOR (t.reverse ++ [0])
  rw [countP_bwt_of, countP_bwt_of]
  rw [getLast_append_zero] at h1 h2
  simp only [Option.getD_some, List.countP_append, List.countP_reverse] at h1 h2
  omega

/-- The range step on the range of `P`, together with the update of the range
of the reversed pattern, when `cP` occurs. -/
theorem step_ranges (F : List Nat) (n : Nat) (t P : List Nat) (c : Nat)
    (hc2 : 2 ≤ c) (hc : c ≤ 254) (ht : ∀ x ∈ t, 2 ≤ x) (hP : 0 ∉ P)
    (hF : ∀ a, a ≤ 255 → F.getD a 0 = (bwt_of (t ++ [0])).countP (fun x => decide (x < a)))
    (hne : rows_below false (t ++ [0]) P < rows_below true (t ++ [0]) P)
    (hocc : rows_below false (t ++ [0]) (c :: P) < rows_below true (t ++ [0]) (c :: P)) :
    range_LF F n (bwt_of (t ++ [0])) (pattern_range (t ++ [0]) P) c
        = pattern_range (t ++ [0]) (c :: P) ∧
    (pattern_range (t ++ [0]) (c :: P)).1 ≤ (pattern_range (t ++ [0]) (c :: P)).2 ∧
    rle_string.rank (bwt_of (t ++ [0])) (pattern_range (t ++ [0]) P).1 c
      < rle_string.rank (bwt_of (t ++ [0])) ((pattern_range (t ++ [0]) P).2 + 1) c ∧
    ((pattern_range (t.reverse ++ [0]) P.reverse).1
        + accumulate_smaller
          (fun a => range_LF F n (bwt_of (t ++ [0])) (pattern_range (t ++ [0]) P) a) c,
      (pattern_range (t.reverse ++ [0]) P.reverse).1
        + accumulate_smaller
          (fun a => range_LF F n (bwt_of (t ++ [0])) (pattern_range (t ++ [0]) P) a) c
        + (pattern_range (t ++ [0]) (c :: P)).2 - (pattern_range (t ++ [0]) (c :: P)).1)
      = pattern_range (t.reverse ++ [0]) (P.reverse ++ [c]) ∧
    rows_below false (t.reverse ++ [0]) (P.reverse ++ [c])
      < rows_below true (t.reverse ++ [0]) (P.reverse ++ [c]) := by
  have hw : (t ++ [0]).getLast? = some 0 := by simp
  have hcP : 0 ∉ c :: P := by
    intro h
    rcases List.mem_cons.mp h with h | h
    · omega
    · exact hP h
  have h1 := range_LF_pattern F n (t ++ [0]) P c hw hc2 hc hF hne
  rw [if_pos hocc] at h1
  have h2 := accumulate_smaller_spec F n t P c hc2 (by omega) ht hP hF hne
  have h3 := rows_below_reverse_width t (c :: P) hcP
  rw [List.reverse_cons] at h3
  have h4 := rows_below_cons false (t ++ [0]) P c hw hc2
  have h5 := rows_below_cons true (t ++ [0]) P c hw hc2
  refine ⟨h1, ?_, ?_, ?_, ?_⟩
  · simp only [pattern_range]; omega
  · simp only [pattern_range]
    have : rows_below true (t ++ [0]) P - 1 + 1 = rows_below true (t ++ [0]) P := by omega
    rw [this]; omega
  · simp only [pattern_range] at h2 ⊢
    rw [h2, h3]
    congr 1
    omega
  · omega

/-- The range step on the range of `P` when `cP` does not occur. -/
theorem step_ranges_empty (F : List Nat) (n : Nat) (t P : List Nat) (c : Nat)
    (hc2 : 2 ≤ c) (hc : c ≤ 254)
    (hF : ∀ a, a ≤ 255 → F.getD a 0 = (bwt_of (t ++ [0])).countP (fun x => decide (x < a)))
    (hne : rows_below false (t ++ [0]) P < rows_below true (t ++ [0]) P)
    (hocc : ¬ rows_below false (t ++ [0]) (c :: P) < rows_below true (t ++ [0]) (c :: P)) :
    range_LF F n (bwt_of (t ++ [0])) (pattern_range (t ++ [0]) P) c = (1, 0) := by
  have h1 := range_LF_pattern F n (t ++ [0]) P c (by simp) hc2 hc hF hne
  rw [if_neg hocc] at h1
  exact h1

/-- No BWT symbol is below 1: `F[0] = F[1] = 0`. -/
theorem F_zero_one (F : List Nat) (t : List Nat) (ht : ∀ x ∈ t, 2 ≤ x)
    (hF : ∀ a, a ≤ 255 → F.getD a 0 = (bwt_of (t ++ [0])).countP (fun x => decide (x < a))) :
    F.getD 0 0 = 0 ∧ F.getD 1 0 = 0 := by
  refine ⟨by rw [hF 0 (by omega)]; simp, ?_⟩
  rw [hF 1 (by omega), countP_bwt_of]
  have := pairsum_symbol (fun x => decide (x < 1)) TERMINATOR (t ++ [0])
  have hz : t.countP (fun x => decide (x < 1)) = 0 := by
    rw [List.countP_eq_zero]
    intro x hx
    have := ht x hx
    simp; omega
  rw [getLast_append_zero] at this
  simp only [Option.getD_some, List.countP_append, hz] at this
  have e1 : decide (0 < 1) = true := by decide
  have e2 : ¬ decide (TERMINATOR < 1) = true := by decide
  have e3 : List.countP (fun x => decide (x < 1)) [0] = 1 := by decide
  rw [if_pos e1, if_neg e2, e3] at this
  omega

/-- A symbol missing from the text: the guard of the range step answers. -/
theorem range_LF_zero (F : List Nat) (n : Nat) (t : List Nat) (bwt : List Nat) (rn : range_t)
    (ht : ∀ x ∈ t, 2 ≤ x)
    (hF : ∀ a, a ≤ 255 → F.getD a 0 = (bwt_of (t ++ [0])).countP (fun x => decide (x < a))) :
    range_LF F n bwt rn 0 = (1, 0) := by
  obtain ⟨h0, h1⟩ := F_zero_one F t ht hF
  unfold range_LF
  rw [if_pos]
  simp [-List.getD_eq_getElem?_getD, h0, h1]

/-! ## The extension primitives on a tracked pattern -/

theorem text_eq (I : br_index_naive) (T : List Nat) : I.text T = I.pattern T ++ [0] := rfl

theorem text_reverse (I : br_index_naive) (T : List Nat) :
    I.text T.reverse = (I.pattern T).reverse ++ [0] := by
  unfold br_index_naive.text remap_text br_index_naive.pattern
  rw [List.map_reverse]

theorem pattern_cons (I : br_index_naive) (c : Nat) (P : List Nat) :
    I.pattern (c :: P) = I.remap.getD c 0 :: I.pattern P := rfl

theorem pattern_append (I : br_index_naive) (c : Nat) (P : List Nat) :
    I.pattern (P ++ [c]) = I.pattern P ++ [I.remap.getD c 0] := by
  unfold br_index_naive.pattern
  rw [List.map_append]; rfl

theorem pattern_symbols (I : br_index_naive) (T P : List Nat) (hI : I.indexes T)
    (hP : ∀ b ∈ P, b ∈ T) : ∀ x ∈ I.pattern P, 2 ≤ x ∧ x ≤ 254 := by
  intro x hx
  unfold br_index_naive.pattern at hx
  rw [List.mem_map] at hx
  obtain ⟨b, hb, rfl⟩ := hx
  exact hI.1 b (hP b hb)

theorem pattern_no_zero (I : br_index_naive) (T P : List Nat) (hI : I.indexes T)
    (hP : ∀ b ∈ P, b ∈ T) : 0 ∉ I.pattern P := by
  intro h
  have := (pattern_symbols I T P hI hP 0 h).1
  omega

theorem indexes_same_tables (I J : br_index_naive) (T : List Nat) (hI : I.indexes T)
    (hs : I.same_tables J) : J.indexes T := by
  obtain ⟨h1, h2, h3, h4, h5, h6⟩ := hI
  obtain ⟨e1, _, _, e4, e5, _, _, _, e9, _⟩ := hs
  unfold br_index_naive.indexes br_index_naive.text
  rw [← e1, ← e4, ← e5, ← e9]
  exact ⟨h1, h2, h3, h4, h5, h6⟩

theorem same_tables_refl (I : br_index_naive) : I.same_tables I := by
  simp [br_index_naive.same_tables]

theorem same_tables_trans (I J K : br_index_naive) (h1 : I.same_tables J)
    (h2 : J.same_tables K) : I.same_tables K := by
  unfold br_index_naive.same_tables at *
  simp_all

theorem F_forward (I : br_index_naive) (T : List Nat) (hI : I.indexes T) :
    ∀ a, a ≤ 255 →
      I.F.getD a 0 = (bwt_of (I.pattern T ++ [0])).countP (fun x => decide (x < a)) := by
  intro a ha
  rw [hI.2.2.2.2.2 a ha, hI.2.2.2.1, text_eq]

theorem F_reverse (I : br_index_naive) (T : List Nat) (hI : I.indexes T) :
    ∀ a, a ≤ 255 →
      I.F.getD a 0 = (bwt_of ((I.pattern T).reverse ++ [0])).countP (fun x => decide (x < a)) := by
  intro a ha
  rw [F_forward I T hI a ha, countP_bwt_of_reverse]

/-- `left_extension(c)` on a tracked pattern `P` when `cP` occurs in the text. -/
theorem left_extension_tracks (I : br_index_naive) (T P : List Nat) (c_orig : Nat)
    (hI : I.indexes T) (hP : I.tracks T P) (hc : c_orig ∈ T)
    (hocc : rows_below false (I.text T) (I.pattern (c_orig :: P))
      < rows_below true (I.text T) (I.pattern (c_orig :: P))) :
    ∃ J, I.left_extension c_orig = some (J.range, J) ∧ J.range.1 ≤ J.range.2 ∧
      I.same_tables J ∧ J.tracks T (c_orig :: P) := by
  obtain ⟨hPT, hrange, hrangeR, hne, hlen⟩ := hP
  have hcv := hI.1 c_orig hc
  rw [text_eq] at hne hocc hrange
  rw [text_reverse] at hrangeR
  rw [pattern_cons] at hocc
  obtain ⟨s1, s2, s3, s4, s5⟩ := step_ranges I.F
    (rle_string.size (bwt_of (I.pattern T ++ [0]))) (I.pattern T)
    (I.pattern P) (I.remap.getD c_orig 0) hcv.1 hcv.2
    (fun x hx => (pattern_symbols I T T hI (fun _ h => h) x hx).1)
    (pattern_no_zero I T P hI hPT) (F_forward I T hI) hne hocc
  have hbwt : I.bwt = bwt_of (I.pattern T ++ [0]) := hI.2.2.2.1
  have hLF : I.LF I.range (I.remap.getD c_orig 0)
      = pattern_range (I.pattern T ++ [0]) (I.remap.getD c_orig 0 :: I.pattern P) := by
    rw [LF_eq_range_LF, hrange, hbwt]; exact s1
  obtain ⟨J, j1, j2, j3, j4, j5⟩ := left_extension_match I c_orig
    (by rw [hLF]; exact s2) (by rw [hrange, hbwt]; exact s3)
  have hrm : J.remap = I.remap := j5.1.symm
  refine ⟨J, by rw [j1, j2], by rw [j2, hLF]; exact s2, j5, ?_⟩
  unfold br_index_naive.tracks br_index_naive.text br_index_naive.pattern
  rw [hrm]
  refine ⟨?_, ?_, ?_, ?_, ?_⟩
  · intro b hb
    rcases List.mem_cons.mp hb with h | h
    · rw [h]; exact hc
    · exact hPT b h
  · rw [j2, hLF]; rfl
  · rw [j3, hLF, hrangeR]
    have : (fun a => I.LF I.range a)
        = (fun a => range_LF I.F (rle_string.size (bwt_of (I.pattern T ++ [0])))
            (bwt_of (I.pattern T ++ [0]))
            (pattern_range (I.pattern T ++ [0]) (I.pattern P)) a) := by
      funext a
      rw [LF_eq_range_LF, hrange, hbwt]
    rw [this, s4]
    show _ = pattern_range (I.text T.reverse) (I.pattern (c_orig :: P)).reverse
    rw [text_reverse, pattern_cons, List.reverse_cons]
  · exact hocc
  · rw [j4, hlen]; rfl

/-- `left_extension(c)` on a tracked pattern `P` when `cP` does not occur. -/
theorem left_extension_fails (I : br_index_naive) (T P : List Nat) (c_orig : Nat)
    (hI : I.indexes T) (hP : I.tracks T P)
    (hocc : ¬ (c_orig ∈ T ∧ rows_below false (I.text T) (I.pattern (c_orig :: P))
      < rows_below true (I.text T) (I.pattern (c_orig :: P)))) :
    I.left_extension c_orig = some ((1, 0), { I with range := (1, 0) }) := by
  obtain ⟨hPT, hrange, hrangeR, hne, hlen⟩ := hP
  have hbwt : I.bwt = bwt_of (I.pattern T ++ [0]) := hI.2.2.2.1
  rw [text_eq] at hne hocc hrange
  rw [pattern_cons] at hocc
  have hLF : I.LF I.range (I.remap.getD c_orig 0) = (1, 0) := by
    rw [LF_eq_range_LF]
    by_cases hc : c_orig ∈ T
    · have hcv := hI.1 c_orig hc
      rw [hrange, hbwt]
      exact step_ranges_empty I.F _ (I.pattern T) (I.pattern P) _ hcv.1 hcv.2
        (F_forward I T hI) hne (fun h => hocc ⟨hc, h⟩)
    · rw [hI.2.1 c_orig hc]
      exact range_LF_zero I.F _ (I.pattern T) _ _
        (fun x hx => (pattern_symbols I T T hI (fun _ h => h) x hx).1) (F_forward I T hI)
  rw [left_extension_empty I c_orig (by rw [hLF]; decide), hLF]

/-- `right_extension(c)` on a tracked pattern `P` when `Pc` occurs in the text. -/
theorem right_extension_tracks (I : br_index_naive) (T P : List Nat) (c_orig : Nat)
    (hI : I.indexes T) (hP : I.tracks T P) (hc : c_orig ∈ T)
    (hocc : rows_below false (I.text T) (I.pattern (P ++ [c_orig]))
      < rows_below true (I.text T) (I.pattern (P ++ [c_orig]))) :
    ∃ J, I.right_extension c_orig = some (J.range, J) ∧ J.range.1 ≤ J.range.2 ∧
      I.same_tables J ∧ J.tracks T (P ++ [c_orig]) := by
  obtain ⟨hPT, hrange, hrangeR, hne, hlen⟩ := hP
  have hcv := hI.1 c_orig hc
  have hP0 := pattern_no_zero I T P hI hPT
  have hPc0 : 0 ∉ I.pattern P ++ [I.remap.getD c_orig 0] := by
    intro h
    rcases List.mem_append.mp h with h | h
    · exact hP0 h
    · rw [List.mem_singleton] at h; omega
  rw [text_eq] at hne hocc hrange
  rw [text_reverse] at hrangeR
  rw [pattern_append] at hocc
  have w1 := rows_below_reverse_width (I.pattern T) (I.pattern P) hP0
  have w2 := rows_below_reverse_width (I.pattern T) (I.pattern P ++ [I.remap.getD c_orig 0]) hPc0
  rw [List.reverse_append, List.reverse_singleton, List.singleton_append] at w2
  obtain ⟨s1, s2, s3, s4, s5⟩ := step_ranges I.F (rle_string.size I.bwt) (I.pattern T).reverse
    (I.pattern P).reverse (I.remap.getD c_orig 0) hcv.1 hcv.2
    (fun x hx => (pattern_symbols I T T hI (fun _ h => h) x (List.mem_reverse.mp hx)).1)
    (fun h => hP0 (List.mem_reverse.mp h)) (F_reverse I T hI) (by omega) (by omega)
  rw [List.reverse_reverse, List.reverse_reverse] at s4 s5
  have hbwt : I.bwtR = bwt_of ((I.pattern T).reverse ++ [0]) := by
    rw [hI.2.2.2.2.1, text_reverse]
  have hLF : I.LFR I.rangeR (I.remap.getD c_orig 0)
      = pattern_range ((I.pattern T).reverse ++ [0])
          (I.remap.getD c_orig 0 :: (I.pattern P).reverse) := by
    rw [LFR_eq_range_LF, hrangeR, hbwt]; exact s1
  obtain ⟨J, j1, j2, j3, j4, j5⟩ := right_extension_match I c_orig
    (by rw [hLF]; exact s2) (by rw [hrangeR, hbwt]; exact s3)
  have hrm : J.remap = I.remap := j5.1.symm
  have hfun : (fun a => I.LFR I.rangeR a)
      = (fun a => range_LF I.F (rle_string.size I.bwt) (bwt_of ((I.pattern T).reverse ++ [0]))
          (pattern_range ((I.pattern T).reverse ++ [0]) (I.pattern P).reverse) a) := by
    funext a
    rw [LFR_eq_range_LF, hrangeR, hbwt]
  have hnew : J.range
      = pattern_range (I.pattern T ++ [0]) (I.pattern P ++ [I.remap.getD c_orig 0]) := by
    rw [j3, hLF, hrange, hfun, s4]
  refine ⟨J, by rw [j1, j3], ?_, j5, ?_⟩
  · rw [hnew]; simp only [pattern_range]; omega
  · unfold br_index_naive.tracks br_index_naive.text br_index_naive.pattern
    rw [hrm]
    refine ⟨?_, ?_, ?_, ?_, ?_⟩
    · intro b hb
      rcases List.mem_append.mp hb with h | h
      · exact hPT b h
      · rw [List.mem_singleton] at h; rw [h]; exact hc
    · rw [hnew]
      show _ = pattern_range (I.text T) (I.pattern (P ++ [c_orig]))
      rw [text_eq, pattern_append]
    · rw [j2, hLF]
      show _ = pattern_range (I.text T.reverse) (I.pattern (P ++ [c_orig])).reverse
      rw [text_reverse, pattern_append, List.reverse_append, List.reverse_singleton,
        List.singleton_append]
    · show rows_below false (I.text T) (I.pattern (P ++ [c_orig]))
        < rows_below true (I.text T) (I.pattern (P ++ [c_orig]))
      rw [text_eq, pattern_append]; exact hocc
    · rw [j4, hlen, List.length_append]; rfl

/-- `right_extension(c)` on a tracked pattern `P` when `Pc` does not occur. -/
theorem right_extension_fails (I : br_index_naive) (T P : List Nat) (c_orig : Nat)
    (hI : I.indexes T) (hP : I.tracks T P)
    (hocc : ¬ (c_orig ∈ T ∧ rows_below false (I.text T) (I.pattern (P ++ [c_orig]))
      < rows_below true (I.text T) (I.pattern (P ++ [c_orig])))) :
    I.right_extension c_orig = some ((1, 0), { I with rangeR := (1, 0) }) := by
  obtain ⟨hPT, hrange, hrangeR, hne, hlen⟩ := hP
  have hP0 := pattern_no_zero I T P hI hPT
  have hbwt : I.bwtR = bwt_of ((I.pattern T).reverse ++ [0]) := by
    rw [hI.2.2.2.2.1, text_reverse]
  rw [text_eq] at hne hocc hrange
  rw [text_reverse] at hrangeR
  rw [pattern_append] at hocc
  have w1 := rows_below_reverse_width (I.pattern T) (I.pattern P) hP0
  have hLF : I.LFR I.rangeR (I.remap.getD c_orig 0) = (1, 0) := by
    rw [LFR_eq_range_LF]
    by_cases hc : c_orig ∈ T
    · have hcv := hI.1 c_orig hc
      have hPc0 : 0 ∉ I.pattern P ++ [I.remap.getD c_orig 0] := by
        intro h
        rcases List.mem_append.mp h with h | h
        · exact hP0 h
        · rw [List.mem_singleton] at h; omega
      have w2 := rows_below_reverse_width (I.pattern T)
        (I.pattern P ++ [I.remap.getD c_orig 0]) hPc0
      rw [List.reverse_append, List.reverse_singleton, List.singleton_append] at w2
      rw [hrangeR, hbwt]
      exact step_ranges_empty I.F _ (I.pattern T).reverse (I.pattern P).reverse _ hcv.1 hcv.2
        (F_reverse I T hI) (by omega) (fun h => hocc ⟨hc, by omega⟩)
    · rw [hI.2.1 c_orig hc]
      exact range_LF_zero I.F _ (I.pattern T) _ _
        (fun x hx => (pattern_symbols I T T hI (fun _ h => h) x hx).1) (F_forward I T hI)
  rw [right_extension_empty I c_orig (by rw [hLF]; decide), hLF]

/-! ## Sequences of extensions -/

theorem tailsum_const_true (w : List Nat) : tailsum (fun _ => true) w = w.length := by
  induction w with
  | nil => rfl
  | cons a s ih => simp [tailsum, ih]; omega

theorem rows_below_nil_false (w : List Nat) : rows_below false w [] = 0 := by
  unfold rows_below
  rw [← tailsum_false w]
  exact tailsum_congr _ _ _ (fun s _ _ => by cases s <;> rfl)

theorem rows_below_nil_true (w : List Nat) : rows_below true w [] = w.length := by
  unfold rows_below
  rw [← tailsum_const_true w]
  exact tailsum_congr _ _ _ (fun s _ _ => by cases s <;> rfl)

/-- After `reset_pattern` the query state is that of the empty pattern. -/
theorem reset_pattern_tracks (I : br_index_naive) (T : List Nat) (hI : I.indexes T) :
    I.reset_pattern.indexes T ∧ I.reset_pattern.tracks T [] ∧ I.same_tables I.reset_pattern := by
  have hs : I.same_tables I.reset_pattern := by
    simp [br_index_naive.same_tables, br_index_naive.reset_pattern]
  have hlen : I.bwt.length = (I.pattern T).length + 1 := by
    rw [hI.2.2.2.1, bwt_of_length, text_eq, List.length_append]; rfl
  refine ⟨indexes_same_tables I _ T hI hs, ?_, hs⟩
  unfold br_index_naive.tracks
  have e1 : I.reset_pattern.text T = I.pattern T ++ [0] := rfl
  have e2 : I.reset_pattern.text T.reverse = (I.pattern T).reverse ++ [0] := text_reverse I T
  have e3 : I.reset_pattern.pattern [] = [] := rfl
  rw [e1, e2, e3]
  refine ⟨by simp, ?_, ?_, ?_, rfl⟩
  · simp only [pattern_range, rows_below_nil_false, rows_below_nil_true]
    show (0, I.bwt.length - 1) = _
    rw [hlen, List.length_append]; rfl
  · simp only [pattern_range, List.reverse_nil, rows_below_nil_false, rows_below_nil_true]
    show (0, I.bwt.length - 1) = _
    rw [hlen, List.length_append, List.length_reverse]; rfl
  · rw [rows_below_nil_false, rows_below_nil_true, List.length_append]
    simp

theorem extension_apply_ne_nil (P : List Nat) (op : extension) : extension.apply P op ≠ [] := by
  cases op <;> simp [extension.apply]

theorem infix_apply (P : List Nat) (op : extension) : P <:+: extension.apply P op := by
  cases op with
  | left c => exact (List.suffix_cons c P).isInfix
  | right c => exact (List.prefix_append P [c]).isInfix

theorem infix_foldl_apply (ops : List extension) (P : List Nat) :
    P <:+: ops.foldl extension.apply P := by
  induction ops generalizing P with
  | nil => exact List.infix_refl _
  | cons op ops ih => exact (infix_apply P op).trans (ih _)

theorem tailsum_pos_iff (G : List Nat → Bool) (w : List Nat) :
    0 < tailsum G w ↔ ∃ s, s <:+ w ∧ s ≠ [] ∧ G s = true := by
  induction w with
  | nil =>
    simp only [tailsum, Nat.lt_irrefl, false_iff]
    rintro ⟨s, hs, hne, _⟩
    exact hne (List.suffix_nil.mp hs)
  | cons a w ih =>
    rw [tailsum_cons]
    constructor
    · intro h
      by_cases hG : G (a :: w) = true
      · exact ⟨a :: w, List.suffix_refl _, List.cons_ne_nil _ _, hG⟩
      · rw [if_neg hG, Nat.zero_add] at h
        obtain ⟨s, hs, hne, hGs⟩ := ih.mp h
        exact ⟨s, hs.trans (List.suffix_cons a w), hne, hGs⟩
    · rintro ⟨s, hs, hne, hGs⟩
      rcases List.suffix_cons_iff.mp hs with h | h
      · rw [h] at hGs; rw [if_pos hGs]; omega
      · have := ih.mpr ⟨s, h, hne, hGs⟩
        omega

/-- A non-empty factor of an occurring pattern occurs. -/
theorem rows_below_infix (w X Y : List Nat) (hXY : X <:+: Y) (hX : X ≠ [])
    (hY : rows_below false w Y < rows_below true w Y) :
    rows_below false w X < rows_below true w X := by
  rw [rows_below_true] at hY ⊢
  have hpos : 0 < tailsum (fun s => decide (Y <+: s)) w := by omega
  obtain ⟨s, hs, _, hYs⟩ := (tailsum_pos_iff _ w).mp hpos
  obtain ⟨A, B, rfl⟩ := hXY
  obtain ⟨C, rfl⟩ := of_decide_eq_true hYs
  have : 0 < tailsum (fun s => decide (X <+: s)) w := by
    rw [tailsum_pos_iff]
    refine ⟨X ++ (B ++ C), ?_, by simp [hX], by simp⟩
    refine List.IsSuffix.trans ⟨A, ?_⟩ hs
    simp [List.append_assoc]
  omega

/-- Soundness: a run of successful extensions tracks the spelled pattern. -/
theorem extend_all_tracks (T : List Nat) (ops : List extension) :
    ∀ (I J : br_index_naive) (P : List Nat), I.indexes T → I.tracks T P →
      I.extend_all ops = some J →
      J.indexes T ∧ J.tracks T (ops.foldl extension.apply P) ∧ I.same_tables J := by
  induction ops with
  | nil =>
    intro I J P hI hP h
    simp only [br_index_naive.extend_all, Option.some.injEq] at h
    subst h
    exact ⟨hI, hP, same_tables_refl I⟩
  | cons op ops ih =>
    intro I J P hI hP h
    simp only [br_index_naive.extend_all] at h
    cases op with
    | left c =>
      by_cases hocc : c ∈ T ∧ rows_below false (I.text T) (I.pattern (c :: P))
          < rows_below true (I.text T) (I.pattern (c :: P))
      · obtain ⟨J1, e1, e2, e3, e4⟩ := left_extension_tracks I T P c hI hP hocc.1 hocc.2
        simp only [br_index_naive.extend, e1, if_pos e2] at h
        obtain ⟨r1, r2, r3⟩ := ih J1 J (c :: P) (indexes_same_tables I J1 T hI e3) e4 h
        exact ⟨r1, r2, same_tables_trans _ _ _ e3 r3⟩
      · have e1 := left_extension_fails I T P c hI hP hocc
        simp [br_index_naive.extend, e1] at h
    | right c =>
      by_cases hocc : c ∈ T ∧ rows_below false (I.text T) (I.pattern (P ++ [c]))
          < rows_below true (I.text T) (I.pattern (P ++ [c]))
      · obtain ⟨J1, e1, e2, e3, e4⟩ := right_extension_tracks I T P c hI hP hocc.1 hocc.2
        simp only [br_index_naive.extend, e1, if_pos e2] at h
        obtain ⟨r1, r2, r3⟩ := ih J1 J (P ++ [c]) (indexes_same_tables I J1 T hI e3) e4 h
        exact ⟨r1, r2, same_tables_trans _ _ _ e3 r3⟩
      · have e1 := right_extension_fails I T P c hI hP hocc
        simp [br_index_naive.extend, e1] at h

/-- Completeness: when the spelled pattern occurs, every extension of the run
succeeds. -/
theorem extend_all_complete (T : List Nat) (ops : List extension) :
    ∀ (I : br_index_naive) (P : List Nat), I.indexes T → I.tracks T P →
      (∀ b ∈ ops.foldl extension.apply P, b ∈ T) →
      rows_below false (I.text T) (I.pattern (ops.foldl extension.apply P))
        < rows_below true (I.text T) (I.pattern (ops.foldl extension.apply P)) →
      ∃ J, I.extend_all ops = some J := by
  induction ops with
  | nil => intro I P _ _ _ _; exact ⟨I, rfl⟩
  | cons op ops ih =>
    intro I P hI hP hQ hocc
    rw [List.foldl_cons] at hQ hocc
    have hinf := infix_foldl_apply ops (extension.apply P op)
    have hmem : ∀ b ∈ extension.apply P op, b ∈ T := fun b hb => hQ b (hinf.subset hb)
    have hocc1 : rows_below false (I.text T) (I.pattern (extension.apply P op))
        < rows_below true (I.text T) (I.pattern (extension.apply P op)) := by
      refine rows_below_infix _ _ _ (List.IsInfix.map _ hinf) ?_ hocc
      unfold br_index_naive.pattern
      intro h
      exact extension_apply_ne_nil P op (List.map_eq_nil_iff.mp h)
    simp only [br_index_naive.extend_all]
    cases op with
    | left c =>
      have hc : c ∈ T := hmem c (by simp [extension.apply])
      obtain ⟨J1, e1, e2, e3, e4⟩ := left_extension_tracks I T P c hI hP hc hocc1
      simp only [br_index_naive.extend, e1, if_pos e2]
      have hrm : J1.remap = I.remap := e3.1.symm
      refine ih J1 (c :: P) (indexes_same_tables I J1 T hI e3) e4 hQ ?_
      unfold br_index_naive.text br_index_naive.pattern
      rw [hrm]; exact hocc
    | right c =>
      have hc : c ∈ T := hmem c (by simp [extension.apply])
      obtain ⟨J1, e1, e2, e3, e4⟩ := right_extension_tracks I T P c hI hP hc hocc1
      simp only [br_index_naive.extend, e1, if_pos e2]
      have hrm : J1.remap = I.remap := e3.1.symm
      refine ih J1 (P ++ [c]) (indexes_same_tables I J1 T hI e3) e4 hQ ?_
      unfold br_index_naive.text br_index_naive.pattern
      rw [hrm]; exact hocc

/-! ## Naive search and the rows of a pattern -/

theorem map_injOn (r : Nat → Nat) (T : List Nat)
    (hinj : ∀ a ∈ T, ∀ b ∈ T, r a = r b → a = b) :
    ∀ A B : List Nat, (∀ a ∈ A, a ∈ T) → (∀ b ∈ B, b ∈ T) → A.map r = B.map r → A = B := by
  intro A
  induction A with
  | nil =>
    intro B _ _ h
    cases B with
    | nil => rfl
    | cons b B => simp at h
  | cons a A ih =>
    intro B hA hB h
    cases B with
    | nil => simp at h
    | cons b B =>
      simp only [List.map_cons, List.cons.injEq] at h
      rw [hinj a (hA a (List.mem_cons_self _ _)) b (hB b (List.mem_cons_self _ _)) h.1,
        ih B (fun x hx => hA x (List.mem_cons_of_mem _ hx))
          (fun x hx => hB x (List.mem_cons_of_mem _ hx)) h.2]

theorem tailsum_map (G : List Nat → Bool) (r : Nat → Nat) (T : List Nat) :
    tailsum G (T.map r) = tailsum (fun U => G (U.map r)) T := by
  induction T with
  | nil => rfl
  | cons a T ih => rw [List.map_cons, tailsum_cons, tailsum_cons, ih]; rfl

/-- The width of the range of a non-empty pattern is the number of its
occurrences found by naive search. -/
theorem occurrences_length (I : br_index_naive) (T P : List Nat) (hI : I.indexes T)
    (hP : ∀ b ∈ P, b ∈ T) (hne : P ≠ []) :
    (occurrences T P).length
      = rows_below true (I.text T) (I.pattern P) - rows_below false (I.text T) (I.pattern P) := by
  have hP0 := pattern_no_zero I T P hI hP
  have hPne : I.pattern P ≠ [] := by
    unfold br_index_naive.pattern
    intro h; exact hne (List.map_eq_nil_iff.mp h)
  rw [rows_below_true, text_eq, tailsum_prefix_append_zero _ _ hP0, if_neg hPne]
  unfold occurrences
  rw [← List.countP_eq_length_filter]
  have : (List.range T.length).countP (occurs_at T P)
      = tailsum (fun U => decide (U.take P.length = P)) T :=
    countP_range_drop (fun U => decide (U.take P.length = P)) T
  rw [this]
  unfold br_index_naive.pattern
  rw [tailsum_map]
  have key : tailsum (fun U => decide (U.take P.length = P)) T
      = tailsum (fun U => decide (List.map (fun b => I.remap.getD b 0) P
          <+: List.map (fun b => I.remap.getD b 0) U)) T := by
    apply tailsum_congr
    intro U hU _
    have hUT : ∀ b ∈ U, b ∈ T := fun b hb => hU.subset hb
    have : (U.take P.length = P) ↔ (List.map (fun b => I.remap.getD b 0) P
        <+: List.map (fun b => I.remap.getD b 0) U) := by
      rw [List.prefix_iff_eq_take, List.length_map, ← List.map_take]
      constructor
      · intro h; rw [h]
      · intro h
        exact (map_injOn _ T hI.2.2.1 P (U.take P.length) hP
          (fun b hb => hUT b (List.mem_of_mem_take hb)) h).symm
    simp only [this]
  omega

/-- Naive search finds nothing when a byte of the pattern is missing from the text. -/
theorem occurrences_subset (T P : List Nat) (o : Nat) (h : o ∈ occurrences T P) :
    ∀ b ∈ P, b ∈ T := by
  unfold occurrences at h
  rw [List.mem_filter] at h
  have := of_decide_eq_true h.2
  intro b hb
  rw [← this] at hb
  exact List.mem_of_mem_drop (List.mem_of_mem_take hb)

/-! ## Rows of the suffix array and positions of the text -/

/-- Row `x` of the suffix array lies before the boundary row of `P` exactly when
its suffix is below `P`. -/
theorem row_lt_rows_below (b : Bool) (w P : List Nat) (x : Nat) (hx : x < w.length) :
    x < rows_below b w P ↔ below b (w.drop ((construct_sa w).getD x 0)) P = true := by
  have hlen := construct_sa_length w
  have hx' : x < (construct_sa w).length := by omega
  have htake := take_rows_below b w P
  rw [List.getD_eq_getElem _ _ hx']
  constructor
  · intro h
    have hmem : (construct_sa w)[x] ∈ (construct_sa w).take (rows_below b w P) := by
      rw [List.mem_take_iff_getElem]
      exact ⟨x, by omega, rfl⟩
    rw [htake, List.mem_filter] at hmem
    exact hmem.2
  · intro h
    have hmem : (construct_sa w)[x] ∈ (construct_sa w).take (rows_below b w P) := by
      rw [htake, List.mem_filter]
      exact ⟨List.getElem_mem _, h⟩
    rw [List.mem_take_iff_getElem] at hmem
    obtain ⟨y, hy, hyx⟩ := hmem
    have := (List.Nodup.getElem_inj_iff (construct_sa_nodup w)).mp hyx
    omega

/-- The rows of the range of `P` are those whose suffix starts with `P`. -/
theorem mem_pattern_range (w P : List Nat) (x : Nat) (hx : x < w.length)
    (hne : rows_below false w P < rows_below true w P) :
    ((pattern_range w P).1 ≤ x ∧ x ≤ (pattern_range w P).2)
      ↔ P <+: w.drop ((construct_sa w).getD x 0) := by
  have h1 := row_lt_rows_below false w P x hx
  have h2 := row_lt_rows_below true w P x hx
  rw [prefix_iff_below]
  simp only [pattern_range]
  constructor
  · rintro ⟨a1, a2⟩
    refine ⟨h2.mp (by omega), ?_⟩
    by_contra hb
    have := h1.mpr (by simpa using hb)
    omega
  · rintro ⟨b1, b2⟩
    have := h2.mpr b1
    have hn : ¬ x < rows_below false w P := fun h => by
      rw [h1.mp h] at b2; exact Bool.noConfusion b2
    omega

/-- Naive search at position `i` of a text over the bytes of `T`, in terms of
the remapped text. -/
theorem occurs_at_iff (I : br_index_naive) (T U P : List Nat) (hI : I.indexes T)
    (hU : ∀ b ∈ U, b ∈ T) (hP : ∀ b ∈ P, b ∈ T) (i : Nat) (hi : i ≤ U.length) :
    occurs_at U P i = true ↔ I.pattern P <+: (I.text U).drop i := by
  have hP0 := pattern_no_zero I T P hI hP
  have hdrop : (I.text U).drop i = I.pattern (U.drop i) ++ [0] := by
    unfold br_index_naive.text remap_text br_index_naive.pattern
    rw [List.drop_append_of_le_length (by rw [List.length_map]; exact hi), List.map_drop]
  rw [hdrop, prefix_append_zero_iff _ _ hP0]
  unfold occurs_at br_index_naive.pattern
  rw [decide_eq_true_eq, List.prefix_iff_eq_take, List.length_map, ← List.map_take]
  constructor
  · intro h; rw [h]
  · intro h
    exact (map_injOn _ T hI.2.2.1 P ((U.drop i).take P.length) hP
      (fun b hb => hU b (List.mem_of_mem_drop (List.mem_of_mem_take hb))) h).symm

/-! ## Patterns spelled by calls -/

theorem spell_ne_nil (ops : List extension) (h : ops ≠ []) : spell ops ≠ [] := by
  cases ops with
  | nil => exact absurd rfl h
  | cons op ops =>
    unfold spell
    rw [List.foldl_cons]
    exact (infix_foldl_apply ops _).ne_nil (extension_apply_ne_nil [] op)

theorem foldl_left_extensions (P Q : List Nat) :
    (left_extensions P).foldl extension.apply Q = P ++ Q := by
  unfold left_extensions
  induction P with
  | nil => rfl
  | cons a P ih =>
    rw [List.reverse_cons, List.map_append, List.foldl_append, ih]
    rfl

theorem spell_left_extensions (P : List Nat) : spell (left_extensions P) = P := by
  unfold spell
  rw [foldl_left_extensions, List.append_nil]

/-- A pattern that naive search finds has a non-empty range. -/
theorem rows_of_occurrences (I : br_index_naive) (T P : List Nat) (hI : I.indexes T)
    (h : occurrences T P ≠ []) :
    (∀ b ∈ P, b ∈ T) ∧
      rows_below false (I.text T) (I.pattern P) < rows_below true (I.text T) (I.pattern P) := by
  obtain ⟨o, ho⟩ := List.exists_mem_of_ne_nil _ h
  have hP := occurrences_subset T P o ho
  refine ⟨hP, ?_⟩
  by_cases hne : P = []
  · subst hne
    have : I.pattern [] = [] := rfl
    rw [this, rows_below_nil_false, rows_below_nil_true, text_eq, List.length_append]
    simp
  · have := occurrences_length I T P hI hP hne
    have hl : 0 < (occurrences T P).length := List.length_pos.mpr h
    omega

/-! ## Occurrences under reversal -/

/-- An occurrence of `P` at position `o` of `T` is an occurrence of the reversed
pattern at the mirrored position of the reversed text. -/
theorem occurs_at_reverse (T P : List Nat) (o : Nat) (h : o + P.length ≤ T.length) :
    occurs_at T.reverse P.reverse (T.length - P.length - o) = occurs_at T P o := by
  have hT : T = T.take o ++ ((T.drop o).take P.length ++ (T.drop o).drop P.length) := by
    rw [List.take_append_drop, List.take_append_drop]
  have hM : ((T.drop o).take P.length).length = P.length := by
    rw [List.length_take, List.length_drop]; omega
  have hB : ((T.drop o).drop P.length).length = T.length - P.length - o := by
    rw [List.length_drop, List.length_drop]; omega
  have hrev : T.reverse = ((T.drop o).drop P.length).reverse
      ++ (((T.drop o).take P.length).reverse ++ (T.take o).reverse) := by
    conv_lhs => rw [hT]
    simp [List.reverse_append, List.append_assoc]
  have hocc : (T.reverse.drop (T.length - P.length - o)).take P.reverse.length
      = ((T.drop o).take P.length).reverse := by
    rw [hrev, List.drop_left' (by rw [List.length_reverse]; exact hB),
      List.take_left' (by rw [List.length_reverse, List.length_reverse]; exact hM)]
  unfold occurs_at
  rw [hocc]
  by_cases hP : (T.drop o).take P.length = P
  · simp [hP]
  · have : ¬ ((T.drop o).take P.length).reverse = P.reverse := by
      intro e; exact hP (List.reverse_injective e)
    simp [hP, this]

theorem occurs_at_bound (T P : List Nat) (o : Nat) (ho : o ≤ T.length)
    (h : occurs_at T P o = true) : o + P.length ≤ T.length := by
  unfold occurs_at at h
  have := congrArg List.length (of_decide_eq_true h)
  rw [List.length_take, List.length_drop] at this
  omega

theorem construct_sa_lt (w : List Nat) (x : Nat) (hx : x < w.length) :
    (construct_sa w).getD x 0 < w.length := by
  have hx' : x < (construct_sa w).length := by rw [construct_sa_length]; exact hx
  rw [List.getD_eq_getElem _ _ hx']
  have := (construct_sa_perm w).mem_iff.mp (List.getElem_mem hx')
  exact List.mem_range.mp this

theorem construct_sa_surj (w : List Nat) (o : Nat) (ho : o < w.length) :
    ∃ x, x < w.length ∧ (construct_sa w).getD x 0 = o := by
  have := (construct_sa_perm w).mem_iff.mpr (List.mem_range.mpr ho)
  obtain ⟨x, hx, hxo⟩ := List.mem_iff_getElem.mp this
  refine ⟨x, by rw [← construct_sa_length]; exact hx, ?_⟩
  rw [List.getD_eq_getElem _ _ hx]; exact hxo

/-! ## Running the index of a text -/

theorem run_of_isSome (T : List Nat) (ops : List extension)
    (h : ((br_index_naive.construct T).toOption.bind
      (fun I => I.reset_pattern.extend_all ops)).isSome = true) :
    ∃ I J, br_index_naive.construct T = Except.ok I ∧ I.reset_pattern.extend_all ops = some J := by
  cases hc : br_index_naive.construct T with
  | error e => rw [hc] at h; simp [Except.toOption] at h
  | ok I =>
    rw [hc] at h
    simp only [Except.toOption, Option.some_bind] at h
    obtain ⟨J, hJ⟩ := Option.isSome_iff_exists.mp h
    exact ⟨I, J, rfl, hJ⟩

/-- The state reached by successful extensions on a constructed index. -/
theorem reached_tracks (T : List Nat) (I J : br_index_naive) (ops : List extension)
    (hT : valid_text T) (hI : br_index_naive.construct T = Except.ok I)
    (hrun : I.reset_pattern.extend_all ops = some J) :
    J.indexes T ∧ J.tracks T (spell ops) ∧ I.same_tables J := by
  have h1 := construct_indexes T I hT hI
  obtain ⟨h2, h3, h4⟩ := reset_pattern_tracks I T h1
  obtain ⟨h5, h6, h7⟩ := extend_all_tracks T ops I.reset_pattern J [] h2 h3 hrun
  exact ⟨h5, h6, same_tables_trans _ _ _ h4 h7⟩

theorem count_of_tracks (J : br_index_naive) (T P : List Nat) (h : J.tracks T P) :
    J.count = rows_below true (J.text T) (J.pattern P) - rows_below false (J.text T) (J.pattern P) := by
  obtain ⟨_, hr, _, hne, _⟩ := h
  unfold br_index_naive.count
  rw [hr]
  simp only [pattern_range]
  omega

/-- C1: for every valid text `T` and every non-empty sequence of
`left_extension`/`right_extension` calls issued after `reset_pattern` on the
index of `T`, if every call returns a non-empty range then `count()` is the
number of positions of `T` at which the spelled pattern occurs (naive search). -/
theorem count_eq_occurrences (T : List Nat) (I J : br_index_naive) (ops : List extension)
    (hT : valid_text T) (hI : br_index_naive.construct T = Except.ok I) (hops : ops ≠ [])
    (hrun : I.reset_pattern.extend_all ops = some J) :
    J.count = (occurrences T (spell ops)).length := by
  obtain ⟨h1, h2, _⟩ := reached_tracks T I J ops hT hI hrun
  rw [count_of_tracks J T (spell ops) h2,
    occurrences_length J T (spell ops) h1 h2.1 (spell_ne_nil ops hops)]

set_option maxRecDepth 1000000 in
set_option maxHeartbeats 4000000 in
/-- Witness of C1: on "abracadabra" the calls `right b, left a, right r, right a`
spell "abra" and all succeed; `count()` is 2, the occurrences are 0 and 7. -/
theorem count_eq_occurrences_witness :
    valid_text [97, 98, 114, 97, 99, 97, 100, 97, 98, 114, 97] ∧
    occurrences [97, 98, 114, 97, 99, 97, 100, 97, 98, 114, 97]
      (spell [extension.right 98, extension.left 97, extension.right 114, extension.right 97])
      = [0, 7] ∧
    ∃ I J, br_index_naive.construct [97, 98, 114, 97, 99, 97, 100, 97, 98, 114, 97] = Except.ok I ∧
      I.reset_pattern.extend_all
        [extension.right 98, extension.left 97, extension.right 114, extension.right 97] = some J ∧
      J.count = 2 := by
  obtain ⟨I, J, hI, hJ⟩ := run_of_isSome [97, 98, 114, 97, 99, 97, 100, 97, 98, 114, 97]
    [extension.right 98, extension.left 97, extension.right 114, extension.right 97] (by decide)
  refine ⟨by decide, by decide, I, J, hI, hJ, ?_⟩
  rw [count_eq_occurrences _ I J _ (by decide) hI (by decide) hJ]
  decide

set_option maxRecDepth 1000000 in
set_option maxHeartbeats 4000000 in
/-- C3, as stated, fails: on the text "ab" the pattern "ba" does not occur;
`right_extension('b')`, `right_extension('a')` spell it and leave the forward
range `(2, 2)` (the second call fails and keeps `range`), while left-extending
all of "ba" leaves the forward range `(1, 0)`. -/
theorem commutativity_counterexample :
    valid_text [97, 98] ∧
    spell [extension.right 98, extension.right 97] = [98, 97] ∧
    (br_index_naive.construct [97, 98]).toOption.bind (fun I =>
      (I.reset_pattern.run [extension.right 98, extension.right 97]).bind (fun a =>
        (I.reset_pattern.run (left_extensions [98, 97])).map (fun b =>
          (a.2.range, b.2.range))))
      = some ((2, 2), (1, 0)) := by
  decide

/-- C3, amended: for every valid text `T` and every sequence of extension calls
issued after `reset_pattern` whose spelled pattern `P` occurs in `T`, all calls
succeed, as do the calls that left-extend all of `P`, and both runs end with the
same forward range and the same `count()`. -/
theorem commutativity_of_occurring (T : List Nat) (I : br_index_naive) (ops : List extension)
    (hT : valid_text T) (hI : br_index_naive.construct T = Except.ok I)
    (hocc : occurrences T (spell ops) ≠ []) :
    ∃ J1 J2, I.reset_pattern.extend_all ops = some J1 ∧
      I.reset_pattern.extend_all (left_extensions (spell ops)) = some J2 ∧
      J1.range = J2.range ∧ J1.count = J2.count := by
  have h1 := construct_indexes T I hT hI
  obtain ⟨h2, h3, h4⟩ := reset_pattern_tracks I T h1
  obtain ⟨hP, hrows⟩ := rows_of_occurrences I.reset_pattern T (spell ops) h2 hocc
  obtain ⟨J1, e1⟩ := extend_all_complete T ops I.reset_pattern [] h2 h3 hP hrows
  obtain ⟨J2, e2⟩ := extend_all_complete T (left_extensions (spell ops)) I.reset_pattern [] h2 h3
    (by rw [foldl_left_extensions, List.append_nil]; exact hP)
    (by rw [foldl_left_extensions, List.append_nil]; exact hrows)
  obtain ⟨_, t1, s1⟩ := extend_all_tracks T ops I.reset_pattern J1 [] h2 h3 e1
  obtain ⟨_, t2, s2⟩ := extend_all_tracks T _ I.reset_pattern J2 [] h2 h3 e2
  rw [foldl_left_extensions, List.append_nil] at t2
  have hr : J1.range = J2.range := by
    rw [t1.2.1, t2.2.1]
    unfold br_index_naive.text br_index_naive.pattern
    rw [← s1.1, ← s2.1]
    rfl
  refine ⟨J1, J2, e1, e2, hr, ?_⟩
  unfold br_index_naive.count
  rw [hr]

set_option maxRecDepth 1000000 in
set_option maxHeartbeats 4000000 in
/-- Witness of C3 (amended): on "mississippi", `right_extension` of `i, s, s, i`
and left-extending "issi" both end with the forward range `(3, 4)`. -/
theorem commutativity_of_occurring_witness :
    valid_text [109, 105, 115, 115, 105, 115, 115, 105, 112, 112, 105] ∧
    occurrences [109, 105, 115, 115, 105, 115, 115, 105, 112, 112, 105]
      (spell [extension.right 105, extension.right 115, extension.right 115, extension.right 105])
      = [1, 4] ∧
    ∃ I J1 J2,
      br_index_naive.construct [109, 105, 115, 115, 105, 115, 115, 105, 112, 112, 105]
        = Except.ok I ∧
      I.reset_pattern.extend_all
        [extension.right 105, extension.right 115, extension.right 115, extension.right 105]
        = some J1 ∧
      I.reset_pattern.extend_all (left_extensions (spell
        [extension.right 105, extension.right 115, extension.right 115, extension.right 105]))
        = some J2 ∧
      J1.range = J2.range ∧ J1.count = J2.count := by
  obtain ⟨I, _, hI, _⟩ := run_of_isSome [109, 105, 115, 115, 105, 115, 115, 105, 112, 112, 105]
    [] (by decide)
  obtain ⟨J1, J2, h⟩ := commutativity_of_occurring
    [109, 105, 115, 115, 105, 115, 115, 105, 112, 112, 105] I
    [extension.right 105, extension.right 115, extension.right 115, extension.right 105]
    (by decide) hI (by decide)
  exact ⟨by decide, by decide, I, J1, J2, hI, h⟩

/-- C4: in every state reached from `reset_pattern` by successful extensions
spelling `P` on the index of a valid text `T`, the rows of `rangeR` are exactly
the rows of the suffix array of the reversed text whose suffix starts with the
reverse of `P`, the rows of `range` are exactly the rows of the suffix array of
the text whose suffix starts with `P`, both ranges have the same width, and they
enumerate the same occurrences: `o` is the position of a row of `range` exactly
when the mirrored position `|T| - |P| - o` is the position of a row of `rangeR`. -/
theorem rangeR_is_reverse_interval (T : List Nat) (I J : br_index_naive) (ops : List extension)
    (hT : valid_text T) (hI : br_index_naive.construct T = Except.ok I)
    (hrun : I.reset_pattern.extend_all ops = some J) :
    (∀ y, y < T.length + 1 →
      ((J.rangeR.1 ≤ y ∧ y ≤ J.rangeR.2) ↔
        occurs_at T.reverse (spell ops).reverse
          ((construct_sa (J.text T.reverse)).getD y 0) = true)) ∧
    (∀ x, x < T.length + 1 →
      ((J.range.1 ≤ x ∧ x ≤ J.range.2) ↔
        occurs_at T (spell ops) ((construct_sa (J.text T)).getD x 0) = true)) ∧
    J.rangeR.2 - J.rangeR.1 = J.range.2 - J.range.1 ∧
    (∀ o, (∃ x, x < T.length + 1 ∧ J.range.1 ≤ x ∧ x ≤ J.range.2 ∧
          (construct_sa (J.text T)).getD x 0 = o) ↔
        (∃ y, y < T.length + 1 ∧ J.rangeR.1 ≤ y ∧ y ≤ J.rangeR.2 ∧
          (construct_sa (J.text T.reverse)).getD y 0 + (spell ops).length + o = T.length)) := by
  obtain ⟨h1, h2, _⟩ := reached_tracks T I J ops hT hI hrun
  obtain ⟨hP, hr, hrR, hne, _⟩ := h2
  have hP0 := pattern_no_zero J T (spell ops) h1 hP
  have hlen : (J.text T).length = T.length + 1 := by
    rw [text_eq, List.length_append, br_index_naive.pattern, List.length_map]; rfl
  have hlenR : (J.text T.reverse).length = T.length + 1 := by
    rw [text_reverse, List.length_append, List.length_reverse, br_index_naive.pattern,
      List.length_map]; rfl
  have hw := rows_below_reverse_width (J.pattern T) (J.pattern (spell ops)) hP0
  rw [← text_eq, ← text_reverse] at hw
  have hneR : rows_below false (J.text T.reverse) (J.pattern (spell ops)).reverse
      < rows_below true (J.text T.reverse) (J.pattern (spell ops)).reverse := by omega
  have hPrev : J.pattern (spell ops).reverse = (J.pattern (spell ops)).reverse := by
    unfold br_index_naive.pattern; rw [List.map_reverse]
  have partR : ∀ y, y < T.length + 1 →
      ((J.rangeR.1 ≤ y ∧ y ≤ J.rangeR.2) ↔
        occurs_at T.reverse (spell ops).reverse
          ((construct_sa (J.text T.reverse)).getD y 0) = true) := by
    intro y hy
    have hsa := construct_sa_lt (J.text T.reverse) y (by omega)
    rw [hrR, mem_pattern_range _ _ y (by omega) hneR,
      occurs_at_iff J T T.reverse (spell ops).reverse h1
        (fun b hb => List.mem_reverse.mp hb) (fun b hb => hP b (List.mem_reverse.mp hb)) _
        (by rw [List.length_reverse]; omega), hPrev]
  have partF : ∀ x, x < T.length + 1 →
      ((J.range.1 ≤ x ∧ x ≤ J.range.2) ↔
        occurs_at T (spell ops) ((construct_sa (J.text T)).getD x 0) = true) := by
    intro x hx
    have hsa := construct_sa_lt (J.text T) x (by omega)
    rw [hr, mem_pattern_range _ _ x (by omega) hne,
      occurs_at_iff J T T (spell ops) h1 (fun b hb => hb) hP _ (by omega)]
  refine ⟨partR, partF, ?_, ?_⟩
  · rw [hr, hrR]
    simp only [pattern_range]
    omega
  · intro o
    constructor
    · rintro ⟨x, hx, hx1, hx2, hxo⟩
      have hocc := (partF x hx).mp ⟨hx1, hx2⟩
      rw [hxo] at hocc
      have hsa := construct_sa_lt (J.text T) x (by omega)
      rw [hxo, hlen] at hsa
      have hb := occurs_at_bound T (spell ops) o (by omega) hocc
      obtain ⟨y, hy, hyo⟩ := construct_sa_surj (J.text T.reverse)
        (T.length - (spell ops).length - o) (by omega)
      rw [hlenR] at hy
      refine ⟨y, hy, ?_, ?_⟩
      · have := (partR y hy).mpr (by rw [hyo, occurs_at_reverse T _ o hb]; exact hocc)
        exact this.1
      · have := (partR y hy).mpr (by rw [hyo, occurs_at_reverse T _ o hb]; exact hocc)
        exact ⟨this.2, by omega⟩
    · rintro ⟨y, hy, hy1, hy2, hyo⟩
      have hocc := (partR y hy).mp ⟨hy1, hy2⟩
      have e : (construct_sa (J.text T.reverse)).getD y 0
          = T.length - (spell ops).length - o := by omega
      rw [e, occurs_at_reverse T (spell ops) o (by omega)] at hocc
      obtain ⟨x, hx, hxo⟩ := construct_sa_surj (J.text T) o (by omega)
      rw [hlen] at hx
      have := (partF x hx).mpr (by rw [hxo]; exact hocc)
      exact ⟨x, hx, this.1, this.2, hxo⟩

set_option maxRecDepth 1000000 in
set_option maxHeartbeats 4000000 in
/-- Witness of C4: "abracadabra" after `right b, left a, right r` (pattern "abr"). -/
theorem rangeR_is_reverse_interval_witness :
    valid_text [97, 98, 114, 97, 99, 97, 100, 97, 98, 114, 97] ∧
    ∃ I J, br_index_naive.construct [97, 98, 114, 97, 99, 97, 100, 97, 98, 114, 97] = Except.ok I ∧
      I.reset_pattern.extend_all
        [extension.right 98, extension.left 97, extension.right 114] = some J ∧
      (∀ y, y < 12 →
        ((J.rangeR.1 ≤ y ∧ y ≤ J.rangeR.2) ↔
          occurs_at [97, 114, 98, 97, 100, 97, 99, 97, 114, 98, 97] [114, 98, 97]
            ((construct_sa (J.text [97, 114, 98, 97, 100, 97, 99, 97, 114, 98, 97])).getD y 0)
            = true)) := by
  obtain ⟨I, J, hI, hJ⟩ := run_of_isSome [97, 98, 114, 97, 99, 97, 100, 97, 98, 114, 97]
    [extension.right 98, extension.left 97, extension.right 114] (by decide)
  exact ⟨by decide, I, J, hI, hJ,
    (rangeR_is_reverse_interval _ I J _ (by decide) hI hJ).1⟩

/-- The two results of a successful `left_extension` have the same width. -/
theorem left_extension_width (I : br_index_naive) (c : Nat) (rn : range_t) (J : br_index_naive)
    (h : I.left_extension c = some (rn, J)) (hrn : rn.1 ≤ rn.2) :
    J.range.2 - J.range.1 = J.rangeR.2 - J.rangeR.1 := by
  unfold br_index_naive.left_extension at h
  simp only [] at h
  by_cases h1 : (I.LF I.range (I.remap.getD c 0)).1 > (I.LF I.range (I.remap.getD c 0)).2
  · rw [if_pos h1] at h
    simp only [Option.some.injEq, Prod.mk.injEq] at h
    rw [← h.1] at hrn
    exact absurd hrn (by decide)
  · rw [if_neg h1] at h
    by_cases h2 : I.range.2 - I.range.1
        ≠ (I.LF I.range (I.remap.getD c 0)).2 - (I.LF I.range (I.remap.getD c 0)).1
    · rw [if_pos h2] at h
      by_cases h3 : rle_string.rank I.bwt (I.range.2 + 1) (I.remap.getD c 0) = 0
      · rw [if_pos h3] at h; exact absurd h (by simp)
      · rw [if_neg h3] at h
        cases hsel : rle_string.select I.bwt
            (rle_string.rank I.bwt (I.range.2 + 1) (I.remap.getD c 0) - 1) (I.remap.getD c 0) with
        | none => rw [hsel] at h; exact absurd h (by simp)
        | some p =>
          rw [hsel] at h
          simp only [] at h
          by_cases h4 : p ≥ I.range.1 ∧ p ≤ I.range.2
          · rw [if_pos h4] at h
            simp only [Option.some.injEq, Prod.mk.injEq] at h
            rw [← h.2]
            simp only []
            omega
          · rw [if_neg h4] at h; exact absurd h (by simp)
    · rw [if_neg h2] at h
      simp only [Option.some.injEq, Prod.mk.injEq] at h
      rw [← h.2]
      simp only []
      omega

/-- The two results of a successful `right_extension` have the same width. -/
theorem right_extension_width (I : br_index_naive) (c : Nat) (rn : range_t) (J : br_index_naive)
    (h : I.right_extension c = some (rn, J)) (hrn : rn.1 ≤ rn.2) :
    J.range.2 - J.range.1 = J.rangeR.2 - J.rangeR.1 := by
  unfold br_index_naive.right_extension at h
  simp only [] at h
  by_cases h1 : (I.LFR I.rangeR (I.remap.getD c 0)).1 > (I.LFR I.rangeR (I.remap.getD c 0)).2
  · rw [if_pos h1] at h
    simp only [Option.some.injEq, Prod.mk.injEq] at h
    rw [← h.1] at hrn
    exact absurd hrn (by decide)
  · rw [if_neg h1] at h
    by_cases h2 : I.rangeR.2 - I.rangeR.1
        ≠ (I.LFR I.rangeR (I.remap.getD c 0)).2 - (I.LFR I.rangeR (I.remap.getD c 0)).1
    · rw [if_pos h2] at h
      by_cases h3 : rle_string.rank I.bwtR (I.rangeR.2 + 1) (I.remap.getD c 0) = 0
      · rw [if_pos h3] at h; exact absurd h (by simp)
      · rw [if_neg h3] at h
        cases hsel : rle_string.select I.bwtR
            (rle_string.rank I.bwtR (I.rangeR.2 + 1) (I.remap.getD c 0) - 1)
            (I.remap.getD c 0) with
        | none => rw [hsel] at h; exact absurd h (by simp)
        | some p =>
          rw [hsel] at h
          simp only [] at h
          by_cases h4 : p ≥ I.rangeR.1 ∧ p ≤ I.rangeR.2
          · rw [if_pos h4] at h
            simp only [Option.some.injEq, Prod.mk.injEq] at h
            rw [← h.2]
            simp only []
            omega
          · rw [if_neg h4] at h; exact absurd h (by simp)
    · rw [if_neg h2] at h
      simp only [Option.some.injEq, Prod.mk.injEq] at h
      rw [← h.2]
      simp only []
      omega

/-- C5: the width invariant.  After `reset_pattern`, and after every
`left_extension` or `right_extension` call that returns a non-empty range, from
whatever state, `range.second - range.first = rangeR.second - rangeR.first`. -/
theorem width_invariant (I : br_index_naive) (c : Nat) :
    (I.reset_pattern.range.2 - I.reset_pattern.range.1
      = I.reset_pattern.rangeR.2 - I.reset_pattern.rangeR.1) ∧
    (∀ rn J, I.left_extension c = some (rn, J) → rn.1 ≤ rn.2 →
      J.range.2 - J.range.1 = J.rangeR.2 - J.rangeR.1) ∧
    (∀ rn J, I.right_extension c = some (rn, J) → rn.1 ≤ rn.2 →
      J.range.2 - J.range.1 = J.rangeR.2 - J.rangeR.1) :=
  ⟨rfl, fun rn J h hrn => left_extension_width I c rn J h hrn,
    fun rn J h hrn => right_extension_width I c rn J h hrn⟩

/-! ## Failed extensions -/

theorem LF_empty (I : br_index_naive) (rn : range_t) (c : Nat) (h : (I.LF rn c).1 > (I.LF rn c).2) :
    I.LF rn c = (1, 0) := by
  rcases range_LF_empty I.F (rle_string.size I.bwt) I.bwt rn c with h1 | h1
  · exact h1
  · rw [← LF_eq_range_LF] at h1; omega

theorem LFR_empty (I : br_index_naive) (rn : range_t) (c : Nat)
    (h : (I.LFR rn c).1 > (I.LFR rn c).2) : I.LFR rn c = (1, 0) := by
  rcases range_LF_empty I.F (rle_string.size I.bwt) I.bwtR rn c with h1 | h1
  · exact h1
  · rw [← LFR_eq_range_LF] at h1; omega

/-- A `left_extension` that returns an inverted range returns `(1, 0)` and only
overwrites `range`, with `(1, 0)`. -/
theorem left_extension_failed (I : br_index_naive) (c : Nat) (rn : range_t) (J : br_index_naive)
    (h : I.left_extension c = some (rn, J)) (hrn : rn.1 > rn.2) :
    rn = (1, 0) ∧ J = { I with range := (1, 0) } := by
  unfold br_index_naive.left_extension at h
  simp only [] at h
  by_cases h1 : (I.LF I.range (I.remap.getD c 0)).1 > (I.LF I.range (I.remap.getD c 0)).2
  · rw [if_pos h1, LF_empty I _ _ h1] at h
    simp only [Option.some.injEq, Prod.mk.injEq] at h
    exact ⟨h.1.symm, h.2.symm⟩
  · rw [if_neg h1] at h
    by_cases h2 : I.range.2 - I.range.1
        ≠ (I.LF I.range (I.remap.getD c 0)).2 - (I.LF I.range (I.remap.getD c 0)).1
    · rw [if_pos h2] at h
      by_cases h3 : rle_string.rank I.bwt (I.range.2 + 1) (I.remap.getD c 0) = 0
      · rw [if_pos h3] at h; exact absurd h (by simp)
      · rw [if_neg h3] at h
        cases hsel : rle_string.select I.bwt
            (rle_string.rank I.bwt (I.range.2 + 1) (I.remap.getD c 0) - 1) (I.remap.getD c 0) with
        | none => rw [hsel] at h; exact absurd h (by simp)
        | some p =>
          rw [hsel] at h
          simp only [] at h
          by_cases h4 : p ≥ I.range.1 ∧ p ≤ I.range.2
          · rw [if_pos h4] at h
            simp only [Option.some.injEq, Prod.mk.injEq] at h
            rw [← h.1] at hrn
            exact absurd hrn h1
          · rw [if_neg h4] at h; exact absurd h (by simp)
    · rw [if_neg h2] at h
      simp only [Option.some.injEq, Prod.mk.injEq] at h
      rw [← h.1] at hrn
      exact absurd hrn h1

/-- A `right_extension` that returns an inverted range returns `(1, 0)` and only
overwrites `rangeR`, with `(1, 0)`. -/
theorem right_extension_failed (I : br_index_naive) (c : Nat) (rn : range_t) (J : br_index_naive)
    (h : I.right_extension c = some (rn, J)) (hrn : rn.1 > rn.2) :
    rn = (1, 0) ∧ J = { I with rangeR := (1, 0) } := by
  unfold br_index_naive.right_extension at h
  simp only [] at h
  by_cases h1 : (I.LFR I.rangeR (I.remap.getD c 0)).1 > (I.LFR I.rangeR (I.remap.getD c 0)).2
  · rw [if_pos h1, LFR_empty I _ _ h1] at h
    simp only [Option.some.injEq, Prod.mk.injEq] at h
    exact ⟨h.1.symm, h.2.symm⟩
  · rw [if_neg h1] at h
    by_cases h2 : I.rangeR.2 - I.rangeR.1
        ≠ (I.LFR I.rangeR (I.remap.getD c 0)).2 - (I.LFR I.rangeR (I.remap.getD c 0)).1
    · rw [if_pos h2] at h
      by_cases h3 : rle_string.rank I.bwtR (I.rangeR.2 + 1) (I.remap.getD c 0) = 0
      · rw [if_pos h3] at h; exact absurd h (by simp)
      · rw [if_neg h3] at h
        cases hsel : rle_string.select I.bwtR
            (rle_string.rank I.bwtR (I.rangeR.2 + 1) (I.remap.getD c 0) - 1)
            (I.remap.getD c 0) with
        | none => rw [hsel] at h; exact absurd h (by simp)
        | some p =>
          rw [hsel] at h
          simp only [] at h
          by_cases h4 : p ≥ I.rangeR.1 ∧ p ≤ I.rangeR.2
          · rw [if_pos h4] at h
            simp only [Option.some.injEq, Prod.mk.injEq] at h
            rw [← h.1] at hrn
            simp only [] at hrn
            omega
          · rw [if_neg h4] at h; exact absurd h (by simp)
    · rw [if_neg h2] at h
      simp only [Option.some.injEq, Prod.mk.injEq] at h
      rw [← h.1] at hrn
      simp only [] at hrn
      omega

set_option maxRecDepth 1000000 in
set_option maxHeartbeats 4000000 in
/-- C6, as stated, fails: on the index of "ab" in its reset state,
`left_extension('c')` returns `(1, 0)` and leaves `range = (1, 0)`, `count() = 0`,
where `range` was `(0, 2)` and `count()` was 3; `right_extension('c')` returns
`(1, 0)` and leaves `rangeR = (1, 0)` where it was `(0, 2)`. -/
theorem failed_extension_counterexample :
    ((br_index_naive.construct [97, 98]).toOption.bind (fun I =>
      (I.left_extension 99).map (fun a => (a.1, (I.range, I.count), (a.2.range, a.2.count)))))
      = some ((1, 0), ((0, 2), 3), ((1, 0), 0)) ∧
    ((br_index_naive.construct [97, 98]).toOption.bind (fun I =>
      (I.right_extension 99).map (fun a => (a.1, I.rangeR, a.2.rangeR))))
      = some ((1, 0), (0, 2), (1, 0)) := by
  decide

/-- C6, amended: a failed extension changes exactly one field of the query
state.  From every state and for every byte `c`: when `left_extension(c)` returns
the empty range, the returned range is `(1, 0)`, `range` has become `(1, 0)` (so
`count()` is 0) and every other field is as before; when `right_extension(c)`
returns the empty range, the returned range is `(1, 0)`, `rangeR` has become
`(1, 0)` and every other field, `range` and hence `count()` included, is as
before. -/
theorem failed_extension_state (I : br_index_naive) (c : Nat) :
    (∀ rn J, I.left_extension c = some (rn, J) → rn.1 > rn.2 →
      rn = (1, 0) ∧ J = { I with range := (1, 0) } ∧ J.count = 0) ∧
    (∀ rn J, I.right_extension c = some (rn, J) → rn.1 > rn.2 →
      rn = (1, 0) ∧ J = { I with rangeR := (1, 0) } ∧ J.count = I.count) := by
  constructor
  · intro rn J h hrn
    obtain ⟨h1, h2⟩ := left_extension_failed I c rn J h hrn
    exact ⟨h1, h2, by rw [h2]; rfl⟩
  · intro rn J h hrn
    obtain ⟨h1, h2⟩ := right_extension_failed I c rn J h hrn
    exact ⟨h1, h2, by rw [h2]; rfl⟩

/-! ## Bytes that do not occur in the text -/

theorem get_char_range_empty (J : br_index_naive) (T : List Nat) (hJ : J.indexes T) (c : Nat)
    (h : (J.get_char_range c).1 > (J.get_char_range c).2) : J.get_char_range c = (1, 0) := by
  unfold br_index_naive.get_char_range at h ⊢
  simp only [] at h ⊢
  by_cases hg : J.no_symbol (J.remap.getD c 0) = true
  · rw [if_pos hg]
  · rw [if_neg hg] at h
    have hlt : J.remap.getD c 0 < 255 := by
      by_cases hc : c ∈ T
      · have := (hJ.1 c hc).2; omega
      · rw [hJ.2.1 c hc]; omega
    rw [if_pos hlt] at h
    simp only [br_index_naive.no_symbol, Bool.or_eq_true, Bool.and_eq_true, decide_eq_true_eq,
      not_or] at hg
    simp only [] at h
    omega

/-- C7: on the index of a valid text `T`, from every query state and for every
byte `c` that does not occur in `T` (the reserved bytes 0 and 1 among them, with
`remap[0] = remap[1] = 0`), `left_extension(c)`, `right_extension(c)` and
`get_char_range(c)` return the empty range `(1, 0)`, without violating an
assertion; and for every byte, a range returned inverted by any of the three is
the pair `(1, 0)`. -/
theorem absent_byte_empty (T : List Nat) (I J : br_index_naive) (c : Nat)
    (hT : valid_text T) (hI : br_index_naive.construct T = Except.ok I)
    (hJ : I.same_tables J) (hc : c ∉ T) :
    J.remap.getD 0 0 = 0 ∧ J.remap.getD 1 0 = 0 ∧ J.remap.getD c 0 = 0 ∧
    (∃ K, J.left_extension c = some ((1, 0), K)) ∧
    (∃ K, J.right_extension c = some ((1, 0), K)) ∧
    J.get_char_range c = (1, 0) ∧
    (∀ b rn K, J.left_extension b = some (rn, K) → rn.1 > rn.2 → rn = (1, 0)) ∧
    (∀ b rn K, J.right_extension b = some (rn, K) → rn.1 > rn.2 → rn = (1, 0)) ∧
    (∀ b, (J.get_char_range b).1 > (J.get_char_range b).2 → J.get_char_range b = (1, 0)) := by
  have h1 := indexes_same_tables I J T (construct_indexes T I hT hI) hJ
  have h0T : (0 : Nat) ∉ T := fun h => by have := (hT.2 0 h).1; omega
  have h1T : (1 : Nat) ∉ T := fun h => by have := (hT.2 1 h).1; omega
  have hsym : ∀ x ∈ J.pattern T, 2 ≤ x :=
    fun x hx => (pattern_symbols J T T h1 (fun _ h => h) x hx).1
  have hLF : ∀ rn, J.LF rn (J.remap.getD c 0) = (1, 0) := by
    intro rn
    rw [LF_eq_range_LF, h1.2.1 c hc]
    exact range_LF_zero J.F _ (J.pattern T) _ _ hsym (F_forward J T h1)
  have hLFR : ∀ rn, J.LFR rn (J.remap.getD c 0) = (1, 0) := by
    intro rn
    rw [LFR_eq_range_LF, h1.2.1 c hc]
    exact range_LF_zero J.F _ (J.pattern T) _ _ hsym (F_forward J T h1)
  refine ⟨h1.2.1 0 h0T, h1.2.1 1 h1T, h1.2.1 c hc, ?_, ?_, ?_, ?_, ?_, ?_⟩
  · exact ⟨_, left_extension_empty J c (by rw [hLF]; decide)⟩
  · exact ⟨_, right_extension_empty J c (by rw [hLFR]; decide)⟩
  · obtain ⟨f0, f1⟩ := F_zero_one J.F (J.pattern T) hsym (F_forward J T h1)
    unfold br_index_naive.get_char_range
    simp only []
    rw [h1.2.1 c hc, if_pos]
    simp [-List.getD_eq_getElem?_getD, br_index_naive.no_symbol, f0, f1]
  · intro b rn K h hrn
    exact (left_extension_failed J b rn K h hrn).1
  · intro b rn K h hrn
    exact (right_extension_failed J b rn K h hrn).1
  · intro b h
    exact get_char_range_empty J T h1 b h

set_option maxRecDepth 1000000 in
set_option maxHeartbeats 4000000 in
/-- Witness of C7: the index of "ab", its own state, the byte `c`. -/
theorem absent_byte_empty_witness :
    valid_text [97, 98] ∧ 99 ∉ [97, 98] ∧
    ∃ I, br_index_naive.construct [97, 98] = Except.ok I ∧
      (∃ K, I.left_extension 99 = some ((1, 0), K)) ∧
      (∃ K, I.right_extension 99 = some ((1, 0), K)) ∧
      I.get_char_range 99 = (1, 0) := by
  obtain ⟨I, _, hI, _⟩ := run_of_isSome [97, 98] [] (by decide)
  have h := absent_byte_empty [97, 98] I I 99 (by decide) hI (same_tables_refl I) (by decide)
  exact ⟨by decide, by decide, I, hI, h.2.2.2.1, h.2.2.2.2.1, h.2.2.2.2.2.1⟩

/-- C8: `reset_pattern` sets `range = rangeR = [0, n-1]`, `len = 0`, `j = n-1`,
`d = 0`, `p = 0`, `pR = jR = dR = 0` (`n = bwt_size()`), whatever the previous
query state was: it changes no index table, the result only depends on the
tables, it is idempotent, and `count()` is `n` afterwards (`n ≥ 1`). -/
theorem reset_pattern_spec (I : br_index_naive) :
    I.reset_pattern.range = (0, I.bwt_size - 1) ∧
    I.reset_pattern.rangeR = (0, I.bwt_size - 1) ∧
    I.reset_pattern.len = 0 ∧ I.reset_pattern.j = I.bwt_size - 1 ∧ I.reset_pattern.d = 0 ∧
    I.reset_pattern.p = 0 ∧ I.reset_pattern.pR = 0 ∧ I.reset_pattern.jR = 0 ∧
    I.reset_pattern.dR = 0 ∧
    I.same_tables I.reset_pattern ∧
    (∀ K, I.same_tables K → K.reset_pattern = I.reset_pattern) ∧
    I.reset_pattern.reset_pattern = I.reset_pattern ∧
    (0 < I.bwt_size → I.reset_pattern.count = I.bwt_size) := by
  refine ⟨rfl, rfl, rfl, rfl, rfl, rfl, rfl, rfl, rfl, ?_, ?_, rfl, ?_⟩
  · simp [br_index_naive.same_tables, br_index_naive.reset_pattern]
  · intro K hK
    obtain ⟨a1, a2, a3, a4, a5, a6, a7, a8, a9, a10, a11, a12, a13, a14, a15, a16, a17, a18,
      a19, a20, a21, a22⟩ := hK
    simp only [br_index_naive.reset_pattern, br_index_naive.full_range,
      br_index_naive.bwt_size, ← a1, ← a2, ← a3, ← a4, ← a5, ← a6, ← a7, ← a8, ← a9, ← a10,
      ← a11, ← a12, ← a13, ← a14, ← a15, ← a16, ← a17, ← a18, ← a19, ← a20, ← a21, ← a22]
  · intro h
    simp only [br_index_naive.count, br_index_naive.reset_pattern, br_index_naive.full_range]
    omega

set_option maxRecDepth 1000000 in
set_option maxHeartbeats 4000000 in
/-- C9 at the text `"a\x01"`: the text contains the reserved byte 1, which
`contains_reserved_chars` detects, and the constructor returns an index all the
same (it never calls the helper); the byte 1 is remapped to 0. -/
theorem construct_reserved_byte :
    contains_reserved_chars [97, 1] = true ∧
    (br_index_naive.construct [97, 1]).toOption.map
      (fun I => (I.sigma, I.remap.getD 97 0, I.remap.getD 1 0, I.bwt))
      = some (3, 2, 0, [0, 2, 1]) := by
  decide

/-! ## The alphabet overflow -/

set_option maxRecDepth 1000000 in
set_option maxHeartbeats 4000000 in
/-- C10, as stated, fails: the text of the 254 bytes `2, 3, …, 255` is valid and
has 254 distinct byte values, fewer than 255, and the constructor aborts with
the alphabet overflow. -/
theorem alphabet_overflow_counterexample :
    valid_text (List.range' 2 254) ∧ (List.range' 2 254).dedup.length = 254 ∧
    br_index_naive.construct (List.range' 2 254)
      = Except.error build_error.alphabet_overflow := by
  decide

/-- C10, amended: for every non-empty text of bytes, the constructor aborts with
the alphabet overflow exactly when the number of distinct byte values of the
text is at least 254, that is when the member `sigma`, which starts at 1 and
counts them, would reach 255; the scan passes every text with at most 253
distinct byte values, and the index then stores `sigma` = that number plus 1. -/
theorem alphabet_overflow_iff (T : List Nat) (hne : T ≠ []) (hb : ∀ b ∈ T, b < 256) :
    (br_index_naive.construct T = Except.error build_error.alphabet_overflow
      ↔ 254 ≤ T.dedup.length) ∧
    (scan_alphabet T (List.replicate 256 0) 1 = none ↔ 254 ≤ T.dedup.length) ∧
    (T.dedup.length < 254 →
      ∃ I, br_index_naive.construct T = Except.ok I ∧ I.sigma = T.dedup.length + 1) := by
  have hlen : ¬ T.length < 1 := by
    cases T with
    | nil => exact absurd rfl hne
    | cons a T => simp
  by_cases hd : 254 ≤ T.dedup.length
  · have hscan := scan_alphabet_none T hb (List.replicate 256 0) (List.length_replicate _ _) 1
      (by omega) (by rw [fresh_bytes_zero]; omega)
    refine ⟨⟨fun _ => hd, fun _ => ?_⟩, ⟨fun _ => hd, fun _ => hscan⟩, fun h => by omega⟩
    unfold br_index_naive.construct
    rw [if_neg hlen, hscan]
  · obtain ⟨f, e1, _, _⟩ := scan_alphabet_some T hb (List.replicate 256 0)
      (List.length_replicate _ _) 1 (by rw [fresh_bytes_zero]; omega)
    rw [fresh_bytes_zero] at e1
    have hok : ∃ I, br_index_naive.construct T = Except.ok I ∧ I.sigma = T.dedup.length + 1 := by
      unfold br_index_naive.construct
      rw [if_neg hlen, e1]
      exact ⟨_, rfl, Nat.add_comm _ _⟩
    refine ⟨⟨fun h => ?_, fun h => absurd h hd⟩, ⟨fun h => ?_, fun h => absurd h hd⟩, fun _ => hok⟩
    · obtain ⟨I, hI, _⟩ := hok
      rw [hI] at h
      exact absurd h (by simp)
    · rw [e1] at h
      exact absurd h (by simp)

set_option maxRecDepth 1000000 in
set_option maxHeartbeats 4000000 in
/-- Witness of C10 (amended): "mississippi" has 4 distinct bytes; the constructor
returns an index with `sigma = 5`. -/
theorem alphabet_overflow_iff_witness :
    [109, 105, 115, 115, 105, 115, 115, 105, 112, 112, 105] ≠ [] ∧
    (∀ b ∈ [109, 105, 115, 115, 105, 115, 115, 105, 112, 112, 105], b < 256) ∧
    [109, 105, 115, 115, 105, 115, 115, 105, 112, 112, 105].dedup.length = 4 ∧
    ∃ I, br_index_naive.construct [109, 105, 115, 115, 105, 115, 115, 105, 112, 112, 105]
        = Except.ok I ∧
      I.sigma = [109, 105, 115, 115, 105, 115, 115, 105, 112, 112, 105].dedup.length + 1 :=
  ⟨by decide, by decide, by decide,
    (alphabet_overflow_iff [109, 105, 115, 115, 105, 115, 115, 105, 112, 112, 105]
      (by decide) (by decide)).2.2 (by decide)⟩

/-! ## The alphabet remap -/

/-- The inverse remap table during the remap loop: every byte already visited
that occurs is stored at its code. -/
theorem build_remap_inv_aux (freqs : List Nat) (K : Nat) (hK : K ≤ 254) :
    let st := (List.range' 2 K).foldl (remap_step freqs)
      (List.replicate 256 0, List.replicate 256 0, 2)
    st.2.1.length = 256 ∧
    ∀ x, 2 ≤ x → x < 2 + K → freqs.getD x 0 ≠ 0 →
      st.2.1.getD (2 + bytes_below freqs x) 0 = x := by
  induction K with
  | zero =>
    refine ⟨by simp only [List.range'_zero, List.foldl_nil, List.length_replicate], ?_⟩
    intro x h1 h2
    omega
  | succ K ih =>
    obtain ⟨h1, h3⟩ := ih (by omega)
    obtain ⟨_, h2, _⟩ := build_remap_aux freqs K (by omega)
    rw [List.range'_1_concat, List.foldl_append]
    simp only [List.foldl_cons, List.foldl_nil]
    generalize (List.range' 2 K).foldl (remap_step freqs)
      (List.replicate 256 0, List.replicate 256 0, 2) = st at h1 h2 h3
    have hle := bytes_below_le freqs (2 + K)
    have hmod : (2 + bytes_below freqs (2 + K)) % 256 = 2 + bytes_below freqs (2 + K) :=
      Nat.mod_eq_of_lt (by omega)
    unfold remap_step
    by_cases hz : freqs.getD (2 + K) 0 = 0
    · have hz1 : ¬ freqs.getD (2 + K) 0 ≠ 0 := by simpa using hz
      rw [if_neg hz1]
      refine ⟨h1, fun x hx1 hx2 hx3 => ?_⟩
      by_cases hxe : x = 2 + K
      · subst hxe; exact absurd hz hx3
      · exact h3 x hx1 (by omega) hx3
    · have hz1 : freqs.getD (2 + K) 0 ≠ 0 := hz
      rw [if_pos hz1]
      refine ⟨by simp only []; rw [List.length_set]; exact h1, fun x hx1 hx2 hx3 => ?_⟩
      simp only []
      rw [getD_set, h1, h2, hmod]
      by_cases hxe : x = 2 + K
      · subst hxe
        rw [if_pos ⟨rfl, by omega⟩]
      · have hs := bytes_below_succ freqs x hx1
        rw [if_pos hx3] at hs
        have hm := bytes_below_mono freqs (x + 1) (2 + K) (by omega) (by omega)
        have e1 : ¬ (2 + bytes_below freqs (2 + K) = 2 + bytes_below freqs x
            ∧ 2 + bytes_below freqs (2 + K) < 256) := by
          intro h; omega
        rw [if_neg e1]
        exact h3 x hx1 (by omega) hx3

/-- The inverse remap table in closed form. -/
theorem build_remap_inv_getD (freqs : List Nat) (x : Nat) (h2 : 2 ≤ x) (hx : x < 256)
    (hf : freqs.getD x 0 ≠ 0) :
    (build_remap freqs).2.1.getD (2 + bytes_below freqs x) 0 = x := by
  have := (build_remap_inv_aux freqs 254 (le_refl _)).2 x h2 (by omega) hf
  unfold build_remap
  exact this

/-- The alphabet tables that the constructor returns. -/
theorem construct_remap (T : List Nat) (I : br_index_naive)
    (h : br_index_naive.construct T = Except.ok I) :
    ∃ freqs sigma, scan_alphabet T (List.replicate 256 0) 1 = some (freqs, sigma) ∧
      I.remap = (build_remap freqs).1 ∧ I.remap_inv = (build_remap freqs).2.1 ∧
      I.sigma = sigma := by
  unfold br_index_naive.construct at h
  split at h
  · exact absurd h (by simp)
  · split at h
    · exact absurd h (by simp)
    · rename_i freqs sigma hscan
      refine ⟨freqs, sigma, hscan, ?_⟩
      injection h with h
      have e1 := congrArg br_index_naive.remap h
      have e2 := congrArg br_index_naive.remap_inv h
      have e3 := congrArg br_index_naive.sigma h
      dsimp only at e1 e2 e3
      exact ⟨e1.symm, e2.symm, e3.symm⟩

/-- The alphabet of a constructed index of a valid text: `sigma` is one more
than the number of distinct bytes, the code of an occurring byte `b` is 2 plus
the number of occurring bytes below `b`, and `remap_inv` holds `b` at that
code. -/
theorem construct_alphabet (T : List Nat) (I : br_index_naive) (hT : valid_text T)
    (h : br_index_naive.construct T = Except.ok I) :
    ∃ freqs, (∀ c, freqs.getD c 0 = T.count c) ∧
      I.sigma = T.dedup.length + 1 ∧ T.dedup.length ≤ 253 ∧
      (∀ b ∈ T, I.remap.getD b 0 = 2 + bytes_below freqs b) ∧
      (∀ b ∈ T, bytes_below freqs b + 1 ≤ T.dedup.length) ∧
      (∀ b ∈ T, I.remap_inv.getD (2 + bytes_below freqs b) 0 = b) := by
  obtain ⟨freqs, sigma, hscan, hremap, hinv, hsigma⟩ := construct_remap T I h
  have hbytes : ∀ b ∈ T, b < 256 := fun b hb => (hT.2 b hb).2
  have hd : T.dedup.length ≤ 253 := by
    by_contra hlt
    have := scan_alphabet_none T hbytes (List.replicate 256 0) (List.length_replicate _ _) 1
      (by omega) (by rw [fresh_bytes_zero]; omega)
    rw [hscan] at this
    exact absurd this (by simp)
  obtain ⟨f, e1, _, e3⟩ := scan_alphabet_some T hbytes (List.replicate 256 0)
    (List.length_replicate _ _) 1 (by rw [fresh_bytes_zero]; omega)
  rw [hscan] at e1
  injection e1 with e1
  injection e1 with e1 e2
  have hf : ∀ c, freqs.getD c 0 = T.count c := by
    intro c
    rw [e1, e3, getD_replicate_zero, Nat.zero_add]
  have hnz : ∀ b ∈ T, freqs.getD b 0 ≠ 0 := by
    intro b hb
    rw [hf]; exact Nat.pos_iff_ne_zero.mp (List.count_pos_iff.mpr hb)
  have hlt : ∀ b ∈ T, bytes_below freqs b + 1 ≤ T.dedup.length := by
    intro b hb
    have hs := bytes_below_succ freqs b (hT.2 b hb).1
    rw [if_pos (hnz b hb)] at hs
    have hle := bytes_below_le_dedup T freqs hf (b + 1)
    omega
  refine ⟨freqs, hf, ?_, hd, fun b hb => ?_, hlt, fun b hb => ?_⟩
  · rw [hsigma, e2, fresh_bytes_zero]; omega
  · have h2 := hT.2 b hb
    have := hlt b hb
    rw [hremap, build_remap_getD, if_pos ⟨h2.1, h2.2, hnz b hb⟩]
    exact Nat.mod_eq_of_lt (by omega)
  · have h2 := hT.2 b hb
    rw [hinv]
    exact build_remap_inv_getD freqs b h2.1 h2.2 (hnz b hb)

/-- The symbol of row `x` of the BWT of `w`. -/
theorem bwt_of_getD (w : List Nat) (x : Nat) (hx : x < w.length) :
    (bwt_of w).getD x 0 = bwt_char w ((construct_sa w).getD x 0) := by
  have h1 : x < (construct_sa w).length := by rw [construct_sa_length]; exact hx
  have h2 : x < (bwt_of w).length := by rw [bwt_of_length]; exact hx
  rw [List.getD_eq_getElem _ _ h2, List.getD_eq_getElem _ _ h1]
  unfold bwt_of
  rw [List.getElem_map]

/-- The remapped text read at a position of `T`. -/
theorem text_getD (I : br_index_naive) (T : List Nat) (i : Nat) (hi : i < T.length) :
    (I.text T).getD i 0 = I.remap.getD (T.getD i 0) 0 := by
  unfold br_index_naive.text remap_text
  have h1 : i < (List.map (fun b => I.remap.getD b 0) T ++ [0]).length := by
    rw [List.length_append, List.length_map]; omega
  rw [List.getD_eq_getElem _ _ h1, List.getD_eq_getElem _ _ hi,
    List.getElem_append_left (by rw [List.length_map]; exact hi), List.getElem_map]

set_option maxRecDepth 1000000 in
set_option maxHeartbeats 4000000 in
/-- C11, as stated, fails: on the text "ab" the stored `sigma` is 3 and the
codes are 2 and 3, so no byte of the text has the code `sigma + 1 = 4`: the
remap is not onto `{2, …, sigma + 1}`. -/
theorem remap_onto_counterexample :
    valid_text [97, 98] ∧
    (br_index_naive.construct [97, 98]).toOption.map (fun I =>
      (I.sigma, [97, 98].map (fun b => I.remap.getD b 0),
        decide (I.sigma + 1 ∈ [97, 98].map (fun b => I.remap.getD b 0))))
      = some (3, [2, 3], false) := by
  decide

/-- C11, amended: after construction over a valid text `T`, the remap
restricted to the bytes occurring in `T` is a bijection onto `{2, …, sigma}`,
where `sigma` is the stored field, one more than the number of distinct bytes
of `T`: every code lies in that set, distinct bytes get distinct codes, and
every value of the set is the code of a byte of `T`. -/
theorem remap_bijection (T : List Nat) (I : br_index_naive) (hT : valid_text T)
    (hI : br_index_naive.construct T = Except.ok I) :
    (∀ b ∈ T, 2 ≤ I.remap.getD b 0 ∧ I.remap.getD b 0 ≤ I.sigma) ∧
    (∀ a ∈ T, ∀ b ∈ T, I.remap.getD a 0 = I.remap.getD b 0 → a = b) ∧
    (∀ v, 2 ≤ v → v ≤ I.sigma → ∃ b ∈ T, I.remap.getD b 0 = v) ∧
    I.sigma = T.dedup.length + 1 := by
  obtain ⟨freqs, hf, hs, hd, hr, hlt, _⟩ := construct_alphabet T I hT hI
  have hinj := (construct_indexes T I hT hI).2.2.1
  have hrange : ∀ b ∈ T, 2 ≤ I.remap.getD b 0 ∧ I.remap.getD b 0 ≤ I.sigma := by
    intro b hb
    have := hr b hb
    have := hlt b hb
    omega
  refine ⟨hrange, hinj, fun v hv1 hv2 => ?_, hs⟩
  have hsub : T.toFinset.image (fun b => I.remap.getD b 0) ⊆ Finset.Icc 2 I.sigma := by
    intro y hy
    rw [Finset.mem_image] at hy
    obtain ⟨b, hb, rfl⟩ := hy
    rw [Finset.mem_Icc]
    exact hrange b (List.mem_toFinset.mp hb)
  have hcard : (T.toFinset.image (fun b => I.remap.getD b 0)).card = T.dedup.length := by
    rw [Finset.card_image_of_injOn, List.card_toFinset]
    intro a ha b hb hab
    exact hinj a (List.mem_toFinset.mp ha) b (List.mem_toFinset.mp hb) hab
  have heq := Finset.eq_of_subset_of_card_le hsub
    (by rw [hcard, Nat.card_Icc, hs]; omega)
  have hv : v ∈ Finset.Icc 2 I.sigma := Finset.mem_Icc.mpr ⟨hv1, hv2⟩
  rw [← heq, Finset.mem_image] at hv
  obtain ⟨b, hb, e⟩ := hv
  exact ⟨b, List.mem_toFinset.mp hb, e⟩

set_option maxRecDepth 1000000 in
set_option maxHeartbeats 4000000 in
/-- Witness of C11 (amended): on "mississippi" `sigma` is 5 and the bytes
`i, m, p, s` have the codes 2, 3, 4, 5. -/
theorem remap_bijection_witness :
    valid_text [109, 105, 115, 115, 105, 115, 115, 105, 112, 112, 105] ∧
    ∃ I, br_index_naive.construct [109, 105, 115, 115, 105, 115, 115, 105, 112, 112, 105]
        = Except.ok I ∧
      I.sigma = 5 ∧
      (∀ v, 2 ≤ v → v ≤ I.sigma →
        ∃ b ∈ [109, 105, 115, 115, 105, 115, 115, 105, 112, 112, 105], I.remap.getD b 0 = v) := by
  obtain ⟨I, _, hI, _⟩ := run_of_isSome [109, 105, 115, 115, 105, 115, 115, 105, 112, 112, 105]
    [] (by decide)
  have h := remap_bijection [109, 105, 115, 115, 105, 115, 115, 105, 112, 112, 105] I
    (by decide) hI
  exact ⟨by decide, I, hI, by rw [h.2.2.2]; decide, h.2.2.1⟩

/-- C12: after construction over a valid text `T`, the remap is order-preserving
and invertible on the bytes of `T`: for bytes `a < b` of `T`,
`2 ≤ remap[a] < remap[b]`; `remap_inv[remap[a]] = a`; every byte that does not
occur in `T` has the remap value 0.  Hence `bwt_at` returns the original byte
that precedes the suffix of the row. -/
theorem remap_order_preserving (T : List Nat) (I : br_index_naive) (hT : valid_text T)
    (hI : br_index_naive.construct T = Except.ok I) :
    (∀ a ∈ T, ∀ b ∈ T, a < b → 2 ≤ I.remap.getD a 0 ∧ I.remap.getD a 0 < I.remap.getD b 0) ∧
    (∀ a ∈ T, I.remap_inv.getD (I.remap.getD a 0) 0 = a) ∧
    (∀ c, c ∉ T → I.remap.getD c 0 = 0) ∧
    (∀ x, x < T.length + 1 → 0 < (construct_sa (I.text T)).getD x 0 →
      I.bwt_at x false = T.getD ((construct_sa (I.text T)).getD x 0 - 1) 0) := by
  obtain ⟨freqs, hf, hs, hd, hr, hlt, hinv⟩ := construct_alphabet T I hT hI
  have hidx := construct_indexes T I hT hI
  have hback : ∀ a ∈ T, I.remap_inv.getD (I.remap.getD a 0) 0 = a := by
    intro a ha
    rw [hr a ha]
    exact hinv a ha
  refine ⟨fun a ha b hb hab => ?_, hback, hidx.2.1, fun x hx hpos => ?_⟩
  · have hnz : freqs.getD a 0 ≠ 0 := by
      rw [hf]; exact Nat.pos_iff_ne_zero.mp (List.count_pos_iff.mpr ha)
    have hsa := bytes_below_succ freqs a (hT.2 a ha).1
    rw [if_pos hnz] at hsa
    have hm := bytes_below_mono freqs (a + 1) b (by have := (hT.2 a ha).1; omega) (by omega)
    rw [hr a ha, hr b hb]
    omega
  · have hlen : (I.text T).length = T.length + 1 := by
      unfold br_index_naive.text remap_text
      rw [List.length_append, List.length_map]; rfl
    have hsa := construct_sa_lt (I.text T) x (by rw [hlen]; exact hx)
    rw [hlen] at hsa
    have hpos1 : (construct_sa (I.text T)).getD x 0 - 1 < T.length := by omega
    unfold br_index_naive.bwt_at rle_string.char_at
    simp only [Bool.false_eq_true, not_false_eq_true, if_true]
    rw [hidx.2.2.2.1, bwt_of_getD _ _ (by rw [hlen]; exact hx)]
    unfold bwt_char
    rw [if_pos hpos, text_getD I T _ hpos1]
    apply hback
    rw [List.getD_eq_getElem _ _ hpos1]
    exact List.getElem_mem _

set_option maxRecDepth 1000000 in
set_option maxHeartbeats 4000000 in
/-- Witness of C12: on "banana" the bytes `a < b < n` have the codes 2, 3, 4. -/
theorem remap_order_preserving_witness :
    valid_text [98, 97, 110, 97, 110, 97] ∧
    ∃ I, br_index_naive.construct [98, 97, 110, 97, 110, 97] = Except.ok I ∧
      (∀ a ∈ [98, 97, 110, 97, 110, 97], I.remap_inv.getD (I.remap.getD a 0) 0 = a) ∧
      (∀ a ∈ [98, 97, 110, 97, 110, 97], ∀ b ∈ [98, 97, 110, 97, 110, 97], a < b →
        2 ≤ I.remap.getD a 0 ∧ I.remap.getD a 0 < I.remap.getD b 0) := by
  obtain ⟨I, _, hI, _⟩ := run_of_isSome [98, 97, 110, 97, 110, 97] [] (by decide)
  have h := remap_order_preserving [98, 97, 110, 97, 110, 97] I (by decide) hI
  exact ⟨by decide, I, hI, h.2.1, h.1⟩

/-! ## Rows: `upper_bound`, `rank` and `select` -/

/-- The contract of `upper_bound`: all entries before the result are `≤ i`,
the entry at the result, if any, is `> i`. -/
theorem upper_bound_spec (l : List Nat) (i : Nat) :
    upper_bound l i ≤ l.length ∧
    (∀ k, k < upper_bound l i → l.getD k 0 ≤ i) ∧
    (upper_bound l i < l.length → i < l.getD (upper_bound l i) 0) := by
  induction l with
  | nil => exact ⟨le_refl _, fun k hk => absurd hk (Nat.not_lt_zero _), fun h => absurd h (Nat.lt_irrefl _)⟩
  | cons x xs ih =>
    obtain ⟨h1, h2, h3⟩ := ih
    unfold upper_bound
    by_cases hx : i < x
    · rw [if_pos hx]
      exact ⟨Nat.zero_le _, fun k hk => absurd hk (Nat.not_lt_zero _), fun _ => hx⟩
    · rw [if_neg hx]
      refine ⟨Nat.succ_le_succ h1, fun k hk => ?_, fun h => ?_⟩
      · cases k with
        | zero => exact Nat.le_of_not_lt hx
        | succ k => exact h2 k (Nat.lt_of_succ_lt_succ hk)
      · exact h3 (Nat.lt_of_succ_lt_succ h)

/-- One more position adds one to the rank exactly when it holds the symbol. -/
theorem rank_succ (s : List Nat) (i c : Nat) :
    rle_string.rank s (i + 1) c
      = rle_string.rank s i c + (if i < s.length ∧ s.getD i 0 = c then 1 else 0) := by
  induction s generalizing i with
  | nil =>
    have : ¬ (i < ([] : List Nat).length ∧ ([] : List Nat).getD i 0 = c) := by
      intro h; exact absurd h.1 (Nat.not_lt_zero _)
    rw [if_neg this]
    unfold rle_string.rank
    rw [List.take_nil, List.take_nil]
    rfl
  | cons x xs ih =>
    cases i with
    | zero =>
      rw [rank_cons_succ, rank_zero, rank_zero]
      by_cases hx : x = c
      · rw [if_pos hx, if_pos ⟨Nat.zero_lt_succ _, hx⟩]
      · rw [if_neg hx, if_neg (fun h => hx h.2)]
    | succ i =>
      rw [rank_cons_succ, rank_cons_succ, ih i]
      have e : (i + 1 < (x :: xs).length ∧ (x :: xs).getD (i + 1) 0 = c)
          ↔ (i < xs.length ∧ xs.getD i 0 = c) := by
        rw [List.length_cons, Nat.succ_lt_succ_iff]
        rfl
      by_cases h : i < xs.length ∧ xs.getD i 0 = c
      · rw [if_pos h, if_pos (e.mpr h)]; omega
      · rw [if_neg h, if_neg (fun h1 => h (e.mp h1))]; omega

/-- The rank at the end of the string is the number of occurrences. -/
theorem rank_length (s : List Nat) (c : Nat) : rle_string.rank s s.length c = s.count c := by
  unfold rle_string.rank
  rw [List.take_length]

/-- A position that holds `c` is found again by `select` at its rank. -/
theorem select_rank (s : List Nat) (i c : Nat) (hi : i < s.length) (hc : s.getD i 0 = c) :
    rle_string.select s (rle_string.rank s i c) c = some i := by
  have hs := rank_succ s i c
  rw [if_pos ⟨hi, hc⟩] at hs
  have hlt : rle_string.rank s i c < s.count c := by
    have := rank_le_count s (i + 1) c
    omega
  obtain ⟨p, e, hp, r1, r2⟩ := select_spec s (rle_string.rank s i c) c hlt
  rw [e]
  rcases Nat.lt_trichotomy p i with h | h | h
  · have := rank_mono s (p + 1) i c (by omega)
    omega
  · rw [h]
  · have := rank_mono s (i + 1) p c (by omega)
    omega

/-- The position that `select` returns holds the symbol. -/
theorem select_char (s : List Nat) (k c p : Nat) (h : rle_string.select s k c = some p) :
    p < s.length ∧ s.getD p 0 = c ∧ rle_string.rank s p c = k := by
  have hk : k < s.count c := by
    by_contra hk
    have : ∀ (s : List Nat) (k : Nat), s.count c ≤ k → rle_string.select s k c = none := by
      intro s
      induction s with
      | nil => intro k _; rfl
      | cons x xs ih =>
        intro k hk
        unfold rle_string.select
        by_cases hx : x = c
        · rw [if_pos hx]
          rw [hx, List.count_cons_self] at hk
          cases k with
          | zero => omega
          | succ k => simp only []; rw [ih k (by omega)]; rfl
        · rw [if_neg hx]
          rw [List.count_cons_of_ne (fun e => hx e.symm)] at hk
          rw [ih k hk]; rfl
    rw [this s k (by omega)] at h
    exact absurd h (by simp)
  obtain ⟨q, e, hq, r1, r2⟩ := select_spec s k c hk
  rw [e] at h
  injection h with h
  subst h
  have hs := rank_succ s q c
  refine ⟨hq, ?_, r1⟩
  by_contra hne
  rw [if_neg (fun h => hne h.2)] at hs
  omega

/-- The number of symbols below `a` does not decrease with `a`. -/
theorem countP_lt_mono (bs : List Nat) (a b : Nat) (h : a ≤ b) :
    bs.countP (fun x => decide (x < a)) ≤ bs.countP (fun x => decide (x < b)) := by
  apply List.countP_mono_left
  intro x _ hx
  simp only [decide_eq_true_eq] at hx ⊢
  omega

/-- Every symbol of the BWT is the terminator or a symbol of the text. -/
theorem mem_bwt_of (w : List Nat) (x : Nat) (h : x ∈ bwt_of w) : x = TERMINATOR ∨ x ∈ w := by
  unfold bwt_of at h
  rw [List.mem_map] at h
  obtain ⟨i, hi, e⟩ := h
  have hi1 : i < w.length := by
    have := (construct_sa_perm w).mem_iff.mp hi
    exact List.mem_range.mp this
  unfold bwt_char at e
  by_cases h0 : i > 0
  · rw [if_pos h0] at e
    right
    rw [← e, List.getD_eq_getElem _ _ (by omega : i - 1 < w.length)]
    exact List.getElem_mem _
  · rw [if_neg h0] at e
    left; exact e.symm

/-- Every entry of the remap table is a byte. -/
theorem build_remap_lt (freqs : List Nat) (x : Nat) : (build_remap freqs).1.getD x 0 < 256 := by
  rw [build_remap_getD]
  split
  · exact Nat.mod_lt _ (by decide)
  · decide

/-- The F column and the BWT symbols of any constructed index. -/
theorem construct_F (T : List Nat) (I : br_index_naive)
    (h : br_index_naive.construct T = Except.ok I) :
    I.F.length = 256 ∧
    (∀ c, c ≤ 255 → I.F.getD c 0 = I.bwt.countP (fun x => decide (x < c))) ∧
    (∀ x ∈ I.bwt, x < 256) ∧ I.bwt.length = T.length + 1 := by
  obtain ⟨_, freqs, sigma, _, hremap, _, hbwt, _, hF, _⟩ := construct_ok T I h
  refine ⟨by rw [hF]; exact build_F_length _, fun c hc => by rw [hF]; exact build_F_getD _ _ hc,
    fun x hx => ?_, ?_⟩
  · rw [hbwt] at hx
    rcases mem_bwt_of _ _ hx with e | e
    · rw [e]; decide
    · unfold br_index_naive.text remap_text at e
      rw [List.mem_append, List.mem_map] at e
      rcases e with ⟨b, _, e⟩ | e
      · rw [← e, hremap]; exact build_remap_lt _ _
      · rw [List.mem_singleton.mp e]; decide
  · rw [hbwt, bwt_of_length]
    unfold br_index_naive.text remap_text
    rw [List.length_append, List.length_map]; rfl

/-! ## The F column, `LF` and `FL` on rows -/

/-- C13: after construction, for every symbol `c` in `0..255`, `F[c]` is the
number of positions of the forward BWT whose symbol is strictly less than `c`;
hence `F[0] = 0`, `F` is non-decreasing, and `F[m] + count(m) = n` for the
largest symbol `m` that occurs in the BWT. -/
theorem F_column (T : List Nat) (I : br_index_naive)
    (hI : br_index_naive.construct T = Except.ok I) :
    (∀ c, c ≤ 255 → I.F.getD c 0 = I.bwt.countP (fun x => decide (x < c))) ∧
    I.F.getD 0 0 = 0 ∧
    (∀ a b, a ≤ b → b ≤ 255 → I.F.getD a 0 ≤ I.F.getD b 0) ∧
    (∀ m, m ∈ I.bwt → (∀ x ∈ I.bwt, x ≤ m) → I.F.getD m 0 + I.bwt.count m = I.bwt_size) ∧
    I.F.length = 256 ∧ I.bwt_size = T.length + 1 := by
  obtain ⟨hlen, hF, hsym, hn⟩ := construct_F T I hI
  refine ⟨hF, ?_, fun a b hab hb => ?_, fun m hm hmax => ?_, hlen, hn⟩
  · rw [hF 0 (by omega)]
    rw [List.countP_eq_zero]
    intro x _
    simp
  · rw [hF a (by omega), hF b hb]
    exact countP_lt_mono _ _ _ hab
  · have hm1 := hsym m hm
    rw [hF m (by omega), ← countP_lt_succ]
    unfold br_index_naive.bwt_size rle_string.size
    rw [List.countP_eq_length]
    intro x hx
    have := hmax x hx
    simp only [decide_eq_true_eq]
    omega

set_option maxRecDepth 1000000 in
set_option maxHeartbeats 4000000 in
/-- Witness of C13: on "banana" the BWT is `annb$aa` in remapped symbols and
`F` starts `0, 0, 1, 4, 5, 7`. -/
theorem F_column_witness :
    ∃ I, br_index_naive.construct [98, 97, 110, 97, 110, 97] = Except.ok I ∧
      I.bwt = [2, 4, 4, 3, 1, 2, 2] ∧ I.F.take 6 = [0, 0, 1, 4, 5, 7] ∧
      (∀ c, c ≤ 255 → I.F.getD c 0 = I.bwt.countP (fun x => decide (x < c))) := by
  obtain ⟨I, _, hI, _⟩ := run_of_isSome [98, 97, 110, 97, 110, 97] [] (by decide)
  have h := F_column [98, 97, 110, 97, 110, 97] I hI
  have e : (br_index_naive.construct [98, 97, 110, 97, 110, 97]).toOption.map
      (fun I => (I.bwt, I.F.take 6)) = some ([2, 4, 4, 3, 1, 2, 2], [0, 0, 1, 4, 5, 7]) := by
    decide
  rw [hI] at e
  simp only [Except.toOption, Option.map_some', Option.some.injEq, Prod.mk.injEq] at e
  exact ⟨I, hI, e.1, e.2, h.1⟩

/-- The symbol that `F_at` finds for a row of the block of `c` in column `F`. -/
theorem F_at_block (I : br_index_naive) (c j : Nat) (hlen : I.F.length = 256)
    (hF : ∀ a, a ≤ 255 → I.F.getD a 0 = I.bwt.countP (fun x => decide (x < a)))
    (hc : c ≤ 255) (h1 : I.bwt.countP (fun x => decide (x < c)) ≤ j)
    (h2 : j < I.bwt.countP (fun x => decide (x < c + 1))) :
    I.F_at j = some c := by
  obtain ⟨u1, u2, u3⟩ := upper_bound_spec I.F j
  have hu : upper_bound I.F j = c + 1 := by
    rcases Nat.lt_trichotomy (upper_bound I.F j) (c + 1) with h | h | h
    · have := u3 (by omega)
      rw [hF _ (by omega)] at this
      have := countP_lt_mono I.bwt (upper_bound I.F j) c (by omega)
      omega
    · exact h
    · have := u2 (c + 1) h
      rw [hF _ (by omega)] at this
      omega
  unfold br_index_naive.F_at
  rw [hu, if_neg (by omega)]
  simp only [Nat.add_sub_cancel]
  rw [if_neg (by omega), if_neg (by rw [hF c hc]; omega)]

/-- C14: on a constructed index the single-row `LF` and `FL` are mutually
inverse permutations of the rows `[0, n-1]`: for every row `i`, `LF(i)` is a
row and `FL(LF(i)) = i`; `FL(i)` returns a row `k` (no assertion of `F_at`
fails, `select` has a result) and `LF(k) = i`. -/
theorem LF_FL_inverse (T : List Nat) (I : br_index_naive)
    (hI : br_index_naive.construct T = Except.ok I) :
    ∀ i, i < I.bwt_size →
      I.LF_row i < I.bwt_size ∧ I.FL (I.LF_row i) = some i ∧
      ∃ k, I.FL i = some k ∧ k < I.bwt_size ∧ I.LF_row k = i := by
  obtain ⟨hlen, hF, hsym, hn⟩ := construct_F T I hI
  intro i hi
  unfold br_index_naive.bwt_size rle_string.size at hi ⊢
  have hall : ∀ c, 256 ≤ c → I.bwt.countP (fun x => decide (x < c)) = I.bwt.length := by
    intro c hc
    rw [List.countP_eq_length]
    intro x hx
    have := hsym x hx
    simp only [decide_eq_true_eq]
    omega
  have hle : ∀ c, I.bwt.countP (fun x => decide (x < c)) ≤ I.bwt.length :=
    fun c => List.countP_le_length _
  refine ⟨?_, ?_, ?_⟩
  · -- LF(i) is a row
    have hc : I.bwt.getD i 0 < 256 := by
      rw [List.getD_eq_getElem _ _ hi]; exact hsym _ (List.getElem_mem _)
    have hs := rank_succ I.bwt i (I.bwt.getD i 0)
    rw [if_pos ⟨hi, rfl⟩] at hs
    have hr := rank_le_count I.bwt (i + 1) (I.bwt.getD i 0)
    have hcs := countP_lt_succ I.bwt (I.bwt.getD i 0)
    have := hle (I.bwt.getD i 0 + 1)
    unfold br_index_naive.LF_row rle_string.char_at
    simp only []
    rw [hF _ (by omega)]
    omega
  · -- FL(LF(i)) = i
    have hc : I.bwt.getD i 0 < 256 := by
      rw [List.getD_eq_getElem _ _ hi]; exact hsym _ (List.getElem_mem _)
    have hs := rank_succ I.bwt i (I.bwt.getD i 0)
    rw [if_pos ⟨hi, rfl⟩] at hs
    have hr := rank_le_count I.bwt (i + 1) (I.bwt.getD i 0)
    have hcs := countP_lt_succ I.bwt (I.bwt.getD i 0)
    have hat : I.F_at (I.LF_row i) = some (I.bwt.getD i 0) := by
      apply F_at_block I _ _ hlen hF (by omega)
      · unfold br_index_naive.LF_row rle_string.char_at
        simp only []
        rw [hF _ (by omega)]
        omega
      · unfold br_index_naive.LF_row rle_string.char_at
        simp only []
        rw [hF _ (by omega)]
        omega
    unfold br_index_naive.FL
    rw [hat]
    simp only []
    have e : I.LF_row i - I.F.getD (I.bwt.getD i 0) 0
        = rle_string.rank I.bwt i (I.bwt.getD i 0) := by
      unfold br_index_naive.LF_row rle_string.char_at
      simp only []
      omega
    rw [e]
    exact select_rank I.bwt i _ hi rfl
  · -- LF(FL(i)) = i
    obtain ⟨u1, u2, u3⟩ := upper_bound_spec I.F i
    have hu0 : 0 < upper_bound I.F i := by
      by_contra h0
      have h0 : upper_bound I.F i = 0 := by omega
      have := u3 (by omega)
      rw [h0, hF 0 (by omega)] at this
      have hz : I.bwt.countP (fun x => decide (x < 0)) = 0 := by
        rw [List.countP_eq_zero]
        intro x _
        simp
      omega
    have hcu : upper_bound I.F i - 1 ≤ 255 := by omega
    have hlow := u2 (upper_bound I.F i - 1) (by omega)
    rw [hF _ hcu] at hlow
    have hhigh : i < I.bwt.countP (fun x => decide (x < upper_bound I.F i - 1 + 1)) := by
      have e : upper_bound I.F i - 1 + 1 = upper_bound I.F i := by omega
      rw [e]
      by_cases h256 : upper_bound I.F i < 256
      · have := u3 (by omega)
        rw [hF _ (by omega)] at this
        exact this
      · rw [hall _ (by omega)]; exact hi
    have hat := F_at_block I (upper_bound I.F i - 1) i hlen hF hcu hlow hhigh
    have hcs := countP_lt_succ I.bwt (upper_bound I.F i - 1)
    obtain ⟨p, e, hp, r1, r2⟩ := select_spec I.bwt
      (i - I.F.getD (upper_bound I.F i - 1) 0) (upper_bound I.F i - 1)
      (by rw [hF _ hcu]; omega)
    obtain ⟨_, hch, _⟩ := select_char _ _ _ _ e
    refine ⟨p, ?_, hp, ?_⟩
    · unfold br_index_naive.FL
      rw [hat]
      exact e
    · unfold br_index_naive.LF_row rle_string.char_at
      simp only []
      rw [hch, r1, hF _ hcu]
      omega

set_option maxRecDepth 1000000 in
set_option maxHeartbeats 4000000 in
/-- Witness of C14: on "banana" (7 rows) `LF` maps the rows `0, …, 6` to
`1, 5, 6, 4, 0, 2, 3` and `FL` maps them back. -/
theorem LF_FL_inverse_witness :
    ∃ I, br_index_naive.construct [98, 97, 110, 97, 110, 97] = Except.ok I ∧
      I.bwt_size = 7 ∧
      ∀ i, i < I.bwt_size →
        I.LF_row i < I.bwt_size ∧ I.FL (I.LF_row i) = some i ∧
        ∃ k, I.FL i = some k ∧ k < I.bwt_size ∧ I.LF_row k = i := by
  obtain ⟨I, _, hI, _⟩ := run_of_isSome [98, 97, 110, 97, 110, 97] [] (by decide)
  have e : (br_index_naive.construct [98, 97, 110, 97, 110, 97]).toOption.map
      (fun I => I.bwt_size) = some 7 := by
    decide
  rw [hI] at e
  simp only [Except.toOption, Option.map_some', Option.some.injEq] at e
  exact ⟨I, hI, e, LF_FL_inverse [98, 97, 110, 97, 110, 97] I hI⟩

/-! ## The scenario of `get_char_range` followed by `left_extension` -/

set_option maxRecDepth 1000000 in
set_option maxHeartbeats 4000000 in
/-- C20, as stated, fails: on the freshly built index of "mississippi",
`get_char_range('i')` returns the range `(1, 4)` of size 4, and the following
`left_extension('s')` leaves a pattern of length 1 with `count() = 4` (the
pattern "s"), not the pattern "si" with `count() = 2`. -/
theorem get_char_range_scenario_counterexample :
    (br_index_naive.construct [109, 105, 115, 115, 105, 115, 115, 105, 112, 112, 105]).toOption.map
      (fun I => I.get_char_range 105) = some (1, 4) ∧
    ((br_index_naive.construct [109, 105, 115, 115, 105, 115, 115, 105, 112, 112, 105]).toOption.bind
      (fun I => I.left_extension 115)).map (fun a => (a.2.len, a.2.count)) = some (1, 4) := by
  decide

set_option maxRecDepth 1000000 in
set_option maxHeartbeats 4000000 in
/-- C20, amended: on the freshly built index of "mississippi",
`get_char_range('i')` returns a range of size 4; it is a query on the tables
and the pattern stays empty, so the following `left_extension('s')` leaves the
pattern "s" (length 1) with `count() = 4`, the number of occurrences of "s";
after `left_extension('i')` and then `left_extension('s')` the pattern is "si"
(length 2) and `count() = 2`, the number of occurrences of "si". -/
theorem get_char_range_scenario :
    (br_index_naive.construct [109, 105, 115, 115, 105, 115, 115, 105, 112, 112, 105]).toOption.map
      (fun I => ((I.get_char_range 105).2 + 1 - (I.get_char_range 105).1, I.len, I.count))
      = some (4, 0, 12) ∧
    ((br_index_naive.construct [109, 105, 115, 115, 105, 115, 115, 105, 112, 112, 105]).toOption.bind
      (fun I => I.extend_all [extension.left 115])).map (fun J => (J.len, J.count))
      = some (1, 4) ∧
    (occurrences [109, 105, 115, 115, 105, 115, 115, 105, 112, 112, 105] [115]).length = 4 ∧
    ((br_index_naive.construct [109, 105, 115, 115, 105, 115, 115, 105, 112, 112, 105]).toOption.bind
      (fun I => I.extend_all [extension.left 105, extension.left 115])).map
        (fun J => (J.len, J.count)) = some (2, 2) ∧
    spell [extension.left 105, extension.left 115] = [115, 105] ∧
    (occurrences [109, 105, 115, 115, 105, 115, 115, 105, 112, 112, 105] [115, 105]).length = 2 := by
  decide

/-! ## The samples of `sufsort` -/

theorem getD_take (l : List Nat) (k j : Nat) (h : j < k) :
    (l.take k).getD j 0 = l.getD j 0 := by
  simp only [List.getD_eq_getElem?_getD, List.getElem?_take_of_lt h]

theorem numbered_nil : numbered [] [] := ⟨rfl, rfl⟩

theorem numbered_length (v : List (Nat × Nat)) (vals : List Nat) (h : numbered v vals) :
    v.length = vals.length := by
  have := congrArg List.length h.1
  rw [List.length_map] at this
  exact this

theorem numbered_push (v : List (Nat × Nat)) (vals : List Nat) (x : Nat)
    (h : numbered v vals) : numbered (v ++ [(x, v.length)]) (vals ++ [x]) := by
  have hl := numbered_length v vals h
  refine ⟨?_, ?_⟩
  · rw [List.map_append, h.1]; rfl
  · rw [List.map_append, h.2, List.length_append, List.length_singleton, List.range_succ, hl]
    rfl

theorem filter_range_succ (p : Nat → Bool) (m : Nat) :
    (List.range (m + 1)).filter p = (List.range m).filter p ++ (if p m then [m] else []) := by
  rw [List.range_succ, List.filter_append]
  congr 1
  by_cases h : p m = true
  · rw [if_pos h, List.filter_cons_of_pos h, List.filter_nil]
  · rw [if_neg h, List.filter_cons_of_neg h, List.filter_nil]

/-- One decision of the sampling: the row `m` is pushed with the next number
exactly when it is selected by `p`. -/
theorem numbered_step (v : List (Nat × Nat)) (p : Nat → Bool) (g : Nat → Nat) (m : Nat)
    (c : Prop) [Decidable c] (hc : c ↔ p m = true)
    (h : numbered v (((List.range m).filter p).map g)) :
    numbered (if c then v ++ [(g m, v.length)] else v)
      (((List.range (m + 1)).filter p).map g) := by
  rw [filter_range_succ, List.map_append]
  by_cases hp : p m = true
  · rw [if_pos (hc.mpr hp), if_pos hp]
    exact numbered_push v _ (g m) h
  · rw [if_neg (fun h1 => hp (hc.mp h1)), if_neg hp, List.map_nil, List.append_nil]
    exact h

theorem take_succ_map (text sa : List Nat) (K : Nat) (hK : K < sa.length) :
    (sa.map (bwt_char text)).take K
        ++ [if sa.getD K 0 > 0 then text.getD (sa.getD K 0 - 1) 0 else TERMINATOR]
      = (sa.map (bwt_char text)).take (K + 1) := by
  have h1 : K < (sa.map (bwt_char text)).length := by rw [List.length_map]; exact hK
  rw [List.take_succ, List.getElem?_eq_getElem h1, List.getElem_map]
  simp only [Option.toList]
  rw [List.getD_eq_getElem _ _ hK]
  rfl

/-- The step of `sufsort` for row `K`, with the conditions read on the whole
BWT string `B`. -/
theorem sufsort_step_samples (text sa B : List Nat) (st : sufsort_state) (K : Nat)
    (hB : B = sa.map (bwt_char text))
    (hK : K < sa.length) (hb : st.bwt_s = B.take K) :
    (sufsort_step text sa st K).bwt_s = B.take (K + 1) ∧
    (sufsort_step text sa st K).samples_first =
      (if K > 0 ∧ K = sa.length - 1 ∧ B.getD K 0 ≠ B.getD (K - 1) 0 then
        (if K > 0 ∧ (K = 1 ∨ (K > 1 ∧ B.getD (K - 1) 0 ≠ B.getD (K - 2) 0)) then
          st.samples_first ++ [(sample_at sa (K - 1), st.samples_first.length)]
        else st.samples_first) ++ [(sample_at sa K,
        (if K > 0 ∧ (K = 1 ∨ (K > 1 ∧ B.getD (K - 1) 0 ≠ B.getD (K - 2) 0)) then
          st.samples_first ++ [(sample_at sa (K - 1), st.samples_first.length)]
        else st.samples_first).length)]
      else
        (if K > 0 ∧ (K = 1 ∨ (K > 1 ∧ B.getD (K - 1) 0 ≠ B.getD (K - 2) 0)) then
          st.samples_first ++ [(sample_at sa (K - 1), st.samples_first.length)]
        else st.samples_first)) ∧
    (sufsort_step text sa st K).samples_last =
      (if K > 0 ∧ K = sa.length - 1 then
        (if K > 0 ∧ B.getD (K - 1) 0 ≠ B.getD K 0 then
          st.samples_last ++ [(sample_at sa (K - 1), st.samples_last.length)]
        else st.samples_last) ++ [(sample_at sa K,
        (if K > 0 ∧ B.getD (K - 1) 0 ≠ B.getD K 0 then
          st.samples_last ++ [(sample_at sa (K - 1), st.samples_last.length)]
        else st.samples_last).length)]
      else
        (if K > 0 ∧ B.getD (K - 1) 0 ≠ B.getD K 0 then
          st.samples_last ++ [(sample_at sa (K - 1), st.samples_last.length)]
        else st.samples_last)) := by
  subst hB
  unfold sufsort_step
  simp only []
  rw [hb, take_succ_map text sa K hK]
  rw [getD_take _ _ _ (show K - 1 < K + 1 by omega), getD_take _ _ _ (show K - 2 < K + 1 by omega),
    getD_take _ _ _ (show K < K + 1 by omega)]
  exact ⟨rfl, rfl, rfl⟩

/-- The state of `sufsort` after the rows `0, …, K-1`: the BWT symbols of these
rows, and the numbered samples of the run starts and run ends among the rows
decided so far (all rows once the last row is done, the rows before `K - 1`
otherwise). -/
theorem sufsort_inv (text sa B : List Nat) (hB : B = sa.map (bwt_char text))
    (h2 : 2 ≤ sa.length) (K : Nat) (hK : K ≤ sa.length) :
    ((List.range K).foldl (sufsort_step text sa)
        { bwt_s := [], samples_first := [], samples_last := [] }).bwt_s = B.take K ∧
    numbered ((List.range K).foldl (sufsort_step text sa)
        { bwt_s := [], samples_first := [], samples_last := [] }).samples_first
      (((List.range (if K = sa.length then K else K - 1)).filter
        (fun s => decide (s = 0) || decide (B.getD s 0 ≠ B.getD (s - 1) 0))).map (sample_at sa)) ∧
    numbered ((List.range K).foldl (sufsort_step text sa)
        { bwt_s := [], samples_first := [], samples_last := [] }).samples_last
      (((List.range (if K = sa.length then K else K - 1)).filter
        (fun e => decide (e + 1 = B.length) || decide (B.getD e 0 ≠ B.getD (e + 1) 0))).map
          (sample_at sa)) := by
  have hBl : B.length = sa.length := by rw [hB, List.length_map]
  induction K with
  | zero =>
    have h0 : ¬ (0 = sa.length) := by omega
    rw [if_neg h0]
    exact ⟨rfl, numbered_nil, numbered_nil⟩
  | succ K ih =>
    obtain ⟨i1, i2, i3⟩ := ih (by omega)
    rw [List.range_succ, List.foldl_append]
    simp only [List.foldl_cons, List.foldl_nil]
    generalize (List.range K).foldl (sufsort_step text sa)
      { bwt_s := [], samples_first := [], samples_last := [] } = st at i1 i2 i3
    obtain ⟨s1, s2, s3⟩ := sufsort_step_samples text sa B st K hB (by omega) i1
    have hKn : ¬ (K = sa.length) := by omega
    rw [if_neg hKn] at i2 i3
    refine ⟨s1, ?_, ?_⟩
    · rw [s2]
      by_cases h0 : K = 0
      · subst h0
        have e1 : ¬ (0 + 1 = sa.length) := by omega
        rw [if_neg e1, if_neg (by omega), if_neg (by omega)]
        exact i2
      · by_cases hlast : K + 1 = sa.length
        · rw [if_pos hlast]
          have hfirst := numbered_step st.samples_first
            (fun s => decide (s = 0) || decide (B.getD s 0 ≠ B.getD (s - 1) 0)) (sample_at sa)
            (K - 1) (K > 0 ∧ (K = 1 ∨ (K > 1 ∧ B.getD (K - 1) 0 ≠ B.getD (K - 2) 0)))
            (by
              simp only [Bool.or_eq_true, decide_eq_true_eq, Nat.sub_sub]
              by_cases hK1 : K = 1
              · subst hK1; simp
              · constructor
                · rintro ⟨_, h | h⟩
                  · exact absurd h hK1
                  · exact Or.inr h.2
                · rintro (h | h)
                  · omega
                  · exact ⟨by omega, Or.inr ⟨by omega, h⟩⟩) i2
          have e : K - 1 + 1 = K := by omega
          rw [e] at hfirst
          have hsecond := numbered_step _
            (fun s => decide (s = 0) || decide (B.getD s 0 ≠ B.getD (s - 1) 0)) (sample_at sa)
            K (K > 0 ∧ K = sa.length - 1 ∧ B.getD K 0 ≠ B.getD (K - 1) 0)
            (by
              simp only [Bool.or_eq_true, decide_eq_true_eq]
              constructor
              · rintro ⟨_, _, h⟩; exact Or.inr h
              · rintro (h | h)
                · exact absurd h h0
                · exact ⟨by omega, by omega, h⟩) hfirst
          exact hsecond
        · rw [if_neg hlast, if_neg (by omega)]
          have hfirst := numbered_step st.samples_first
            (fun s => decide (s = 0) || decide (B.getD s 0 ≠ B.getD (s - 1) 0)) (sample_at sa)
            (K - 1) (K > 0 ∧ (K = 1 ∨ (K > 1 ∧ B.getD (K - 1) 0 ≠ B.getD (K - 2) 0)))
            (by
              simp only [Bool.or_eq_true, decide_eq_true_eq, Nat.sub_sub]
              by_cases hK1 : K = 1
              · subst hK1; simp
              · constructor
                · rintro ⟨_, h | h⟩
                  · exact absurd h hK1
                  · exact Or.inr h.2
                · rintro (h | h)
                  · omega
                  · exact ⟨by omega, Or.inr ⟨by omega, h⟩⟩) i2
          have e : K - 1 + 1 = K := by omega
          rw [e] at hfirst
          have e2 : K + 1 - 1 = K := by omega
          rw [e2]
          exact hfirst
    · rw [s3]
      by_cases h0 : K = 0
      · subst h0
        have e1 : ¬ (0 + 1 = sa.length) := by omega
        rw [if_neg e1, if_neg (by omega), if_neg (by omega)]
        exact i3
      · have hfirst := numbered_step st.samples_last
          (fun e => decide (e + 1 = B.length) || decide (B.getD e 0 ≠ B.getD (e + 1) 0))
          (sample_at sa) (K - 1) (K > 0 ∧ B.getD (K - 1) 0 ≠ B.getD K 0)
          (by
            have e : K - 1 + 1 = K := by omega
            simp only [Bool.or_eq_true, decide_eq_true_eq, e]
            constructor
            · rintro ⟨_, h⟩; exact Or.inr h
            · rintro (h | h)
              · omega
              · exact ⟨by omega, h⟩) i3
        have e : K - 1 + 1 = K := by omega
        rw [e] at hfirst
        by_cases hlast : K + 1 = sa.length
        · rw [if_pos hlast, if_pos (by omega)]
          have hsecond := numbered_step _
            (fun e => decide (e + 1 = B.length) || decide (B.getD e 0 ≠ B.getD (e + 1) 0))
            (sample_at sa) K True
            (by simp only [Bool.or_eq_true, decide_eq_true_eq, true_iff]; left; omega) hfirst
          rw [if_pos trivial] at hsecond
          exact hsecond
        · rw [if_neg hlast, if_neg (by omega)]
          have e2 : K + 1 - 1 = K := by omega
          rw [e2]
          exact hfirst

/-! ## Runs -/

theorem countP_range_succ_shift (p : Nat → Bool) (n : Nat) :
    (List.range (n + 1)).countP p
      = (if p 0 then 1 else 0) + (List.range n).countP (fun s => p (s + 1)) := by
  rw [List.range_succ_eq_map, List.countP_cons, List.countP_map, Nat.add_comm]
  rfl

/-- There are as many run ends as runs. -/
theorem run_ends_length (b : List Nat) : (run_ends b).length = rle_string.number_of_runs b := by
  unfold run_ends
  rw [← List.countP_eq_length_filter]
  induction b with
  | nil => rfl
  | cons x l ih =>
    cases l with
    | nil => rfl
    | cons y rest =>
      have hlen : (x :: y :: rest).length = (y :: rest).length + 1 := rfl
      rw [hlen, countP_range_succ_shift]
      unfold rle_string.number_of_runs
      rw [← ih]
      congr 1
      · by_cases hxy : x = y
        · simp [hxy]
        · simp [hxy]
      · apply List.countP_congr
        intro e _
        simp

/-- There are as many run starts as runs. -/
theorem run_starts_length (b : List Nat) :
    (run_starts b).length = rle_string.number_of_runs b := by
  unfold run_starts
  rw [← List.countP_eq_length_filter]
  induction b with
  | nil => rfl
  | cons x l ih =>
    cases l with
    | nil => rfl
    | cons y rest =>
      have hlen : (x :: y :: rest).length = rest.length + 1 + 1 := rfl
      have hlen1 : (y :: rest).length = rest.length + 1 := rfl
      rw [hlen1, countP_range_succ_shift] at ih
      rw [hlen, countP_range_succ_shift, countP_range_succ_shift]
      unfold rle_string.number_of_runs
      rw [← ih]
      have e1 : (List.range rest.length).countP
          (fun s => (fun s => decide (s = 0)
            || decide ((x :: y :: rest).getD s 0 ≠ (x :: y :: rest).getD (s - 1) 0)) (s + 1 + 1))
          = (List.range rest.length).countP
          (fun s => (fun s => decide (s = 0)
            || decide ((y :: rest).getD s 0 ≠ (y :: rest).getD (s - 1) 0)) (s + 1)) := by
        apply List.countP_congr
        intro s _
        simp
      simp only [] at e1 ⊢
      rw [e1]
      by_cases hxy : x = y
      · simp [hxy]
      · have hyx : ¬ y = x := fun h => hxy h.symm
        simp [hxy, hyx]

/-- The sample of a row is `(SA[row] - 1) mod n`. -/
theorem sample_at_mod (sa : List Nat) (s : Nat) (h : sa.getD s 0 < sa.length) :
    sample_at sa s = (sa.getD s 0 + sa.length - 1) % sa.length := by
  unfold sample_at
  by_cases h0 : sa.getD s 0 > 0
  · rw [if_pos h0]
    have e : sa.getD s 0 + sa.length - 1 = (sa.getD s 0 - 1) + sa.length := by omega
    rw [e, Nat.add_mod_right, Nat.mod_eq_of_lt (by omega)]
  · rw [if_neg h0]
    have e : sa.getD s 0 + sa.length - 1 = sa.length - 1 := by omega
    rw [e, Nat.mod_eq_of_lt (by omega)]

/-- C17: for every text and suffix array of length `n ≥ 2`, `sufsort` returns
the BWT string `B` and emits exactly one first-sample and one last-sample per
maximal equal-letter run of `B` (the run that opens at row 0 and the run that
closes at row `n-1` included), in run order and numbered `0, …, r-1`: the
first-samples are the samples of the run starts, the last-samples those of the
run ends, there are as many of each as runs, and the sample of a row `s` is
`(SA[s] - 1) mod n`. -/
theorem sufsort_samples (text sa : List Nat) (h2 : 2 ≤ sa.length) :
    (sufsort text sa).bwt_s = sa.map (bwt_char text) ∧
    numbered (sufsort text sa).samples_first
      ((run_starts (sa.map (bwt_char text))).map (sample_at sa)) ∧
    numbered (sufsort text sa).samples_last
      ((run_ends (sa.map (bwt_char text))).map (sample_at sa)) ∧
    (sufsort text sa).samples_first.length
      = rle_string.number_of_runs (sufsort text sa).bwt_s ∧
    (sufsort text sa).samples_last.length
      = rle_string.number_of_runs (sufsort text sa).bwt_s ∧
    (∀ s, s < sa.length → sa.getD s 0 < sa.length →
      sample_at sa s = (sa.getD s 0 + sa.length - 1) % sa.length) := by
  obtain ⟨i1, i2, i3⟩ := sufsort_inv text sa (sa.map (bwt_char text)) rfl h2 sa.length
    (le_refl _)
  rw [if_pos rfl] at i2 i3
  have hl : (sa.map (bwt_char text)).length = sa.length := List.length_map _ _
  have hb : (sufsort text sa).bwt_s = sa.map (bwt_char text) := by
    unfold sufsort
    rw [i1, ← hl, List.take_length]
  have hf : numbered (sufsort text sa).samples_first
      ((run_starts (sa.map (bwt_char text))).map (sample_at sa)) := by
    unfold run_starts sufsort
    rw [hl]
    exact i2
  have hla : numbered (sufsort text sa).samples_last
      ((run_ends (sa.map (bwt_char text))).map (sample_at sa)) := by
    unfold run_ends sufsort
    rw [hl]
    rw [hl] at i3
    exact i3
  refine ⟨hb, hf, hla, ?_, ?_, fun s _ hs => sample_at_mod sa s hs⟩
  · rw [numbered_length _ _ hf, List.length_map, run_starts_length, hb]
  · rw [numbered_length _ _ hla, List.length_map, run_ends_length, hb]

set_option maxRecDepth 1000000 in
set_option maxHeartbeats 4000000 in
/-- Witness of C17: the remapped text of "banana" with its suffix array
`6, 5, 3, 1, 0, 4, 2`; the BWT string `2, 4, 4, 3, 1, 2, 2` has five runs, which
start at the rows `0, 1, 3, 4, 5` and end at the rows `0, 2, 3, 4, 6`. -/
theorem sufsort_samples_witness :
    construct_sa [3, 2, 4, 2, 4, 2, 0] = [6, 5, 3, 1, 0, 4, 2] ∧
    run_starts [2, 4, 4, 3, 1, 2, 2] = [0, 1, 3, 4, 5] ∧
    run_ends [2, 4, 4, 3, 1, 2, 2] = [0, 2, 3, 4, 6] ∧
    (sufsort [3, 2, 4, 2, 4, 2, 0] [6, 5, 3, 1, 0, 4, 2]).samples_first
      = [(5, 0), (4, 1), (0, 2), (6, 3), (3, 4)] ∧
    (sufsort [3, 2, 4, 2, 4, 2, 0] [6, 5, 3, 1, 0, 4, 2]).samples_last
      = [(5, 0), (2, 1), (0, 2), (6, 3), (1, 4)] ∧
    numbered (sufsort [3, 2, 4, 2, 4, 2, 0] [6, 5, 3, 1, 0, 4, 2]).samples_first
      ((run_starts ([6, 5, 3, 1, 0, 4, 2].map (bwt_char [3, 2, 4, 2, 4, 2, 0]))).map
        (sample_at [6, 5, 3, 1, 0, 4, 2])) :=
  ⟨by decide, by decide, by decide, by decide, by decide,
    (sufsort_samples [3, 2, 4, 2, 4, 2, 0] [6, 5, 3, 1, 0, 4, 2] (by decide)).2.1⟩

/-! ## The range step against its specification -/

/-- A symbol that does not occur has rank 0 everywhere. -/
theorem rank_absent (s : List Nat) (i c : Nat) (h : s.count c = 0) : rle_string.rank s i c = 0 := by
  have := rank_le_count s i c
  omega

/-- The code of the range step computes the range of the specification: the
early exit is taken only for symbols that do not occur in the BWT. -/
theorem range_LF_spec (F : List Nat) (n : Nat) (b : List Nat) (c l r : Nat)
    (hF : ∀ a, a ≤ 255 → F.getD a 0 = b.countP (fun x => decide (x < a)))
    (hsym : ∀ x ∈ b, x ≤ 254) (hc : c < 256) (hlr : l ≤ r) :
    range_LF F n b (l, r) c = LF_spec F b (l, r) c := by
  have hmono := rank_mono b l (r + 1) c (by omega)
  unfold range_LF LF_spec
  simp only []
  by_cases hg : ((decide (c = 255) && decide (F.getD c 0 = n))
      || decide (F.getD c 0 ≥ F.getD (c + 1) 0)) = true
  · rw [if_pos hg]
    have hcount : b.count c = 0 := by
      by_cases h255 : c = 255
      · rw [List.count_eq_zero]
        intro hmem
        have := hsym c hmem
        omega
      · simp only [Bool.or_eq_true, Bool.and_eq_true, decide_eq_true_eq] at hg
        have hcs := countP_lt_succ b c
        rw [hF c (by omega), hF (c + 1) (by omega)] at hg
        omega
    rw [rank_absent b l c hcount, rank_absent b (r + 1) c hcount, if_pos rfl]
  · rw [if_neg hg]
    by_cases h0 : rle_string.rank b (r + 1) c - rle_string.rank b l c = 0
    · rw [if_pos h0, if_pos (by omega)]
    · rw [if_neg h0, if_neg (by omega)]
      congr 1
      omega

/-- The symbols of both BWTs of an index of a valid text are at most 254. -/
theorem indexes_symbols (I : br_index_naive) (T : List Nat) (hI : I.indexes T) :
    (∀ x ∈ I.bwt, x ≤ 254) ∧ (∀ x ∈ I.bwtR, x ≤ 254) := by
  have hsym : ∀ U : List Nat, (∀ b ∈ U, b ∈ T) → ∀ x ∈ bwt_of (I.text U), x ≤ 254 := by
    intro U hU x hx
    rcases mem_bwt_of _ _ hx with e | e
    · rw [e]; decide
    · unfold br_index_naive.text remap_text at e
      rw [List.mem_append, List.mem_map] at e
      rcases e with ⟨b, hb, e⟩ | e
      · rw [← e]; exact (hI.1 b (hU b hb)).2
      · rw [List.mem_singleton.mp e]; omega
  refine ⟨fun x hx => ?_, fun x hx => ?_⟩
  · rw [hI.2.2.2.1] at hx
    exact hsym T (fun b hb => hb) x hx
  · rw [hI.2.2.2.2.1] at hx
    exact hsym T.reverse (fun b hb => List.mem_reverse.mp hb) x hx

/-- The F column counts the symbols of the reverse BWT as well. -/
theorem F_bwtR (I : br_index_naive) (T : List Nat) (hI : I.indexes T) :
    ∀ a, a ≤ 255 → I.F.getD a 0 = I.bwtR.countP (fun x => decide (x < a)) := by
  intro a ha
  rw [F_reverse I T hI a ha, hI.2.2.2.2.1, text_reverse]

/-- C18: on the index of a valid text, for every range `[l, r]` with `l ≤ r`
(in particular when `r ≤ n-1`) and every symbol `c` in `0..255`, `LF([l, r], c)` is the range of the
specification: `(1, 0)` when `rank(r+1, c) = rank(l, c)`, otherwise
`[F[c] + rank(l, c), F[c] + rank(r+1, c) - 1]`; the early exit of the code never
changes this result.  The same holds for `LFR` on the reverse BWT. -/
theorem LF_refines_spec (T : List Nat) (I : br_index_naive) (c l r : Nat)
    (hT : valid_text T) (hI : br_index_naive.construct T = Except.ok I)
    (hc : c < 256) (hlr : l ≤ r) :
    I.LF (l, r) c = LF_spec I.F I.bwt (l, r) c ∧
    I.LFR (l, r) c = LF_spec I.F I.bwtR (l, r) c ∧
    (I.no_symbol c = true → LF_spec I.F I.bwt (l, r) c = (1, 0)
      ∧ LF_spec I.F I.bwtR (l, r) c = (1, 0)) := by
  have hidx := construct_indexes T I hT hI
  obtain ⟨_, hF, _, _⟩ := construct_F T I hI
  obtain ⟨hs1, hs2⟩ := indexes_symbols I T hidx
  have e1 : I.LF (l, r) c = LF_spec I.F I.bwt (l, r) c := by
    rw [LF_eq_range_LF]
    exact range_LF_spec _ _ _ c l r hF hs1 hc hlr
  have e2 : I.LFR (l, r) c = LF_spec I.F I.bwtR (l, r) c := by
    rw [LFR_eq_range_LF]
    exact range_LF_spec _ _ _ c l r (F_bwtR I T hidx) hs2 hc hlr
  refine ⟨e1, e2, fun hno => ?_⟩
  rw [← e1, ← e2]
  unfold br_index_naive.LF br_index_naive.LFR
  rw [if_pos hno, if_pos hno]
  exact ⟨rfl, rfl⟩

set_option maxRecDepth 1000000 in
set_option maxHeartbeats 4000000 in
/-- Witness of C18: on "mississippi", the range `[1, 4]` of "i" and the symbol
5 (the code of `s`): `LF` returns `[8, 9]`, the range of "si". -/
theorem LF_refines_spec_witness :
    ∃ I, br_index_naive.construct [109, 105, 115, 115, 105, 115, 115, 105, 112, 112, 105]
        = Except.ok I ∧
      I.LF (1, 4) 5 = (8, 9) ∧ I.LF (1, 4) 5 = LF_spec I.F I.bwt (1, 4) 5 := by
  obtain ⟨I, _, hI, _⟩ := run_of_isSome [109, 105, 115, 115, 105, 115, 115, 105, 112, 112, 105]
    [] (by decide)
  have e : (br_index_naive.construct
      [109, 105, 115, 115, 105, 115, 115, 105, 112, 112, 105]).toOption.map
      (fun I => I.LF (1, 4) 5) = some (8, 9) := by
    decide
  rw [hI] at e
  simp only [Except.toOption, Option.map_some', Option.some.injEq] at e
  exact ⟨I, hI, e, (LF_refines_spec [109, 105, 115, 115, 105, 115, 115, 105, 112, 112, 105]
    I 5 1 4 (by decide) hI (by decide) (by decide)).1⟩

/-! ## `get_char_range` -/

/-- Under a map that is injective on the bytes of `T`, the image of a byte is
counted as often as the byte. -/
theorem count_map_injOn (r : Nat → Nat) (T : List Nat) (c : Nat) (hc : c ∈ T)
    (hinj : ∀ a ∈ T, ∀ b ∈ T, r a = r b → a = b) :
    ∀ L : List Nat, (∀ a ∈ L, a ∈ T) → (L.map r).count (r c) = L.count c := by
  intro L
  induction L with
  | nil => intro _; rfl
  | cons x L ih =>
    intro hL
    have hx : x ∈ T := hL x (List.mem_cons_self _ _)
    have ih1 := ih (fun a ha => hL a (List.mem_cons_of_mem _ ha))
    rw [List.map_cons]
    by_cases hxc : x = c
    · subst hxc
      rw [List.count_cons_self, List.count_cons_self, ih1]
    · have hne : r c ≠ r x := fun h => hxc (hinj x hx c hc h.symm)
      have hxc1 : c ≠ x := fun h => hxc h.symm
      rw [List.count_cons_of_ne hne, List.count_cons_of_ne hxc1, ih1]

/-- The code of a byte of `T` occurs in the BWT as often as the byte in `T`. -/
theorem count_bwt (I : br_index_naive) (T : List Nat) (hI : I.indexes T) (c : Nat) (hc : c ∈ T) :
    I.bwt.count (I.remap.getD c 0) = T.count c := by
  have h2 := (hI.1 c hc).1
  rw [hI.2.2.2.1]
  have e := countP_bwt_of_text (fun x => x == I.remap.getD c 0) (I.text T)
    (by rw [text_eq]; exact getLast_append_zero _)
    (by
      have h0 : (0 == I.remap.getD c 0) = false := by
        rw [beq_eq_false_iff_ne]; omega
      have h1 : (TERMINATOR == I.remap.getD c 0) = false := by
        rw [beq_eq_false_iff_ne]; unfold TERMINATOR; omega
      simp only [h0, h1])
  have e1 : (I.text T).count (I.remap.getD c 0) = T.count c := by
    unfold br_index_naive.text remap_text
    rw [List.count_append, count_map_injOn (fun b => I.remap.getD b 0) T c hc hI.2.2.1 T
      (fun a ha => ha)]
    have : List.count (I.remap.getD c 0) [0] = 0 := by
      rw [List.count_eq_zero, List.mem_singleton]; omega
    rw [this, Nat.add_zero]
  rw [← e1]
  exact e

/-- C19: on the index of a valid text `T`, for every byte `c` that occurs in
`T`, `get_char_range(c)` is `[F[c'], F[c'+1] - 1]` with `c' = remap[c]`, the
range that `left_extension(c)` returns when it is called right after
`reset_pattern`; its size is the number of occurrences of `c` in `T`; and
`get_char_range` is a query on the tables: it returns a range only, the same
from every query state. -/
theorem get_char_range_spec (T : List Nat) (I : br_index_naive) (c : Nat)
    (hT : valid_text T) (hI : br_index_naive.construct T = Except.ok I) (hc : c ∈ T) :
    I.get_char_range c
      = (I.F.getD (I.remap.getD c 0) 0, I.F.getD (I.remap.getD c 0 + 1) 0 - 1) ∧
    (∃ J, I.reset_pattern.left_extension c = some (I.get_char_range c, J)) ∧
    (I.get_char_range c).2 + 1 - (I.get_char_range c).1 = T.count c ∧
    0 < T.count c ∧
    (∀ K, I.same_tables K → K.get_char_range c = I.get_char_range c) := by
  have hidx := construct_indexes T I hT hI
  obtain ⟨_, hF, _, hn⟩ := construct_F T I hI
  obtain ⟨hs1, _⟩ := indexes_symbols I T hidx
  obtain ⟨hc2, hc254⟩ := hidx.1 c hc
  have hcount := count_bwt I T hidx c hc
  have hpos : 0 < T.count c := List.count_pos_iff.mpr hc
  have hcs := countP_lt_succ I.bwt (I.remap.getD c 0)
  have hF0 := hF (I.remap.getD c 0) (by omega)
  have hF1 := hF (I.remap.getD c 0 + 1) (by omega)
  have hno : I.no_symbol (I.remap.getD c 0) = false := by
    unfold br_index_naive.no_symbol
    rw [Bool.or_eq_false_iff, Bool.and_eq_false_iff]
    refine ⟨Or.inl ?_, ?_⟩
    · rw [decide_eq_false_iff_not]; omega
    · rw [decide_eq_false_iff_not]; omega
  have hg : I.get_char_range c
      = (I.F.getD (I.remap.getD c 0) 0, I.F.getD (I.remap.getD c 0 + 1) 0 - 1) := by
    unfold br_index_naive.get_char_range
    simp only []
    rw [hno, if_neg (by simp), if_pos (by omega)]
  have hLF : I.reset_pattern.LF I.reset_pattern.range (I.reset_pattern.remap.getD c 0)
      = I.get_char_range c := by
    have e : I.reset_pattern.LF I.reset_pattern.range (I.reset_pattern.remap.getD c 0)
        = range_LF I.F (rle_string.size I.bwt) I.bwt (0, I.bwt.length - 1) (I.remap.getD c 0) := rfl
    rw [e, range_LF_spec _ _ _ _ 0 (I.bwt.length - 1) hF hs1 (by omega) (Nat.zero_le _), hg]
    unfold LF_spec
    simp only []
    have e2 : I.bwt.length - 1 + 1 = I.bwt.length := by omega
    rw [e2, rank_zero, rank_length, if_neg (by omega)]
    congr 1
    omega
  have hrank : rle_string.rank I.reset_pattern.bwt I.reset_pattern.range.1
        (I.reset_pattern.remap.getD c 0)
      < rle_string.rank I.reset_pattern.bwt (I.reset_pattern.range.2 + 1)
        (I.reset_pattern.remap.getD c 0) := by
    have e : rle_string.rank I.reset_pattern.bwt (I.reset_pattern.range.2 + 1)
        (I.reset_pattern.remap.getD c 0)
        = rle_string.rank I.bwt (I.bwt.length - 1 + 1) (I.remap.getD c 0) := rfl
    have e0 : rle_string.rank I.reset_pattern.bwt I.reset_pattern.range.1
        (I.reset_pattern.remap.getD c 0) = rle_string.rank I.bwt 0 (I.remap.getD c 0) := rfl
    have e2 : I.bwt.length - 1 + 1 = I.bwt.length := by omega
    rw [e, e0, e2, rank_zero, rank_length]
    omega
  refine ⟨hg, ?_, ?_, hpos, fun K hK => ?_⟩
  · obtain ⟨J, hJ, _⟩ := left_extension_match I.reset_pattern c
      (by rw [hLF, hg]; simp only []; omega) hrank
    rw [hLF] at hJ
    exact ⟨J, hJ⟩
  · rw [hg]
    simp only []
    omega
  · unfold br_index_naive.get_char_range br_index_naive.no_symbol br_index_naive.bwt_size
    rw [← hK.1, ← hK.2.2.2.1, ← hK.2.2.2.2.1]

set_option maxRecDepth 1000000 in
set_option maxHeartbeats 4000000 in
/-- Witness of C19: on "mississippi" the byte `i` occurs four times and
`get_char_range('i')` is the range `[1, 4]`. -/
theorem get_char_range_spec_witness :
    valid_text [109, 105, 115, 115, 105, 115, 115, 105, 112, 112, 105] ∧
    ∃ I, br_index_naive.construct [109, 105, 115, 115, 105, 115, 115, 105, 112, 112, 105]
        = Except.ok I ∧
      I.get_char_range 105 = (1, 4) ∧
      (∃ J, I.reset_pattern.left_extension 105 = some (I.get_char_range 105, J)) ∧
      (I.get_char_range 105).2 + 1 - (I.get_char_range 105).1 = 4 := by
  obtain ⟨I, _, hI, _⟩ := run_of_isSome [109, 105, 115, 115, 105, 115, 115, 105, 112, 112, 105]
    [] (by decide)
  have h := get_char_range_spec [109, 105, 115, 115, 105, 115, 115, 105, 112, 112, 105] I 105
    (by decide) hI (by decide)
  have e : (br_index_naive.construct
      [109, 105, 115, 115, 105, 115, 115, 105, 112, 112, 105]).toOption.map
      (fun I => I.get_char_range 105) = some (1, 4) := by
    decide
  rw [hI] at e
  simp only [Except.toOption, Option.map_some', Option.some.injEq] at e
  exact ⟨by decide, I, hI, e, h.2.1, by rw [h.2.2.1]; decide⟩

/-! ## The two branches of the extension primitives -/

/-- A non-empty result of the range step: the symbol occurs in the range. -/
theorem range_LF_nonempty (F : List Nat) (n : Nat) (b : List Nat) (rn : range_t) (c : Nat)
    (h : (range_LF F n b rn c).1 ≤ (range_LF F n b rn c).2) :
    rle_string.rank b rn.1 c < rle_string.rank b (rn.2 + 1) c ∧
    range_LF F n b rn c
      = (F.getD c 0 + rle_string.rank b rn.1 c, F.getD c 0 + rle_string.rank b (rn.2 + 1) c - 1) := by
  unfold range_LF at h ⊢
  simp only [] at h ⊢
  by_cases hg : ((decide (c = 255) && decide (F.getD c 0 = n))
      || decide (F.getD c 0 ≥ F.getD (c + 1) 0)) = true
  · rw [if_pos hg] at h
    simp only [] at h
    omega
  · rw [if_neg hg] at h ⊢
    by_cases h0 : rle_string.rank b (rn.2 + 1) c - rle_string.rank b rn.1 c = 0
    · rw [if_pos h0] at h
      simp only [] at h
      omega
    · rw [if_neg h0]
      refine ⟨by omega, ?_⟩
      congr 1
      omega

/-- A successful `left_extension`, field by field: the returned range is
`LF(range, c)`, the reverse range is shifted by the accumulated sizes, and the
anchor is refreshed from the last row `p` of the previous range that holds `c`
when the widths differ, otherwise only `d` is incremented. -/
theorem left_extension_shape (I : br_index_naive) (c_orig : Nat)
    (h : (I.LF I.range (I.remap.getD c_orig 0)).1 ≤ (I.LF I.range (I.remap.getD c_orig 0)).2) :
    ∃ J p, I.left_extension c_orig = some (I.LF I.range (I.remap.getD c_orig 0), J) ∧
      rle_string.select I.bwt
        (rle_string.rank I.bwt (I.range.2 + 1) (I.remap.getD c_orig 0) - 1)
        (I.remap.getD c_orig 0) = some p ∧
      I.range.1 ≤ p ∧ p ≤ I.range.2 ∧
      0 < rle_string.rank I.bwt (I.range.2 + 1) (I.remap.getD c_orig 0) ∧
      J.range = I.LF I.range (I.remap.getD c_orig 0) ∧
      J.rangeR = (I.rangeR.1
          + accumulate_smaller (fun a => I.LF I.range a) (I.remap.getD c_orig 0),
        I.rangeR.1 + accumulate_smaller (fun a => I.LF I.range a) (I.remap.getD c_orig 0)
          + (I.LF I.range (I.remap.getD c_orig 0)).2 - (I.LF I.range (I.remap.getD c_orig 0)).1) ∧
      J.len = I.len + 1 ∧ I.same_tables J ∧
      (I.range.2 - I.range.1
          ≠ (I.LF I.range (I.remap.getD c_orig 0)).2 - (I.LF I.range (I.remap.getD c_orig 0)).1 →
        J.p = p ∧
        J.j = (if rle_string.char_at I.bwt I.range.2 = I.remap.getD c_orig 0 then
            I.samples_first.getD (rle_string.run_of_position I.bwt p) 0
          else I.samples_last.getD (rle_string.run_of_position I.bwt p) 0) ∧
        J.d = 0 ∧ J.pR = I.inv_order.getD (rle_string.run_of_position I.bwt p) 0 ∧
        J.jR = rle_string.size I.bwt - 2 - J.j ∧ J.dR = I.len) ∧
      (I.range.2 - I.range.1
          = (I.LF I.range (I.remap.getD c_orig 0)).2 - (I.LF I.range (I.remap.getD c_orig 0)).1 →
        J.p = I.p ∧ J.j = I.j ∧ J.d = I.d + 1 ∧ J.pR = I.pR ∧ J.jR = I.jR ∧ J.dR = I.dR) := by
  have hr := (range_LF_nonempty _ _ _ _ _ (by rw [← LF_eq_range_LF]; exact h)).1
  obtain ⟨p, hsel, hp1, hp2⟩ := select_last_in_range I.bwt I.range.1 (I.range.2 + 1) _ hr
  have hrnk : ¬ rle_string.rank I.bwt (I.range.2 + 1) (I.remap.getD c_orig 0) = 0 := by omega
  unfold br_index_naive.left_extension
  simp only []
  rw [if_neg (by omega)]
  by_cases h1 : I.range.2 - I.range.1
      ≠ (I.LF I.range (I.remap.getD c_orig 0)).2 - (I.LF I.range (I.remap.getD c_orig 0)).1
  · rw [if_pos h1, if_neg hrnk, hsel]
    simp only []
    rw [if_pos ⟨hp1, by omega⟩]
    exact ⟨_, p, rfl, rfl, hp1, by omega, by omega, rfl, rfl, rfl,
      by simp [br_index_naive.same_tables],
      fun _ => ⟨rfl, rfl, rfl, rfl, rfl, rfl⟩, fun h2 => absurd h2 h1⟩
  · rw [if_neg h1]
    exact ⟨_, p, rfl, hsel, hp1, by omega, by omega, rfl, rfl, rfl,
      by simp [br_index_naive.same_tables],
      fun h2 => absurd h2 h1, fun _ => ⟨rfl, rfl, rfl, rfl, rfl, rfl⟩⟩

/-- A successful `right_extension`, field by field. -/
theorem right_extension_shape (I : br_index_naive) (c_orig : Nat)
    (h : (I.LFR I.rangeR (I.remap.getD c_orig 0)).1 ≤ (I.LFR I.rangeR (I.remap.getD c_orig 0)).2) :
    ∃ J pR, I.right_extension c_orig
        = some ((I.range.1
            + accumulate_smaller (fun a => I.LFR I.rangeR a) (I.remap.getD c_orig 0),
          I.range.1 + accumulate_smaller (fun a => I.LFR I.rangeR a) (I.remap.getD c_orig 0)
            + (I.LFR I.rangeR (I.remap.getD c_orig 0)).2
            - (I.LFR I.rangeR (I.remap.getD c_orig 0)).1), J) ∧
      rle_string.select I.bwtR
        (rle_string.rank I.bwtR (I.rangeR.2 + 1) (I.remap.getD c_orig 0) - 1)
        (I.remap.getD c_orig 0) = some pR ∧
      I.rangeR.1 ≤ pR ∧ pR ≤ I.rangeR.2 ∧
      0 < rle_string.rank I.bwtR (I.rangeR.2 + 1) (I.remap.getD c_orig 0) ∧
      J.rangeR = I.LFR I.rangeR (I.remap.getD c_orig 0) ∧
      J.range = (I.range.1
          + accumulate_smaller (fun a => I.LFR I.rangeR a) (I.remap.getD c_orig 0),
        I.range.1 + accumulate_smaller (fun a => I.LFR I.rangeR a) (I.remap.getD c_orig 0)
          + (I.LFR I.rangeR (I.remap.getD c_orig 0)).2
          - (I.LFR I.rangeR (I.remap.getD c_orig 0)).1) ∧
      J.len = I.len + 1 ∧ I.same_tables J ∧
      (I.rangeR.2 - I.rangeR.1
          ≠ (I.LFR I.rangeR (I.remap.getD c_orig 0)).2
            - (I.LFR I.rangeR (I.remap.getD c_orig 0)).1 →
        J.pR = pR ∧
        J.jR = (if rle_string.char_at I.bwtR I.rangeR.2 = I.remap.getD c_orig 0 then
            I.samples_firstR.getD (rle_string.run_of_position I.bwtR pR) 0
          else I.samples_lastR.getD (rle_string.run_of_position I.bwtR pR) 0) ∧
        J.dR = 0 ∧ J.p = I.inv_orderR.getD (rle_string.run_of_position I.bwtR pR) 0 ∧
        J.j = rle_string.size I.bwt - 2 - J.jR ∧ J.d = I.len) ∧
      (I.rangeR.2 - I.rangeR.1
          = (I.LFR I.rangeR (I.remap.getD c_orig 0)).2
            - (I.LFR I.rangeR (I.remap.getD c_orig 0)).1 →
        J.p = I.p ∧ J.j = I.j ∧ J.d = I.d ∧ J.pR = I.pR ∧ J.jR = I.jR ∧ J.dR = I.dR + 1) := by
  have hr := (range_LF_nonempty _ _ _ _ _ (by rw [← LFR_eq_range_LF]; exact h)).1
  obtain ⟨p, hsel, hp1, hp2⟩ := select_last_in_range I.bwtR I.rangeR.1 (I.rangeR.2 + 1) _ hr
  have hrnk : ¬ rle_string.rank I.bwtR (I.rangeR.2 + 1) (I.remap.getD c_orig 0) = 0 := by omega
  unfold br_index_naive.right_extension
  simp only []
  rw [if_neg (by omega)]
  by_cases h1 : I.rangeR.2 - I.rangeR.1
      ≠ (I.LFR I.rangeR (I.remap.getD c_orig 0)).2 - (I.LFR I.rangeR (I.remap.getD c_orig 0)).1
  · rw [if_pos h1, if_neg hrnk, hsel]
    simp only []
    rw [if_pos ⟨hp1, by omega⟩]
    exact ⟨_, p, rfl, rfl, hp1, by omega, by omega, rfl, rfl, rfl,
      by simp [br_index_naive.same_tables],
      fun _ => ⟨rfl, rfl, rfl, rfl, rfl, rfl⟩, fun h2 => absurd h2 h1⟩
  · rw [if_neg h1]
    exact ⟨_, p, rfl, hsel, hp1, by omega, by omega, rfl, rfl, rfl,
      by simp [br_index_naive.same_tables],
      fun h2 => absurd h2 h1, fun _ => ⟨rfl, rfl, rfl, rfl, rfl, rfl⟩⟩

/-- What a call of `left_extension` that returned a non-empty range did. -/
theorem left_extension_success (I : br_index_naive) (c : Nat) (rn : range_t)
    (J : br_index_naive) (h : I.left_extension c = some (rn, J)) (hrn : rn.1 ≤ rn.2) :
    rn = I.LF I.range (I.remap.getD c 0) ∧
      (I.LF I.range (I.remap.getD c 0)).1 ≤ (I.LF I.range (I.remap.getD c 0)).2 := by
  by_cases h1 : (I.LF I.range (I.remap.getD c 0)).1 > (I.LF I.range (I.remap.getD c 0)).2
  · rw [left_extension_empty I c h1] at h
    simp only [Option.some.injEq, Prod.mk.injEq] at h
    rw [← h.1] at hrn
    simp only [] at hrn
    omega
  · obtain ⟨J1, _, e, _⟩ := left_extension_shape I c (by omega)
    rw [e] at h
    simp only [Option.some.injEq, Prod.mk.injEq] at h
    exact ⟨h.1.symm, by omega⟩

/-- What a call of `right_extension` that returned a non-empty range did. -/
theorem right_extension_success (I : br_index_naive) (c : Nat) (rn : range_t)
    (J : br_index_naive) (h : I.right_extension c = some (rn, J)) (hrn : rn.1 ≤ rn.2) :
    (I.LFR I.rangeR (I.remap.getD c 0)).1 ≤ (I.LFR I.rangeR (I.remap.getD c 0)).2 := by
  by_cases h1 : (I.LFR I.rangeR (I.remap.getD c 0)).1 > (I.LFR I.rangeR (I.remap.getD c 0)).2
  · rw [right_extension_empty I c h1] at h
    simp only [Option.some.injEq, Prod.mk.injEq] at h
    rw [← h.1] at hrn
    simp only [] at hrn
    omega
  · omega

/-! ## The assertions of the anchor refresh -/

/-- C30: whenever the range step of `left_extension` returns a non-empty range
(in particular in the anchor-refresh branch, where it is also narrower than the
previous range `prev`), `rnk = rank(prev.second + 1, c)` is positive and
`p = select(rnk - 1, c)` exists with `prev.first ≤ p ≤ prev.second`, so both
assertions hold and the call returns normally; symmetrically for `pR` in
`right_extension`.  This holds in every state. -/
theorem refresh_assertions_hold (I : br_index_naive) (c : Nat) :
    ((I.LF I.range (I.remap.getD c 0)).1 ≤ (I.LF I.range (I.remap.getD c 0)).2 →
      0 < rle_string.rank I.bwt (I.range.2 + 1) (I.remap.getD c 0) ∧
      ∃ p, rle_string.select I.bwt
          (rle_string.rank I.bwt (I.range.2 + 1) (I.remap.getD c 0) - 1) (I.remap.getD c 0)
          = some p ∧ I.range.1 ≤ p ∧ p ≤ I.range.2 ∧
        ∃ J, I.left_extension c = some (I.LF I.range (I.remap.getD c 0), J)) ∧
    ((I.LFR I.rangeR (I.remap.getD c 0)).1 ≤ (I.LFR I.rangeR (I.remap.getD c 0)).2 →
      0 < rle_string.rank I.bwtR (I.rangeR.2 + 1) (I.remap.getD c 0) ∧
      ∃ pR, rle_string.select I.bwtR
          (rle_string.rank I.bwtR (I.rangeR.2 + 1) (I.remap.getD c 0) - 1) (I.remap.getD c 0)
          = some pR ∧ I.rangeR.1 ≤ pR ∧ pR ≤ I.rangeR.2 ∧
        ∃ rn J, I.right_extension c = some (rn, J)) := by
  refine ⟨fun h => ?_, fun h => ?_⟩
  · obtain ⟨J, p, e, hsel, hp1, hp2, hpos, _⟩ := left_extension_shape I c h
    exact ⟨hpos, p, hsel, hp1, hp2, J, e⟩
  · obtain ⟨J, p, e, hsel, hp1, hp2, hpos, _⟩ := right_extension_shape I c h
    exact ⟨hpos, p, hsel, hp1, hp2, _, J, e⟩

/-! ## The shift of the reverse range -/

theorem smaller_sum_succ (lf : Nat → range_t) (c : Nat) (hc : 1 ≤ c) :
    smaller_sum lf 1 (c + 1) = smaller_sum lf 1 c + (((lf c).2 + 1) - (lf c).1) := by
  unfold smaller_sum
  have h1 : c + 1 - 1 = (c - 1) + 1 := by omega
  have h2 : 1 + (c - 1) = c := by omega
  rw [h1, List.range'_1_concat, List.map_append, List.sum_append, h2]
  simp

/-- The loop of the extensions computes the sum over the symbols `1 ≤ a < c`. -/
theorem accumulate_smaller_eq_sum (lf : Nat → range_t) (c : Nat) :
    accumulate_smaller lf c = smaller_sum lf 1 c := by
  by_cases hc : 1 ≤ c
  · induction c, hc using Nat.le_induction with
    | base => rfl
    | succ c hc ih => rw [accumulate_smaller_succ lf c hc, smaller_sum_succ lf c hc, ih]
  · have : c = 0 := by omega
    subst this
    rfl

set_option maxRecDepth 1000000 in
set_option maxHeartbeats 4000000 in
/-- C27, as stated, fails: on the index of "aba", after `left_extension('a')`
the ranges are `range = rangeR = (1, 2)`; `left_extension('b')` (remapped symbol
3) succeeds with `range = (3, 3)` and moves `rangeR.first` from 1 to 2, while the
sum over the symbols `2 ≤ a < 3` is 0: the loop starts at `a = 1` and
`LF(prev, 1) = (0, 0)` contributes one row, because "a" is a prefix of the
text. -/
theorem rangeR_shift_counterexample :
    ((br_index_naive.construct [97, 98, 97]).toOption.bind (fun I =>
      (I.reset_pattern.extend_all [extension.left 97]).bind (fun I1 =>
        (I1.left_extension 98).map (fun a => (I1.rangeR, a.1, a.2.rangeR)))))
      = some ((1, 2), (3, 3), (2, 2)) ∧
    ((br_index_naive.construct [97, 98, 97]).toOption.bind (fun I =>
      (I.reset_pattern.extend_all [extension.left 97]).map (fun I1 =>
        (I1.range, I1.remap.getD 98 0, I1.LF I1.range 1))))
      = some ((1, 2), 3, (0, 0)) ∧
    ((br_index_naive.construct [97, 98, 97]).toOption.bind (fun I =>
      (I.reset_pattern.extend_all [extension.left 97]).map (fun I1 =>
        (smaller_sum (fun x => I1.LF I1.range x) 2 (I1.remap.getD 98 0),
          smaller_sum (fun x => I1.LF I1.range x) 1 (I1.remap.getD 98 0)))))
      = some (0, 1) := by
  decide

/-- C27, amended: after a successful `left_extension(c)` with previous forward
range `prev`, the new `rangeR.first` is the old `rangeR.first` plus `acc`, where
`acc` is the sum of `|LF(prev, a)|` over the symbols `1 ≤ a < remap[c]`, the
terminator symbol 1 included, and the new `rangeR.second` is the new
`rangeR.first` plus `range.second - range.first`; the new `range` is the
returned range `LF(prev, remap[c])`. -/
theorem rangeR_shift (I : br_index_naive) (c : Nat) (rn : range_t) (J : br_index_naive)
    (h : I.left_extension c = some (rn, J)) (hrn : rn.1 ≤ rn.2) :
    J.rangeR.1 = I.rangeR.1 + smaller_sum (fun a => I.LF I.range a) 1 (I.remap.getD c 0) ∧
    J.rangeR.2 = J.rangeR.1 + (J.range.2 - J.range.1) ∧
    J.range = rn ∧ rn = I.LF I.range (I.remap.getD c 0) := by
  obtain ⟨e1, e2⟩ := left_extension_success I c rn J h hrn
  obtain ⟨J1, _, e, _, _, _, _, hr, hrR, _⟩ := left_extension_shape I c e2
  rw [e] at h
  simp only [Option.some.injEq, Prod.mk.injEq] at h
  obtain ⟨h1, h2⟩ := h
  subst h2
  rw [hrR, hr, ← accumulate_smaller_eq_sum]
  refine ⟨rfl, ?_, e1.symm, e1⟩
  simp only []
  omega

set_option maxRecDepth 1000000 in
set_option maxHeartbeats 4000000 in
/-- Witness of C27 (amended): on "aba" in its reset state, `left_extension('a')`
returns the range `(1, 2)`. -/
theorem rangeR_shift_witness :
    ∃ I J, br_index_naive.construct [97, 98, 97] = Except.ok I ∧
      I.reset_pattern.left_extension 97 = some ((1, 2), J) ∧
      J.rangeR.1 = I.reset_pattern.rangeR.1
        + smaller_sum (fun a => I.reset_pattern.LF I.reset_pattern.range a) 1
          (I.reset_pattern.remap.getD 97 0) ∧
      J.rangeR.2 = J.rangeR.1 + (J.range.2 - J.range.1) := by
  obtain ⟨I, _, hI, _⟩ := run_of_isSome [97, 98, 97] [] (by decide)
  have e : ((br_index_naive.construct [97, 98, 97]).toOption.bind
      (fun I => I.reset_pattern.left_extension 97)).map (fun a => a.1) = some (1, 2) := by
    decide
  rw [hI] at e
  simp only [Except.toOption, Option.some_bind, Option.map_eq_some'] at e
  obtain ⟨⟨rn, J⟩, e1, e2⟩ := e
  simp only [] at e2
  subst e2
  have h := rangeR_shift I.reset_pattern 97 (1, 2) J e1 (by decide)
  exact ⟨I, J, hI, e1, h.1, h.2.1⟩

/-! ## The offsets `d` and `dR` -/

/-- The BWT of a non-empty text holds the terminator. -/
theorem terminator_mem_bwt_of (w : List Nat) (hw : w ≠ []) : TERMINATOR ∈ bwt_of w := by
  unfold bwt_of
  rw [List.mem_map]
  refine ⟨0, ?_, rfl⟩
  apply (construct_sa_perm w).mem_iff.mpr
  rw [List.mem_range]
  exact List.length_pos.mpr hw

theorem count_lt_length (b : List Nat) (c x : Nat) (hx : x ∈ b) (hne : x ≠ c) :
    b.count c < b.length := by
  induction b with
  | nil => exact absurd hx (List.not_mem_nil _)
  | cons y l ih =>
    rcases List.mem_cons.mp hx with e | e
    · subst e
      rw [List.count_cons_of_ne (fun h => hne h.symm), List.length_cons]
      have := List.count_le_length c l
      omega
    · have := ih e
      by_cases hy : y = c
      · subst hy
        rw [List.count_cons_self, List.length_cons]
        omega
      · rw [List.count_cons_of_ne (fun h => hy h.symm), List.length_cons]
        omega

/-- From the full range, a successful range step is narrower than the range as
soon as the string holds another symbol. -/
theorem full_range_narrower (F : List Nat) (n : Nat) (b : List Nat) (c x : Nat)
    (hx : x ∈ b) (hne : x ≠ c)
    (h : (range_LF F n b (0, b.length - 1) c).1 ≤ (range_LF F n b (0, b.length - 1) c).2) :
    b.length - 1 - 0
      ≠ (range_LF F n b (0, b.length - 1) c).2 - (range_LF F n b (0, b.length - 1) c).1 := by
  obtain ⟨h1, h2⟩ := range_LF_nonempty F n b _ c h
  have hlen : 0 < b.length := List.length_pos_of_mem hx
  rw [h2]
  simp only []
  have e : b.length - 1 + 1 = b.length := by omega
  rw [e, rank_zero, rank_length]
  have := count_lt_length b c x hx hne
  simp only [] at h1
  rw [e, rank_zero, rank_length] at h1
  omega

/-- No byte is remapped to the terminator symbol. -/
theorem remap_ne_terminator (I : br_index_naive) (T : List Nat) (hI : I.indexes T) (c : Nat) :
    TERMINATOR ≠ I.remap.getD c 0 := by
  unfold TERMINATOR
  by_cases hc : c ∈ T
  · have := (hI.1 c hc).1
    omega
  · rw [hI.2.1 c hc]
    omega

theorem text_ne_nil (I : br_index_naive) (T : List Nat) : I.text T ≠ [] := by
  unfold br_index_naive.text remap_text
  exact List.append_ne_nil_of_right_ne_nil _ (List.cons_ne_nil _ _)

theorem text_length (I : br_index_naive) (T : List Nat) : (I.text T).length = T.length + 1 := by
  unfold br_index_naive.text remap_text
  rw [List.length_append, List.length_map]; rfl

/-- The first successful extension after `reset_pattern` refreshes the anchor. -/
theorem first_extension_offsets (T : List Nat) (I : br_index_naive) (hI : I.indexes T)
    (op : extension) (rn : range_t) (J : br_index_naive)
    (h : I.reset_pattern.extend op = some (rn, J)) (hrn : rn.1 ≤ rn.2) :
    J.d = 0 ∧ J.dR = 0 ∧ J.len = 1 := by
  have hb : I.bwt.length = T.length + 1 := by
    rw [hI.2.2.2.1, bwt_of_length, text_length]
  have hbR : I.bwtR.length = T.length + 1 := by
    rw [hI.2.2.2.2.1, bwt_of_length, text_length, List.length_reverse]
  cases op with
  | left c =>
    have h0 : I.reset_pattern.left_extension c = some (rn, J) := h
    obtain ⟨_, e2⟩ := left_extension_success _ c rn J h0 hrn
    obtain ⟨J1, _, e, _, _, _, _, _, _, hlen, _, hre, _⟩ := left_extension_shape _ c e2
    rw [e] at h0
    simp only [Option.some.injEq, Prod.mk.injEq] at h0
    obtain ⟨_, h2⟩ := h0
    subst h2
    have hn := full_range_narrower I.F (rle_string.size I.bwt) I.bwt (I.remap.getD c 0)
      TERMINATOR (by rw [hI.2.2.2.1]; exact terminator_mem_bwt_of _ (text_ne_nil I T))
      (remap_ne_terminator I T hI c) e2
    obtain ⟨_, _, h3, _, _, h6⟩ := hre hn
    exact ⟨h3, h6, hlen⟩
  | right c =>
    have h0 : I.reset_pattern.right_extension c = some (rn, J) := h
    have e2 := right_extension_success _ c rn J h0 hrn
    obtain ⟨J1, _, e, _, _, _, _, _, _, hlen, _, hre, _⟩ := right_extension_shape _ c e2
    rw [e] at h0
    simp only [Option.some.injEq, Prod.mk.injEq] at h0
    obtain ⟨_, h2⟩ := h0
    subst h2
    have e3 : (range_LF I.F (rle_string.size I.bwt) I.bwtR (0, I.bwtR.length - 1)
        (I.remap.getD c 0)).1 ≤ (range_LF I.F (rle_string.size I.bwt) I.bwtR
        (0, I.bwtR.length - 1) (I.remap.getD c 0)).2 := by
      rw [hbR, ← hb]; exact e2
    have hn := full_range_narrower I.F (rle_string.size I.bwt) I.bwtR (I.remap.getD c 0)
      TERMINATOR (by rw [hI.2.2.2.2.1]; exact terminator_mem_bwt_of _ (text_ne_nil I _))
      (remap_ne_terminator I T hI c) e3
    rw [hbR, ← hb] at hn
    obtain ⟨_, _, h3, _, _, h6⟩ := hre hn
    exact ⟨h6, h3, hlen⟩

/-- A successful extension keeps `d + dR + 1 = len`. -/
theorem extend_offsets (I : br_index_naive) (op : extension) (rn : range_t)
    (J : br_index_naive) (h : I.extend op = some (rn, J)) (hrn : rn.1 ≤ rn.2)
    (hK : I.d + I.dR + 1 = I.len) : J.d + J.dR + 1 = J.len := by
  cases op with
  | left c =>
    have h0 : I.left_extension c = some (rn, J) := h
    obtain ⟨_, e2⟩ := left_extension_success _ c rn J h0 hrn
    obtain ⟨J1, _, e, _, _, _, _, _, _, hlen, _, hre, hnr⟩ := left_extension_shape _ c e2
    rw [e] at h0
    simp only [Option.some.injEq, Prod.mk.injEq] at h0
    obtain ⟨_, h2⟩ := h0
    subst h2
    by_cases hw : I.range.2 - I.range.1
        ≠ (I.LF I.range (I.remap.getD c 0)).2 - (I.LF I.range (I.remap.getD c 0)).1
    · obtain ⟨_, _, h3, _, _, h6⟩ := hre hw
      omega
    · obtain ⟨_, _, h3, _, _, h6⟩ := hnr (by omega)
      omega
  | right c =>
    have h0 : I.right_extension c = some (rn, J) := h
    have e2 := right_extension_success _ c rn J h0 hrn
    obtain ⟨J1, _, e, _, _, _, _, _, _, hlen, _, hre, hnr⟩ := right_extension_shape _ c e2
    rw [e] at h0
    simp only [Option.some.injEq, Prod.mk.injEq] at h0
    obtain ⟨_, h2⟩ := h0
    subst h2
    by_cases hw : I.rangeR.2 - I.rangeR.1
        ≠ (I.LFR I.rangeR (I.remap.getD c 0)).2 - (I.LFR I.rangeR (I.remap.getD c 0)).1
    · obtain ⟨_, _, h3, _, _, h6⟩ := hre hw
      omega
    · obtain ⟨_, _, h3, _, _, h6⟩ := hnr (by omega)
      omega

theorem extend_all_offsets (ops : List extension) :
    ∀ (I J : br_index_naive), I.d + I.dR + 1 = I.len → I.extend_all ops = some J →
      J.d + J.dR + 1 = J.len := by
  induction ops with
  | nil =>
    intro I J hK h
    simp only [br_index_naive.extend_all, Option.some.injEq] at h
    subst h
    exact hK
  | cons op ops ih =>
    intro I J hK h
    unfold br_index_naive.extend_all at h
    cases hop : I.extend op with
    | none => rw [hop] at h; exact absurd h (by simp)
    | some a =>
      obtain ⟨rn, I1⟩ := a
      rw [hop] at h
      simp only [] at h
      by_cases hrn : rn.1 ≤ rn.2
      · rw [if_pos hrn] at h
        exact ih I1 J (extend_offsets I op rn I1 hop hrn hK) h
      · rw [if_neg hrn] at h
        exact absurd h (by simp)

set_option maxRecDepth 1000000 in
set_option maxHeartbeats 4000000 in
/-- C21, as stated, fails: on the index of "a", after `reset_pattern` and the
successful `left_extension('a')`, `d = 0`, `dR = 0` and `len = 1`, so
`d + dR = 0 ≠ len`. -/
theorem offset_invariant_counterexample :
    ((br_index_naive.construct [97]).toOption.bind
      (fun I => I.reset_pattern.extend_all [extension.left 97])).map
      (fun J => (J.d, J.dR, J.len, decide (J.d + J.dR = J.len))) = some (0, 0, 1, false) := by
  decide

/-- C21, amended: right after `reset_pattern`, `d + dR = len = 0`; in every
state reached from `reset_pattern` on the index of a valid text by one or more
successful `left_extension`/`right_extension` calls, `d + dR = len - 1`
(`d` and `dR` are the offsets of the anchor from the first and from the last
position of the pattern). -/
theorem offset_invariant (T : List Nat) (I J : br_index_naive) (ops : List extension)
    (hT : valid_text T) (hI : br_index_naive.construct T = Except.ok I) (hops : ops ≠ [])
    (hrun : I.reset_pattern.extend_all ops = some J) :
    I.reset_pattern.d + I.reset_pattern.dR = I.reset_pattern.len ∧ I.reset_pattern.len = 0 ∧
    J.d + J.dR + 1 = J.len ∧ 1 ≤ J.len := by
  have hidx := construct_indexes T I hT hI
  cases ops with
  | nil => exact absurd rfl hops
  | cons op ops =>
    unfold br_index_naive.extend_all at hrun
    cases hop : I.reset_pattern.extend op with
    | none => rw [hop] at hrun; exact absurd hrun (by simp)
    | some a =>
      obtain ⟨rn, I1⟩ := a
      rw [hop] at hrun
      simp only [] at hrun
      by_cases hrn : rn.1 ≤ rn.2
      · rw [if_pos hrn] at hrun
        obtain ⟨h1, h2, h3⟩ := first_extension_offsets T I hidx op rn I1 hop hrn
        have := extend_all_offsets ops I1 J (by omega) hrun
        exact ⟨rfl, rfl, this, by omega⟩
      · rw [if_neg hrn] at hrun
        exact absurd hrun (by simp)

set_option maxRecDepth 1000000 in
set_option maxHeartbeats 4000000 in
/-- Witness of C21 (amended): on "mississippi" after `right i, left s, right s`
(pattern "sis"), `d + dR + 1 = len = 3`. -/
theorem offset_invariant_witness :
    valid_text [109, 105, 115, 115, 105, 115, 115, 105, 112, 112, 105] ∧
    ∃ I J, br_index_naive.construct [109, 105, 115, 115, 105, 115, 115, 105, 112, 112, 105]
        = Except.ok I ∧
      I.reset_pattern.extend_all [extension.right 105, extension.left 115, extension.right 115]
        = some J ∧
      J.d + J.dR + 1 = J.len := by
  obtain ⟨I, J, hI, hJ⟩ := run_of_isSome [109, 105, 115, 115, 105, 115, 115, 105, 112, 112, 105]
    [extension.right 105, extension.left 115, extension.right 115] (by decide)
  exact ⟨by decide, I, J, hI, hJ,
    (offset_invariant _ I J _ (by decide) hI (by decide) hJ).2.2.1⟩



/-! ## The exit status of the command line tools -/

/-- What `parse_args` does with an argument that is read inside the loop of
`main`: it exits through `help()` with status 0 and a message other than
"missing parameter", or it moves `ptr` forward. -/
theorem parse_args_cases (tool : cli_tool) (argv : List String) (opts : cli_options)
    (ptr : Nat) (hptr : ptr + 2 < argv.length) :
    (∃ m, parse_args tool argv opts ptr = Sum.inl (cli_outcome.exited 0 [m]) ∧
        ∀ opt, m ≠ cli_message.missing_parameter opt) ∨
      (∃ opts1 ptr1, parse_args tool argv opts ptr = Sum.inr (opts1, ptr1) ∧ ptr < ptr1) := by
  unfold parse_args
  rw [if_neg (by omega)]
  simp only []
  by_cases h1 : tool = cli_tool.bri_locate ∧ argv.getD ptr "" = "-c"
  · rw [if_pos h1, if_neg (by omega)]
    exact Or.inr ⟨_, _, rfl, by omega⟩
  · rw [if_neg h1]
    by_cases h2 : argv.getD ptr "" = "-m"
    · rw [if_pos h2, if_neg (by omega)]
      by_cases h3 : (strtol (argv.getD (ptr + 1) "").data).2 ≠ []
          ∨ (strtol (argv.getD (ptr + 1) "").data).1 < 0
      · rw [if_pos h3]
        exact Or.inl ⟨_, rfl, fun opt h => by cases h⟩
      · rw [if_neg h3]
        exact Or.inr ⟨_, _, rfl, by omega⟩
    · rw [if_neg h2]
      by_cases h4 : argv.getD ptr "" = "-nplcp"
      · rw [if_pos h4]
        exact Or.inr ⟨_, _, rfl, by omega⟩
      · rw [if_neg h4]
        exact Or.inl ⟨_, rfl, fun opt h => by cases h⟩

/-- The loop of `main` ends, and when it ends in `help()` the status is 0 and
the message is not "missing parameter". -/
theorem cli_loop_cases (tool : cli_tool) (argv : List String) :
    ∀ (fuel : Nat) (opts : cli_options) (ptr : Nat), argv.length ≤ fuel + ptr →
      cli_loop tool argv fuel opts ptr ≠ cli_outcome.out_of_fuel ∧
      ∀ s ms, cli_loop tool argv fuel opts ptr = cli_outcome.exited s ms →
        s = 0 ∧ ∀ opt, cli_message.missing_parameter opt ∉ ms := by
  intro fuel
  induction fuel with
  | zero =>
    intro opts ptr hf
    unfold cli_loop
    rw [if_neg (by omega)]
    by_cases h : ptr + 1 < argv.length
    · rw [if_pos h]
      exact ⟨fun e => (by cases e), fun s ms e => (by cases e)⟩
    · rw [if_neg h]
      exact ⟨fun e => (by cases e), fun s ms e => (by cases e)⟩
  | succ fuel ih =>
    intro opts ptr hf
    unfold cli_loop
    by_cases hl : ptr + 2 < argv.length
    · rw [if_pos hl]
      simp only []
      rcases parse_args_cases tool argv opts ptr hl with ⟨m, e, hm⟩ | ⟨opts1, ptr1, e, hp⟩
      · rw [e]
        simp only []
        refine ⟨fun e => (by cases e), fun s ms e1 => ?_⟩
        injection e1 with e2 e3
        refine ⟨e2.symm, fun opt hmem => ?_⟩
        rw [← e3, List.mem_singleton] at hmem
        exact hm opt hmem.symm
      · rw [e]
        simp only []
        exact ih opts1 ptr1 (by omega)
    · rw [if_neg hl]
      by_cases h : ptr + 1 < argv.length
      · rw [if_pos h]
        exact ⟨fun e => (by cases e), fun s ms e => (by cases e)⟩
      · rw [if_neg h]
        exact ⟨fun e => (by cases e), fun s ms e => (by cases e)⟩

set_option maxRecDepth 1000000 in
set_option maxHeartbeats 4000000 in
/-- C26, as stated, fails: an unknown option, a negative or non-numeric `-m`
value and too few arguments all end in `help()`, which exits with status 0, in
`bri-locate` and in `bri-count`. -/
theorem cli_exit_status_counterexample :
    cli_main cli_tool.bri_locate ["bri-locate", "-x", "idx", "pat"]
      = cli_outcome.exited 0 [cli_message.unknown_option "-x"] ∧
    cli_main cli_tool.bri_locate ["bri-locate", "-m", "-3", "idx", "pat"]
      = cli_outcome.exited 0 [cli_message.invalid_value] ∧
    cli_main cli_tool.bri_count ["bri-count", "-m", "2x", "idx", "pat"]
      = cli_outcome.exited 0 [cli_message.invalid_value] ∧
    cli_main cli_tool.bri_count ["bri-count", "-c", "text", "idx", "pat"]
      = cli_outcome.exited 0 [cli_message.unknown_option "-c"] ∧
    cli_main cli_tool.bri_locate ["bri-locate", "idx"] = cli_outcome.exited 0 [] ∧
    cli_main cli_tool.bri_count ["bri-count"] = cli_outcome.exited 0 [] := by
  decide

/-- C26, amended: in `bri-locate` and `bri-count`, too few arguments
(`argc < 3`), an unknown option and an invalid or negative `-m` value make the
process print its message and the usage text and terminate inside `help()`,
whose exit status is 0; every exit of the argument handling has status 0, the
loop over the options always ends, and the message "missing parameter" is never
printed, because the test that guards it cannot succeed inside the loop. -/
theorem cli_exit_status (tool : cli_tool) (argv : List String) :
    (argv.length < 3 → cli_main tool argv = cli_outcome.exited 0 []) ∧
    (∀ s ms, cli_main tool argv = cli_outcome.exited s ms →
      s = 0 ∧ ∀ opt, cli_message.missing_parameter opt ∉ ms) ∧
    cli_main tool argv ≠ cli_outcome.out_of_fuel ∧
    (4 ≤ argv.length → argv.getD 1 "" ≠ "-m" → argv.getD 1 "" ≠ "-nplcp" →
      ¬ (tool = cli_tool.bri_locate ∧ argv.getD 1 "" = "-c") →
      cli_main tool argv = cli_outcome.exited 0 [cli_message.unknown_option (argv.getD 1 "")]) ∧
    (4 ≤ argv.length → argv.getD 1 "" = "-m" →
      ((strtol (argv.getD 2 "").data).2 ≠ [] ∨ (strtol (argv.getD 2 "").data).1 < 0) →
      cli_main tool argv = cli_outcome.exited 0 [cli_message.invalid_value]) := by
  refine ⟨fun h => ?_, ?_, ?_, fun h4 h1 h2 h3 => ?_, fun h4 h1 h2 => ?_⟩
  · unfold cli_main
    rw [if_pos h]
    rfl
  · intro s ms e
    unfold cli_main at e
    by_cases h : argv.length < 3
    · rw [if_pos h] at e
      injection e with e1 e2
      refine ⟨e1.symm, fun opt hmem => ?_⟩
      rw [← e2] at hmem
      exact absurd hmem (List.not_mem_nil _)
    · rw [if_neg h] at e
      exact (cli_loop_cases tool argv argv.length _ 1 (by omega)).2 s ms e
  · unfold cli_main
    by_cases h : argv.length < 3
    · rw [if_pos h]
      intro e; cases e
    · rw [if_neg h]
      exact (cli_loop_cases tool argv argv.length _ 1 (by omega)).1
  · unfold cli_main
    rw [if_neg (by omega)]
    obtain ⟨n, hn⟩ : ∃ n, argv.length = n + 1 := ⟨argv.length - 1, by omega⟩
    rw [hn]
    unfold cli_loop
    rw [if_pos (by omega)]
    simp only []
    unfold parse_args
    rw [if_neg (by omega)]
    simp only []
    rw [if_neg (fun h => h3 h), if_neg h1, if_neg h2]
    rfl
  · unfold cli_main
    rw [if_neg (by omega)]
    obtain ⟨n, hn⟩ : ∃ n, argv.length = n + 1 := ⟨argv.length - 1, by omega⟩
    rw [hn]
    unfold cli_loop
    rw [if_pos (by omega)]
    simp only []
    unfold parse_args
    rw [if_neg (by omega)]
    simp only []
    have hc : ¬ (tool = cli_tool.bri_locate ∧ argv.getD 1 "" = "-c") := by
      rw [h1]; intro h; exact absurd h.2 (by decide)
    rw [if_neg hc, if_pos h1, if_neg (by omega), if_pos h2]
    rfl

/-! ## Serialization round trip -/

theorem raw_256_eq (v : List Nat) (h : v.length = 256) : raw_256 v = v := by
  unfold raw_256
  apply List.ext_getElem
  · rw [List.length_map, List.length_range, h]
  · intro i h1 h2
    rw [List.getElem_map, List.getElem_range, List.getD_eq_getElem _ _ h2]

/-- What `load` makes of the stream of `serialize`, for any two objects: the
items are read back in the order in which they were written. -/
theorem load_serialize_eq (I I0 : br_index_naive) :
    I0.load I.serialize = some { I0 with
      sigma := I.sigma
      remap := raw_256 I.remap
      remap_inv := raw_256 I.remap_inv
      terminator_position := I.terminator_position
      terminator_positionR := I.terminator_positionR
      last_SA_val := I.last_SA_val
      F := raw_256 I.F
      bwt := I.bwt
      bwtR := I.bwtR
      r := rle_string.number_of_runs I.bwt
      rR := rle_string.number_of_runs I.bwtR
      samples_first := I.samples_first
      samples_last := I.samples_last
      inv_order := I.inv_order
      first := I.first
      first_to_run := I.first_to_run
      last := I.last
      last_to_run := I.last_to_run
      samples_firstR := I.samples_firstR
      samples_lastR := I.samples_lastR
      inv_orderR := I.inv_orderR
      plcp := I.plcp } := rfl

/-- The sizes of the raw tables and the run counts of a constructed index. -/
theorem construct_raw (T : List Nat) (I : br_index_naive)
    (h : br_index_naive.construct T = Except.ok I) :
    I.remap.length = 256 ∧ I.remap_inv.length = 256 ∧ I.F.length = 256 ∧
    I.r = rle_string.number_of_runs I.bwt ∧ I.rR = rle_string.number_of_runs I.bwtR ∧
    I.reset_pattern = I := by
  obtain ⟨freqs, sigma, _, e1, e2, _⟩ := construct_remap T I h
  obtain ⟨hF, _⟩ := construct_F T I h
  obtain ⟨_, _, _, _, _, _, _, _, _, q1, q2, q3, q4, q5, q6, q7, q8, q9⟩ := construct_ok T I h
  have hr : I.r = rle_string.number_of_runs I.bwt ∧ I.rR = rle_string.number_of_runs I.bwtR := by
    unfold br_index_naive.construct at h
    split at h
    · exact absurd h (by simp)
    · split at h
      · exact absurd h (by simp)
      · injection h with h
        have a1 := congrArg br_index_naive.r h
        have a2 := congrArg br_index_naive.rR h
        have a3 := congrArg br_index_naive.bwt h
        have a4 := congrArg br_index_naive.bwtR h
        dsimp only at a1 a2 a3 a4
        rw [← a1, ← a2, ← a3, ← a4]
        exact ⟨rfl, rfl⟩
  refine ⟨?_, ?_, hF, hr.1, hr.2, ?_⟩
  · rw [e1]; exact (build_remap_aux freqs 254 (le_refl _)).1
  · rw [e2]; exact (build_remap_inv_aux freqs 254 (le_refl _)).1
  · unfold br_index_naive.reset_pattern br_index_naive.full_range br_index_naive.bwt_size
      rle_string.size
    cases I
    simp only [] at q1 q2 q3 q4 q5 q6 q7 q8 q9 ⊢
    rw [q1, q2, q3, q4, q5, q6, q7, q8, q9]

set_option maxRecDepth 1000000 in
set_option maxHeartbeats 4000000 in
/-- C24, as stated, fails: `load` reads the tables only.  On the index of "ab",
the original answers `count() = 3` (the constructor ends with `reset_pattern`),
while a fresh instance whose members without initialiser hold 0, after loading
the stream of `serialize`, answers `count() = 1`. -/
theorem load_serialize_counterexample :
    (br_index_naive.construct [97, 98]).toOption.bind (fun I =>
      ((br_index_naive.fresh 0).load I.serialize).map (fun L =>
        (I.count, L.count, L.range, I.range))) = some (3, 1, (0, 0), (0, 2)) := by
  decide

/-- C24, amended: for every built index `I` and every instance `I0`, loading
the stream written by `serialize` into `I0` succeeds and yields an index `L`
with the tables of `I` (`r` and `rR` recomputed from the loaded BWTs) and the
query state of `I0`: `load` does not set the query state.  `L` answers
`get_char_range`, `bwt_at`, `number_of_runs` and `get_terminator_position` like
`I`, and after `reset_pattern` it is the same object as `I`, so that every
sequence of extensions, `count` and `locate` that starts with `reset_pattern`
gives the same results.  `serialize` and `load` traverse the fields in the same
order. -/
theorem load_serialize (T : List Nat) (I I0 : br_index_naive)
    (hI : br_index_naive.construct T = Except.ok I) :
    ∃ L, I0.load I.serialize = some L ∧ I.same_tables L ∧
      (L.range = I0.range ∧ L.p = I0.p ∧ L.j = I0.j ∧ L.d = I0.d ∧ L.rangeR = I0.rangeR ∧
        L.pR = I0.pR ∧ L.jR = I0.jR ∧ L.dR = I0.dR ∧ L.len = I0.len) ∧
      L.reset_pattern = I ∧ I.reset_pattern = I ∧
      (∀ c, L.get_char_range c = I.get_char_range c) ∧
      (∀ i rev, L.bwt_at i rev = I.bwt_at i rev) ∧
      (∀ rev, L.number_of_runs rev = I.number_of_runs rev) ∧
      (∀ rev, L.get_terminator_position rev = I.get_terminator_position rev) ∧
      (∀ ops, L.reset_pattern.run ops = I.reset_pattern.run ops) ∧
      (∀ ops fuel, (L.reset_pattern.extend_all ops).map (fun J => (J.count, J.locate fuel))
        = (I.reset_pattern.extend_all ops).map (fun J => (J.count, J.locate fuel))) := by
  obtain ⟨h1, h2, h3, h4, h5, h6⟩ := construct_raw T I hI
  have hL := load_serialize_eq I I0
  rw [raw_256_eq _ h1, raw_256_eq _ h2, raw_256_eq _ h3, ← h4, ← h5] at hL
  have hreset : ({ I0 with
      sigma := I.sigma
      remap := I.remap
      remap_inv := I.remap_inv
      terminator_position := I.terminator_position
      terminator_positionR := I.terminator_positionR
      last_SA_val := I.last_SA_val
      F := I.F
      bwt := I.bwt
      bwtR := I.bwtR
      r := I.r
      rR := I.rR
      samples_first := I.samples_first
      samples_last := I.samples_last
      inv_order := I.inv_order
      first := I.first
      first_to_run := I.first_to_run
      last := I.last
      last_to_run := I.last_to_run
      samples_firstR := I.samples_firstR
      samples_lastR := I.samples_lastR
      inv_orderR := I.inv_orderR
      plcp := I.plcp } : br_index_naive).reset_pattern = I := by
    have e : ({ I0 with
      sigma := I.sigma
      remap := I.remap
      remap_inv := I.remap_inv
      terminator_position := I.terminator_position
      terminator_positionR := I.terminator_positionR
      last_SA_val := I.last_SA_val
      F := I.F
      bwt := I.bwt
      bwtR := I.bwtR
      r := I.r
      rR := I.rR
      samples_first := I.samples_first
      samples_last := I.samples_last
      inv_order := I.inv_order
      first := I.first
      first_to_run := I.first_to_run
      last := I.last
      last_to_run := I.last_to_run
      samples_firstR := I.samples_firstR
      samples_lastR := I.samples_lastR
      inv_orderR := I.inv_orderR
      plcp := I.plcp } : br_index_naive).reset_pattern = I.reset_pattern := rfl
    rw [e, h6]
  refine ⟨_, hL, by simp [br_index_naive.same_tables], ⟨rfl, rfl, rfl, rfl, rfl, rfl, rfl, rfl, rfl⟩,
    hreset, h6, fun c => rfl, fun i rev => rfl, fun rev => rfl, fun rev => rfl,
    fun ops => by rw [hreset, h6], fun ops fuel => by rw [hreset, h6]⟩

set_option maxRecDepth 1000000 in
set_option maxHeartbeats 4000000 in
/-- Witness of C24 (amended): the index of "ab" loaded into a fresh instance. -/
theorem load_serialize_witness :
    ∃ I L, br_index_naive.construct [97, 98] = Except.ok I ∧
      (br_index_naive.fresh 0).load I.serialize = some L ∧ L.reset_pattern = I ∧
      I.same_tables L := by
  obtain ⟨I, _, hI, _⟩ := run_of_isSome [97, 98] [] (by decide)
  obtain ⟨L, h1, h2, _, h3, _⟩ := load_serialize [97, 98] I (br_index_naive.fresh 0) hI
  exact ⟨I, L, hI, h1, h3, h2⟩

/-! ## The sample tables of the constructed index -/

/-- The values of a numbered vector, read back by index. -/
theorem numbered_fst (v : List (Nat × Nat)) (vals : List Nat) (h : numbered v vals) :
    (List.range vals.length).map (fun i => (v.getD i (0, 0)).1) = vals := by
  have hl := numbered_length v vals h
  apply List.ext_getElem
  · rw [List.length_map, List.length_range]
  · intro i h1 h2
    rw [List.getElem_map, List.getElem_range, List.getD_eq_getElem _ _ (by omega : i < v.length)]
    have := h.1
    subst this
    rw [List.getElem_map]

/-- The sample tables that the constructor returns, in terms of `sufsort`. -/
theorem construct_sufsort (T : List Nat) (I : br_index_naive)
    (h : br_index_naive.construct T = Except.ok I) :
    I.r = rle_string.number_of_runs (sufsort (I.text T) (construct_sa (I.text T))).bwt_s ∧
    I.rR = rle_string.number_of_runs
      (sufsort (I.text T.reverse) (construct_sa (I.text T.reverse))).bwt_s ∧
    I.samples_first = (List.range I.r).map (fun i =>
      ((sufsort (I.text T) (construct_sa (I.text T))).samples_first.getD i (0, 0)).1) ∧
    I.samples_last = (List.range I.r).map (fun i =>
      ((sufsort (I.text T) (construct_sa (I.text T))).samples_last.getD i (0, 0)).1) ∧
    I.samples_firstR = (List.range I.rR).map (fun i =>
      ((sufsort (I.text T.reverse) (construct_sa (I.text T.reverse))).samples_first.getD i
        (0, 0)).1) ∧
    I.samples_lastR = (List.range I.rR).map (fun i =>
      ((sufsort (I.text T.reverse) (construct_sa (I.text T.reverse))).samples_last.getD i
        (0, 0)).1) ∧
    I.first = build_bitvector (rle_string.size I.bwt)
      (sort_samples (sufsort (I.text T) (construct_sa (I.text T))).samples_first) ∧
    I.last = build_bitvector (rle_string.size I.bwt)
      (sort_samples (sufsort (I.text T) (construct_sa (I.text T))).samples_last) ∧
    I.first_to_run = (List.range I.r).map (fun i =>
      ((sort_samples (sufsort (I.text T) (construct_sa (I.text T))).samples_first).getD i
        (0, 0)).2) ∧
    I.last_to_run = (List.range I.r).map (fun i =>
      ((sort_samples (sufsort (I.text T) (construct_sa (I.text T))).samples_last).getD i
        (0, 0)).2) ∧
    I.inv_order = build_inv_order (rle_string.size I.bwt) I.samples_last
      (construct_isa (construct_sa (I.text T.reverse))) ∧
    I.inv_orderR = build_inv_order (rle_string.size I.bwt) I.samples_lastR
      (construct_isa (construct_sa (I.text T))) ∧
    I.last_SA_val = (construct_sa (I.text T)).getD ((construct_sa (I.text T)).length - 1) 0 ∧
    I.plcp = permuted_lcp (I.text T) (construct_sa (I.text T)) := by
  unfold br_index_naive.construct at h
  split at h
  · exact absurd h (by simp)
  · split at h
    · exact absurd h (by simp)
    · injection h with h
      have e1 := congrArg br_index_naive.remap h
      have a1 := congrArg br_index_naive.r h
      have a2 := congrArg br_index_naive.rR h
      have a3 := congrArg br_index_naive.samples_first h
      have a4 := congrArg br_index_naive.samples_last h
      have a5 := congrArg br_index_naive.samples_firstR h
      have a6 := congrArg br_index_naive.samples_lastR h
      have a7 := congrArg br_index_naive.first h
      have a8 := congrArg br_index_naive.last h
      have a9 := congrArg br_index_naive.first_to_run h
      have a10 := congrArg br_index_naive.last_to_run h
      have a11 := congrArg br_index_naive.inv_order h
      have a12 := congrArg br_index_naive.inv_orderR h
      have a13 := congrArg br_index_naive.last_SA_val h
      have a14 := congrArg br_index_naive.plcp h
      have a15 := congrArg br_index_naive.bwt h
      dsimp only at e1 a1 a2 a3 a4 a5 a6 a7 a8 a9 a10 a11 a12 a13 a14 a15
      unfold br_index_naive.text
      rw [← e1, ← a1, ← a2, ← a3, ← a4, ← a5, ← a6, ← a7, ← a8, ← a9, ← a10, ← a11, ← a12,
        ← a13, ← a14, ← a15]
      exact ⟨rfl, rfl, rfl, rfl, rfl, rfl, rfl, rfl, rfl, rfl, rfl, rfl, rfl, rfl⟩

/-! ## The run of a row -/

/-- A selected index is found in the filtered range at the number of selected
indices before it. -/
theorem filter_range_get (q : Nat → Bool) (n s : Nat) (hs : s < n) (hq : q s = true) :
    ((List.range n).filter q)[(List.range s).countP q]? = some s := by
  induction n with
  | zero => omega
  | succ n ih =>
    rw [filter_range_succ]
    by_cases hsn : s < n
    · have h1 := ih hsn
      have hlt : (List.range s).countP q < ((List.range n).filter q).length := by
        by_contra hge
        rw [List.getElem?_eq_none (by omega)] at h1
        exact absurd h1 (by simp)
      rw [List.getElem?_append_left hlt]
      exact h1
    · have e : s = n := by omega
      subst e
      rw [if_pos hq, List.getElem?_append_right (by rw [← List.countP_eq_length_filter])]
      rw [← List.countP_eq_length_filter, Nat.sub_self]
      rfl

/-- No selected index in `[a, c)`: the count does not change. -/
theorem countP_range_skip (q : Nat → Bool) (a c : Nat) (hac : a ≤ c)
    (h : ∀ i, a ≤ i → i < c → q i = false) :
    (List.range c).countP q = (List.range a).countP q := by
  induction c with
  | zero =>
    have : a = 0 := by omega
    rw [this]
  | succ c ih =>
    by_cases hc : a = c + 1
    · rw [hc]
    · rw [List.range_succ, List.countP_append, ih (by omega) (fun i h1 h2 => h i h1 (by omega))]
      have := h c (by omega) (by omega)
      simp [List.countP_cons, this]

theorem countP_range_succ_eq (q : Nat → Bool) (s : Nat) (hq : q s = true) :
    (List.range (s + 1)).countP q = (List.range s).countP q + 1 := by
  rw [List.range_succ, List.countP_append]
  simp [List.countP_cons, hq]

/-- The greatest selected index up to `p`, when 0 is selected. -/
theorem exists_greatest (q : Nat → Bool) (h0 : q 0 = true) (p : Nat) :
    ∃ s, s ≤ p ∧ q s = true ∧ ∀ i, s < i → i ≤ p → q i = false := by
  induction p with
  | zero => exact ⟨0, le_refl _, h0, fun i h1 h2 => by omega⟩
  | succ p ih =>
    by_cases hq : q (p + 1) = true
    · exact ⟨p + 1, le_refl _, hq, fun i h1 h2 => by omega⟩
    · obtain ⟨s, h1, h2, h3⟩ := ih
      refine ⟨s, by omega, h2, fun i hi1 hi2 => ?_⟩
      by_cases hi : i = p + 1
      · rw [hi]; simpa using hq
      · exact h3 i hi1 (by omega)

/-- The least selected index from `p` on, when `m ≥ p` is selected. -/
theorem exists_least (q : Nat → Bool) (p m : Nat) (hpm : p ≤ m) (hm : q m = true) :
    ∃ e, p ≤ e ∧ e ≤ m ∧ q e = true ∧ ∀ i, p ≤ i → i < e → q i = false := by
  have hex : ∃ e, p ≤ e ∧ q e = true := ⟨m, hpm, hm⟩
  refine ⟨Nat.find hex, (Nat.find_spec hex).1, Nat.find_min' hex ⟨hpm, hm⟩,
    (Nat.find_spec hex).2, fun i h1 h2 => ?_⟩
  have := Nat.find_min hex h2
  by_contra hn
  exact this ⟨h1, by simpa using hn⟩

/-- The run of row `p` is counted by the run starts up to `p`. -/
theorem run_of_position_succ (b : List Nat) (p : Nat) (hp : p < b.length) :
    rle_string.run_of_position b p + 1
      = (List.range (p + 1)).countP
          (fun s => decide (s = 0) || decide (b.getD s 0 ≠ b.getD (s - 1) 0)) := by
  unfold rle_string.run_of_position
  rw [← run_starts_length]
  unfold run_starts
  rw [← List.countP_eq_length_filter, List.length_take, Nat.min_eq_left (by omega)]
  have e : (List.range (p + 1)).countP
        (fun s => decide (s = 0) || decide ((b.take (p + 1)).getD s 0
          ≠ (b.take (p + 1)).getD (s - 1) 0))
      = (List.range (p + 1)).countP
        (fun s => decide (s = 0) || decide (b.getD s 0 ≠ b.getD (s - 1) 0)) := by
    apply List.countP_congr
    intro s hs
    have hs1 := List.mem_range.mp hs
    rw [getD_take b (p + 1) s hs1, getD_take b (p + 1) (s - 1) (by omega)]
  rw [e]
  have := countP_range_succ_shift
    (fun s => decide (s = 0) || decide (b.getD s 0 ≠ b.getD (s - 1) 0)) p
  simp only [decide_True, Bool.true_or, if_true] at this
  omega

/-- The run of row `p` is counted by the run ends before `p`. -/
theorem run_of_position_ends (b : List Nat) (p : Nat) (hp : p < b.length) :
    rle_string.run_of_position b p
      = (List.range p).countP
          (fun e => decide (e + 1 = b.length) || decide (b.getD e 0 ≠ b.getD (e + 1) 0)) := by
  have h1 := run_of_position_succ b p hp
  have h2 := countP_range_succ_shift
    (fun s => decide (s = 0) || decide (b.getD s 0 ≠ b.getD (s - 1) 0)) p
  simp only [decide_True, Bool.true_or, if_true] at h2
  have e : (List.range p).countP
        (fun s => decide (s + 1 = 0) || decide (b.getD (s + 1) 0 ≠ b.getD (s + 1 - 1) 0))
      = (List.range p).countP
        (fun e => decide (e + 1 = b.length) || decide (b.getD e 0 ≠ b.getD (e + 1) 0)) := by
    apply List.countP_congr
    intro s hs
    have hs1 := List.mem_range.mp hs
    have a1 : ¬ s + 1 = 0 := by omega
    have a2 : ¬ s + 1 = b.length := by omega
    simp only [a1, a2, decide_False, Bool.false_or, Nat.add_sub_cancel, decide_eq_true_eq]
    constructor
    · intro h e; exact h e.symm
    · intro h e; exact h e.symm
  rw [e] at h2
  omega

/-- The sampled start of the run of row `p`: it is at or before `p`, and the
rows between hold the symbol of `p`. -/
theorem run_start_of (b : List Nat) (p : Nat) (hp : p < b.length) :
    ∃ s, (run_starts b)[rle_string.run_of_position b p]? = some s ∧ s ≤ p ∧
      ∀ i, s ≤ i → i ≤ p → b.getD i 0 = b.getD p 0 := by
  obtain ⟨s, h1, h2, h3⟩ := exists_greatest
    (fun s => decide (s = 0) || decide (b.getD s 0 ≠ b.getD (s - 1) 0)) (by simp) p
  have hget := filter_range_get
    (fun s => decide (s = 0) || decide (b.getD s 0 ≠ b.getD (s - 1) 0)) b.length s (by omega) h2
  have hk := run_of_position_succ b p hp
  have hskip := countP_range_skip
    (fun s => decide (s = 0) || decide (b.getD s 0 ≠ b.getD (s - 1) 0)) (s + 1) (p + 1)
    (by omega) (fun i a1 a2 => h3 i (by omega) (by omega))
  have hsucc := countP_range_succ_eq
    (fun s => decide (s = 0) || decide (b.getD s 0 ≠ b.getD (s - 1) 0)) s h2
  have hrun : rle_string.run_of_position b p = (List.range s).countP
      (fun s => decide (s = 0) || decide (b.getD s 0 ≠ b.getD (s - 1) 0)) := by omega
  have hconst : ∀ k, s + k ≤ p → b.getD (s + k) 0 = b.getD s 0 := by
    intro k
    induction k with
    | zero => intro _; rfl
    | succ k ih =>
      intro hk
      have := h3 (s + (k + 1)) (by omega) hk
      simp only [Bool.or_eq_false_iff, decide_eq_false_iff_not, ne_eq, not_not] at this
      rw [this.2, show s + (k + 1) - 1 = s + k by omega]
      exact ih (by omega)
  refine ⟨s, ?_, h1, fun i a1 a2 => ?_⟩
  · rw [hrun]; exact hget
  · have e1 := hconst (i - s) (by omega)
    have e2 := hconst (p - s) (by omega)
    rw [show s + (i - s) = i by omega] at e1
    rw [show s + (p - s) = p by omega] at e2
    rw [e1, e2]

/-- The sampled end of the run of row `p`: it is at or after `p`, and the rows
between hold the symbol of `p`. -/
theorem run_end_of (b : List Nat) (p : Nat) (hp : p < b.length) :
    ∃ e, (run_ends b)[rle_string.run_of_position b p]? = some e ∧ p ≤ e ∧ e < b.length ∧
      ∀ i, p ≤ i → i ≤ e → b.getD i 0 = b.getD p 0 := by
  obtain ⟨e, h1, h2, h3, h4⟩ := exists_least
    (fun e => decide (e + 1 = b.length) || decide (b.getD e 0 ≠ b.getD (e + 1) 0))
    p (b.length - 1) (by omega)
    (by simp only [Bool.or_eq_true, decide_eq_true_eq]; left; omega)
  have hget := filter_range_get
    (fun e => decide (e + 1 = b.length) || decide (b.getD e 0 ≠ b.getD (e + 1) 0))
    b.length e (by omega) h3
  have hskip := countP_range_skip
    (fun e => decide (e + 1 = b.length) || decide (b.getD e 0 ≠ b.getD (e + 1) 0)) p e h1 h4
  have hrun := run_of_position_ends b p hp
  have hconst : ∀ k, p + k ≤ e → b.getD (p + k) 0 = b.getD p 0 := by
    intro k
    induction k with
    | zero => intro _; rfl
    | succ k ih =>
      intro hk
      have := h4 (p + k) (by omega) (by omega)
      simp only [Bool.or_eq_false_iff, decide_eq_false_iff_not, ne_eq, not_not] at this
      rw [show p + (k + 1) = p + k + 1 by omega, ← this.2]
      exact ih (by omega)
  refine ⟨e, ?_, h1, by omega, fun i a1 a2 => ?_⟩
  · rw [hrun, ← hskip]; exact hget
  · have e1 := hconst (i - p) (by omega)
    rw [show p + (i - p) = i by omega] at e1
    exact e1

/-! ## Rows of a range that hold a symbol -/

theorem rank_diff_le (b : List Nat) (c lo m : Nat) (h : lo ≤ m) :
    rle_string.rank b m c ≤ rle_string.rank b lo c + (m - lo) := by
  induction m with
  | zero =>
    have : lo = 0 := by omega
    rw [this]; omega
  | succ m ih =>
    by_cases hm : lo = m + 1
    · rw [hm]; omega
    · have := ih (by omega)
      rw [rank_succ]
      split <;> omega

/-- All the rows counted by the rank difference hold `c` when the difference is
the width. -/
theorem rank_diff_full (b : List Nat) (c lo m : Nat) (h : lo ≤ m)
    (he : rle_string.rank b m c = rle_string.rank b lo c + (m - lo)) :
    ∀ i, lo ≤ i → i < m → i < b.length ∧ b.getD i 0 = c := by
  induction m with
  | zero => intro i _ h2; omega
  | succ m ih =>
    by_cases hm : lo = m + 1
    · intro i h1 h2; omega
    · have hle := rank_diff_le b c lo m (by omega)
      rw [rank_succ] at he
      by_cases hc : m < b.length ∧ b.getD m 0 = c
      · rw [if_pos hc] at he
        intro i h1 h2
        by_cases hi : i = m
        · rw [hi]; exact hc
        · exact ih (by omega) (by omega) i h1 (by omega)
      · rw [if_neg hc] at he
        omega

/-- Rows that all hold `c` are all counted. -/
theorem rank_diff_all (b : List Nat) (c lo m : Nat) (h : lo ≤ m) (hm : m ≤ b.length)
    (hall : ∀ i, lo ≤ i → i < m → b.getD i 0 = c) :
    rle_string.rank b m c = rle_string.rank b lo c + (m - lo) := by
  induction m with
  | zero =>
    have : lo = 0 := by omega
    rw [this]; rfl
  | succ m ih =>
    by_cases hlm : lo = m + 1
    · rw [hlm]; omega
    · have := ih (by omega) (by omega) (fun i a1 a2 => hall i a1 (by omega))
      rw [rank_succ, if_pos ⟨by omega, hall m (by omega) (by omega)⟩, this]
      omega

/-- The sample that a refreshing extension reads is the sample of a row of
the previous range that holds `c`: the start of the run of the last row when
that row holds `c`, otherwise the last row with `c`, which ends its run.  The
row is at or before `p`, in the same run. -/
theorem refresh_row (b : List Nat) (lo hi c p : Nat) (f : Nat → Nat) (hhi : hi < b.length)
    (hlo : lo ≤ p) (hp : p ≤ hi)
    (hsel : rle_string.select b (rle_string.rank b (hi + 1) c - 1) c = some p)
    (hpos : 0 < rle_string.rank b (hi + 1) c)
    (hnot : rle_string.rank b (hi + 1) c < rle_string.rank b lo c + (hi + 1 - lo)) :
    ∃ x, lo ≤ x ∧ x ≤ hi ∧ b.getD x 0 = c ∧
      (if rle_string.char_at b hi = c then
          ((run_starts b).map f).getD (rle_string.run_of_position b p) 0
        else ((run_ends b).map f).getD (rle_string.run_of_position b p) 0) = f x ∧
      x ≤ p ∧ ∀ i, x ≤ i → i ≤ p → b.getD i 0 = c := by
  obtain ⟨p1, p2, p3⟩ := select_char b _ c p hsel
  by_cases hc : rle_string.char_at b hi = c
  · rw [if_pos hc]
    have hrs := rank_succ b hi c
    rw [if_pos ⟨hhi, hc⟩] at hrs
    have hph : p = hi := by
      have := select_rank b hi c hhi hc
      rw [show rle_string.rank b (hi + 1) c - 1 = rle_string.rank b hi c by omega] at hsel
      rw [hsel] at this
      exact Option.some.inj this
    obtain ⟨s, g1, g2, g3⟩ := run_start_of b p p1
    have hs : lo ≤ s := by
      by_contra hn
      have := rank_diff_all b c lo (hi + 1) (by omega) (by omega) (fun i a1 a2 => by
        rw [g3 i (by omega) (by omega)]; exact p2)
      omega
    refine ⟨s, hs, by omega, by rw [g3 s (le_refl _) g2]; exact p2, ?_, g2,
      fun i a1 a2 => by rw [g3 i a1 a2]; exact p2⟩
    rw [List.getD_eq_getElem?_getD, List.getElem?_map, g1]
    rfl
  · rw [if_neg hc]
    have hrs := rank_succ b p c
    rw [if_pos ⟨p1, p2⟩] at hrs
    have hph : p < hi := by
      rcases Nat.lt_or_ge p hi with h | h
      · exact h
      · have : p = hi := by omega
        rw [this] at p2
        exact absurd p2 hc
    obtain ⟨e, g1, g2, g3, g4⟩ := run_end_of b p p1
    have he : e = p := by
      by_contra hn
      have h1 := g4 (p + 1) (by omega) (by omega)
      have h2 := rank_succ b (p + 1) c
      rw [if_pos ⟨by omega, by rw [h1]; exact p2⟩] at h2
      have h3 := rank_mono b (p + 1 + 1) (hi + 1) c (by omega)
      omega
    refine ⟨p, hlo, hp, p2, ?_, le_refl _, fun i a1 a2 => by
      rw [show i = p by omega]; exact p2⟩
    rw [List.getD_eq_getElem?_getD, List.getElem?_map, g1, he]
    rfl

/-! ## The sample tables of a constructed index -/

/-- The vectors that `sufsort` returns on a suffix array of length at least 2:
the BWT string and the numbered samples of its run starts and run ends. -/
theorem sufsort_numbered (text sa : List Nat) (h2 : 2 ≤ sa.length) :
    (sufsort text sa).bwt_s = sa.map (bwt_char text) ∧
    numbered (sufsort text sa).samples_first
      ((run_starts (sa.map (bwt_char text))).map (sample_at sa)) ∧
    numbered (sufsort text sa).samples_last
      ((run_ends (sa.map (bwt_char text))).map (sample_at sa)) := by
  obtain ⟨i1, i2, i3⟩ := sufsort_inv text sa (sa.map (bwt_char text)) rfl h2 sa.length
    (le_refl _)
  rw [if_pos rfl] at i2 i3
  have hl : (sa.map (bwt_char text)).length = sa.length := List.length_map _ _
  refine ⟨?_, ?_, ?_⟩
  · unfold sufsort
    rw [i1, ← hl, List.take_length]
  · unfold run_starts sufsort
    rw [hl]
    exact i2
  · unfold run_ends sufsort
    rw [hl]
    rw [hl] at i3
    exact i3

/-- The sample vectors of `sufsort`, read back by index. -/
theorem sufsort_tables (w : List Nat) (h2 : 2 ≤ w.length) :
    (List.range (rle_string.number_of_runs (sufsort w (construct_sa w)).bwt_s)).map (fun i =>
        ((sufsort w (construct_sa w)).samples_first.getD i (0, 0)).1)
      = (run_starts (bwt_of w)).map (sample_at (construct_sa w)) ∧
    (List.range (rle_string.number_of_runs (sufsort w (construct_sa w)).bwt_s)).map (fun i =>
        ((sufsort w (construct_sa w)).samples_last.getD i (0, 0)).1)
      = (run_ends (bwt_of w)).map (sample_at (construct_sa w)) := by
  obtain ⟨s1, s2, s3⟩ := sufsort_numbered w (construct_sa w)
    (by rw [construct_sa_length]; exact h2)
  have hb : (construct_sa w).map (bwt_char w) = bwt_of w := rfl
  rw [hb] at s1 s2 s3
  have f1 := numbered_fst _ _ s2
  have f2 := numbered_fst _ _ s3
  rw [List.length_map, run_starts_length] at f1
  rw [List.length_map, run_ends_length] at f2
  rw [s1]
  exact ⟨f1, f2⟩

theorem construct_sampled (T : List Nat) (I : br_index_naive) (hT : valid_text T)
    (h : br_index_naive.construct T = Except.ok I) : I.sampled T := by
  have hidx := construct_indexes T I hT h
  obtain ⟨c1, c2, c3, c4, c5, c6, _⟩ := construct_sufsort T I h
  have hlen : 2 ≤ (I.text T).length := by
    rw [text_length]
    have := List.length_pos.mpr hT.1
    omega
  have hlenR : 2 ≤ (I.text T.reverse).length := by
    rw [text_length, List.length_reverse]
    have := List.length_pos.mpr hT.1
    omega
  obtain ⟨t1, t2⟩ := sufsort_tables (I.text T) hlen
  obtain ⟨t3, t4⟩ := sufsort_tables (I.text T.reverse) hlenR
  rw [← c1, ← c3, ← hidx.2.2.2.1] at t1
  rw [← c1, ← c4, ← hidx.2.2.2.1] at t2
  rw [← c2, ← c5, ← hidx.2.2.2.2.1] at t3
  rw [← c2, ← c6, ← hidx.2.2.2.2.1] at t4
  exact ⟨t1, t2, t3, t4⟩

theorem sampled_same_tables (I J : br_index_naive) (T : List Nat) (hI : I.sampled T)
    (hs : I.same_tables J) : J.sampled T := by
  obtain ⟨e1, _, _, _, e5, _, _, _, e9, _, _, e12, e13, _, _, _, _, _, e19, e20, _⟩ := hs
  unfold br_index_naive.sampled br_index_naive.text at *
  rw [← e1, ← e5, ← e9, ← e12, ← e13, ← e19, ← e20]
  exact hI

/-! ## Rows and text positions -/

theorem rows_below_le_length (b : Bool) (w P : List Nat) : rows_below b w P ≤ w.length := by
  rw [rows_below_eq_countP, ← construct_sa_length w]
  exact List.countP_le_length _

/-- A row of the range of `P` whose BWT symbol is `c`, not the terminator:
its suffix does not start the text, its sample is the position before, and
`cP` is read there. -/
theorem prepend_row (w P : List Nat) (x c : Nat) (hx : x < w.length)
    (hne : rows_below false w P < rows_below true w P)
    (hin : (pattern_range w P).1 ≤ x ∧ x ≤ (pattern_range w P).2)
    (hb : (bwt_of w).getD x 0 = c) (hc : TERMINATOR ≠ c) :
    0 < (construct_sa w).getD x 0 ∧
    sample_at (construct_sa w) x = (construct_sa w).getD x 0 - 1 ∧
    (c :: P) <+: w.drop ((construct_sa w).getD x 0 - 1) := by
  have hpre := (mem_pattern_range w P x hx hne).mp hin
  have hlt := construct_sa_lt w x hx
  rw [bwt_of_getD w x hx] at hb
  unfold bwt_char at hb
  by_cases h0 : (construct_sa w).getD x 0 > 0
  · rw [if_pos h0] at hb
    refine ⟨h0, by unfold sample_at; rw [if_pos h0], ?_⟩
    have hd : w.drop ((construct_sa w).getD x 0 - 1)
        = c :: w.drop ((construct_sa w).getD x 0) := by
      have hl : (construct_sa w).getD x 0 - 1 < w.length := by omega
      rw [List.drop_eq_getElem_cons hl, ← hb, List.getD_eq_getElem _ _ hl]
      congr 2
      omega
    rw [hd]
    obtain ⟨t, ht⟩ := hpre
    exact ⟨t, by rw [← ht]; rfl⟩
  · rw [if_neg h0] at hb
    exact absurd hb hc

/-- When every row of the range of `P` holds `c`, every occurrence of `P` is
preceded by `c`. -/
theorem keep_row (w P : List Nat) (c o : Nat) (ho : o < w.length)
    (hne : rows_below false w P < rows_below true w P)
    (hall : ∀ x, (pattern_range w P).1 ≤ x → x ≤ (pattern_range w P).2 →
      (bwt_of w).getD x 0 = c)
    (hc : TERMINATOR ≠ c) (hpre : P <+: w.drop o) :
    0 < o ∧ (c :: P) <+: w.drop (o - 1) := by
  obtain ⟨x, hx, hxo⟩ := construct_sa_surj w o ho
  have hin := (mem_pattern_range w P x hx hne).mpr (by rw [hxo]; exact hpre)
  obtain ⟨h1, _, h3⟩ := prepend_row w P x c hx hne hin (hall x hin.1 hin.2) hc
  rw [hxo] at h1 h3
  exact ⟨h1, h3⟩

/-! ## The anchor across an extension -/

/-- An occurrence of `P` in `T`, seen in the reversed remapped text. -/
theorem occurrence_to_reverse (I : br_index_naive) (T P : List Nat) (hI : I.indexes T)
    (hP : ∀ b ∈ P, b ∈ T) (o : Nat) (ho : o ≤ T.length) (h : occurs_at T P o = true) :
    o + P.length ≤ T.length ∧
    (I.pattern P).reverse <+: (I.text T.reverse).drop (T.length - P.length - o) := by
  have hb := occurs_at_bound T P o ho h
  have hr := occurs_at_reverse T P o hb
  rw [h] at hr
  have := (occurs_at_iff I T T.reverse P.reverse hI
    (fun b hb => List.mem_reverse.mp hb) (fun b hb => hP b (List.mem_reverse.mp hb))
    (T.length - P.length - o) (by rw [List.length_reverse]; omega)).mp hr
  refine ⟨hb, ?_⟩
  have e : I.pattern P.reverse = (I.pattern P).reverse := by
    unfold br_index_naive.pattern
    rw [List.map_reverse]
  rw [← e]
  exact this

/-- An occurrence of the reversed `Pc` in the reversed remapped text, seen in
`T`. -/
theorem occurrence_of_reverse (I : br_index_naive) (T P : List Nat) (c : Nat)
    (hI : I.indexes T) (hP : ∀ b ∈ P, b ∈ T) (hc : c ∈ T) (oR : Nat) (hle : oR ≤ T.length)
    (hpre : (I.remap.getD c 0 :: (I.pattern P).reverse) <+: (I.text T.reverse).drop oR) :
    oR + (P.length + 1) ≤ T.length ∧
    occurs_at T (P ++ [c]) (T.length - (P.length + 1) - oR) = true := by
  have e : I.pattern (P ++ [c]).reverse = I.remap.getD c 0 :: (I.pattern P).reverse := by
    unfold br_index_naive.pattern
    simp only [List.reverse_append, List.reverse_cons, List.reverse_nil, List.nil_append,
      List.singleton_append, List.map_cons, List.map_reverse]
  have hPc : ∀ b ∈ (P ++ [c]).reverse, b ∈ T := by
    intro b hb
    rcases List.mem_append.mp (List.mem_reverse.mp hb) with h | h
    · exact hP b h
    · rw [List.mem_singleton.mp h]; exact hc
  have h1 := (occurs_at_iff I T T.reverse (P ++ [c]).reverse hI
    (fun b hb => List.mem_reverse.mp hb) hPc oR (by rw [List.length_reverse]; exact hle)).mpr
    (by rw [e]; exact hpre)
  have hb := occurs_at_bound T.reverse (P ++ [c]).reverse oR
    (by rw [List.length_reverse]; exact hle) h1
  rw [List.length_reverse, List.length_reverse, List.length_append, List.length_singleton] at hb
  have hr := occurs_at_reverse T.reverse (P ++ [c]).reverse oR
    (by rw [List.length_reverse, List.length_reverse, List.length_append,
      List.length_singleton]; exact hb)
  rw [List.reverse_reverse, List.reverse_reverse, List.length_reverse, List.length_reverse,
    List.length_append, List.length_singleton, h1] at hr
  exact ⟨hb, hr⟩

theorem left_extension_anchor (I J : br_index_naive) (T P : List Nat) (c : Nat) (rn : range_t)
    (hI : I.indexes T) (hS : I.sampled T) (hP : I.tracks T P) (hA : I.anchored T P)
    (hc : c ∈ T) (h : I.left_extension c = some (rn, J)) (hrn : rn.1 ≤ rn.2) :
    J.anchored T (c :: P) := by
  obtain ⟨hPT, hrange, hrangeR, hne, hlen⟩ := hP
  obtain ⟨_, e2⟩ := left_extension_success I c rn J h hrn
  obtain ⟨J1, p, e, hsel, hp1, hp2, hpos, _, _, _, _, hre, hnr⟩ := left_extension_shape I c e2
  rw [e] at h
  simp only [Option.some.injEq, Prod.mk.injEq] at h
  obtain ⟨_, h2⟩ := h
  subst h2
  obtain ⟨hr1, hr2⟩ := range_LF_nonempty _ _ _ _ _ (by rw [← LF_eq_range_LF]; exact e2)
  have hbw : I.bwt = bwt_of (I.text T) := hI.2.2.2.1
  have hn : I.bwt.length = T.length + 1 := by rw [hbw, bwt_of_length, text_length]
  have hhi : I.range.2 < I.bwt.length := by
    rw [hrange, hn]
    simp only [pattern_range]
    have := rows_below_le_length true (I.text T) (I.pattern P)
    rw [text_length] at this
    omega
  have hle := rank_diff_le I.bwt (I.remap.getD c 0) I.range.1 (I.range.2 + 1) (by omega)
  have hct := remap_ne_terminator I T hI c
  have hcP : ∀ b ∈ c :: P, b ∈ T := by
    intro b hb
    rcases List.mem_cons.mp hb with h | h
    · rw [h]; exact hc
    · exact hPT b h
  by_cases hw : I.range.2 - I.range.1
      ≠ (I.LF I.range (I.remap.getD c 0)).2 - (I.LF I.range (I.remap.getD c 0)).1
  · obtain ⟨_, hj, hd, _⟩ := hre hw
    rw [LF_eq_range_LF, hr2] at hw
    simp only [] at hw
    obtain ⟨x, x1, x2, x3, x4, _⟩ := refresh_row I.bwt I.range.1 I.range.2 (I.remap.getD c 0) p
      (sample_at (construct_sa (I.text T))) hhi hp1 hp2 hsel hpos (by omega)
    rw [hS.1, hS.2.1, x4] at hj
    have hxl : x < (I.text T).length := by rw [text_length]; omega
    obtain ⟨q1, q2, q3⟩ := prepend_row (I.text T) (I.pattern P) x (I.remap.getD c 0) hxl hne
      (by rw [← hrange]; exact ⟨x1, x2⟩) (by rw [← hbw]; exact x3) hct
    have hsa := construct_sa_lt (I.text T) x hxl
    rw [text_length] at hsa
    unfold br_index_naive.anchored
    rw [hj, hd, q2, Nat.sub_zero]
    exact ⟨Nat.zero_le _, by omega,
      (occurs_at_iff I T T (c :: P) hI (fun b hb => hb) hcP _ (by omega)).mpr q3⟩
  · have hw1 := not_not.mp hw
    obtain ⟨_, hj, hd, _⟩ := hnr hw1
    rw [LF_eq_range_LF, hr2] at hw1
    simp only [] at hw1
    have hall := rank_diff_full I.bwt (I.remap.getD c 0) I.range.1 (I.range.2 + 1) (by omega)
      (by omega)
    obtain ⟨a1, a2, a3⟩ := hA
    have hpre := (occurs_at_iff I T T P hI (fun b hb => hb) hPT _ a2).mp a3
    obtain ⟨k1, k2⟩ := keep_row (I.text T) (I.pattern P) (I.remap.getD c 0) (I.j - I.d)
      (by rw [text_length]; omega) hne
      (fun x h1 h2 => by
        rw [← hbw]
        exact (hall x (by rw [hrange]; exact h1) (by rw [hrange]; omega)).2)
      hct hpre
    unfold br_index_naive.anchored
    rw [hj, hd, show I.j - (I.d + 1) = I.j - I.d - 1 by omega]
    exact ⟨by omega, by omega,
      (occurs_at_iff I T T (c :: P) hI (fun b hb => hb) hcP _ (by omega)).mpr k2⟩

theorem right_extension_anchor (I J : br_index_naive) (T P : List Nat) (c : Nat)
    (rn : range_t) (hI : I.indexes T) (hS : I.sampled T) (hP : I.tracks T P)
    (hA : I.anchored T P) (hc : c ∈ T) (h : I.right_extension c = some (rn, J))
    (hrn : rn.1 ≤ rn.2) : J.anchored T (P ++ [c]) := by
  obtain ⟨hPT, hrange, hrangeR, hne, hlen⟩ := hP
  have e2 := right_extension_success I c rn J h hrn
  obtain ⟨J1, p, e, hsel, hp1, hp2, hpos, _, _, _, _, hre, hnr⟩ := right_extension_shape I c e2
  rw [e] at h
  simp only [Option.some.injEq, Prod.mk.injEq] at h
  obtain ⟨_, h2⟩ := h
  subst h2
  obtain ⟨hr1, hr2⟩ := range_LF_nonempty _ _ _ _ _ (by rw [← LFR_eq_range_LF]; exact e2)
  have hbw : I.bwtR = bwt_of (I.text T.reverse) := hI.2.2.2.2.1
  have hn : I.bwtR.length = T.length + 1 := by
    rw [hbw, bwt_of_length, text_length, List.length_reverse]
  have hn1 : rle_string.size I.bwt = T.length + 1 := by
    unfold rle_string.size
    rw [hI.2.2.2.1, bwt_of_length, text_length]
  have hP0 := pattern_no_zero I T P hI hPT
  have hneR : rows_below false (I.text T.reverse) (I.pattern P).reverse
      < rows_below true (I.text T.reverse) (I.pattern P).reverse := by
    have w1 := rows_below_reverse_width (I.pattern T) (I.pattern P) hP0
    rw [text_eq] at hne
    rw [text_reverse]
    omega
  have hhi : I.rangeR.2 < I.bwtR.length := by
    rw [hrangeR, hn]
    simp only [pattern_range]
    have := rows_below_le_length true (I.text T.reverse) (I.pattern P).reverse
    rw [text_length, List.length_reverse] at this
    omega
  have hle := rank_diff_le I.bwtR (I.remap.getD c 0) I.rangeR.1 (I.rangeR.2 + 1) (by omega)
  have hct := remap_ne_terminator I T hI c
  by_cases hw : I.rangeR.2 - I.rangeR.1
      ≠ (I.LFR I.rangeR (I.remap.getD c 0)).2 - (I.LFR I.rangeR (I.remap.getD c 0)).1
  · obtain ⟨_, hjR, _, _, hj, hd⟩ := hre hw
    rw [LFR_eq_range_LF, hr2] at hw
    simp only [] at hw
    obtain ⟨x, x1, x2, x3, x4, _⟩ := refresh_row I.bwtR I.rangeR.1 I.rangeR.2 (I.remap.getD c 0) p
      (sample_at (construct_sa (I.text T.reverse))) hhi hp1 hp2 hsel hpos (by omega)
    rw [hS.2.2.1, hS.2.2.2, x4] at hjR
    have hxl : x < (I.text T.reverse).length := by
      rw [text_length, List.length_reverse]; omega
    obtain ⟨q1, q2, q3⟩ := prepend_row (I.text T.reverse) (I.pattern P).reverse x
      (I.remap.getD c 0) hxl hneR
      (by rw [← hrangeR]; exact ⟨x1, x2⟩) (by rw [← hbw]; exact x3) hct
    have hsa := construct_sa_lt (I.text T.reverse) x hxl
    rw [text_length, List.length_reverse] at hsa
    obtain ⟨b1, b2⟩ := occurrence_of_reverse I T P c hI hPT hc _ (by omega) q3
    unfold br_index_naive.anchored
    rw [hj, hd, hjR, q2, hn1, hlen]
    refine ⟨by omega, by omega, ?_⟩
    rw [show T.length + 1 - 2 - ((construct_sa (I.text T.reverse)).getD x 0 - 1) - P.length
      = T.length - (P.length + 1) - ((construct_sa (I.text T.reverse)).getD x 0 - 1) by omega]
    exact b2
  · have hw1 := not_not.mp hw
    obtain ⟨_, hj, hd, _⟩ := hnr hw1
    rw [LFR_eq_range_LF, hr2] at hw1
    simp only [] at hw1
    have hall := rank_diff_full I.bwtR (I.remap.getD c 0) I.rangeR.1 (I.rangeR.2 + 1)
      (by omega) (by omega)
    obtain ⟨a1, a2, a3⟩ := hA
    obtain ⟨f1, f2⟩ := occurrence_to_reverse I T P hI hPT _ a2 a3
    obtain ⟨k1, k2⟩ := keep_row (I.text T.reverse) (I.pattern P).reverse (I.remap.getD c 0)
      (T.length - P.length - (I.j - I.d))
      (by rw [text_length, List.length_reverse]; omega) hneR
      (fun x h1 h2 => by
        rw [← hbw]
        exact (hall x (by rw [hrangeR]; exact h1) (by rw [hrangeR]; omega)).2)
      hct f2
    obtain ⟨b1, b2⟩ := occurrence_of_reverse I T P c hI hPT hc _ (by omega) k2
    unfold br_index_naive.anchored
    rw [hj, hd]
    refine ⟨a1, a2, ?_⟩
    rw [show T.length - (P.length + 1) - (T.length - P.length - (I.j - I.d) - 1)
      = I.j - I.d by omega] at b2
    exact b2

/-- The anchor marks an occurrence of the pattern after every run of
successful extensions. -/
theorem extend_all_anchor (T : List Nat) (ops : List extension) :
    ∀ (I J : br_index_naive) (P : List Nat), I.indexes T → I.sampled T → I.tracks T P →
      I.anchored T P → I.extend_all ops = some J →
      J.anchored T (ops.foldl extension.apply P) := by
  induction ops with
  | nil =>
    intro I J P _ _ _ hA h
    simp only [br_index_naive.extend_all, Option.some.injEq] at h
    subst h
    exact hA
  | cons op ops ih =>
    intro I J P hI hS hP hA h
    simp only [br_index_naive.extend_all] at h
    cases op with
    | left c =>
      by_cases hocc : c ∈ T ∧ rows_below false (I.text T) (I.pattern (c :: P))
          < rows_below true (I.text T) (I.pattern (c :: P))
      · obtain ⟨J1, e1, e2, e3, e4⟩ := left_extension_tracks I T P c hI hP hocc.1 hocc.2
        have hA1 := left_extension_anchor I J1 T P c J1.range hI hS hP hA hocc.1 e1 e2
        simp only [br_index_naive.extend, e1, if_pos e2] at h
        exact ih J1 J (c :: P) (indexes_same_tables I J1 T hI e3)
          (sampled_same_tables I J1 T hS e3) e4 hA1 h
      · have e1 := left_extension_fails I T P c hI hP hocc
        simp [br_index_naive.extend, e1] at h
    | right c =>
      by_cases hocc : c ∈ T ∧ rows_below false (I.text T) (I.pattern (P ++ [c]))
          < rows_below true (I.text T) (I.pattern (P ++ [c]))
      · obtain ⟨J1, e1, e2, e3, e4⟩ := right_extension_tracks I T P c hI hP hocc.1 hocc.2
        have hA1 := right_extension_anchor I J1 T P c J1.range hI hS hP hA hocc.1 e1 e2
        simp only [br_index_naive.extend, e1, if_pos e2] at h
        exact ih J1 J (P ++ [c]) (indexes_same_tables I J1 T hI e3)
          (sampled_same_tables I J1 T hS e3) e4 hA1 h
      · have e1 := right_extension_fails I T P c hI hP hocc
        simp [br_index_naive.extend, e1] at h

theorem reset_pattern_anchored (I : br_index_naive) (T : List Nat) (hI : I.indexes T) :
    I.reset_pattern.anchored T [] := by
  have hn : I.bwt.length = T.length + 1 := by rw [hI.2.2.2.1, bwt_of_length, text_length]
  have hj : I.reset_pattern.j = T.length := by
    show I.bwt_size - 1 = T.length
    unfold br_index_naive.bwt_size rle_string.size
    omega
  have hd : I.reset_pattern.d = 0 := rfl
  unfold br_index_naive.anchored
  rw [hj, hd]
  refine ⟨Nat.zero_le _, by omega, ?_⟩
  unfold occurs_at
  simp

/-- The anchored text position is the suffix-array value of a row of the
current range. -/
theorem anchored_row (J : br_index_naive) (T P : List Nat) (hI : J.indexes T)
    (hP : J.tracks T P) (hA : J.anchored T P) :
    ∃ x, x < rle_string.size J.bwt ∧ J.range.1 ≤ x ∧ x ≤ J.range.2 ∧
      (construct_sa (J.text T)).getD x 0 = J.j - J.d := by
  obtain ⟨a1, a2, a3⟩ := hA
  obtain ⟨hPT, hrange, _, hne, _⟩ := hP
  have hpre := (occurs_at_iff J T T P hI (fun b hb => hb) hPT _ a2).mp a3
  obtain ⟨x, hx, hxo⟩ := construct_sa_surj (J.text T) (J.j - J.d)
    (by rw [text_length]; omega)
  have hin := (mem_pattern_range (J.text T) (J.pattern P) x hx hne).mpr
    (by rw [hxo]; exact hpre)
  refine ⟨x, ?_, by rw [hrange]; exact hin.1, by rw [hrange]; exact hin.2, hxo⟩
  unfold rle_string.size
  rw [hI.2.2.2.1, bwt_of_length]
  exact hx

theorem reached_anchored (T : List Nat) (I J : br_index_naive) (ops : List extension)
    (hT : valid_text T) (hI : br_index_naive.construct T = Except.ok I)
    (hrun : I.reset_pattern.extend_all ops = some J) :
    J.indexes T ∧ J.sampled T ∧ J.tracks T (spell ops) ∧ J.anchored T (spell ops) := by
  have hidx := construct_indexes T I hT hI
  have hS := construct_sampled T I hT hI
  obtain ⟨h2, h3, h4⟩ := reset_pattern_tracks I T hidx
  obtain ⟨h5, h6, h7⟩ := extend_all_tracks T ops I.reset_pattern J [] h2 h3 hrun
  exact ⟨h5, sampled_same_tables I J T hS (same_tables_trans _ _ _ h4 h7), h6,
    extend_all_anchor T ops I.reset_pattern J [] h2 (sampled_same_tables I _ T hS h4) h3
      (reset_pattern_anchored I T hidx) hrun⟩

/-- C22: in every state `J` reached from `reset_pattern` by successful
left/right extensions `ops` over the index of a valid text `T`, `j ≥ d` and the
pattern spelled by `ops` is read at the text position `j - d`; after one or
more extensions `j - d` is one of the occurrences found by naive search; the
assertion of `locate` holds, so that `locate` runs its two loops from the seed
`j - d`; and the seed is the suffix-array value of a row of the current
range. -/
theorem anchor_invariant (T : List Nat) (I J : br_index_naive) (ops : List extension)
    (hT : valid_text T) (hI : br_index_naive.construct T = Except.ok I)
    (hrun : I.reset_pattern.extend_all ops = some J) :
    J.j ≥ J.d ∧ occurs_at T (spell ops) (J.j - J.d) = true ∧
    (ops ≠ [] → J.j - J.d ∈ occurrences T (spell ops)) ∧
    (∀ fuel, J.locate fuel
      = match J.locate_front fuel (J.j - J.d) [J.j - J.d] with
        | Except.error e => Except.error e
        | Except.ok deq => J.locate_back fuel (J.j - J.d) deq) ∧
    ∃ x, x < rle_string.size J.bwt ∧ J.range.1 ≤ x ∧ x ≤ J.range.2 ∧
      (construct_sa (J.text T)).getD x 0 = J.j - J.d := by
  obtain ⟨h5, _, h6, hA⟩ := reached_anchored T I J ops hT hI hrun
  obtain ⟨a1, a2, a3⟩ := hA
  have hb := occurs_at_bound T (spell ops) _ a2 a3
  refine ⟨a1, a3, fun hops => ?_, fun fuel => ?_, anchored_row J T (spell ops) h5 h6 ⟨a1, a2, a3⟩⟩
  · have hlen : 0 < (spell ops).length := List.length_pos.mpr (spell_ne_nil ops hops)
    unfold occurrences
    exact List.mem_filter.mpr ⟨List.mem_range.mpr (by omega), a3⟩
  · unfold br_index_naive.locate
    rw [if_neg (by omega)]

set_option maxRecDepth 1000000 in
set_option maxHeartbeats 4000000 in
/-- Witness of C22: on "mississippi" after `left s, left s, right i` (pattern
"ssi") the anchor `j - d` is an occurrence of the pattern. -/
theorem anchor_invariant_witness :
    valid_text [109, 105, 115, 115, 105, 115, 115, 105, 112, 112, 105] ∧
    ∃ I J, br_index_naive.construct [109, 105, 115, 115, 105, 115, 115, 105, 112, 112, 105]
        = Except.ok I ∧
      I.reset_pattern.extend_all [extension.left 115, extension.left 115, extension.right 105]
        = some J ∧
      J.j ≥ J.d ∧
      occurs_at [109, 105, 115, 115, 105, 115, 115, 105, 112, 112, 105]
        (spell [extension.left 115, extension.left 115, extension.right 105])
        (J.j - J.d) = true := by
  obtain ⟨I, J, hI, hJ⟩ := run_of_isSome [109, 105, 115, 115, 105, 115, 115, 105, 112, 112, 105]
    [extension.left 115, extension.left 115, extension.right 105] (by decide)
  have h := anchor_invariant _ I J _ (by decide) hI hJ
  exact ⟨by decide, I, J, hI, hJ, h.1, h.2.1⟩

/-! ## The anchor row -/

theorem extend_all_append (ops : List extension) (op : extension) :
    ∀ (I K : br_index_naive), I.extend_all (ops ++ [op]) = some K →
      ∃ J rn, I.extend_all ops = some J ∧ J.extend op = some (rn, K) ∧ rn.1 ≤ rn.2 := by
  induction ops with
  | nil =>
    intro I K h
    rw [List.nil_append] at h
    unfold br_index_naive.extend_all at h
    cases hop : I.extend op with
    | none => rw [hop] at h; exact absurd h (by simp)
    | some a =>
      obtain ⟨rn, I1⟩ := a
      rw [hop] at h
      simp only [] at h
      by_cases hrn : rn.1 ≤ rn.2
      · rw [if_pos hrn] at h
        unfold br_index_naive.extend_all at h
        injection h with h
        subst h
        exact ⟨I, rn, rfl, hop, hrn⟩
      · rw [if_neg hrn] at h
        exact absurd h (by simp)
  | cons o ops ih =>
    intro I K h
    rw [List.cons_append] at h
    unfold br_index_naive.extend_all at h ⊢
    cases hop : I.extend o with
    | none => rw [hop] at h; exact absurd h (by simp)
    | some a =>
      obtain ⟨rn, I1⟩ := a
      rw [hop] at h
      simp only [] at h ⊢
      by_cases hrn : rn.1 ≤ rn.2
      · rw [if_pos hrn] at h ⊢
        exact ih I1 K h
      · rw [if_neg hrn] at h
        exact absurd h (by simp)

/-- The anchor row after a successful `left_extension`: a refresh puts `p` on
a row of the previous range that holds `c`, and the new `j` is the text
position before the suffix of a row of the same run; otherwise `p` stays. -/
theorem left_extension_row (I J : br_index_naive) (T P : List Nat) (c : Nat) (rn : range_t)
    (hI : I.indexes T) (hS : I.sampled T) (hP : I.tracks T P)
    (h : I.left_extension c = some (rn, J)) (hrn : rn.1 ≤ rn.2) :
    (I.range.2 - I.range.1 ≠ J.range.2 - J.range.1 →
      I.range.1 ≤ J.p ∧ J.p ≤ I.range.2 ∧
      rle_string.char_at I.bwt J.p = I.remap.getD c 0 ∧ J.d = 0 ∧
      J.pR = I.inv_order.getD (rle_string.run_of_position I.bwt J.p) 0 ∧
      ∃ x, I.range.1 ≤ x ∧ x ≤ J.p ∧
        (∀ i, x ≤ i → i ≤ J.p → rle_string.char_at I.bwt i = I.remap.getD c 0) ∧
        (construct_sa (I.text T)).getD x 0 = J.j + 1) ∧
    (I.range.2 - I.range.1 = J.range.2 - J.range.1 →
      J.p = I.p ∧ J.pR = I.pR ∧ J.j = I.j ∧ J.d = I.d + 1) := by
  obtain ⟨hPT, hrange, hrangeR, hne, hlen⟩ := hP
  obtain ⟨_, e2⟩ := left_extension_success I c rn J h hrn
  obtain ⟨J1, p, e, hsel, hp1, hp2, hpos, hJr, _, _, _, hre, hnr⟩ := left_extension_shape I c e2
  rw [e] at h
  simp only [Option.some.injEq, Prod.mk.injEq] at h
  obtain ⟨_, h2⟩ := h
  subst h2
  obtain ⟨hr1, hr2⟩ := range_LF_nonempty _ _ _ _ _ (by rw [← LF_eq_range_LF]; exact e2)
  have hbw : I.bwt = bwt_of (I.text T) := hI.2.2.2.1
  have hn : I.bwt.length = T.length + 1 := by rw [hbw, bwt_of_length, text_length]
  have hhi : I.range.2 < I.bwt.length := by
    rw [hrange, hn]
    simp only [pattern_range]
    have := rows_below_le_length true (I.text T) (I.pattern P)
    rw [text_length] at this
    omega
  have hle := rank_diff_le I.bwt (I.remap.getD c 0) I.range.1 (I.range.2 + 1) (by omega)
  have hct := remap_ne_terminator I T hI c
  rw [hJr]
  constructor
  · intro hw
    obtain ⟨hp, hj, hd, hpR, _⟩ := hre hw
    rw [LF_eq_range_LF, hr2] at hw
    simp only [] at hw
    obtain ⟨x, x1, x2, x3, x4, x5, x6⟩ := refresh_row I.bwt I.range.1 I.range.2
      (I.remap.getD c 0) p (sample_at (construct_sa (I.text T))) hhi hp1 hp2 hsel hpos
      (by omega)
    rw [hS.1, hS.2.1, x4] at hj
    have hxl : x < (I.text T).length := by rw [text_length]; omega
    obtain ⟨q1, q2, q3⟩ := prepend_row (I.text T) (I.pattern P) x (I.remap.getD c 0) hxl hne
      (by rw [← hrange]; exact ⟨x1, x2⟩) (by rw [← hbw]; exact x3) hct
    rw [hp]
    refine ⟨hp1, hp2, x6 p x5 (le_refl _), hd, hpR, x, x1, x5, x6, ?_⟩
    rw [hj, q2]
    omega
  · intro hw
    obtain ⟨a1, a2, a3, a4, _⟩ := hnr hw
    exact ⟨a1, a4, a2, a3⟩

/-- The anchor row after a successful `right_extension`, on the reverse side. -/
theorem right_extension_row (I J : br_index_naive) (T P : List Nat) (c : Nat) (rn : range_t)
    (hI : I.indexes T) (hS : I.sampled T) (hP : I.tracks T P)
    (h : I.right_extension c = some (rn, J)) (hrn : rn.1 ≤ rn.2) :
    (I.rangeR.2 - I.rangeR.1 ≠ J.rangeR.2 - J.rangeR.1 →
      I.rangeR.1 ≤ J.pR ∧ J.pR ≤ I.rangeR.2 ∧
      rle_string.char_at I.bwtR J.pR = I.remap.getD c 0 ∧ J.dR = 0 ∧
      J.p = I.inv_orderR.getD (rle_string.run_of_position I.bwtR J.pR) 0 ∧
      ∃ x, I.rangeR.1 ≤ x ∧ x ≤ J.pR ∧
        (∀ i, x ≤ i → i ≤ J.pR → rle_string.char_at I.bwtR i = I.remap.getD c 0) ∧
        (construct_sa (I.text T.reverse)).getD x 0 = J.jR + 1) ∧
    (I.rangeR.2 - I.rangeR.1 = J.rangeR.2 - J.rangeR.1 →
      J.p = I.p ∧ J.pR = I.pR ∧ J.jR = I.jR ∧ J.dR = I.dR + 1) := by
  obtain ⟨hPT, hrange, hrangeR, hne, hlen⟩ := hP
  have e2 := right_extension_success I c rn J h hrn
  obtain ⟨J1, p, e, hsel, hp1, hp2, hpos, hJr, _, _, _, hre, hnr⟩ :=
    right_extension_shape I c e2
  rw [e] at h
  simp only [Option.some.injEq, Prod.mk.injEq] at h
  obtain ⟨_, h2⟩ := h
  subst h2
  obtain ⟨hr1, hr2⟩ := range_LF_nonempty _ _ _ _ _ (by rw [← LFR_eq_range_LF]; exact e2)
  have hbw : I.bwtR = bwt_of (I.text T.reverse) := hI.2.2.2.2.1
  have hn : I.bwtR.length = T.length + 1 := by
    rw [hbw, bwt_of_length, text_length, List.length_reverse]
  have hP0 := pattern_no_zero I T P hI hPT
  have hneR : rows_below false (I.text T.reverse) (I.pattern P).reverse
      < rows_below true (I.text T.reverse) (I.pattern P).reverse := by
    have w1 := rows_below_reverse_width (I.pattern T) (I.pattern P) hP0
    rw [text_eq] at hne
    rw [text_reverse]
    omega
  have hhi : I.rangeR.2 < I.bwtR.length := by
    rw [hrangeR, hn]
    simp only [pattern_range]
    have := rows_below_le_length true (I.text T.reverse) (I.pattern P).reverse
    rw [text_length, List.length_reverse] at this
    omega
  have hle := rank_diff_le I.bwtR (I.remap.getD c 0) I.rangeR.1 (I.rangeR.2 + 1) (by omega)
  have hct := remap_ne_terminator I T hI c
  rw [hJr]
  constructor
  · intro hw
    obtain ⟨hp, hj, hd, hpR, _⟩ := hre hw
    rw [LFR_eq_range_LF, hr2] at hw
    simp only [] at hw
    obtain ⟨x, x1, x2, x3, x4, x5, x6⟩ := refresh_row I.bwtR I.rangeR.1 I.rangeR.2
      (I.remap.getD c 0) p (sample_at (construct_sa (I.text T.reverse))) hhi hp1 hp2 hsel hpos
      (by omega)
    rw [hS.2.2.1, hS.2.2.2, x4] at hj
    have hxl : x < (I.text T.reverse).length := by
      rw [text_length, List.length_reverse]; omega
    obtain ⟨q1, q2, q3⟩ := prepend_row (I.text T.reverse) (I.pattern P).reverse x
      (I.remap.getD c 0) hxl hneR
      (by rw [← hrangeR]; exact ⟨x1, x2⟩) (by rw [← hbw]; exact x3) hct
    rw [hp]
    refine ⟨hp1, hp2, x6 p x5 (le_refl _), hd, hpR, x, x1, x5, x6, ?_⟩
    rw [hj, q2]
    omega
  · intro hw
    obtain ⟨a1, _, _, a4, a5, a6⟩ := hnr hw
    exact ⟨a1, a4, a5, a6⟩

set_option maxRecDepth 1000000 in
set_option maxHeartbeats 4000000 in
/-- C23, as stated, fails: on the text "a", after `reset_pattern` and the
successful `left_extension('a')`, the forward range is `(1, 1)` but `p = 0`,
which is outside of it, and the suffix of row `p` starts at text position
`SA[0] = 1` whereas `j - d = 0 - 0 = 0`. -/
theorem anchor_row_counterexample :
    ((br_index_naive.construct [97]).toOption.bind
        (fun I => I.reset_pattern.extend_all [extension.left 97])).map
      (fun J => (J.range, J.p, J.j, J.d, construct_sa (J.text [97])))
      = some ((1, 1), 0, 0, 0, [1, 0]) := by
  decide

/-- C23 (amended): let `K` be reached from `reset_pattern` by the successful
extensions `ops` followed by the successful extension `op`, over the index of a
valid text, and let `J` be the state before `op`.  Then `j ≥ d` and `j - d` is
the suffix-array value of a row of the current forward range, but that row is
not `p` in general.  When `op = left_extension(c)` changes the width of the
forward range, `p` is a row of the previous forward range (of `J`, not of `K`)
whose BWT symbol is `remap[c]`, `d = 0`, `pR = inv_order[run of p]`, and `j + 1`
is the suffix-array value of a row `x ≤ p` of the previous range in the BWT run
of `p`; when it keeps the width, `p`, `pR` and `j` are unchanged and `d` grows
by one.  The same holds for `right_extension` with `pR`, `jR`, `dR`, the
reverse range and the reversed text. -/
theorem anchor_row (T : List Nat) (I K : br_index_naive) (ops : List extension)
    (op : extension) (hT : valid_text T) (hI : br_index_naive.construct T = Except.ok I)
    (hrun : I.reset_pattern.extend_all (ops ++ [op]) = some K) :
    ∃ J rn, I.reset_pattern.extend_all ops = some J ∧ J.extend op = some (rn, K) ∧
      rn.1 ≤ rn.2 ∧ K.d ≤ K.j ∧
      (∃ x, x < rle_string.size K.bwt ∧ K.range.1 ≤ x ∧ x ≤ K.range.2 ∧
        (construct_sa (K.text T)).getD x 0 = K.j - K.d) ∧
      (∀ c, op = extension.left c →
        (J.range.2 - J.range.1 ≠ K.range.2 - K.range.1 →
          J.range.1 ≤ K.p ∧ K.p ≤ J.range.2 ∧
          rle_string.char_at J.bwt K.p = J.remap.getD c 0 ∧ K.d = 0 ∧
          K.pR = J.inv_order.getD (rle_string.run_of_position J.bwt K.p) 0 ∧
          ∃ x, J.range.1 ≤ x ∧ x ≤ K.p ∧
            (∀ i, x ≤ i → i ≤ K.p → rle_string.char_at J.bwt i = J.remap.getD c 0) ∧
            (construct_sa (J.text T)).getD x 0 = K.j + 1) ∧
        (J.range.2 - J.range.1 = K.range.2 - K.range.1 →
          K.p = J.p ∧ K.pR = J.pR ∧ K.j = J.j ∧ K.d = J.d + 1)) ∧
      (∀ c, op = extension.right c →
        (J.rangeR.2 - J.rangeR.1 ≠ K.rangeR.2 - K.rangeR.1 →
          J.rangeR.1 ≤ K.pR ∧ K.pR ≤ J.rangeR.2 ∧
          rle_string.char_at J.bwtR K.pR = J.remap.getD c 0 ∧ K.dR = 0 ∧
          K.p = J.inv_orderR.getD (rle_string.run_of_position J.bwtR K.pR) 0 ∧
          ∃ x, J.rangeR.1 ≤ x ∧ x ≤ K.pR ∧
            (∀ i, x ≤ i → i ≤ K.pR → rle_string.char_at J.bwtR i = J.remap.getD c 0) ∧
            (construct_sa (J.text T.reverse)).getD x 0 = K.jR + 1) ∧
        (J.rangeR.2 - J.rangeR.1 = K.rangeR.2 - K.rangeR.1 →
          K.p = J.p ∧ K.pR = J.pR ∧ K.jR = J.jR ∧ K.dR = J.dR + 1)) := by
  obtain ⟨J, rn, e1, e2, e3⟩ := extend_all_append ops op I.reset_pattern K hrun
  obtain ⟨k1, _, k3, k4⟩ := reached_anchored T I K (ops ++ [op]) hT hI hrun
  obtain ⟨j1, j2, j3, _⟩ := reached_anchored T I J ops hT hI e1
  refine ⟨J, rn, e1, e2, e3, k4.1, anchored_row K T _ k1 k3 k4, fun c hc => ?_, fun c hc => ?_⟩
  · subst hc
    exact left_extension_row J K T (spell ops) c rn j1 j2 j3 e2 e3
  · subst hc
    exact right_extension_row J K T (spell ops) c rn j1 j2 j3 e2 e3

set_option maxRecDepth 1000000 in
set_option maxHeartbeats 4000000 in
/-- Witness of C23 (amended): "mississippi", `right i` then `left s`. -/
theorem anchor_row_witness :
    valid_text [109, 105, 115, 115, 105, 115, 115, 105, 112, 112, 105] ∧
    ∃ I K, br_index_naive.construct [109, 105, 115, 115, 105, 115, 115, 105, 112, 112, 105]
        = Except.ok I ∧
      I.reset_pattern.extend_all ([extension.right 105] ++ [extension.left 115]) = some K ∧
      ∃ J rn, I.reset_pattern.extend_all [extension.right 105] = some J ∧
        J.extend (extension.left 115) = some (rn, K) ∧ rn.1 ≤ rn.2 ∧ K.d ≤ K.j := by
  obtain ⟨I, K, hI, hK⟩ := run_of_isSome [109, 105, 115, 115, 105, 115, 115, 105, 112, 112, 105]
    ([extension.right 105] ++ [extension.left 115]) (by decide)
  obtain ⟨J, rn, h1, h2, h3, h4, _⟩ := anchor_row _ I K _ _ (by decide) hI hK
  exact ⟨by decide, I, K, hI, hK, J, rn, h1, h2, h3, h4⟩

/-! ## The predecessor bit vectors -/

theorem set_bits_length (ps : List Nat) (bv : List Bool) :
    (ps.foldl (fun bv p => bv.set p true) bv).length = bv.length := by
  induction ps generalizing bv with
  | nil => rfl
  | cons p ps ih => rw [List.foldl_cons, ih, List.length_set]

/-- The bit at `i` after setting the bits of `ps`. -/
theorem set_bits_getD (ps : List Nat) (bv : List Bool) (i : Nat) (hi : i < bv.length) :
    (ps.foldl (fun bv p => bv.set p true) bv).getD i false
      = (bv.getD i false || decide (i ∈ ps)) := by
  induction ps generalizing bv with
  | nil => simp
  | cons p ps ih =>
    rw [List.foldl_cons, ih _ (by rw [List.length_set]; exact hi)]
    by_cases hp : p = i
    · subst hp
      simp [List.getD_eq_getElem?_getD, List.getElem?_set_self hi]
    · have : (bv.set p true).getD i false = bv.getD i false := by
        simp only [List.getD_eq_getElem?_getD, List.getElem?_set_ne hp]
      rw [this]
      have hm : (i ∈ p :: ps) ↔ i ∈ ps := by
        rw [List.mem_cons]
        constructor
        · rintro (h | h)
          · exact absurd h.symm hp
          · exact h
        · exact Or.inr
      simp only [hm]

theorem build_bitvector_eq (n : Nat) (v : List (Nat × Nat)) :
    build_bitvector n v
      = (v.map Prod.fst).foldl (fun bv p => bv.set p true) (List.replicate n false) := by
  unfold build_bitvector
  rw [List.foldl_map]

theorem sd_rank_succ (b : List Bool) (i : Nat) :
    sparse_sd_vector.rank b (i + 1)
      = sparse_sd_vector.rank b i + (if i < b.length ∧ b.getD i false = true then 1 else 0) := by
  induction b generalizing i with
  | nil => simp [sparse_sd_vector.rank]
  | cons x xs ih =>
    cases i with
    | zero =>
      cases x <;> simp [sparse_sd_vector.rank]
    | succ i =>
      have h := ih i
      unfold sparse_sd_vector.rank at h ⊢
      rw [List.take_succ_cons, List.take_succ_cons, List.count_cons, List.count_cons, h]
      have e : (x :: xs).getD (i + 1) false = xs.getD i false := rfl
      have e2 : (i + 1 < (x :: xs).length) ↔ i < xs.length := by
        rw [List.length_cons]; omega
      simp only [e, e2]
      omega

/-- A set position is found again by `select` at its rank. -/
theorem sd_select_rank (b : List Bool) (i : Nat) (hi : i < b.length)
    (hb : b.getD i false = true) :
    sparse_sd_vector.select b (sparse_sd_vector.rank b i) = some i := by
  induction b generalizing i with
  | nil => exact absurd hi (Nat.not_lt_zero _)
  | cons x xs ih =>
    cases i with
    | zero =>
      have hx : x = true := hb
      subst hx
      rfl
    | succ i =>
      have h := ih i (by rw [List.length_cons] at hi; omega) hb
      have hr : sparse_sd_vector.rank (x :: xs) (i + 1)
          = (if x = true then 1 else 0) + sparse_sd_vector.rank xs i := by
        unfold sparse_sd_vector.rank
        rw [List.take_succ_cons, List.count_cons]
        cases x
        · simp
        · simp; omega
      rw [hr]
      cases x with
      | false =>
        simp only [Bool.false_eq_true, if_false, Nat.zero_add]
        unfold sparse_sd_vector.select
        rw [h]; rfl
      | true =>
        simp only [if_true]
        rw [Nat.add_comm]
        unfold sparse_sd_vector.select
        rw [h]; rfl

/-- The rank in the bit vector of a duplicate-free list of positions. -/
theorem set_bits_rank (ps : List Nat) (n : Nat) (hnd : ps.Nodup) (i : Nat) (hi : i ≤ n) :
    sparse_sd_vector.rank (ps.foldl (fun bv p => bv.set p true) (List.replicate n false)) i
      = ps.countP (fun p => decide (p < i)) := by
  induction i with
  | zero => simp [sparse_sd_vector.rank]
  | succ i ih =>
    rw [sd_rank_succ, ih (by omega), set_bits_length, List.length_replicate,
      set_bits_getD ps _ i (by rw [List.length_replicate]; omega)]
    have h0 : (List.replicate n false).getD i false = false := by
      have hlt : i < n := by omega
      simp [List.getD_eq_getElem?_getD, List.getElem?_replicate, hlt]
    rw [h0, Bool.false_or]
    have hsplit : ps.countP (fun p => decide (p < i + 1))
        = ps.countP (fun p => decide (p < i)) + ps.count i := by
      clear ih hnd
      induction ps with
      | nil => rfl
      | cons a ps ih2 =>
        rw [List.countP_cons, List.countP_cons, List.count_cons, ih2]
        by_cases h1 : a < i
        · have h2 : a < i + 1 := by omega
          have h3 : ¬ a = i := by omega
          simp [h1, h2, h3]
          omega
        · by_cases h3 : a = i
          · subst h3
            simp
            omega
          · have h2 : ¬ a < i + 1 := by omega
            simp [h1, h2, h3]
    rw [hsplit]
    by_cases hm : i ∈ ps
    · rw [List.count_eq_one_of_mem hnd hm, if_pos ⟨by omega, by simpa using hm⟩]
    · rw [List.count_eq_zero_of_not_mem hm, if_neg (by
        intro h
        exact hm (by simpa using h.2))]

/-- In a strictly increasing list, `k` entries are below the entry at `k`. -/
theorem countP_lt_sorted (ps : List Nat) (hs : ps.Pairwise (fun a b => a < b)) (k : Nat)
    (hk : k < ps.length) :
    ps.countP (fun p => decide (p < ps.getD k 0)) = k := by
  induction ps generalizing k with
  | nil => exact absurd hk (Nat.not_lt_zero _)
  | cons a ps ih =>
    rw [List.pairwise_cons] at hs
    cases k with
    | zero =>
      have e : (a :: ps).getD 0 0 = a := rfl
      rw [e, List.countP_eq_zero.mpr]
      intro x hx
      rcases List.mem_cons.mp hx with h | h
      · rw [h]; simp
      · have := hs.1 x h
        simp only [decide_eq_true_eq]
        omega
    | succ k =>
      have hk1 : k < ps.length := by rw [List.length_cons] at hk; omega
      have e : (a :: ps).getD (k + 1) 0 = ps.getD k 0 := rfl
      have hmem : ps.getD k 0 ∈ ps := by
        rw [List.getD_eq_getElem _ _ hk1]
        exact List.getElem_mem hk1
      have hlt := hs.1 _ hmem
      rw [e, List.countP_cons, ih hs.2 k hk1, if_pos (by simpa using hlt)]

/-! ## The sorted samples -/

theorem sort_samples_perm (v : List (Nat × Nat)) : (sort_samples v).Perm v :=
  List.perm_insertionSort _ _

theorem sort_samples_sorted (v : List (Nat × Nat)) :
    (sort_samples v).Pairwise (fun a b => pairLe a b = true) := by
  haveI : IsTotal (Nat × Nat) (fun a b => pairLe a b = true) :=
    ⟨fun a b => by
      unfold pairLe
      simp only [Bool.or_eq_true, Bool.and_eq_true, decide_eq_true_eq]
      omega⟩
  haveI : IsTrans (Nat × Nat) (fun a b => pairLe a b = true) :=
    ⟨fun a b c h1 h2 => by
      unfold pairLe at *
      simp only [Bool.or_eq_true, Bool.and_eq_true, decide_eq_true_eq] at *
      omega⟩
  exact List.sorted_insertionSort _ _

/-- Every pair of a numbered vector holds the value of its number. -/
theorem numbered_mem (v : List (Nat × Nat)) (vals : List Nat) (h : numbered v vals)
    (e : Nat × Nat) (he : e ∈ v) : vals.getD e.2 0 = e.1 ∧ e.2 < vals.length := by
  have hl := numbered_length v vals h
  obtain ⟨i, hi, hie⟩ := List.mem_iff_getElem.mp he
  have hi1 : i < (v.map Prod.fst).length := by rw [List.length_map]; exact hi
  have hi2 : i < (v.map Prod.snd).length := by rw [List.length_map]; exact hi
  have hi3 : i < vals.length := by omega
  have h1 : (v.map Prod.fst)[i] = e.1 := by rw [List.getElem_map, hie]
  have h2 : (v.map Prod.snd)[i] = e.2 := by rw [List.getElem_map, hie]
  have h3 : (v.map Prod.snd)[i] = i := by simp only [h.2, List.getElem_range]
  have h4 : (v.map Prod.fst)[i] = vals[i] := by simp only [h.1]
  have hei : e.2 = i := by rw [← h2, h3]
  rw [hei, List.getD_eq_getElem _ _ hi3, ← h4, h1]
  exact ⟨rfl, hi3⟩

/-- The tables built from a numbered sample vector with distinct values below
`n`: the bit vector has one set bit per sample, the run numbers of the sorted
vector are a permutation, and the `k`-th set bit is the value of the `k`-th
run number. -/
theorem predecessor_tables (n : Nat) (v : List (Nat × Nat)) (vals : List Nat)
    (hv : numbered v vals) (hnd : vals.Nodup) (hlt : ∀ a ∈ vals, a < n) :
    sparse_sd_vector.number_of_1 (build_bitvector n (sort_samples v)) = vals.length ∧
    ((List.range vals.length).map (fun i => ((sort_samples v).getD i (0, 0)).2)).Perm
      (List.range vals.length) ∧
    ∀ k, k < vals.length →
      sparse_sd_vector.select (build_bitvector n (sort_samples v)) k
        = some (vals.getD
            (((List.range vals.length).map
              (fun i => ((sort_samples v).getD i (0, 0)).2)).getD k 0) 0) := by
  have hperm := sort_samples_perm v
  have hl : (sort_samples v).length = vals.length := by
    rw [hperm.length_eq, numbered_length v vals hv]
  have hftr : (List.range vals.length).map (fun i => ((sort_samples v).getD i (0, 0)).2)
      = (sort_samples v).map Prod.snd := by
    apply List.ext_getElem
    · rw [List.length_map, List.length_map, List.length_range, hl]
    · intro i h1 h2
      rw [List.length_map] at h2
      rw [List.getElem_map, List.getElem_map, List.getElem_range,
        List.getD_eq_getElem _ _ h2]
  have hL : ((sort_samples v).map Prod.fst).Perm vals := by
    have := hperm.map Prod.fst
    rw [hv.1] at this
    exact this
  have hLnd : ((sort_samples v).map Prod.fst).Nodup := hL.nodup_iff.mpr hnd
  have hLlt : ∀ a ∈ (sort_samples v).map Prod.fst, a < n := fun a ha => hlt a (hL.mem_iff.mp ha)
  have hLs : ((sort_samples v).map Prod.fst).Pairwise (fun a b => a < b) := by
    have h1 : ((sort_samples v).map Prod.fst).Pairwise (fun a b => a ≤ b) := by
      rw [List.pairwise_map]
      refine (sort_samples_sorted v).imp ?_
      intro a b hab
      unfold pairLe at hab
      simp only [Bool.or_eq_true, Bool.and_eq_true, decide_eq_true_eq] at hab
      omega
    have h2 : ((sort_samples v).map Prod.fst).Pairwise (fun a b => a ≠ b) := hLnd
    exact (h1.and h2).imp (fun h => by omega)
  have hbl : (build_bitvector n (sort_samples v)).length = n := by
    rw [build_bitvector_eq, set_bits_length, List.length_replicate]
  refine ⟨?_, ?_, fun k hk => ?_⟩
  · have h1 := set_bits_rank ((sort_samples v).map Prod.fst) n hLnd n (le_refl _)
    rw [← build_bitvector_eq] at h1
    unfold sparse_sd_vector.rank at h1
    rw [List.take_of_length_le (by rw [hbl])] at h1
    unfold sparse_sd_vector.number_of_1
    rw [h1, List.countP_eq_length.mpr (fun a ha => by simpa using hLlt a ha), List.length_map, hl]
  · rw [hftr]
    have := hperm.map Prod.snd
    rw [hv.2] at this
    exact this
  · have hk1 : k < (sort_samples v).length := by omega
    have hk2 : k < ((sort_samples v).map Prod.fst).length := by rw [List.length_map]; exact hk1
    have hmem : (sort_samples v)[k] ∈ v := hperm.mem_iff.mp (List.getElem_mem hk1)
    obtain ⟨m1, _⟩ := numbered_mem v vals hv _ hmem
    have hp : ((sort_samples v).map Prod.fst).getD k 0 = ((sort_samples v)[k]).1 := by
      rw [List.getD_eq_getElem _ _ hk2, List.getElem_map]
    have hpm : ((sort_samples v)[k]).1 ∈ (sort_samples v).map Prod.fst :=
      List.mem_map.mpr ⟨_, List.getElem_mem hk1, rfl⟩
    have hpn := hLlt _ hpm
    have hrank := set_bits_rank ((sort_samples v).map Prod.fst) n hLnd ((sort_samples v)[k]).1
      (by omega)
    rw [← hp, countP_lt_sorted _ hLs k hk2, hp, ← build_bitvector_eq] at hrank
    have hbit : (build_bitvector n (sort_samples v)).getD ((sort_samples v)[k]).1 false
        = true := by
      rw [build_bitvector_eq, set_bits_getD _ _ _ (by rw [List.length_replicate]; exact hpn)]
      simp only [Bool.or_eq_true, decide_eq_true_eq]
      exact Or.inr hpm
    have hsel := sd_select_rank _ _ (by rw [hbl]; exact hpn) hbit
    rw [hrank] at hsel
    rw [hsel, hftr, List.getD_eq_getElem ((sort_samples v).map Prod.snd) 0
      (by rw [List.length_map]; exact hk1), List.getElem_map, m1]

/-- The samples of distinct rows are distinct text positions below `n`. -/
theorem samples_nodup (w : List Nat) (rows : List Nat) (hw : w ≠ []) (hnd : rows.Nodup)
    (hrows : ∀ s ∈ rows, s < w.length) :
    (rows.map (sample_at (construct_sa w))).Nodup ∧
    ∀ a ∈ rows.map (sample_at (construct_sa w)), a < w.length := by
  have hn : 0 < w.length := List.length_pos.mpr hw
  have hsl := construct_sa_length w
  constructor
  · refine List.Nodup.map_on (fun s hs t ht hst => ?_) hnd
    have hs1 := hrows s hs
    have ht1 := hrows t ht
    have a1 := construct_sa_lt w s hs1
    have a2 := construct_sa_lt w t ht1
    have e : (construct_sa w).getD s 0 = (construct_sa w).getD t 0 := by
      unfold sample_at at hst
      rw [hsl] at hst
      by_cases c1 : (construct_sa w).getD s 0 > 0
      · by_cases c2 : (construct_sa w).getD t 0 > 0
        · rw [if_pos c1, if_pos c2] at hst; omega
        · rw [if_pos c1, if_neg c2] at hst; omega
      · by_cases c2 : (construct_sa w).getD t 0 > 0
        · rw [if_neg c1, if_pos c2] at hst; omega
        · omega
    rw [List.getD_eq_getElem _ _ (by omega : s < (construct_sa w).length),
      List.getD_eq_getElem _ _ (by omega : t < (construct_sa w).length)] at e
    exact (construct_sa_nodup w).getElem_inj_iff.mp e
  · intro a ha
    obtain ⟨s, hs, rfl⟩ := List.mem_map.mp ha
    have a1 := construct_sa_lt w s (hrows s hs)
    unfold sample_at
    rw [hsl]
    split <;> omega

theorem run_starts_nodup (b : List Nat) :
    (run_starts b).Nodup ∧ ∀ s ∈ run_starts b, s < b.length := by
  unfold run_starts
  exact ⟨(List.nodup_range _).filter _, fun s hs => List.mem_range.mp (List.mem_filter.mp hs).1⟩

theorem run_ends_nodup (b : List Nat) :
    (run_ends b).Nodup ∧ ∀ s ∈ run_ends b, s < b.length := by
  unfold run_ends
  exact ⟨(List.nodup_range _).filter _, fun s hs => List.mem_range.mp (List.mem_filter.mp hs).1⟩

/-- The predecessor tables of one side of a constructed index. -/
theorem sufsort_predecessor (w : List Nat) (h2 : 2 ≤ w.length) :
    (∀ k, k < rle_string.number_of_runs (bwt_of w) →
      sparse_sd_vector.select
          (build_bitvector w.length (sort_samples (sufsort w (construct_sa w)).samples_first)) k
        = some (((run_starts (bwt_of w)).map (sample_at (construct_sa w))).getD
            (((List.range (rle_string.number_of_runs (bwt_of w))).map (fun i =>
              ((sort_samples (sufsort w (construct_sa w)).samples_first).getD i (0, 0)).2)).getD
                k 0) 0)) ∧
    (∀ k, k < rle_string.number_of_runs (bwt_of w) →
      sparse_sd_vector.select
          (build_bitvector w.length (sort_samples (sufsort w (construct_sa w)).samples_last)) k
        = some (((run_ends (bwt_of w)).map (sample_at (construct_sa w))).getD
            (((List.range (rle_string.number_of_runs (bwt_of w))).map (fun i =>
              ((sort_samples (sufsort w (construct_sa w)).samples_last).getD i (0, 0)).2)).getD
                k 0) 0)) ∧
    sparse_sd_vector.number_of_1
        (build_bitvector w.length (sort_samples (sufsort w (construct_sa w)).samples_first))
      = rle_string.number_of_runs (bwt_of w) ∧
    sparse_sd_vector.number_of_1
        (build_bitvector w.length (sort_samples (sufsort w (construct_sa w)).samples_last))
      = rle_string.number_of_runs (bwt_of w) ∧
    ((List.range (rle_string.number_of_runs (bwt_of w))).map (fun i =>
      ((sort_samples (sufsort w (construct_sa w)).samples_first).getD i (0, 0)).2)).Perm
        (List.range (rle_string.number_of_runs (bwt_of w))) ∧
    ((List.range (rle_string.number_of_runs (bwt_of w))).map (fun i =>
      ((sort_samples (sufsort w (construct_sa w)).samples_last).getD i (0, 0)).2)).Perm
        (List.range (rle_string.number_of_runs (bwt_of w))) := by
  obtain ⟨_, s2, s3⟩ := sufsort_numbered w (construct_sa w)
    (by rw [construct_sa_length]; exact h2)
  have hb : (construct_sa w).map (bwt_char w) = bwt_of w := rfl
  rw [hb] at s2 s3
  have hw : w ≠ [] := by
    intro h; rw [h] at h2; simp at h2
  obtain ⟨n1, n2⟩ := run_starts_nodup (bwt_of w)
  obtain ⟨n3, n4⟩ := run_ends_nodup (bwt_of w)
  rw [bwt_of_length] at n2 n4
  obtain ⟨d1, d2⟩ := samples_nodup w (run_starts (bwt_of w)) hw n1 n2
  obtain ⟨d3, d4⟩ := samples_nodup w (run_ends (bwt_of w)) hw n3 n4
  obtain ⟨f1, f2, f3⟩ := predecessor_tables w.length _ _ s2 d1 d2
  obtain ⟨l1, l2, l3⟩ := predecessor_tables w.length _ _ s3 d3 d4
  rw [List.length_map, run_starts_length] at f1 f2 f3
  rw [List.length_map, run_ends_length] at l1 l2 l3
  exact ⟨f3, l3, f1, l1, f2, l2⟩

/-- C25: after a successful construction, with `r` the number of runs of the
BWT, for every `k < r` the `(k+1)`-th set bit of `first` is at
`samples_first[first_to_run[k]]` and the `(k+1)`-th set bit of `last` is at
`samples_last[last_to_run[k]]`; both bit vectors have exactly `r` set bits, and
`first_to_run`, `last_to_run` are permutations of `0, …, r - 1`. -/
theorem predecessor_tables_consistent (T : List Nat) (I : br_index_naive)
    (hI : br_index_naive.construct T = Except.ok I) :
    I.r = rle_string.number_of_runs I.bwt ∧
    (∀ k, k < I.r → sparse_sd_vector.select I.first k
      = some (I.samples_first.getD (I.first_to_run.getD k 0) 0)) ∧
    (∀ k, k < I.r → sparse_sd_vector.select I.last k
      = some (I.samples_last.getD (I.last_to_run.getD k 0) 0)) ∧
    sparse_sd_vector.number_of_1 I.first = I.r ∧
    sparse_sd_vector.number_of_1 I.last = I.r ∧
    I.first_to_run.Perm (List.range I.r) ∧ I.last_to_run.Perm (List.range I.r) := by
  obtain ⟨hT, _, _, _, _, _, hbwt, _⟩ := construct_ok T I hI
  obtain ⟨c1, _, c3, c4, _, _, c7, c8, c9, c10, _⟩ := construct_sufsort T I hI
  have hlen : 2 ≤ (I.text T).length := by
    rw [text_length]
    have := List.length_pos.mpr hT
    omega
  obtain ⟨t1, t2⟩ := sufsort_tables (I.text T) hlen
  rw [sufsort_bwt_s] at c1 t1 t2
  have hsz : rle_string.size I.bwt = (I.text T).length := by
    unfold rle_string.size
    rw [hbwt, bwt_of_length]
  obtain ⟨p1, p2, p3, p4, p5, p6⟩ := sufsort_predecessor (I.text T) hlen
  rw [← c1] at t1 t2 p1 p2 p3 p4 p5 p6
  rw [← c3] at t1
  rw [← c4] at t2
  rw [← hsz, ← c7, ← t1, ← c9] at p1
  rw [← hsz, ← c8, ← t2, ← c10] at p2
  rw [← hsz, ← c7] at p3
  rw [← hsz, ← c8] at p4
  rw [← c9] at p5
  rw [← c10] at p6
  exact ⟨by rw [c1, hbwt], p1, p2, p3, p4, p5, p6⟩

set_option maxRecDepth 1000000 in
set_option maxHeartbeats 4000000 in
/-- Witness of C25: the index of "banana". -/
theorem predecessor_tables_consistent_witness :
    ∃ I, br_index_naive.construct [98, 97, 110, 97, 110, 97] = Except.ok I ∧
      sparse_sd_vector.number_of_1 I.first = I.r ∧ I.first_to_run.Perm (List.range I.r) := by
  obtain ⟨I, _, hI, _⟩ := run_of_isSome [98, 97, 110, 97, 110, 97] [] (by decide)
  have h := predecessor_tables_consistent _ I hI
  exact ⟨I, hI, h.2.2.2.1, h.2.2.2.2.2.1⟩

/-! ## `locate` at its limits -/

/-- C32 in every state: after `reset_pattern` the assertion `j ≥ d` of
`locate()` holds (`j = n - 1`, `d = 0`, `len = 0`), the test `plcp[pos] ≥ len`
of the first loop is true whatever `plcp` holds, and the first call is
`Phi(n - 1)`, which violates the assertion `i != bwt.size() - 1` of `Phi`:
`locate()` returns no position. -/
theorem locate_empty_pattern (I : br_index_naive) :
    I.reset_pattern.len = 0 ∧ I.reset_pattern.j = I.bwt_size - 1 ∧ I.reset_pattern.d = 0 ∧
    I.reset_pattern.j ≥ I.reset_pattern.d ∧
    I.reset_pattern.count = (I.bwt_size - 1) + 1 ∧
    I.reset_pattern.Phi (I.bwt_size - 1) = Except.error failure.assertion ∧
    ∀ fuel, I.reset_pattern.locate (fuel + 1) = Except.error failure.assertion := by
  have hPhi : I.reset_pattern.Phi (I.bwt_size - 1) = Except.error failure.assertion := by
    unfold br_index_naive.Phi
    exact if_pos (rfl : I.bwt_size - 1 = rle_string.size I.reset_pattern.bwt - 1)
  refine ⟨rfl, rfl, rfl, Nat.zero_le _, rfl, hPhi, fun fuel => ?_⟩
  unfold br_index_naive.locate
  rw [if_neg (by
    intro h
    exact h (Nat.zero_le _))]
  show (match I.reset_pattern.locate_front (fuel + 1) (I.bwt_size - 1 - 0)
      [I.bwt_size - 1 - 0] with
    | Except.error e => Except.error e
    | Except.ok deq => I.reset_pattern.locate_back (fuel + 1) (I.bwt_size - 1 - 0) deq)
    = Except.error failure.assertion
  rw [Nat.sub_zero]
  unfold br_index_naive.locate_front
  rw [if_pos (show I.reset_pattern.plcp.getD (I.bwt_size - 1) 0 ≥ I.reset_pattern.len
    from Nat.zero_le _), hPhi]

set_option maxRecDepth 1000000 in
set_option maxHeartbeats 4000000 in
/-- An instance of the empty-pattern `locate()`: on the index of "ab" (`n = 3`),
right after construction, `count() = 3` and `locate()` stops on the assertion
of `Phi`. -/
theorem locate_empty_pattern_ab :
    (br_index_naive.construct [97, 98]).toOption.map
      (fun I => (I.reset_pattern.count, I.reset_pattern.locate 10))
      = some (3, Except.error failure.assertion) := by
  decide

/-! ## The check of `bri-locate` -/

/-- C33 at a concrete run of `bri-locate -c`: the index of "ACGT" answers the
exact search (`-m 0`), the text given to `-c` is "TTGT", and the reads are "AC"
and its reverse complement "GT".  The occurrence 0 reported for "AC" has two
mismatches with the checked text, more than the budget 0, and the check, run on
it, would print the error; but `locate_all` prints only the number of
occurrences of "GT" and no error: when the check is reached, `p` and `occs`
hold the reverse complement only.  With the two reads exchanged the same
occurrence is reported as wrong.  In general the lines printed by an iteration
do not depend on the first read. -/
theorem check_skips_first_read :
    occurrences [65, 67, 71, 84] [65, 67] = [0] ∧
    occurrences [65, 67, 71, 84] [71, 84] = [2] ∧
    count_mismatches [84, 84, 71, 84] [65, 67] 0 = 2 ∧
    check_occurrences [84, 84, 71, 84] [65, 67] 0 [0]
      = [locate_message.number_of_occs 0 1,
          locate_message.wrong_occurrence 0 [65, 67] [84, 84]] ∧
    locate_all_loop (fun p _ => occurrences [65, 67, 71, 84] p) true [84, 84, 71, 84] 0
        [[65, 67], [71, 84]]
      = some (2, [locate_message.number_of_occs 0 1]) ∧
    locate_all_loop (fun p _ => occurrences [65, 67, 71, 84] p) true [84, 84, 71, 84] 0
        [[71, 84], [65, 67]]
      = some (2, [locate_message.number_of_occs 0 1,
          locate_message.wrong_occurrence 0 [65, 67] [84, 84]]) ∧
    ∀ (search : List Nat → Int → List Nat) (text : List Nat) (allowed : Int)
      (read0 read0' read1 : List Nat),
      (locate_pair search true text allowed read0 read1).2
        = (locate_pair search true text allowed read0' read1).2 := by
  refine ⟨by decide, by decide, by decide, by decide, by decide, by decide, ?_⟩
  intro search text allowed read0 read0' read1
  rfl

/-! ## Bounds of the symbols -/

/-- The codes of the remap of any constructed index are at most 254. -/
theorem construct_remap_le (T : List Nat) (I : br_index_naive) (hb : ∀ b ∈ T, b < 256)
    (h : br_index_naive.construct T = Except.ok I) : ∀ c, I.remap.getD c 0 ≤ 254 := by
  obtain ⟨freqs, sigma, hscan, hremap, _, _⟩ := construct_remap T I h
  have hd : T.dedup.length ≤ 253 := by
    by_contra hlt
    have := scan_alphabet_none T hb (List.replicate 256 0) (List.length_replicate _ _) 1
      (by omega) (by rw [fresh_bytes_zero]; omega)
    rw [hscan] at this
    exact absurd this (by simp)
  obtain ⟨f, e1, _, e3⟩ := scan_alphabet_some T hb (List.replicate 256 0)
    (List.length_replicate _ _) 1 (by rw [fresh_bytes_zero]; omega)
  rw [hscan] at e1
  injection e1 with e1
  injection e1 with e1 _
  have hf : ∀ c, freqs.getD c 0 = T.count c := by
    intro c
    rw [e1, e3, getD_replicate_zero, Nat.zero_add]
  intro c
  rw [hremap, build_remap_getD]
  by_cases hc : 2 ≤ c ∧ c < 256 ∧ freqs.getD c 0 ≠ 0
  · rw [if_pos hc]
    have hs := bytes_below_succ freqs c hc.1
    rw [if_pos hc.2.2] at hs
    have hle := bytes_below_le_dedup T freqs hf (c + 1)
    rw [Nat.mod_eq_of_lt (by omega)]
    omega
  · rw [if_neg hc]
    omega

/-- C35: whenever the constructor returns an index for a text of bytes, every
code of `remap` is at most 254 and no symbol of `bwt` or `bwtR` exceeds 254 (255
never occurs); `F` has 256 entries, so for every byte `c` the reads
`F[remap[c]]` and `F[remap[c] + 1]` of `LF`, `LFR` and `get_char_range`, and
the reads `F[a]`, `F[a + 1]` for `a < remap[c]` of the loops of the extensions,
are inside `F`, and the guard of the range step never takes its `c == 255`
case on a remapped symbol. -/
theorem F_accesses_in_bounds (T : List Nat) (I : br_index_naive) (hb : ∀ b ∈ T, b < 256)
    (h : br_index_naive.construct T = Except.ok I) :
    I.F.length = 256 ∧
    (∀ c, I.remap.getD c 0 ≤ 254) ∧
    (∀ x ∈ I.bwt, x ≤ 254) ∧ (∀ x ∈ I.bwtR, x ≤ 254) ∧
    (∀ c, I.remap.getD c 0 < I.F.length ∧ I.remap.getD c 0 + 1 < I.F.length ∧
      I.remap.getD c 0 + 1 ≤ 255 ∧
      (∀ a, a < I.remap.getD c 0 → a < I.F.length ∧ a + 1 < I.F.length) ∧
      I.no_symbol (I.remap.getD c 0)
        = decide (I.F.getD (I.remap.getD c 0) 0 ≥ I.F.getD (I.remap.getD c 0 + 1) 0)) := by
  obtain ⟨_, _, _, _, _, _, hbwt, hbwtR, _⟩ := construct_ok T I h
  obtain ⟨hF, _⟩ := construct_F T I h
  have hr := construct_remap_le T I hb h
  have hsym : ∀ U : List Nat, ∀ x ∈ bwt_of (I.text U), x ≤ 254 := by
    intro U x hx
    rcases mem_bwt_of _ _ hx with e | e
    · rw [e]; decide
    · unfold br_index_naive.text remap_text at e
      rw [List.mem_append, List.mem_map] at e
      rcases e with ⟨b, _, e⟩ | e
      · rw [← e]; exact hr b
      · rw [List.mem_singleton.mp e]; omega
  refine ⟨hF, hr, fun x hx => hsym T x (by rw [← hbwt]; exact hx),
    fun x hx => hsym T.reverse x (by rw [← hbwtR]; exact hx), fun c => ?_⟩
  have hc := hr c
  refine ⟨by omega, by omega, by omega, fun a ha => ⟨by omega, by omega⟩, ?_⟩
  unfold br_index_naive.no_symbol
  have h255 : ¬ I.remap.getD c 0 = 255 := by omega
  simp only [h255, decide_False, Bool.false_and, Bool.false_or]

set_option maxRecDepth 1000000 in
set_option maxHeartbeats 4000000 in
/-- Witness of C35: the index of "banana". -/
theorem F_accesses_in_bounds_witness :
    (∀ b ∈ [98, 97, 110, 97, 110, 97], b < 256) ∧
    ∃ I, br_index_naive.construct [98, 97, 110, 97, 110, 97] = Except.ok I ∧
      I.F.length = 256 ∧ ∀ c, I.remap.getD c 0 + 1 < I.F.length := by
  obtain ⟨I, _, hI, _⟩ := run_of_isSome [98, 97, 110, 97, 110, 97] [] (by decide)
  have h := F_accesses_in_bounds _ I (by decide) hI
  exact ⟨by decide, I, hI, h.1, fun c => (h.2.2.2.2 c).2.1⟩

/-! ## Mirroring the anchor -/

/-- The sample that a refreshing `left_extension` reads is at most `n - 2`. -/
theorem left_extension_mirror (I J : br_index_naive) (T P : List Nat) (c : Nat) (rn : range_t)
    (hI : I.indexes T) (hS : I.sampled T) (hP : I.tracks T P)
    (h : I.left_extension c = some (rn, J)) (hrn : rn.1 ≤ rn.2)
    (hw : I.range.2 - I.range.1 ≠ J.range.2 - J.range.1) :
    J.j = (if rle_string.char_at I.bwt I.range.2 = I.remap.getD c 0 then
        I.samples_first.getD (rle_string.run_of_position I.bwt J.p) 0
      else I.samples_last.getD (rle_string.run_of_position I.bwt J.p) 0) ∧
    J.j + 2 ≤ rle_string.size I.bwt ∧ J.jR = rle_string.size I.bwt - 2 - J.j := by
  obtain ⟨_, q2, _, _, _, x, _, x2, _, x4⟩ :=
    (left_extension_row I J T P c rn hI hS hP h hrn).1 hw
  have hbw : I.bwt = bwt_of (I.text T) := hI.2.2.2.1
  have hn : rle_string.size I.bwt = (I.text T).length := by
    unfold rle_string.size
    rw [hbw, bwt_of_length]
  have hhi : I.range.2 < (I.text T).length := by
    rw [hP.2.1]
    simp only [pattern_range]
    have := rows_below_le_length true (I.text T) (I.pattern P)
    have := hP.2.2.2.1
    omega
  have hsa := construct_sa_lt (I.text T) x (by omega)
  obtain ⟨_, e2⟩ := left_extension_success I c rn J h hrn
  obtain ⟨J1, p, e, _, _, _, _, hJr, _, _, _, hre, _⟩ := left_extension_shape I c e2
  rw [e] at h
  simp only [Option.some.injEq, Prod.mk.injEq] at h
  obtain ⟨_, h2⟩ := h
  subst h2
  rw [hJr] at hw
  obtain ⟨hp, hj, _, _, hjR, _⟩ := hre hw
  rw [hp]
  exact ⟨hj, by rw [hn]; omega, hjR⟩

/-- The sample that a refreshing `right_extension` reads is at most `n - 2`. -/
theorem right_extension_mirror (I J : br_index_naive) (T P : List Nat) (c : Nat)
    (rn : range_t) (hI : I.indexes T) (hS : I.sampled T) (hP : I.tracks T P)
    (h : I.right_extension c = some (rn, J)) (hrn : rn.1 ≤ rn.2)
    (hw : I.rangeR.2 - I.rangeR.1 ≠ J.rangeR.2 - J.rangeR.1) :
    J.jR = (if rle_string.char_at I.bwtR I.rangeR.2 = I.remap.getD c 0 then
        I.samples_firstR.getD (rle_string.run_of_position I.bwtR J.pR) 0
      else I.samples_lastR.getD (rle_string.run_of_position I.bwtR J.pR) 0) ∧
    J.jR + 2 ≤ rle_string.size I.bwt ∧ J.j = rle_string.size I.bwt - 2 - J.jR := by
  obtain ⟨_, q2, _, _, _, x, _, x2, _, x4⟩ :=
    (right_extension_row I J T P c rn hI hS hP h hrn).1 hw
  have hn : rle_string.size I.bwt = (I.text T.reverse).length := by
    unfold rle_string.size
    rw [hI.2.2.2.1, bwt_of_length, text_length, text_length, List.length_reverse]
  have hP0 := pattern_no_zero I T P hI hP.1
  have hhi : I.rangeR.2 < (I.text T.reverse).length := by
    rw [hP.2.2.1]
    simp only [pattern_range]
    have := rows_below_le_length true (I.text T.reverse) (I.pattern P).reverse
    have w1 := rows_below_reverse_width (I.pattern T) (I.pattern P) hP0
    have hne := hP.2.2.2.1
    rw [text_eq] at hne
    rw [text_reverse] at this ⊢
    omega
  have hsa := construct_sa_lt (I.text T.reverse) x (by omega)
  have e2 := right_extension_success I c rn J h hrn
  obtain ⟨J1, p, e, _, _, _, _, hJr, _, _, _, hre, _⟩ := right_extension_shape I c e2
  rw [e] at h
  simp only [Option.some.injEq, Prod.mk.injEq] at h
  obtain ⟨_, h2⟩ := h
  subst h2
  rw [hJr] at hw
  obtain ⟨hp, hj, _, _, hjR, _⟩ := hre hw
  rw [hp]
  exact ⟨hj, by rw [hn]; omega, hjR⟩

/-- C36: let `K` be reached from `reset_pattern` by the successful extensions
`ops` followed by the successful extension `op`, over the index of a valid text
(`n` rows), and let `J` be the state before `op`.  If `op = left_extension(c)`
takes the refresh branch (the width of the forward range changes), the sample
`j` that it reads from `samples_first` or `samples_last` satisfies `j ≤ n - 2`,
so `jR = n - 2 - j` is computed without wrap-around: `jR + j + 2 = n` and
`jR ≤ n - 2`.  Symmetrically for `right_extension` with `jR` read from
`samples_firstR` or `samples_lastR` and `j = n - 2 - jR`. -/
theorem mirror_no_underflow (T : List Nat) (I K : br_index_naive) (ops : List extension)
    (op : extension) (hT : valid_text T) (hI : br_index_naive.construct T = Except.ok I)
    (hrun : I.reset_pattern.extend_all (ops ++ [op]) = some K) :
    ∃ J rn, I.reset_pattern.extend_all ops = some J ∧ J.extend op = some (rn, K) ∧
      rn.1 ≤ rn.2 ∧ rle_string.size J.bwt = T.length + 1 ∧
      (∀ c, op = extension.left c → J.range.2 - J.range.1 ≠ K.range.2 - K.range.1 →
        K.j = (if rle_string.char_at J.bwt J.range.2 = J.remap.getD c 0 then
            J.samples_first.getD (rle_string.run_of_position J.bwt K.p) 0
          else J.samples_last.getD (rle_string.run_of_position J.bwt K.p) 0) ∧
        K.j + 2 ≤ rle_string.size J.bwt ∧ K.jR = rle_string.size J.bwt - 2 - K.j ∧
        K.jR + K.j + 2 = rle_string.size J.bwt ∧ K.jR + 2 ≤ rle_string.size J.bwt) ∧
      (∀ c, op = extension.right c → J.rangeR.2 - J.rangeR.1 ≠ K.rangeR.2 - K.rangeR.1 →
        K.jR = (if rle_string.char_at J.bwtR J.rangeR.2 = J.remap.getD c 0 then
            J.samples_firstR.getD (rle_string.run_of_position J.bwtR K.pR) 0
          else J.samples_lastR.getD (rle_string.run_of_position J.bwtR K.pR) 0) ∧
        K.jR + 2 ≤ rle_string.size J.bwt ∧ K.j = rle_string.size J.bwt - 2 - K.jR ∧
        K.j + K.jR + 2 = rle_string.size J.bwt ∧ K.j + 2 ≤ rle_string.size J.bwt) := by
  obtain ⟨J, rn, e1, e2, e3⟩ := extend_all_append ops op I.reset_pattern K hrun
  obtain ⟨j1, j2, j3, _⟩ := reached_anchored T I J ops hT hI e1
  have hn : rle_string.size J.bwt = T.length + 1 := by
    unfold rle_string.size
    rw [j1.2.2.2.1, bwt_of_length, text_length]
  refine ⟨J, rn, e1, e2, e3, hn, fun c hc hw => ?_, fun c hc hw => ?_⟩
  · subst hc
    obtain ⟨a1, a2, a3⟩ := left_extension_mirror J K T (spell ops) c rn j1 j2 j3 e2 e3 hw
    exact ⟨a1, a2, a3, by omega, by omega⟩
  · subst hc
    obtain ⟨a1, a2, a3⟩ := right_extension_mirror J K T (spell ops) c rn j1 j2 j3 e2 e3 hw
    exact ⟨a1, a2, a3, by omega, by omega⟩

set_option maxRecDepth 1000000 in
set_option maxHeartbeats 4000000 in
/-- Witness of C36: "mississippi", `left s` then `right i`. -/
theorem mirror_no_underflow_witness :
    valid_text [109, 105, 115, 115, 105, 115, 115, 105, 112, 112, 105] ∧
    ∃ I K, br_index_naive.construct [109, 105, 115, 115, 105, 115, 115, 105, 112, 112, 105]
        = Except.ok I ∧
      I.reset_pattern.extend_all ([extension.left 115] ++ [extension.right 105]) = some K ∧
      ∃ J rn, I.reset_pattern.extend_all [extension.left 115] = some J ∧
        J.extend (extension.right 105) = some (rn, K) ∧ rn.1 ≤ rn.2 ∧
        rle_string.size J.bwt = 12 := by
  obtain ⟨I, K, hI, hK⟩ := run_of_isSome [109, 105, 115, 115, 105, 115, 115, 105, 112, 112, 105]
    ([extension.left 115] ++ [extension.right 105]) (by decide)
  obtain ⟨J, rn, h1, h2, h3, h4, _⟩ := mirror_no_underflow _ I K _ _ (by decide) hI hK
  exact ⟨by decide, I, K, hI, hK, J, rn, h1, h2, h3, h4⟩

/-! ## The order of the rows -/

theorem below_false_irrefl (s : List Nat) : below false s s = false := by
  induction s with
  | nil => rfl
  | cons a s ih => simp [below, ih]

theorem below_false_of_lexLe (s t : List Nat) (h : lexLe s t = true) (hne : s ≠ t) :
    below false s t = true := by
  induction s generalizing t with
  | nil =>
    cases t with
    | nil => exact absurd rfl hne
    | cons b t => rfl
  | cons a s ih =>
    cases t with
    | nil => simp [lexLe] at h
    | cons b t =>
      simp only [lexLe, below, Bool.or_eq_true, Bool.and_eq_true, decide_eq_true_eq] at h ⊢
      rcases h with h | ⟨h, h2⟩
      · left; exact h
      · right
        refine ⟨h, ih t h2 ?_⟩
        intro e
        exact hne (by rw [h, e])

theorem drop_ne_drop (w : List Nat) (i j : Nat) (hi : i < w.length) (hj : j < w.length)
    (hij : i ≠ j) : w.drop i ≠ w.drop j := by
  intro h
  have := congrArg List.length h
  rw [List.length_drop, List.length_drop] at this
  omega

/-- The suffixes of the rows are strictly increasing. -/
theorem suffix_lt (w : List Nat) (x y : Nat) (hxy : x < y) (hy : y < w.length) :
    below false (w.drop ((construct_sa w).getD x 0)) (w.drop ((construct_sa w).getD y 0))
      = true := by
  have hl := construct_sa_length w
  have hx1 : x < (construct_sa w).length := by omega
  have hy1 : y < (construct_sa w).length := by omega
  have hs := List.pairwise_iff_getElem.mp (construct_sa_sorted w) x y hx1 hy1 hxy
  rw [List.getD_eq_getElem _ _ hx1, List.getD_eq_getElem _ _ hy1]
  apply below_false_of_lexLe _ _ hs
  have a1 := construct_sa_lt w x (by omega)
  have a2 := construct_sa_lt w y (by omega)
  rw [List.getD_eq_getElem _ _ hx1] at a1
  rw [List.getD_eq_getElem _ _ hy1] at a2
  apply drop_ne_drop w _ _ a1 a2
  intro e
  have := (construct_sa_nodup w).getElem_inj_iff.mp e
  omega

/-- The number of suffixes below the suffix of row `x` is `x`. -/
theorem row_of_suffix (w : List Nat) (x : Nat) (hx : x < w.length) :
    rows_below false w (w.drop ((construct_sa w).getD x 0)) = x := by
  have h1 := row_lt_rows_below false w (w.drop ((construct_sa w).getD x 0))
  have hle := rows_below_le_length false w (w.drop ((construct_sa w).getD x 0))
  have hx0 : ¬ x < rows_below false w (w.drop ((construct_sa w).getD x 0)) := by
    intro h
    have := (h1 x hx).mp h
    rw [below_false_irrefl] at this
    exact Bool.false_ne_true this
  by_contra hne
  have hlt : rows_below false w (w.drop ((construct_sa w).getD x 0)) < x := by omega
  have := (h1 _ (by omega)).mpr (suffix_lt w _ x hlt hx)
  omega

/-- The row of the suffix that starts at `p`. -/
theorem row_of_position (w : List Nat) (p : Nat) (hp : p < w.length) :
    rows_below false w (w.drop p) < w.length ∧
    (construct_sa w).getD (rows_below false w (w.drop p)) 0 = p := by
  obtain ⟨z, hz, e⟩ := construct_sa_surj w p hp
  have := row_of_suffix w z hz
  rw [e] at this
  rw [this]
  exact ⟨hz, e⟩

/-- The suffix of row 0 is the zero symbol that ends the text. -/
theorem sa_zero (t : List Nat) :
    (construct_sa (t ++ [0])).getD 0 0 = t.length := by
  have hp : t.length < (t ++ [0]).length := by
    rw [List.length_append, List.length_singleton]; omega
  obtain ⟨_, h2⟩ := row_of_position (t ++ [0]) t.length hp
  have hd : (t ++ [0]).drop t.length = [0] := by
    rw [List.drop_left]
  rw [hd] at h2
  have h0 : rows_below false (t ++ [0]) [0] = 0 := by
    unfold rows_below
    by_contra hne
    have hpos : 0 < tailsum (fun s => below false s [0]) (t ++ [0]) := by omega
    obtain ⟨s, hs, hsne, hb⟩ := (tailsum_pos_iff _ _).mp hpos
    cases s with
    | nil => exact hsne rfl
    | cons a s =>
      simp only [below, Bool.or_eq_true, Bool.and_eq_true, decide_eq_true_eq] at hb
      rcases hb with hb | ⟨_, hb⟩
      · omega
      · cases s with
        | nil => simp [below] at hb
        | cons a2 s2 => simp [below] at hb
  rw [h0] at h2
  exact h2

/-- The BWT symbol of a row: the terminator for the suffix that is the whole
text, a symbol of the text otherwise. -/
theorem bwt_symbol (t : List Nat) (ht : ∀ a ∈ t, 2 ≤ a) (x : Nat)
    (hx : x < (t ++ [0]).length) :
    ((construct_sa (t ++ [0])).getD x 0 = 0 ∧ (bwt_of (t ++ [0])).getD x 0 = TERMINATOR) ∨
    (0 < (construct_sa (t ++ [0])).getD x 0 ∧ 2 ≤ (bwt_of (t ++ [0])).getD x 0 ∧
      (bwt_of (t ++ [0])).getD x 0
        = (t ++ [0]).getD ((construct_sa (t ++ [0])).getD x 0 - 1) 0) := by
  have hlt := construct_sa_lt (t ++ [0]) x hx
  rw [bwt_of_getD _ x hx]
  unfold bwt_char
  by_cases h0 : (construct_sa (t ++ [0])).getD x 0 > 0
  · rw [if_pos h0]
    right
    refine ⟨h0, ?_, rfl⟩
    rw [List.length_append, List.length_singleton] at hlt
    have hl : (construct_sa (t ++ [0])).getD x 0 - 1 < t.length := by omega
    rw [List.getD_eq_getElem _ _ (by rw [List.length_append]; omega),
      List.getElem_append_left hl]
    exact ht _ (List.getElem_mem hl)
  · rw [if_neg h0]
    left
    exact ⟨by omega, rfl⟩

/-- One step back in the text: the row of the suffix that starts one position
before the suffix of row `x` is given by the symbol count and the rank. -/
theorem sa_step (t : List Nat) (ht : ∀ a ∈ t, 2 ≤ a) (x : Nat) (hx : x < (t ++ [0]).length)
    (hpos : 0 < (construct_sa (t ++ [0])).getD x 0) :
    (bwt_of (t ++ [0])).countP (fun a => decide (a < (bwt_of (t ++ [0])).getD x 0))
        + rle_string.rank (bwt_of (t ++ [0])) x ((bwt_of (t ++ [0])).getD x 0)
      < (t ++ [0]).length ∧
    (construct_sa (t ++ [0])).getD
        ((bwt_of (t ++ [0])).countP (fun a => decide (a < (bwt_of (t ++ [0])).getD x 0))
          + rle_string.rank (bwt_of (t ++ [0])) x ((bwt_of (t ++ [0])).getD x 0)) 0
      = (construct_sa (t ++ [0])).getD x 0 - 1 := by
  have hlt := construct_sa_lt (t ++ [0]) x hx
  rcases bwt_symbol t ht x hx with h | ⟨_, h2, h3⟩
  · omega
  · have hl : (construct_sa (t ++ [0])).getD x 0 - 1 < (t ++ [0]).length := by omega
    have hd : (t ++ [0]).drop ((construct_sa (t ++ [0])).getD x 0 - 1)
        = (bwt_of (t ++ [0])).getD x 0 :: (t ++ [0]).drop ((construct_sa (t ++ [0])).getD x 0) := by
      rw [List.drop_eq_getElem_cons hl, h3, List.getD_eq_getElem _ _ hl]
      congr 2
      omega
    have hc := rows_below_cons false (t ++ [0]) ((t ++ [0]).drop ((construct_sa (t ++ [0])).getD x 0))
      ((bwt_of (t ++ [0])).getD x 0) (getLast_append_zero t) h2
    rw [row_of_suffix _ x hx, ← hd] at hc
    have := row_of_position (t ++ [0]) _ hl
    rw [hc] at this
    exact this

/-- Two neighbouring rows with the same BWT symbol: the suffixes one position
before are neighbours as well. -/
theorem sa_step_adjacent (t : List Nat) (ht : ∀ a ∈ t, 2 ≤ a) (x : Nat)
    (hx : x + 1 < (t ++ [0]).length)
    (hb : (bwt_of (t ++ [0])).getD x 0 = (bwt_of (t ++ [0])).getD (x + 1) 0) :
    0 < (construct_sa (t ++ [0])).getD x 0 ∧ 0 < (construct_sa (t ++ [0])).getD (x + 1) 0 ∧
    ∃ y, y + 1 < (t ++ [0]).length ∧
      (construct_sa (t ++ [0])).getD y 0 = (construct_sa (t ++ [0])).getD x 0 - 1 ∧
      (construct_sa (t ++ [0])).getD (y + 1) 0 = (construct_sa (t ++ [0])).getD (x + 1) 0 - 1 := by
  have hl := construct_sa_length (t ++ [0])
  have hne : (construct_sa (t ++ [0])).getD x 0 ≠ (construct_sa (t ++ [0])).getD (x + 1) 0 := by
    rw [List.getD_eq_getElem _ _ (by omega : x < (construct_sa (t ++ [0])).length),
      List.getD_eq_getElem _ _ (by omega : x + 1 < (construct_sa (t ++ [0])).length)]
    intro e
    have := (construct_sa_nodup (t ++ [0])).getElem_inj_iff.mp e
    omega
  have hT : TERMINATOR = 1 := rfl
  have h1 := bwt_symbol t ht x (by omega)
  have h2 := bwt_symbol t ht (x + 1) hx
  have p1 : 0 < (construct_sa (t ++ [0])).getD x 0 := by
    rcases h1 with ⟨a1, a2⟩ | ⟨a1, _⟩
    · rcases h2 with ⟨b1, _⟩ | ⟨_, b2, _⟩
      · omega
      · rw [hb] at a2; omega
    · exact a1
  have p2 : 0 < (construct_sa (t ++ [0])).getD (x + 1) 0 := by
    rcases h2 with ⟨a1, a2⟩ | ⟨a1, _⟩
    · rcases h1 with ⟨b1, _⟩ | ⟨_, b2, _⟩
      · omega
      · rw [← hb] at a2; omega
    · exact a1
  obtain ⟨s1, s2⟩ := sa_step t ht x (by omega) p1
  obtain ⟨s3, s4⟩ := sa_step t ht (x + 1) hx p2
  have hr := rank_succ (bwt_of (t ++ [0])) x ((bwt_of (t ++ [0])).getD x 0)
  rw [if_pos ⟨by rw [bwt_of_length]; omega, rfl⟩] at hr
  rw [← hb, hr] at s3 s4
  exact ⟨p1, p2, _, s3, s2, s4⟩

/-! ## The circular predecessor -/

theorem sd_rank_mono (b : List Bool) (i j : Nat) (h : i ≤ j) :
    sparse_sd_vector.rank b i ≤ sparse_sd_vector.rank b j := by
  unfold sparse_sd_vector.rank
  exact (List.take_sublist_take_left b h).count_le true

theorem sd_rank_le (b : List Bool) (i : Nat) :
    sparse_sd_vector.rank b i ≤ sparse_sd_vector.number_of_1 b := by
  unfold sparse_sd_vector.rank sparse_sd_vector.number_of_1
  exact (List.take_sublist i b).count_le true

theorem sd_rank_length (b : List Bool) :
    sparse_sd_vector.rank b b.length = sparse_sd_vector.number_of_1 b := by
  unfold sparse_sd_vector.rank sparse_sd_vector.number_of_1
  rw [List.take_length]

/-- A selected position holds a set bit and has the rank of the selection. -/
theorem sd_select_some (b : List Bool) (k p : Nat) (h : sparse_sd_vector.select b k = some p) :
    p < b.length ∧ b.getD p false = true ∧ sparse_sd_vector.rank b p = k := by
  induction b generalizing k p with
  | nil => simp [sparse_sd_vector.select] at h
  | cons x xs ih =>
    cases x with
    | true =>
      cases k with
      | zero =>
        simp only [sparse_sd_vector.select, Option.some.injEq] at h
        subst h
        exact ⟨by simp, rfl, by simp [sparse_sd_vector.rank]⟩
      | succ k =>
        simp only [sparse_sd_vector.select, Option.map_eq_some'] at h
        obtain ⟨q, hq, e⟩ := h
        subst e
        obtain ⟨a1, a2, a3⟩ := ih k q hq
        refine ⟨by simp; omega, a2, ?_⟩
        unfold sparse_sd_vector.rank at a3 ⊢
        rw [List.take_succ_cons, List.count_cons, a3]
        simp
    | false =>
      simp only [sparse_sd_vector.select, Option.map_eq_some'] at h
      obtain ⟨q, hq, e⟩ := h
      subst e
      obtain ⟨a1, a2, a3⟩ := ih k q hq
      refine ⟨by simp; omega, a2, ?_⟩
      unfold sparse_sd_vector.rank at a3 ⊢
      rw [List.take_succ_cons, List.count_cons, a3]
      simp

/-- The predecessor of `i` when the bit before `i` is set. -/
theorem pred_at_set (b : List Bool) (i : Nat) (hi : i < b.length)
    (hb : b.getD i false = true) :
    sparse_sd_vector.predecessor_rank_circular b (i + 1) = sparse_sd_vector.rank b i ∧
    sparse_sd_vector.select b (sparse_sd_vector.rank b i) = some i := by
  have hr := sd_rank_succ b i
  rw [if_pos ⟨hi, hb⟩] at hr
  refine ⟨?_, sd_select_rank b i hi hb⟩
  unfold sparse_sd_vector.predecessor_rank_circular
  rw [if_neg (by omega), hr]
  omega

/-- The predecessor does not change across a position whose bit is not set. -/
theorem pred_shift (b : List Bool) (i : Nat) (hb : ¬ (i < b.length ∧ b.getD i false = true)) :
    sparse_sd_vector.predecessor_rank_circular b (i + 1)
      = sparse_sd_vector.predecessor_rank_circular b i := by
  have hr := sd_rank_succ b i
  rw [if_neg hb] at hr
  unfold sparse_sd_vector.predecessor_rank_circular
  rw [hr, Nat.add_zero]

theorem pred_zero (b : List Bool) :
    sparse_sd_vector.predecessor_rank_circular b 0 = sparse_sd_vector.number_of_1 b - 1 := by
  unfold sparse_sd_vector.predecessor_rank_circular
  rw [if_pos (by simp [sparse_sd_vector.rank])]

/-- The last set bit, when it is the last position. -/
theorem sd_select_last (b : List Bool) (hn : 0 < b.length)
    (hb : b.getD (b.length - 1) false = true) :
    sparse_sd_vector.select b (sparse_sd_vector.number_of_1 b - 1) = some (b.length - 1) ∧
    0 < sparse_sd_vector.number_of_1 b := by
  have hr := sd_rank_succ b (b.length - 1)
  rw [if_pos ⟨by omega, hb⟩, show b.length - 1 + 1 = b.length by omega, sd_rank_length] at hr
  have hs := sd_select_rank b (b.length - 1) (by omega) hb
  rw [show sparse_sd_vector.rank b (b.length - 1) = sparse_sd_vector.number_of_1 b - 1
    by omega] at hs
  exact ⟨hs, by omega⟩

/-- Two set bits at or after `p` leave at most `m - 2` set bits before `p`. -/
theorem sd_rank_two (b : List Bool) (p q : Nat) (hpq : p < q) (hq : q < b.length)
    (hbp : b.getD p false = true) (hbq : b.getD q false = true) :
    sparse_sd_vector.rank b p + 2 ≤ sparse_sd_vector.number_of_1 b := by
  have h1 := sd_rank_succ b p
  rw [if_pos ⟨by omega, hbp⟩] at h1
  have h2 := sd_rank_succ b q
  rw [if_pos ⟨hq, hbq⟩] at h2
  have h3 := sd_rank_mono b (p + 1) q (by omega)
  have h4 := sd_rank_le b (q + 1)
  omega

/-! ## The predecessor tables of a constructed index -/

/-- The bits and the selections of the bit vector built from a numbered sample
vector with distinct values below `n`. -/
theorem predecessor_bits (n : Nat) (v : List (Nat × Nat)) (vals : List Nat)
    (hv : numbered v vals) (hnd : vals.Nodup) (hlt : ∀ a ∈ vals, a < n) :
    (build_bitvector n (sort_samples v)).length = n ∧
    sparse_sd_vector.number_of_1 (build_bitvector n (sort_samples v)) = vals.length ∧
    (∀ p, p < n → ((build_bitvector n (sort_samples v)).getD p false = true ↔ p ∈ vals)) ∧
    ∀ k, k < vals.length →
      ((List.range vals.length).map (fun i => ((sort_samples v).getD i (0, 0)).2)).getD k 0
        < vals.length ∧
      sparse_sd_vector.select (build_bitvector n (sort_samples v)) k
        = some (vals.getD
            (((List.range vals.length).map
              (fun i => ((sort_samples v).getD i (0, 0)).2)).getD k 0) 0) := by
  obtain ⟨p1, p2, p3⟩ := predecessor_tables n v vals hv hnd hlt
  have hL : ((sort_samples v).map Prod.fst).Perm vals := by
    have := (sort_samples_perm v).map Prod.fst
    rw [hv.1] at this
    exact this
  refine ⟨?_, p1, fun p hp => ?_, fun k hk => ⟨?_, p3 k hk⟩⟩
  · rw [build_bitvector_eq, set_bits_length, List.length_replicate]
  · rw [build_bitvector_eq, set_bits_getD _ _ _ (by rw [List.length_replicate]; exact hp)]
    have h0 : (List.replicate n false).getD p false = false := by
      simp [List.getD_eq_getElem?_getD, List.getElem?_replicate, hp]
    rw [h0, Bool.false_or, decide_eq_true_eq]
    exact hL.mem_iff
  · have hk1 : k < ((List.range vals.length).map
        (fun i => ((sort_samples v).getD i (0, 0)).2)).length := by
      rw [List.length_map, List.length_range]; exact hk
    have hm := p2.mem_iff.mp (List.getElem_mem hk1)
    rw [List.getD_eq_getElem _ _ hk1]
    exact List.mem_range.mp hm

theorem sufsort_linked (w : List Nat) (h2 : 2 ≤ w.length) :
    (build_bitvector w.length
        (sort_samples (sufsort w (construct_sa w)).samples_first)).length = w.length ∧
    (build_bitvector w.length
        (sort_samples (sufsort w (construct_sa w)).samples_last)).length = w.length ∧
    sparse_sd_vector.number_of_1 (build_bitvector w.length
        (sort_samples (sufsort w (construct_sa w)).samples_first))
      = rle_string.number_of_runs (bwt_of w) ∧
    sparse_sd_vector.number_of_1 (build_bitvector w.length
        (sort_samples (sufsort w (construct_sa w)).samples_last))
      = rle_string.number_of_runs (bwt_of w) ∧
    (∀ p, p < w.length → ((build_bitvector w.length
        (sort_samples (sufsort w (construct_sa w)).samples_first)).getD p false = true
          ↔ p ∈ (run_starts (bwt_of w)).map (sample_at (construct_sa w)))) ∧
    (∀ p, p < w.length → ((build_bitvector w.length
        (sort_samples (sufsort w (construct_sa w)).samples_last)).getD p false = true
          ↔ p ∈ (run_ends (bwt_of w)).map (sample_at (construct_sa w)))) ∧
    (∀ k, k < rle_string.number_of_runs (bwt_of w) →
      ((List.range (rle_string.number_of_runs (bwt_of w))).map (fun i =>
        ((sort_samples (sufsort w (construct_sa w)).samples_first).getD i (0, 0)).2)).getD k 0
        < rle_string.number_of_runs (bwt_of w) ∧
      sparse_sd_vector.select (build_bitvector w.length
          (sort_samples (sufsort w (construct_sa w)).samples_first)) k
        = some (((run_starts (bwt_of w)).map (sample_at (construct_sa w))).getD
            (((List.range (rle_string.number_of_runs (bwt_of w))).map (fun i =>
              ((sort_samples (sufsort w (construct_sa w)).samples_first).getD i (0, 0)).2)).getD
                k 0) 0)) ∧
    (∀ k, k < rle_string.number_of_runs (bwt_of w) →
      ((List.range (rle_string.number_of_runs (bwt_of w))).map (fun i =>
        ((sort_samples (sufsort w (construct_sa w)).samples_last).getD i (0, 0)).2)).getD k 0
        < rle_string.number_of_runs (bwt_of w) ∧
      sparse_sd_vector.select (build_bitvector w.length
          (sort_samples (sufsort w (construct_sa w)).samples_last)) k
        = some (((run_ends (bwt_of w)).map (sample_at (construct_sa w))).getD
            (((List.range (rle_string.number_of_runs (bwt_of w))).map (fun i =>
              ((sort_samples (sufsort w (construct_sa w)).samples_last).getD i (0, 0)).2)).getD
                k 0) 0)) := by
  obtain ⟨_, s2, s3⟩ := sufsort_numbered w (construct_sa w)
    (by rw [construct_sa_length]; exact h2)
  have hb : (construct_sa w).map (bwt_char w) = bwt_of w := rfl
  rw [hb] at s2 s3
  have hw : w ≠ [] := by
    intro h; rw [h] at h2; simp at h2
  obtain ⟨n1, n2⟩ := run_starts_nodup (bwt_of w)
  obtain ⟨n3, n4⟩ := run_ends_nodup (bwt_of w)
  rw [bwt_of_length] at n2 n4
  obtain ⟨d1, d2⟩ := samples_nodup w (run_starts (bwt_of w)) hw n1 n2
  obtain ⟨d3, d4⟩ := samples_nodup w (run_ends (bwt_of w)) hw n3 n4
  obtain ⟨f0, f1, f2, f3⟩ := predecessor_bits w.length _ _ s2 d1 d2
  obtain ⟨l0, l1, l2, l3⟩ := predecessor_bits w.length _ _ s3 d3 d4
  rw [List.length_map, run_starts_length] at f1 f3
  rw [List.length_map, run_ends_length] at l1 l3
  exact ⟨f0, l0, f1, l1, f2, l2, f3, l3⟩

theorem construct_linked (T : List Nat) (I : br_index_naive)
    (hI : br_index_naive.construct T = Except.ok I) : I.linked T := by
  obtain ⟨hT, _, _, _, _, _, hbwt, _⟩ := construct_ok T I hI
  obtain ⟨c1, _, c3, c4, _, _, c7, c8, c9, c10, _, _, c13, c14⟩ := construct_sufsort T I hI
  have hlen : 2 ≤ (I.text T).length := by
    rw [text_length]
    have := List.length_pos.mpr hT
    omega
  obtain ⟨t1, t2⟩ := sufsort_tables (I.text T) hlen
  rw [sufsort_bwt_s] at c1 t1 t2
  have hsz : rle_string.size I.bwt = (I.text T).length := by
    unfold rle_string.size
    rw [hbwt, bwt_of_length]
  obtain ⟨p1, p2, p3, p4, p5, p6, p7, p8⟩ := sufsort_linked (I.text T) hlen
  rw [← c1] at t1 t2 p3 p4 p7 p8
  rw [← c3] at t1
  rw [← c4] at t2
  rw [← hsz, ← c7] at p1 p3 p5
  rw [← hsz, ← c8] at p2 p4 p6
  rw [← t1] at p5 p7
  rw [← t2] at p6 p8
  rw [← hsz, ← c7, ← c9] at p7
  rw [← hsz, ← c8, ← c10] at p8
  refine ⟨by rw [c1, hbwt], p1, p2, p3, p4, p5, p6, p7, p8, ?_, c14⟩
  rw [c13, construct_sa_length, hsz]

theorem linked_same_tables (I J : br_index_naive) (T : List Nat) (hI : I.linked T)
    (hs : I.same_tables J) : J.linked T := by
  obtain ⟨e1, _, _, _, e5, _, e7, e8, _, _, _, e12, e13, _, e15, e16, e17, e18, _, _, _, e22⟩
    := hs
  unfold br_index_naive.linked br_index_naive.text at *
  rw [← e1, ← e5, ← e7, ← e8, ← e12, ← e13, ← e15, ← e16, ← e17, ← e18, ← e22]
  exact hI

/-! ## `Phi` and `PhiI`, assertion by assertion -/

/-- The value of `Phi(i)`: it exists exactly when every assertion holds. -/
theorem Phi_ok_iff (I : br_index_naive) (i v : Nat) :
    I.Phi i = Except.ok v ↔
    i ≠ rle_string.size I.bwt - 1 ∧
    sparse_sd_vector.predecessor_rank_circular I.first i ≤ I.r - 1 ∧
    ∃ q s, sparse_sd_vector.select I.first
        (sparse_sd_vector.predecessor_rank_circular I.first i) = some q ∧
      (sparse_sd_vector.predecessor_rank_circular I.first i < I.r - 1
        ∨ q = rle_string.size I.bwt - 1) ∧
      0 < I.first_to_run.getD (sparse_sd_vector.predecessor_rank_circular I.first i) 0 ∧
      I.samples_last.get?
        (I.first_to_run.getD (sparse_sd_vector.predecessor_rank_circular I.first i) 0 - 1)
        = some s ∧
      v = (s + (if q < i then i - q else i + 1)) % rle_string.size I.bwt := by
  unfold br_index_naive.Phi
  simp only []
  by_cases h1 : i = rle_string.size I.bwt - 1
  · rw [if_pos h1]
    constructor
    · intro h; exact absurd h (by simp)
    · intro h; exact absurd h1 h.1
  · rw [if_neg h1]
    by_cases h2 : sparse_sd_vector.predecessor_rank_circular I.first i ≤ I.r - 1
    · rw [if_neg (not_not.mpr h2)]
      cases hsel : sparse_sd_vector.select I.first
          (sparse_sd_vector.predecessor_rank_circular I.first i) with
      | none =>
        simp only []
        constructor
        · intro h; exact absurd h (by simp)
        · rintro ⟨_, _, q, s, hq, _⟩; exact absurd hq (by simp)
      | some q =>
        simp only []
        by_cases h3 : sparse_sd_vector.predecessor_rank_circular I.first i < I.r - 1
            ∨ q = rle_string.size I.bwt - 1
        · rw [if_neg (not_not.mpr h3)]
          by_cases h4 : I.first_to_run.getD
              (sparse_sd_vector.predecessor_rank_circular I.first i) 0 > 0
          · rw [if_neg (not_not.mpr h4)]
            cases hs : I.samples_last.get?
                (I.first_to_run.getD (sparse_sd_vector.predecessor_rank_circular I.first i) 0
                  - 1) with
            | none =>
              simp only []
              constructor
              · intro h; exact absurd h (by simp)
              · rintro ⟨_, _, q1, s, _, _, _, hs1, _⟩; exact absurd hs1 (by simp)
            | some s =>
              simp only []
              constructor
              · intro h
                injection h with h
                exact ⟨h1, h2, q, s, rfl, h3, h4, rfl, h.symm⟩
              · rintro ⟨_, _, q1, s1, hq1, _, _, hs1, hv⟩
                injection hq1 with hq1
                injection hs1 with hs1
                subst hq1 hs1
                rw [hv]
          · rw [if_pos h4]
            constructor
            · intro h; exact absurd h (by simp)
            · rintro ⟨_, _, q1, s, _, _, h5, _⟩; exact absurd h5 h4
        · rw [if_pos h3]
          constructor
          · intro h; exact absurd h (by simp)
          · rintro ⟨_, _, q1, s, hq1, h5, _⟩
            injection hq1 with hq1
            subst hq1
            exact absurd h5 h3
    · rw [if_pos h2]
      constructor
      · intro h; exact absurd h (by simp)
      · intro h; exact absurd h.2.1 h2

/-- The value of `PhiI(i)`: it exists exactly when every assertion holds. -/
theorem PhiI_ok_iff (I : br_index_naive) (i v : Nat) :
    I.PhiI i = Except.ok v ↔
    i ≠ I.last_SA_val ∧
    sparse_sd_vector.predecessor_rank_circular I.last i ≤ I.r - 1 ∧
    ∃ q s, sparse_sd_vector.select I.last
        (sparse_sd_vector.predecessor_rank_circular I.last i) = some q ∧
      (sparse_sd_vector.predecessor_rank_circular I.last i < I.r - 1
        ∨ q = rle_string.size I.bwt - 1) ∧
      I.last_to_run.getD (sparse_sd_vector.predecessor_rank_circular I.last i) 0 < I.r - 1 ∧
      I.samples_first.get?
        (I.last_to_run.getD (sparse_sd_vector.predecessor_rank_circular I.last i) 0 + 1)
        = some s ∧
      v = (s + (if q < i then i - q else i + 1)) % rle_string.size I.bwt := by
  unfold br_index_naive.PhiI
  simp only []
  by_cases h1 : i = I.last_SA_val
  · rw [if_pos h1]
    constructor
    · intro h; exact absurd h (by simp)
    · intro h; exact absurd h1 h.1
  · rw [if_neg h1]
    by_cases h2 : sparse_sd_vector.predecessor_rank_circular I.last i ≤ I.r - 1
    · rw [if_neg (not_not.mpr h2)]
      cases hsel : sparse_sd_vector.select I.last
          (sparse_sd_vector.predecessor_rank_circular I.last i) with
      | none =>
        simp only []
        constructor
        · intro h; exact absurd h (by simp)
        · rintro ⟨_, _, q, s, hq, _⟩; exact absurd hq (by simp)
      | some q =>
        simp only []
        by_cases h3 : sparse_sd_vector.predecessor_rank_circular I.last i < I.r - 1
            ∨ q = rle_string.size I.bwt - 1
        · rw [if_neg (not_not.mpr h3)]
          by_cases h4 : I.last_to_run.getD
              (sparse_sd_vector.predecessor_rank_circular I.last i) 0 < I.r - 1
          · rw [if_neg (not_not.mpr h4)]
            cases hs : I.samples_first.get?
                (I.last_to_run.getD (sparse_sd_vector.predecessor_rank_circular I.last i) 0
                  + 1) with
            | none =>
              simp only []
              constructor
              · intro h; exact absurd h (by simp)
              · rintro ⟨_, _, q1, s, _, _, _, hs1, _⟩; exact absurd hs1 (by simp)
            | some s =>
              simp only []
              constructor
              · intro h
                injection h with h
                exact ⟨h1, h2, q, s, rfl, h3, h4, rfl, h.symm⟩
              · rintro ⟨_, _, q1, s1, hq1, _, _, hs1, hv⟩
                injection hq1 with hq1
                injection hs1 with hs1
                subst hq1 hs1
                rw [hv]
          · rw [if_pos h4]
            constructor
            · intro h; exact absurd h (by simp)
            · rintro ⟨_, _, q1, s, _, _, h5, _⟩; exact absurd h5 h4
        · rw [if_pos h3]
          constructor
          · intro h; exact absurd h (by simp)
          · rintro ⟨_, _, q1, s, hq1, h5, _⟩
            injection hq1 with hq1
            subst hq1
            exact absurd h5 h3
    · rw [if_pos h2]
      constructor
      · intro h; exact absurd h (by simp)
      · intro h; exact absurd h.2.1 h2

/-! ## Runs and their samples -/

theorem getElem?_unique {α : Type} (l : List α) (hnd : l.Nodup) (m m1 : Nat) (a : α)
    (h : l[m]? = some a) (h1 : l[m1]? = some a) : m = m1 := by
  obtain ⟨hm, e⟩ := List.getElem?_eq_some.mp h
  obtain ⟨hm1, e1⟩ := List.getElem?_eq_some.mp h1
  exact hnd.getElem_inj_iff.mp (e.trans e1.symm)

theorem mem_run_starts (b : List Nat) (s : Nat) (hs : s < b.length)
    (hq : s = 0 ∨ b.getD s 0 ≠ b.getD (s - 1) 0) : s ∈ run_starts b := by
  unfold run_starts
  rw [List.mem_filter]
  refine ⟨List.mem_range.mpr hs, ?_⟩
  simp only [Bool.or_eq_true, decide_eq_true_eq]
  exact hq

theorem mem_run_ends (b : List Nat) (e : Nat) (he : e < b.length)
    (hq : e + 1 = b.length ∨ b.getD e 0 ≠ b.getD (e + 1) 0) : e ∈ run_ends b := by
  unfold run_ends
  rw [List.mem_filter]
  refine ⟨List.mem_range.mpr he, ?_⟩
  simp only [Bool.or_eq_true, decide_eq_true_eq]
  exact hq

/-- The index of a run start in `run_starts`; the run before it ends on the
row before. -/
theorem run_start_index (b : List Nat) (s : Nat) (hs : s < b.length)
    (hq : s = 0 ∨ b.getD s 0 ≠ b.getD (s - 1) 0) :
    ∃ m, (run_starts b)[m]? = some s ∧
      (1 ≤ s → 1 ≤ m ∧ (run_ends b)[m - 1]? = some (s - 1)) := by
  have hget := filter_range_get
    (fun s => decide (s = 0) || decide (b.getD s 0 ≠ b.getD (s - 1) 0)) b.length s hs
    (by simp only [Bool.or_eq_true, decide_eq_true_eq]; exact hq)
  refine ⟨_, hget, fun h1 => ?_⟩
  have hne : b.getD s 0 ≠ b.getD (s - 1) 0 := by
    rcases hq with h | h
    · omega
    · exact h
  have hge := filter_range_get
    (fun e => decide (e + 1 = b.length) || decide (b.getD e 0 ≠ b.getD (e + 1) 0))
    b.length (s - 1) (by omega)
    (by
      simp only [Bool.or_eq_true, decide_eq_true_eq]
      right
      rw [show s - 1 + 1 = s by omega]
      exact fun e => hne e.symm)
  have r1 := run_of_position_succ b (s - 1) (by omega)
  have r2 := run_of_position_ends b (s - 1) (by omega)
  rw [show s - 1 + 1 = s by omega] at r1
  refine ⟨by omega, ?_⟩
  rw [← r2] at hge
  rw [← r1, Nat.add_sub_cancel]
  exact hge

/-- The index of a run end in `run_ends`; the next run starts on the next row. -/
theorem run_end_index (b : List Nat) (e : Nat) (he : e + 1 < b.length)
    (hq : b.getD e 0 ≠ b.getD (e + 1) 0) :
    ∃ m, (run_ends b)[m]? = some e ∧ (run_starts b)[m + 1]? = some (e + 1) := by
  have hge := filter_range_get
    (fun e => decide (e + 1 = b.length) || decide (b.getD e 0 ≠ b.getD (e + 1) 0))
    b.length e (by omega)
    (by simp only [Bool.or_eq_true, decide_eq_true_eq]; exact Or.inr hq)
  have hgs := filter_range_get
    (fun s => decide (s = 0) || decide (b.getD s 0 ≠ b.getD (s - 1) 0)) b.length (e + 1) he
    (by
      simp only [Bool.or_eq_true, decide_eq_true_eq]
      right
      rw [Nat.add_sub_cancel]
      exact fun h => hq h.symm)
  have r1 := run_of_position_succ b e (by omega)
  have r2 := run_of_position_ends b e (by omega)
  refine ⟨_, hge, ?_⟩
  rw [← r2, r1]
  exact hgs

/-- Distinct rows have distinct samples. -/
theorem sample_at_inj (w : List Nat) (s t : Nat) (hs : s < w.length) (ht : t < w.length)
    (h : sample_at (construct_sa w) s = sample_at (construct_sa w) t) : s = t := by
  have hsl := construct_sa_length w
  have a1 := construct_sa_lt w s hs
  have a2 := construct_sa_lt w t ht
  have e : (construct_sa w).getD s 0 = (construct_sa w).getD t 0 := by
    unfold sample_at at h
    rw [hsl] at h
    by_cases c1 : (construct_sa w).getD s 0 > 0
    · by_cases c2 : (construct_sa w).getD t 0 > 0
      · rw [if_pos c1, if_pos c2] at h; omega
      · rw [if_pos c1, if_neg c2] at h; omega
    · by_cases c2 : (construct_sa w).getD t 0 > 0
      · rw [if_neg c1, if_pos c2] at h; omega
      · omega
  rw [List.getD_eq_getElem _ _ (by omega : s < (construct_sa w).length),
    List.getD_eq_getElem _ _ (by omega : t < (construct_sa w).length)] at e
  exact (construct_sa_nodup w).getElem_inj_iff.mp e

/-- The sample of a row, one step forward, is the suffix-array value. -/
theorem sample_at_succ (w : List Nat) (x : Nat) (hx : x < w.length) :
    (sample_at (construct_sa w) x + 1) % w.length = (construct_sa w).getD x 0 ∧
    sample_at (construct_sa w) x < w.length := by
  have a1 := construct_sa_lt w x hx
  unfold sample_at
  rw [construct_sa_length]
  by_cases c1 : (construct_sa w).getD x 0 > 0
  · rw [if_pos c1, show (construct_sa w).getD x 0 - 1 + 1 = (construct_sa w).getD x 0 by omega,
      Nat.mod_eq_of_lt a1]
    exact ⟨rfl, by omega⟩
  · rw [if_neg c1, show w.length - 1 + 1 = w.length by omega, Nat.mod_self]
    exact ⟨by omega, by omega⟩

/-- The row of the whole text holds the terminator, is a run of its own, and
its sample is `n - 1`. -/
theorem terminator_row (t : List Nat) (ht : ∀ a ∈ t, 2 ≤ a) :
    ∃ z, z < (t ++ [0]).length ∧ (construct_sa (t ++ [0])).getD z 0 = 0 ∧
      sample_at (construct_sa (t ++ [0])) z = (t ++ [0]).length - 1 ∧
      z ∈ run_starts (bwt_of (t ++ [0])) ∧ z ∈ run_ends (bwt_of (t ++ [0])) := by
  have hn : 0 < (t ++ [0]).length := by rw [List.length_append, List.length_singleton]; omega
  obtain ⟨z, hz, e⟩ := construct_sa_surj (t ++ [0]) 0 hn
  have hT : TERMINATOR = 1 := rfl
  have hbz : (bwt_of (t ++ [0])).getD z 0 = 1 := by
    rcases bwt_symbol t ht z hz with ⟨_, a2⟩ | ⟨a1, _⟩
    · rw [a2, hT]
    · omega
  have hother : ∀ y, y < (t ++ [0]).length → y ≠ z → (bwt_of (t ++ [0])).getD y 0 ≠ 1 := by
    intro y hy hyz
    rcases bwt_symbol t ht y hy with ⟨a1, _⟩ | ⟨_, a2, _⟩
    · exfalso
      have hl := construct_sa_length (t ++ [0])
      have e2 : (construct_sa (t ++ [0])).getD y 0 = (construct_sa (t ++ [0])).getD z 0 := by
        rw [a1, e]
      rw [List.getD_eq_getElem _ _ (by omega : y < (construct_sa (t ++ [0])).length),
        List.getD_eq_getElem _ _ (by omega : z < (construct_sa (t ++ [0])).length)] at e2
      exact hyz ((construct_sa_nodup (t ++ [0])).getElem_inj_iff.mp e2)
    · omega
  refine ⟨z, hz, e, ?_, ?_, ?_⟩
  · unfold sample_at
    rw [if_neg (by omega), construct_sa_length]
  · apply mem_run_starts _ _ (by rw [bwt_of_length]; exact hz)
    by_cases h0 : z = 0
    · exact Or.inl h0
    · right
      rw [hbz]
      exact fun h => hother (z - 1) (by omega) (by omega) h.symm
  · apply mem_run_ends _ _ (by rw [bwt_of_length]; exact hz)
    by_cases h0 : z + 1 = (bwt_of (t ++ [0])).length
    · exact Or.inl h0
    · right
      rw [hbz]
      rw [bwt_of_length] at h0
      exact fun h => hother (z + 1) (by omega) (by omega) h.symm

/-! ## The predecessor of a position after a sample -/

/-- The circular predecessor of `i` when the position cyclically before `i` is
a set bit: it selects that position, it is not the last rank unless the
position is `n - 1`, and the distance computed by `Phi` and `PhiI` is 1. -/
theorem pred_select_sample (bv : List Bool) (n r i : Nat) (hlen : bv.length = n)
    (hr : sparse_sd_vector.number_of_1 bv = r) (hi : i < n)
    (hlast : bv.getD (n - 1) false = true)
    (hk : bv.getD (if i > 0 then i - 1 else n - 1) false = true) :
    sparse_sd_vector.select bv (sparse_sd_vector.predecessor_rank_circular bv i)
      = some (if i > 0 then i - 1 else n - 1) ∧
    sparse_sd_vector.predecessor_rank_circular bv i ≤ r - 1 ∧
    sparse_sd_vector.predecessor_rank_circular bv i < r ∧
    (sparse_sd_vector.predecessor_rank_circular bv i < r - 1
      ∨ (if i > 0 then i - 1 else n - 1) = n - 1) ∧
    (if (if i > 0 then i - 1 else n - 1) < i then i - (if i > 0 then i - 1 else n - 1)
      else i + 1) = 1 := by
  by_cases h0 : i > 0
  · rw [if_pos h0] at hk ⊢
    obtain ⟨p1, p2⟩ := pred_at_set bv (i - 1) (by omega) hk
    rw [show i - 1 + 1 = i by omega] at p1
    have h2 := sd_rank_two bv (i - 1) (n - 1) (by omega) (by omega) hk hlast
    rw [hr] at h2
    rw [p1]
    refine ⟨p2, by omega, by omega, Or.inl (by omega), ?_⟩
    rw [if_pos (by omega)]
    omega
  · rw [if_neg h0] at hk ⊢
    have hi0 : i = 0 := by omega
    subst hi0
    rw [pred_zero, hr]
    obtain ⟨q1, q2⟩ := sd_select_last bv (by omega) (by rw [hlen]; exact hlast)
    rw [hr, hlen] at q1
    rw [hr] at q2
    refine ⟨q1, le_refl _, by omega, Or.inr rfl, ?_⟩
    rw [if_neg (by omega)]

/-- Across a position whose bit is not set the predecessor stays and the
distance grows by one. -/
theorem pred_step (bv : List Bool) (i q : Nat) (hb : bv.getD i false = false)
    (hq : bv.getD q false = true) :
    sparse_sd_vector.predecessor_rank_circular bv (i + 1)
      = sparse_sd_vector.predecessor_rank_circular bv i ∧
    (if q < i + 1 then i + 1 - q else i + 1 + 1) = (if q < i then i - q else i + 1) + 1 := by
  refine ⟨pred_shift bv i (by
    intro h
    rw [hb] at h
    exact Bool.false_ne_true h.2), ?_⟩
  have hne : q ≠ i := by
    intro e
    rw [e, hb] at hq
    exact Bool.false_ne_true hq
  by_cases h1 : q < i
  · rw [if_pos h1, if_pos (by omega)]
    omega
  · rw [if_neg h1, if_neg (by omega)]

/-- One step of `Phi`: across a position that is not a sample the result grows
by one. -/
theorem Phi_step (I : br_index_naive) (i v : Nat) (hi : i + 1 ≠ rle_string.size I.bwt - 1)
    (hb : I.first.getD i false = false) (h : I.Phi i = Except.ok v)
    (hv : v + 1 < rle_string.size I.bwt) : I.Phi (i + 1) = Except.ok (v + 1) := by
  obtain ⟨_, a2, q, s, a3, a4, a5, a6, a7⟩ := (Phi_ok_iff I i v).mp h
  obtain ⟨_, hq, _⟩ := sd_select_some _ _ _ a3
  obtain ⟨e1, e2⟩ := pred_step I.first i q hb hq
  apply (Phi_ok_iff I (i + 1) (v + 1)).mpr
  rw [e1]
  refine ⟨hi, a2, q, s, a3, a4, a5, a6, ?_⟩
  rw [e2, ← Nat.add_assoc, Nat.add_mod, ← a7,
    Nat.mod_eq_of_lt (by omega : 1 < rle_string.size I.bwt), Nat.mod_eq_of_lt hv]

/-- One step of `PhiI`. -/
theorem PhiI_step (I : br_index_naive) (i v : Nat) (hi : i + 1 ≠ I.last_SA_val)
    (hb : I.last.getD i false = false) (h : I.PhiI i = Except.ok v)
    (hv : v + 1 < rle_string.size I.bwt) : I.PhiI (i + 1) = Except.ok (v + 1) := by
  obtain ⟨_, a2, q, s, a3, a4, a5, a6, a7⟩ := (PhiI_ok_iff I i v).mp h
  obtain ⟨_, hq, _⟩ := sd_select_some _ _ _ a3
  obtain ⟨e1, e2⟩ := pred_step I.last i q hb hq
  apply (PhiI_ok_iff I (i + 1) (v + 1)).mpr
  rw [e1]
  refine ⟨hi, a2, q, s, a3, a4, a5, a6, ?_⟩
  rw [e2, ← Nat.add_assoc, Nat.add_mod, ← a7,
    Nat.mod_eq_of_lt (by omega : 1 < rle_string.size I.bwt), Nat.mod_eq_of_lt hv]

/-! ## `Phi` and `PhiI` on the text of the index -/

theorem construct_sa_inj (w : List Nat) (x y : Nat) (hx : x < w.length) (hy : y < w.length)
    (e : (construct_sa w).getD x 0 = (construct_sa w).getD y 0) : x = y := by
  have hl := construct_sa_length w
  rw [List.getD_eq_getElem _ _ (by omega : x < (construct_sa w).length),
    List.getD_eq_getElem _ _ (by omega : y < (construct_sa w).length)] at e
  exact (construct_sa_nodup w).getElem_inj_iff.mp e

theorem run_starts_mem (b : List Nat) (s : Nat) (h : s ∈ run_starts b) :
    s < b.length ∧ (s = 0 ∨ b.getD s 0 ≠ b.getD (s - 1) 0) := by
  unfold run_starts at h
  rw [List.mem_filter] at h
  obtain ⟨h1, h2⟩ := h
  simp only [Bool.or_eq_true, decide_eq_true_eq] at h2
  exact ⟨List.mem_range.mp h1, h2⟩

theorem run_ends_mem (b : List Nat) (e : Nat) (h : e ∈ run_ends b) :
    e < b.length ∧ (e + 1 = b.length ∨ b.getD e 0 ≠ b.getD (e + 1) 0) := by
  unfold run_ends at h
  rw [List.mem_filter] at h
  obtain ⟨h1, h2⟩ := h
  simp only [Bool.or_eq_true, decide_eq_true_eq] at h2
  exact ⟨List.mem_range.mp h1, h2⟩

/-- The run whose first sample is that of the run start `x` follows the run
that ends on row `x - 1`. -/
theorem first_sample_link (w : List Nat) (x m : Nat) (hx1 : 1 ≤ x) (hx : x < w.length)
    (hrs : (bwt_of w).getD x 0 ≠ (bwt_of w).getD (x - 1) 0)
    (hm : ((run_starts (bwt_of w)).map (sample_at (construct_sa w)))[m]?
      = some (sample_at (construct_sa w) x)) :
    1 ≤ m ∧ ((run_ends (bwt_of w)).map (sample_at (construct_sa w)))[m - 1]?
      = some (sample_at (construct_sa w) (x - 1)) := by
  have hw : w ≠ [] := by
    intro e
    rw [e] at hx
    exact absurd hx (by simp)
  obtain ⟨m0, h0, h1⟩ := run_start_index (bwt_of w) x (by rw [bwt_of_length]; exact hx)
    (Or.inr hrs)
  obtain ⟨h1a, h1b⟩ := h1 hx1
  obtain ⟨n1, n2⟩ := run_starts_nodup (bwt_of w)
  rw [bwt_of_length] at n2
  have hnd := (samples_nodup w (run_starts (bwt_of w)) hw n1 n2).1
  have e0 : ((run_starts (bwt_of w)).map (sample_at (construct_sa w)))[m0]?
      = some (sample_at (construct_sa w) x) := by
    rw [List.getElem?_map, h0]
    rfl
  have e := getElem?_unique _ hnd m m0 _ hm e0
  rw [e]
  refine ⟨h1a, ?_⟩
  rw [List.getElem?_map, h1b]
  rfl

/-- The run whose last sample is that of the run end `x` precedes the run that
starts on row `x + 1`. -/
theorem last_sample_link (w : List Nat) (x m : Nat) (hx : x + 1 < w.length)
    (hre : (bwt_of w).getD x 0 ≠ (bwt_of w).getD (x + 1) 0)
    (hm : ((run_ends (bwt_of w)).map (sample_at (construct_sa w)))[m]?
      = some (sample_at (construct_sa w) x)) :
    m + 1 < rle_string.number_of_runs (bwt_of w) ∧
    ((run_starts (bwt_of w)).map (sample_at (construct_sa w)))[m + 1]?
      = some (sample_at (construct_sa w) (x + 1)) := by
  have hw : w ≠ [] := by
    intro e
    rw [e] at hx
    exact absurd hx (by simp)
  obtain ⟨m0, h0, h1⟩ := run_end_index (bwt_of w) x (by rw [bwt_of_length]; exact hx) hre
  obtain ⟨n1, n2⟩ := run_ends_nodup (bwt_of w)
  rw [bwt_of_length] at n2
  have hnd := (samples_nodup w (run_ends (bwt_of w)) hw n1 n2).1
  have e0 : ((run_ends (bwt_of w)).map (sample_at (construct_sa w)))[m0]?
      = some (sample_at (construct_sa w) x) := by
    rw [List.getElem?_map, h0]
    rfl
  have e := getElem?_unique _ hnd m m0 _ hm e0
  rw [e]
  constructor
  · obtain ⟨hlt, _⟩ := List.getElem?_eq_some.mp h1
    rw [run_starts_length] at hlt
    exact hlt
  · rw [List.getElem?_map, h1]
    rfl

/-- The facts about the tables of an index that the proofs about `Phi` and
`PhiI` use. -/
theorem tables_facts (I : br_index_naive) (T : List Nat) (hI : I.indexes T)
    (hL : I.linked T) :
    (∀ a ∈ I.pattern T, 2 ≤ a) ∧ I.bwt = bwt_of (I.text T) ∧
    rle_string.size I.bwt = (I.text T).length ∧
    I.first.length = (I.text T).length ∧ I.last.length = (I.text T).length ∧
    1 ≤ (I.text T).length ∧
    (construct_sa (I.text T)).getD 0 0 = (I.text T).length - 1 := by
  have hb : I.bwt = bwt_of (I.text T) := hI.2.2.2.1
  have hsz : rle_string.size I.bwt = (I.text T).length := by
    rw [hb]
    exact bwt_of_length _
  obtain ⟨_, l2, l3, _⟩ := hL
  have h0 : (construct_sa (I.text T)).getD 0 0 = (I.pattern T).length := sa_zero (I.pattern T)
  have hlen : (I.text T).length = (I.pattern T).length + 1 := by
    rw [text_eq, List.length_append, List.length_singleton]
  refine ⟨fun a ha => (pattern_symbols I T T hI (fun b hb => hb) a ha).1, hb, hsz,
    by rw [l2, hsz], by rw [l3, hsz], by omega, by rw [h0, hlen]; rfl⟩

/-- At the first row of a run `Phi` returns the suffix of the row before,
through the sample of the last row of the run before. -/
theorem Phi_run_start (I : br_index_naive) (T : List Nat) (hI : I.indexes T)
    (hS : I.sampled T) (hL : I.linked T) (x : Nat) (hx1 : 1 ≤ x)
    (hx : x < (I.text T).length)
    (hrs : (bwt_of (I.text T)).getD x 0 ≠ (bwt_of (I.text T)).getD (x - 1) 0) :
    I.Phi ((construct_sa (I.text T)).getD x 0)
      = Except.ok ((construct_sa (I.text T)).getD (x - 1) 0) := by
  obtain ⟨ht, hb, hsz, hfl, _, hn1, hsa0⟩ := tables_facts I T hI hL
  obtain ⟨l1, _, _, l4, _, l6, _, l8, _, _, _⟩ := hL
  have hsf := hS.1
  have hsl := hS.2.1
  rw [hb] at hsf hsl
  rw [hsz] at l6
  have htr : ∃ z, z < (I.text T).length ∧ (construct_sa (I.text T)).getD z 0 = 0 ∧
      sample_at (construct_sa (I.text T)) z = (I.text T).length - 1 ∧
      z ∈ run_starts (bwt_of (I.text T)) ∧ z ∈ run_ends (bwt_of (I.text T)) :=
    terminator_row (I.pattern T) ht
  obtain ⟨z, hz, _, hzs, hz1, _⟩ := htr
  have hbit_last : I.first.getD ((I.text T).length - 1) false = true :=
    (l6 _ (by omega)).mpr (by
      rw [hsf, ← hzs]
      exact List.mem_map.mpr ⟨z, hz1, rfl⟩)
  have hk := sample_at_succ (I.text T) x hx
  have hbit_k : I.first.getD (sample_at (construct_sa (I.text T)) x) false = true :=
    (l6 _ hk.2).mpr (by
      rw [hsf]
      exact List.mem_map.mpr ⟨x, mem_run_starts _ x (by rw [bwt_of_length]; exact hx)
        (Or.inr hrs), rfl⟩)
  have hi := construct_sa_lt (I.text T) x hx
  have hk_eq : sample_at (construct_sa (I.text T)) x
      = (if (construct_sa (I.text T)).getD x 0 > 0 then (construct_sa (I.text T)).getD x 0 - 1
          else (I.text T).length - 1) := by
    unfold sample_at
    rw [construct_sa_length]
  rw [hk_eq] at hbit_k
  obtain ⟨p1, p2, p3, p4, p5⟩ := pred_select_sample I.first (I.text T).length I.r
    ((construct_sa (I.text T)).getD x 0) hfl l4 hi hbit_last hbit_k
  rw [← hk_eq] at p1 p4 p5
  obtain ⟨q1, q2⟩ := l8 _ p3
  rw [p1] at q2
  injection q2 with q2
  have hmlen : I.first_to_run.getD
      (sparse_sd_vector.predecessor_rank_circular I.first
        ((construct_sa (I.text T)).getD x 0)) 0
      < ((run_starts (bwt_of (I.text T))).map (sample_at (construct_sa (I.text T)))).length := by
    rw [List.length_map, run_starts_length, ← hb, ← l1]
    exact q1
  have hm : ((run_starts (bwt_of (I.text T))).map (sample_at (construct_sa (I.text T))))[
      I.first_to_run.getD (sparse_sd_vector.predecessor_rank_circular I.first
        ((construct_sa (I.text T)).getD x 0)) 0]?
      = some (sample_at (construct_sa (I.text T)) x) := by
    rw [q2, hsf, List.getD_eq_getElem _ _ hmlen, List.getElem?_eq_getElem hmlen]
  obtain ⟨r1, r2⟩ := first_sample_link (I.text T) x _ hx1 hx hrs hm
  apply (Phi_ok_iff I _ _).mpr
  refine ⟨?_, p2, sample_at (construct_sa (I.text T)) x,
    sample_at (construct_sa (I.text T)) (x - 1), p1, ?_, r1, ?_, ?_⟩
  · rw [hsz, ← hsa0]
    intro e
    have := construct_sa_inj (I.text T) x 0 hx (by omega) e
    omega
  · rw [hsz]
    exact p4
  · rw [List.get?_eq_getElem?, hsl]
    exact r2
  · rw [p5, hsz]
    exact ((sample_at_succ (I.text T) (x - 1) (by omega)).1).symm

/-- At the last row of a run `PhiI` returns the suffix of the next row, through
the sample of the first row of the next run. -/
theorem PhiI_run_end (I : br_index_naive) (T : List Nat) (hI : I.indexes T)
    (hS : I.sampled T) (hL : I.linked T) (x : Nat) (hx : x + 1 < (I.text T).length)
    (hre : (bwt_of (I.text T)).getD x 0 ≠ (bwt_of (I.text T)).getD (x + 1) 0) :
    I.PhiI ((construct_sa (I.text T)).getD x 0)
      = Except.ok ((construct_sa (I.text T)).getD (x + 1) 0) := by
  obtain ⟨ht, hb, hsz, _, hll, hn1, hsa0⟩ := tables_facts I T hI hL
  obtain ⟨l1, _, _, _, l5, _, l7, _, l9, l10, _⟩ := hL
  have hsf := hS.1
  have hsl := hS.2.1
  rw [hb] at hsf hsl
  rw [hsz] at l7 l10
  have htr : ∃ z, z < (I.text T).length ∧ (construct_sa (I.text T)).getD z 0 = 0 ∧
      sample_at (construct_sa (I.text T)) z = (I.text T).length - 1 ∧
      z ∈ run_starts (bwt_of (I.text T)) ∧ z ∈ run_ends (bwt_of (I.text T)) :=
    terminator_row (I.pattern T) ht
  obtain ⟨z, hz, _, hzs, _, hz2⟩ := htr
  have hbit_last : I.last.getD ((I.text T).length - 1) false = true :=
    (l7 _ (by omega)).mpr (by
      rw [hsl, ← hzs]
      exact List.mem_map.mpr ⟨z, hz2, rfl⟩)
  have hk := sample_at_succ (I.text T) x (by omega)
  have hbit_k : I.last.getD (sample_at (construct_sa (I.text T)) x) false = true :=
    (l7 _ hk.2).mpr (by
      rw [hsl]
      exact List.mem_map.mpr ⟨x, mem_run_ends _ x (by rw [bwt_of_length]; omega)
        (Or.inr hre), rfl⟩)
  have hi := construct_sa_lt (I.text T) x (by omega)
  have hk_eq : sample_at (construct_sa (I.text T)) x
      = (if (construct_sa (I.text T)).getD x 0 > 0 then (construct_sa (I.text T)).getD x 0 - 1
          else (I.text T).length - 1) := by
    unfold sample_at
    rw [construct_sa_length]
  rw [hk_eq] at hbit_k
  obtain ⟨p1, p2, p3, p4, p5⟩ := pred_select_sample I.last (I.text T).length I.r
    ((construct_sa (I.text T)).getD x 0) hll l5 hi hbit_last hbit_k
  rw [← hk_eq] at p1 p4 p5
  obtain ⟨q1, q2⟩ := l9 _ p3
  rw [p1] at q2
  injection q2 with q2
  have hmlen : I.last_to_run.getD
      (sparse_sd_vector.predecessor_rank_circular I.last
        ((construct_sa (I.text T)).getD x 0)) 0
      < ((run_ends (bwt_of (I.text T))).map (sample_at (construct_sa (I.text T)))).length := by
    rw [List.length_map, run_ends_length, ← hb, ← l1]
    exact q1
  have hm : ((run_ends (bwt_of (I.text T))).map (sample_at (construct_sa (I.text T))))[
      I.last_to_run.getD (sparse_sd_vector.predecessor_rank_circular I.last
        ((construct_sa (I.text T)).getD x 0)) 0]?
      = some (sample_at (construct_sa (I.text T)) x) := by
    rw [q2, hsl, List.getD_eq_getElem _ _ hmlen, List.getElem?_eq_getElem hmlen]
  obtain ⟨r1, r2⟩ := last_sample_link (I.text T) x _ hx hre hm
  apply (PhiI_ok_iff I _ _).mpr
  refine ⟨?_, p2, sample_at (construct_sa (I.text T)) x,
    sample_at (construct_sa (I.text T)) (x + 1), p1, ?_, ?_, ?_, ?_⟩
  · rw [l10]
    intro e
    have := construct_sa_inj (I.text T) x ((I.text T).length - 1) (by omega) (by omega) e
    omega
  · rw [hsz]
    exact p4
  · rw [l1, hb]
    omega
  · rw [List.get?_eq_getElem?, hsf]
    exact r2
  · rw [p5, hsz]
    exact ((sample_at_succ (I.text T) (x + 1) hx).1).symm

/-! ## `Phi` and `PhiI` walk the suffix array -/

/-- `Phi` maps the suffix of every row but the first to the suffix of the row
before: `Phi(SA[x]) = SA[x - 1]`. -/
theorem Phi_correct (I : br_index_naive) (T : List Nat) (hI : I.indexes T)
    (hS : I.sampled T) (hL : I.linked T) :
    ∀ i x, 1 ≤ x → x < (I.text T).length → (construct_sa (I.text T)).getD x 0 = i →
      I.Phi i = Except.ok ((construct_sa (I.text T)).getD (x - 1) 0) := by
  obtain ⟨ht, hb, hsz, hfl, _, hn1, hsa0⟩ := tables_facts I T hI hL
  have hadj : ∀ x, x + 1 < (I.text T).length →
      (bwt_of (I.text T)).getD x 0 = (bwt_of (I.text T)).getD (x + 1) 0 →
      0 < (construct_sa (I.text T)).getD x 0 ∧ 0 < (construct_sa (I.text T)).getD (x + 1) 0 ∧
      ∃ y, y + 1 < (I.text T).length ∧
        (construct_sa (I.text T)).getD y 0 = (construct_sa (I.text T)).getD x 0 - 1 ∧
        (construct_sa (I.text T)).getD (y + 1) 0
          = (construct_sa (I.text T)).getD (x + 1) 0 - 1 :=
    fun x hx h => sa_step_adjacent (I.pattern T) ht x hx h
  intro i
  induction i with
  | zero =>
    intro x hx1 hx e
    by_cases hrs : (bwt_of (I.text T)).getD x 0 ≠ (bwt_of (I.text T)).getD (x - 1) 0
    · have hr := Phi_run_start I T hI hS hL x hx1 hx hrs
      rw [e] at hr
      exact hr
    · have h := hadj (x - 1) (by omega) (by
        rw [show x - 1 + 1 = x by omega]
        exact (not_not.mp hrs).symm)
      rw [show x - 1 + 1 = x by omega] at h
      omega
  | succ i ih =>
    intro x hx1 hx e
    by_cases hrs : (bwt_of (I.text T)).getD x 0 ≠ (bwt_of (I.text T)).getD (x - 1) 0
    · have hr := Phi_run_start I T hI hS hL x hx1 hx hrs
      rw [e] at hr
      exact hr
    · have h := hadj (x - 1) (by omega) (by
        rw [show x - 1 + 1 = x by omega]
        exact (not_not.mp hrs).symm)
      rw [show x - 1 + 1 = x by omega] at h
      obtain ⟨h1, _, y, hy, e1, e2⟩ := h
      have hphi := ih (y + 1) (by omega) hy (by rw [e2, e]; rfl)
      rw [show y + 1 - 1 = y by omega] at hphi
      have hlt := construct_sa_lt (I.text T) (x - 1) (by omega)
      have hbit : I.first.getD i false = false := by
        apply Bool.eq_false_iff.mpr
        intro hset
        have hmem := (hL.2.2.2.2.2.1 i (by
          rw [hsz]
          have := construct_sa_lt (I.text T) x hx
          omega)).mp hset
        rw [hS.1, hb] at hmem
        obtain ⟨s, hs, es⟩ := List.mem_map.mp hmem
        obtain ⟨s1, s2⟩ := run_starts_mem _ s hs
        rw [bwt_of_length] at s1
        have ex : sample_at (construct_sa (I.text T)) x = i := by
          unfold sample_at
          rw [if_pos (by omega), e]
          rfl
        have := sample_at_inj (I.text T) s x s1 hx (es.trans ex.symm)
        rw [this] at s2
        rcases s2 with s2 | s2
        · omega
        · exact hrs s2
      have hne : i + 1 ≠ rle_string.size I.bwt - 1 := by
        rw [hsz, ← hsa0, ← e]
        intro e0
        have := construct_sa_inj (I.text T) x 0 hx (by omega) e0
        omega
      have hstep := Phi_step I i _ hne hbit hphi (by rw [hsz, e1]; omega)
      rw [e1, show (construct_sa (I.text T)).getD (x - 1) 0 - 1 + 1
        = (construct_sa (I.text T)).getD (x - 1) 0 by omega] at hstep
      exact hstep

/-- `PhiI` maps the suffix of every row but the last to the suffix of the next
row: `PhiI(SA[x]) = SA[x + 1]`. -/
theorem PhiI_correct (I : br_index_naive) (T : List Nat) (hI : I.indexes T)
    (hS : I.sampled T) (hL : I.linked T) :
    ∀ i x, x + 1 < (I.text T).length → (construct_sa (I.text T)).getD x 0 = i →
      I.PhiI i = Except.ok ((construct_sa (I.text T)).getD (x + 1) 0) := by
  obtain ⟨ht, hb, hsz, _, hll, hn1, hsa0⟩ := tables_facts I T hI hL
  have hadj : ∀ x, x + 1 < (I.text T).length →
      (bwt_of (I.text T)).getD x 0 = (bwt_of (I.text T)).getD (x + 1) 0 →
      0 < (construct_sa (I.text T)).getD x 0 ∧ 0 < (construct_sa (I.text T)).getD (x + 1) 0 ∧
      ∃ y, y + 1 < (I.text T).length ∧
        (construct_sa (I.text T)).getD y 0 = (construct_sa (I.text T)).getD x 0 - 1 ∧
        (construct_sa (I.text T)).getD (y + 1) 0
          = (construct_sa (I.text T)).getD (x + 1) 0 - 1 :=
    fun x hx h => sa_step_adjacent (I.pattern T) ht x hx h
  intro i
  induction i with
  | zero =>
    intro x hx e
    by_cases hre : (bwt_of (I.text T)).getD x 0 ≠ (bwt_of (I.text T)).getD (x + 1) 0
    · have hr := PhiI_run_end I T hI hS hL x hx hre
      rw [e] at hr
      exact hr
    · have h := hadj x hx (not_not.mp hre)
      omega
  | succ i ih =>
    intro x hx e
    by_cases hre : (bwt_of (I.text T)).getD x 0 ≠ (bwt_of (I.text T)).getD (x + 1) 0
    · have hr := PhiI_run_end I T hI hS hL x hx hre
      rw [e] at hr
      exact hr
    · obtain ⟨_, h2, y, hy, e1, e2⟩ := hadj x hx (not_not.mp hre)
      have hphi := ih y hy (by rw [e1, e]; rfl)
      have hlt := construct_sa_lt (I.text T) (x + 1) hx
      have hbit : I.last.getD i false = false := by
        apply Bool.eq_false_iff.mpr
        intro hset
        have hmem := (hL.2.2.2.2.2.2.1 i (by
          rw [hsz]
          have := construct_sa_lt (I.text T) x (by omega)
          omega)).mp hset
        rw [hS.2.1, hb] at hmem
        obtain ⟨s, hs, es⟩ := List.mem_map.mp hmem
        obtain ⟨s1, s2⟩ := run_ends_mem _ s hs
        rw [bwt_of_length] at s1 s2
        have ex : sample_at (construct_sa (I.text T)) x = i := by
          unfold sample_at
          rw [if_pos (by omega), e]
          rfl
        have := sample_at_inj (I.text T) s x s1 (by omega) (es.trans ex.symm)
        rw [this] at s2
        rcases s2 with s2 | s2
        · omega
        · exact hre s2
      have hne : i + 1 ≠ I.last_SA_val := by
        rw [hL.2.2.2.2.2.2.2.2.2.1, hsz, ← e]
        intro e0
        have := construct_sa_inj (I.text T) x ((I.text T).length - 1) (by omega) (by omega) e0
        omega
      have hstep := PhiI_step I i _ hne hbit hphi (by rw [hsz, e2]; omega)
      rw [e2, show (construct_sa (I.text T)).getD (x + 1) 0 - 1 + 1
        = (construct_sa (I.text T)).getD (x + 1) 0 by omega] at hstep
      exact hstep

/-! ## `Phi` and `PhiI` of a constructed index -/

theorem construct_size (T : List Nat) (I : br_index_naive) (hT : valid_text T)
    (hc : br_index_naive.construct T = Except.ok I) :
    rle_string.size I.bwt = (I.text T).length ∧ rle_string.size I.bwt = T.length + 1 := by
  obtain ⟨_, _, hsz, _⟩ := tables_facts I T (construct_indexes T I hT hc) (construct_linked T I hc)
  exact ⟨hsz, by rw [hsz, text_length]⟩

/-- The rank `rank(i) - 1` selects the largest set position strictly below `i`. -/
theorem pred_strict (b : List Bool) (i : Nat) (h : 0 < sparse_sd_vector.rank b i) :
    ∃ q, sparse_sd_vector.select b (sparse_sd_vector.rank b i - 1) = some q ∧ q < i ∧
      ∀ p, q < p → p < i → b.getD p false = false := by
  induction i with
  | zero =>
    exfalso
    simp [sparse_sd_vector.rank] at h
  | succ i ih =>
    have hr := sd_rank_succ b i
    by_cases hb : i < b.length ∧ b.getD i false = true
    · rw [if_pos hb] at hr
      refine ⟨i, ?_, by omega, fun p h1 h2 => by omega⟩
      rw [hr, Nat.add_sub_cancel]
      exact sd_select_rank b i hb.1 hb.2
    · rw [if_neg hb, Nat.add_zero] at hr
      rw [hr] at h ⊢
      obtain ⟨q, h1, h2, h3⟩ := ih h
      refine ⟨q, h1, by omega, fun p hp1 hp2 => ?_⟩
      by_cases hpi : p = i
      · rw [hpi]
        by_cases hlen : i < b.length
        · apply Bool.eq_false_iff.mpr
          intro hset
          exact hb ⟨hlen, hset⟩
        · rw [List.getD_eq_default _ _ (by omega)]
      · exact h3 p hp1 (by omega)

/-- With no set bit counted below `i` there is no set position below `i`. -/
theorem pred_wrap (b : List Bool) (i : Nat) (h : sparse_sd_vector.rank b i = 0) :
    ∀ p, p < i → b.getD p false = false := by
  intro p hp
  apply Bool.eq_false_iff.mpr
  intro hset
  have hlen : p < b.length := by
    by_contra hge
    rw [List.getD_eq_default _ _ (by omega)] at hset
    exact Bool.false_ne_true hset
  have hr := sd_rank_succ b p
  rw [if_pos ⟨hlen, hset⟩] at hr
  have := sd_rank_mono b (p + 1) i (by omega)
  omega

/-! ## `Phi` and `PhiI`: the suffix array, inverses, assertions, formula -/

/-- The row of a text position: `Phi` and `PhiI` at the position are the
suffix-array values of the neighbouring rows. -/
theorem Phi_PhiI_at (T : List Nat) (I : br_index_naive) (hT : valid_text T)
    (hc : br_index_naive.construct T = Except.ok I) (i : Nat)
    (hi : i < rle_string.size I.bwt) :
    ∃ x, x < rle_string.size I.bwt ∧ (construct_sa (I.text T)).getD x 0 = i ∧
      (i ≠ rle_string.size I.bwt - 1 → 1 ≤ x ∧
        I.Phi i = Except.ok ((construct_sa (I.text T)).getD (x - 1) 0)) ∧
      (i ≠ I.last_SA_val → x + 1 < rle_string.size I.bwt ∧
        I.PhiI i = Except.ok ((construct_sa (I.text T)).getD (x + 1) 0)) := by
  have hI := construct_indexes T I hT hc
  have hS := construct_sampled T I hT hc
  have hL := construct_linked T I hc
  obtain ⟨_, _, hsz, _, _, _, hsa0⟩ := tables_facts I T hI hL
  have hlast := hL.2.2.2.2.2.2.2.2.2.1
  rw [hsz] at hi hlast ⊢
  obtain ⟨x, hx, e⟩ := construct_sa_surj (I.text T) i hi
  refine ⟨x, hx, e, fun hne => ?_, fun hne => ?_⟩
  · have hx1 : 1 ≤ x := by
      by_contra h0
      have : x = 0 := by omega
      rw [this, hsa0] at e
      exact hne e.symm
    exact ⟨hx1, Phi_correct I T hI hS hL i x hx1 hx e⟩
  · have hx1 : x + 1 < (I.text T).length := by
      by_contra h0
      have : x = (I.text T).length - 1 := by omega
      rw [this, ← hlast] at e
      exact hne e.symm
    exact ⟨hx1, PhiI_correct I T hI hS hL i x hx1 e⟩

/-- C15: on the index built from a valid text, with `SA` the suffix array of
the text and `n` its number of rows, for every row `x` in `[0, n-2]`:
`Phi(SA[x+1]) = SA[x]` and `PhiI(SA[x]) = SA[x+1]`; both calls return. -/
theorem Phi_PhiI_rows (T : List Nat) (I : br_index_naive) (hT : valid_text T)
    (hc : br_index_naive.construct T = Except.ok I) (x : Nat)
    (hx : x + 1 < rle_string.size I.bwt) :
    I.Phi ((construct_sa (I.text T)).getD (x + 1) 0)
      = Except.ok ((construct_sa (I.text T)).getD x 0) ∧
    I.PhiI ((construct_sa (I.text T)).getD x 0)
      = Except.ok ((construct_sa (I.text T)).getD (x + 1) 0) := by
  have hI := construct_indexes T I hT hc
  have hS := construct_sampled T I hT hc
  have hL := construct_linked T I hc
  rw [(construct_size T I hT hc).1] at hx
  exact ⟨Phi_correct I T hI hS hL _ (x + 1) (by omega) hx rfl,
    PhiI_correct I T hI hS hL _ x hx rfl⟩

/-- Witness of C15: row 2 of the index of "banana". -/
theorem Phi_PhiI_rows_witness :
    ∃ I, br_index_naive.construct [98, 97, 110, 97, 110, 97] = Except.ok I ∧
      I.Phi ((construct_sa (I.text [98, 97, 110, 97, 110, 97])).getD (2 + 1) 0)
        = Except.ok ((construct_sa (I.text [98, 97, 110, 97, 110, 97])).getD 2 0) ∧
      I.PhiI ((construct_sa (I.text [98, 97, 110, 97, 110, 97])).getD 2 0)
        = Except.ok ((construct_sa (I.text [98, 97, 110, 97, 110, 97])).getD (2 + 1) 0) := by
  obtain ⟨I, _, hI, _⟩ := run_of_isSome [98, 97, 110, 97, 110, 97] [] (by decide)
  exact ⟨I, hI, Phi_PhiI_rows _ I (by decide) hI 2 (by
    rw [(construct_size _ I (by decide) hI).2]
    decide)⟩

set_option maxRecDepth 1000000 in
set_option maxHeartbeats 4000000 in
/-- The values of `Phi` and `PhiI` on the index of "banana" (suffix array
`6, 5, 3, 1, 0, 4, 2`): `Phi` at `SA[1], …, SA[6]` gives `SA[0], …, SA[5]` and
`PhiI` at `SA[0], …, SA[5]` gives `SA[1], …, SA[6]`. -/
theorem Phi_PhiI_banana :
    (br_index_naive.construct [98, 97, 110, 97, 110, 97]).toOption.map
      (fun I => construct_sa (I.text [98, 97, 110, 97, 110, 97]))
      = some [6, 5, 3, 1, 0, 4, 2] ∧
    (br_index_naive.construct [98, 97, 110, 97, 110, 97]).toOption.map
      (fun I => [5, 3, 1, 0, 4, 2].map (fun i => I.Phi i))
      = some [Except.ok 6, Except.ok 5, Except.ok 3, Except.ok 1, Except.ok 0, Except.ok 4] ∧
    (br_index_naive.construct [98, 97, 110, 97, 110, 97]).toOption.map
      (fun I => [6, 5, 3, 1, 0, 4].map (fun i => I.PhiI i))
      = some [Except.ok 5, Except.ok 3, Except.ok 1, Except.ok 0, Except.ok 4, Except.ok 2] := by
  decide

/-- C16: on the index built from a valid text, `Phi` and `PhiI` are mutually
inverse on their domains: for every text position `i` in `[0, n-2]`, `Phi(i)`
returns a value `v` and `PhiI(v) = i`; for every text position
`i ≠ last_SA_val`, `PhiI(i)` returns a value `v` and `Phi(v) = i`. -/
theorem Phi_PhiI_inverse (T : List Nat) (I : br_index_naive) (hT : valid_text T)
    (hc : br_index_naive.construct T = Except.ok I) (i : Nat)
    (hi : i < rle_string.size I.bwt) :
    (i ≠ rle_string.size I.bwt - 1 →
      ∃ v, I.Phi i = Except.ok v ∧ I.PhiI v = Except.ok i) ∧
    (i ≠ I.last_SA_val → ∃ v, I.PhiI i = Except.ok v ∧ I.Phi v = Except.ok i) := by
  have hI := construct_indexes T I hT hc
  have hS := construct_sampled T I hT hc
  have hL := construct_linked T I hc
  have hsz := (construct_size T I hT hc).1
  obtain ⟨x, hx, e, h1, h2⟩ := Phi_PhiI_at T I hT hc i hi
  rw [hsz] at hx
  constructor
  · intro hne
    obtain ⟨hx1, hphi⟩ := h1 hne
    refine ⟨_, hphi, ?_⟩
    have := PhiI_correct I T hI hS hL _ (x - 1) (by omega) rfl
    rw [show x - 1 + 1 = x by omega, e] at this
    exact this
  · intro hne
    obtain ⟨hx1, hphi⟩ := h2 hne
    rw [hsz] at hx1
    refine ⟨_, hphi, ?_⟩
    have := Phi_correct I T hI hS hL _ (x + 1) (by omega) hx1 rfl
    rw [show x + 1 - 1 = x by omega, e] at this
    exact this

/-- Witness of C16: position 3 of "banana". -/
theorem Phi_PhiI_inverse_witness :
    ∃ I, br_index_naive.construct [98, 97, 110, 97, 110, 97] = Except.ok I ∧
      (3 ≠ rle_string.size I.bwt - 1 →
        ∃ v, I.Phi 3 = Except.ok v ∧ I.PhiI v = Except.ok 3) ∧
      (3 ≠ I.last_SA_val → ∃ v, I.PhiI 3 = Except.ok v ∧ I.Phi v = Except.ok 3) := by
  obtain ⟨I, _, hI, _⟩ := run_of_isSome [98, 97, 110, 97, 110, 97] [] (by decide)
  exact ⟨I, hI, Phi_PhiI_inverse _ I (by decide) hI 3 (by
    rw [(construct_size _ I (by decide) hI).2]
    decide)⟩

set_option maxRecDepth 1000000 in
set_option maxHeartbeats 4000000 in
/-- The round trips on the index of "ab" (`n = 3`, suffix array `2, 0, 1`,
`last_SA_val = 1`): `PhiI(Phi(i)) = i` for `i = 0, 1` and `Phi(PhiI(i)) = i`
for `i = 0, 2`. -/
theorem Phi_PhiI_round_trips_ab :
    (br_index_naive.construct [97, 98]).toOption.map
      (fun I => (construct_sa (I.text [97, 98]), I.last_SA_val, I.bwt_size))
      = some ([2, 0, 1], 1, 3) ∧
    (br_index_naive.construct [97, 98]).toOption.map
      (fun I => [0, 1].map (fun i => (I.Phi i, (I.Phi i).bind I.PhiI)))
      = some [(Except.ok 2, Except.ok 0), (Except.ok 0, Except.ok 1)] ∧
    (br_index_naive.construct [97, 98]).toOption.map
      (fun I => [0, 2].map (fun i => (I.PhiI i, (I.PhiI i).bind I.Phi)))
      = some [(Except.ok 1, Except.ok 0), (Except.ok 0, Except.ok 2)] := by
  decide

/-! ## The assertions and the formula of `Phi` and `PhiI` -/

/-- C29: on the index built from a valid text, `Phi` and `PhiI` pass their
assertions inside their domains.  For every text position `i` in `[0, n-2]`,
with `k = first.predecessor_rank_circular(i)`: `k ≤ r - 1`, `first.select(k)`
exists, it is the position `n - 1` when `k` is the wrapped rank `r - 1`,
`first_to_run[k] > 0`, the access `samples_last[first_to_run[k] - 1]` is in
bounds, and `Phi(i)` returns.  For every text position `i ≠ last_SA_val`, with
`k = last.predecessor_rank_circular(i)`: the same for `last`, with
`last_to_run[k] < r - 1`, the access `samples_first[last_to_run[k] + 1]` in
bounds, and `PhiI(i)` returns. -/
theorem Phi_assertions_hold (T : List Nat) (I : br_index_naive) (hT : valid_text T)
    (hc : br_index_naive.construct T = Except.ok I) (i : Nat)
    (hi : i < rle_string.size I.bwt) :
    (i ≠ rle_string.size I.bwt - 1 →
      sparse_sd_vector.predecessor_rank_circular I.first i ≤ I.r - 1 ∧
      (∃ q, sparse_sd_vector.select I.first
          (sparse_sd_vector.predecessor_rank_circular I.first i) = some q ∧
        (sparse_sd_vector.predecessor_rank_circular I.first i < I.r - 1
          ∨ q = rle_string.size I.bwt - 1)) ∧
      0 < I.first_to_run.getD (sparse_sd_vector.predecessor_rank_circular I.first i) 0 ∧
      I.first_to_run.getD (sparse_sd_vector.predecessor_rank_circular I.first i) 0 - 1
        < I.samples_last.length ∧
      ∃ v, I.Phi i = Except.ok v) ∧
    (i ≠ I.last_SA_val →
      sparse_sd_vector.predecessor_rank_circular I.last i ≤ I.r - 1 ∧
      (∃ q, sparse_sd_vector.select I.last
          (sparse_sd_vector.predecessor_rank_circular I.last i) = some q ∧
        (sparse_sd_vector.predecessor_rank_circular I.last i < I.r - 1
          ∨ q = rle_string.size I.bwt - 1)) ∧
      I.last_to_run.getD (sparse_sd_vector.predecessor_rank_circular I.last i) 0 < I.r - 1 ∧
      I.last_to_run.getD (sparse_sd_vector.predecessor_rank_circular I.last i) 0 + 1
        < I.samples_first.length ∧
      ∃ v, I.PhiI i = Except.ok v) := by
  obtain ⟨x, _, _, h1, h2⟩ := Phi_PhiI_at T I hT hc i hi
  constructor
  · intro hne
    obtain ⟨_, hphi⟩ := h1 hne
    obtain ⟨_, a2, q, s, a3, a4, a5, a6, _⟩ := (Phi_ok_iff I i _).mp hphi
    rw [List.get?_eq_getElem?] at a6
    exact ⟨a2, ⟨q, a3, a4⟩, a5, (List.getElem?_eq_some.mp a6).1, _, hphi⟩
  · intro hne
    obtain ⟨_, hphi⟩ := h2 hne
    obtain ⟨_, a2, q, s, a3, a4, a5, a6, _⟩ := (PhiI_ok_iff I i _).mp hphi
    rw [List.get?_eq_getElem?] at a6
    exact ⟨a2, ⟨q, a3, a4⟩, a5, (List.getElem?_eq_some.mp a6).1, _, hphi⟩

/-- Witness of C29: position 0 of "a" (`n = 2`, `SA = 1, 0`). -/
theorem Phi_assertions_hold_witness :
    ∃ I, br_index_naive.construct [97] = Except.ok I ∧
      (0 ≠ rle_string.size I.bwt - 1 →
        sparse_sd_vector.predecessor_rank_circular I.first 0 ≤ I.r - 1 ∧
        (∃ q, sparse_sd_vector.select I.first
            (sparse_sd_vector.predecessor_rank_circular I.first 0) = some q ∧
          (sparse_sd_vector.predecessor_rank_circular I.first 0 < I.r - 1
            ∨ q = rle_string.size I.bwt - 1)) ∧
        0 < I.first_to_run.getD (sparse_sd_vector.predecessor_rank_circular I.first 0) 0 ∧
        I.first_to_run.getD (sparse_sd_vector.predecessor_rank_circular I.first 0) 0 - 1
          < I.samples_last.length ∧
        ∃ v, I.Phi 0 = Except.ok v) := by
  obtain ⟨I, _, hI, _⟩ := run_of_isSome [97] [] (by decide)
  exact ⟨I, hI, (Phi_assertions_hold _ I (by decide) hI 0 (by
    rw [(construct_size _ I (by decide) hI).2]
    decide)).1⟩

set_option maxRecDepth 1000000 in
set_option maxHeartbeats 4000000 in
/-- The calls of C29 on the index of "a" (`n = 2`, `SA = 1, 0`, `r = 2`,
`last_SA_val = 0`): `Phi(0)` takes the wrapped rank `k = 1`, whose set bit is
at `n - 1 = 1`, `first_to_run[1] = 1 > 0`, and returns 1; `PhiI(1)` takes
`k = 0` with `last_to_run[0] = 0 < r - 1` and returns 0. -/
theorem Phi_assertions_a :
    (br_index_naive.construct [97]).toOption.map (fun I =>
      (I.bwt_size, I.r, I.last_SA_val))
      = some (2, 2, 0) ∧
    (br_index_naive.construct [97]).toOption.map (fun I =>
      (sparse_sd_vector.predecessor_rank_circular I.first 0,
        sparse_sd_vector.select I.first (sparse_sd_vector.predecessor_rank_circular I.first 0),
        I.first_to_run.getD (sparse_sd_vector.predecessor_rank_circular I.first 0) 0,
        I.Phi 0))
      = some (1, some 1, 1, Except.ok 1) ∧
    (br_index_naive.construct [97]).toOption.map (fun I =>
      (sparse_sd_vector.predecessor_rank_circular I.last 1,
        sparse_sd_vector.select I.last (sparse_sd_vector.predecessor_rank_circular I.last 1),
        I.last_to_run.getD (sparse_sd_vector.predecessor_rank_circular I.last 1) 0,
        I.PhiI 1))
      = some (0, some 0, 0, Except.ok 0) := by
  decide

set_option maxRecDepth 1000000 in
set_option maxHeartbeats 4000000 in
/-- C28, as stated, fails: on the index of "banana" (`n = 7`, suffix array
`6, 5, 3, 1, 0, 4, 2`) and `i = 3`, the position 3 is itself a set bit of
`first`.  The rank of the largest set position `≤ 3` is 1 with `q = 3`,
`first_to_run[1] = 4` and `samples_last[3] = 6`, so the formula of the claim
gives `(6 + 0) mod 7 = 6`.  `Phi(3)` works with the rank 0 of the largest set
position below 3, `q = 0`, `first_to_run[0] = 2`, `samples_last[1] = 2`,
`delta = 3`, and returns `5 = SA[1]`, the suffix before `SA[2] = 3`.  Likewise
`PhiI(0)` returns `4 = SA[5]` where the formula of the claim gives 6. -/
theorem Phi_formula_counterexample :
    (br_index_naive.construct [98, 97, 110, 97, 110, 97]).toOption.map (fun I =>
      (I.first, sparse_sd_vector.predecessor_rank_circular_spec I.first 3,
        sparse_sd_vector.select I.first
          (sparse_sd_vector.predecessor_rank_circular_spec I.first 3)))
      = some ([true, false, false, true, true, true, true], 1, some 3) ∧
    (br_index_naive.construct [98, 97, 110, 97, 110, 97]).toOption.map (fun I =>
      (sparse_sd_vector.predecessor_rank_circular I.first 3,
        sparse_sd_vector.select I.first (sparse_sd_vector.predecessor_rank_circular I.first 3),
        I.first_to_run, I.samples_last))
      = some (0, some 0, [2, 4, 1, 0, 3], [5, 2, 0, 6, 1]) ∧
    (br_index_naive.construct [98, 97, 110, 97, 110, 97]).toOption.map (fun I =>
      (I.Phi 3, I.Phi_spec 3)) = some (Except.ok 5, 6) ∧
    (br_index_naive.construct [98, 97, 110, 97, 110, 97]).toOption.map (fun I =>
      (I.PhiI 0, I.PhiI_spec 0)) = some (Except.ok 4, 6) := by
  decide

/-- C28, amended: on the index built from a valid text, for every text
position `i ≠ n - 1`, with `k = first.predecessor_rank_circular(i)` the rank of
the largest set position strictly below `i` (wrapping to the last set bit,
which is the position `n - 1`, when no bit is set below `i`) and
`q = first.select(k)`, so that `q ≠ i`: the entry `first_to_run[k] - 1` of
`samples_last` exists and `Phi(i)` returns
`(samples_last[first_to_run[k] - 1] + delta) mod n` where `delta = i - q` if
`q ≤ i` and `delta = i + 1` otherwise; `PhiI` is the same for every text
position `i ≠ last_SA_val` with `last`, `last_to_run[k] + 1` and
`samples_first`. -/
theorem Phi_formula (T : List Nat) (I : br_index_naive) (hT : valid_text T)
    (hc : br_index_naive.construct T = Except.ok I) (i : Nat)
    (hi : i < rle_string.size I.bwt) :
    (i ≠ rle_string.size I.bwt - 1 →
      ∃ q s, sparse_sd_vector.select I.first
          (sparse_sd_vector.predecessor_rank_circular I.first i) = some q ∧
        ((q < i ∧ ∀ p, q < p → p < i → I.first.getD p false = false) ∨
          (i < q ∧ q = rle_string.size I.bwt - 1 ∧ ∀ p, p < i → I.first.getD p false = false)) ∧
        I.samples_last.get?
          (I.first_to_run.getD (sparse_sd_vector.predecessor_rank_circular I.first i) 0 - 1)
          = some s ∧
        I.Phi i = Except.ok ((s + (if q ≤ i then i - q else i + 1)) % rle_string.size I.bwt)) ∧
    (i ≠ I.last_SA_val →
      ∃ q s, sparse_sd_vector.select I.last
          (sparse_sd_vector.predecessor_rank_circular I.last i) = some q ∧
        ((q < i ∧ ∀ p, q < p → p < i → I.last.getD p false = false) ∨
          (i < q ∧ q = rle_string.size I.bwt - 1 ∧ ∀ p, p < i → I.last.getD p false = false)) ∧
        I.samples_first.get?
          (I.last_to_run.getD (sparse_sd_vector.predecessor_rank_circular I.last i) 0 + 1)
          = some s ∧
        I.PhiI i = Except.ok ((s + (if q ≤ i then i - q else i + 1)) % rle_string.size I.bwt))
    := by
  have hL := construct_linked T I hc
  obtain ⟨_, l2, l3, l4, l5, _⟩ := hL
  obtain ⟨x, _, _, h1, h2⟩ := Phi_PhiI_at T I hT hc i hi
  constructor
  · intro hne
    obtain ⟨_, hphi⟩ := h1 hne
    obtain ⟨_, a2, q, s, a3, a4, a5, a6, a7⟩ := (Phi_ok_iff I i _).mp hphi
    have hcase : (q < i ∧ ∀ p, q < p → p < i → I.first.getD p false = false) ∨
        (i < q ∧ q = rle_string.size I.bwt - 1 ∧
          ∀ p, p < i → I.first.getD p false = false) := by
      by_cases hr : sparse_sd_vector.rank I.first i = 0
      · right
        have hk : sparse_sd_vector.predecessor_rank_circular I.first i = I.r - 1 := by
          unfold sparse_sd_vector.predecessor_rank_circular
          rw [if_pos hr, l4]
        rw [hk] at a4
        rcases a4 with a4 | a4
        · omega
        · exact ⟨by omega, a4, pred_wrap I.first i hr⟩
      · left
        obtain ⟨q1, b1, b2, b3⟩ := pred_strict I.first i (by omega)
        have hk : sparse_sd_vector.predecessor_rank_circular I.first i
            = sparse_sd_vector.rank I.first i - 1 := by
          unfold sparse_sd_vector.predecessor_rank_circular
          rw [if_neg hr]
        rw [hk, b1] at a3
        injection a3 with a3
        rw [← a3]
        exact ⟨b2, b3⟩
    refine ⟨q, s, a3, hcase, a6, ?_⟩
    rw [hphi, a7]
    congr 3
    rcases hcase with ⟨c1, _⟩ | ⟨c1, _⟩
    · rw [if_pos c1, if_pos (by omega)]
    · rw [if_neg (by omega), if_neg (by omega)]
  · intro hne
    obtain ⟨_, hphi⟩ := h2 hne
    obtain ⟨_, a2, q, s, a3, a4, a5, a6, a7⟩ := (PhiI_ok_iff I i _).mp hphi
    have hcase : (q < i ∧ ∀ p, q < p → p < i → I.last.getD p false = false) ∨
        (i < q ∧ q = rle_string.size I.bwt - 1 ∧
          ∀ p, p < i → I.last.getD p false = false) := by
      by_cases hr : sparse_sd_vector.rank I.last i = 0
      · right
        have hk : sparse_sd_vector.predecessor_rank_circular I.last i = I.r - 1 := by
          unfold sparse_sd_vector.predecessor_rank_circular
          rw [if_pos hr, l5]
        rw [hk] at a4
        rcases a4 with a4 | a4
        · omega
        · refine ⟨?_, a4, pred_wrap I.last i hr⟩
          by_contra hge
          have hin : i = rle_string.size I.bwt - 1 := by omega
          have hs := sd_rank_succ I.last i
          rw [hr, hin, show rle_string.size I.bwt - 1 + 1 = I.last.length by omega,
            sd_rank_length, l5] at hs
          have : (if rle_string.size I.bwt - 1 < I.last.length ∧
              I.last.getD (rle_string.size I.bwt - 1) false = true then 1 else 0) ≤ 1 := by
            split <;> omega
          omega
      · left
        obtain ⟨q1, b1, b2, b3⟩ := pred_strict I.last i (by omega)
        have hk : sparse_sd_vector.predecessor_rank_circular I.last i
            = sparse_sd_vector.rank I.last i - 1 := by
          unfold sparse_sd_vector.predecessor_rank_circular
          rw [if_neg hr]
        rw [hk, b1] at a3
        injection a3 with a3
        rw [← a3]
        exact ⟨b2, b3⟩
    refine ⟨q, s, a3, hcase, a6, ?_⟩
    rw [hphi, a7]
    congr 3
    rcases hcase with ⟨c1, _⟩ | ⟨c1, _⟩
    · rw [if_pos c1, if_pos (by omega)]
    · rw [if_neg (by omega), if_neg (by omega)]

/-- Witness of C28: position 3 of "banana". -/
theorem Phi_formula_witness :
    ∃ I, br_index_naive.construct [98, 97, 110, 97, 110, 97] = Except.ok I ∧
      (3 ≠ rle_string.size I.bwt - 1 →
        ∃ q s, sparse_sd_vector.select I.first
            (sparse_sd_vector.predecessor_rank_circular I.first 3) = some q ∧
          ((q < 3 ∧ ∀ p, q < p → p < 3 → I.first.getD p false = false) ∨
            (3 < q ∧ q = rle_string.size I.bwt - 1 ∧
              ∀ p, p < 3 → I.first.getD p false = false)) ∧
          I.samples_last.get?
            (I.first_to_run.getD (sparse_sd_vector.predecessor_rank_circular I.first 3) 0 - 1)
            = some s ∧
          I.Phi 3 = Except.ok ((s + (if q ≤ 3 then 3 - q else 3 + 1)) % rle_string.size I.bwt))
    := by
  obtain ⟨I, _, hI, _⟩ := run_of_isSome [98, 97, 110, 97, 110, 97] [] (by decide)
  exact ⟨I, hI, (Phi_formula _ I (by decide) hI 3 (by
    rw [(construct_size _ I (by decide) hI).2]
    decide)).1⟩

/-! ## The permuted LCP array along the suffix array -/

/-- The entry of the permuted LCP array at the suffix of row `x`: the longest
common prefix with the suffix of the row before. -/
theorem plcp_row (w : List Nat) (x : Nat) (hx : x < w.length) :
    (permuted_lcp w (construct_sa w)).getD ((construct_sa w).getD x 0) 0
      = if x = 0 then 0
        else lcp (w.drop ((construct_sa w).getD x 0)) (w.drop ((construct_sa w).getD (x - 1) 0))
    := by
  have hlt := construct_sa_lt w x hx
  have hl := construct_sa_length w
  have hx1 : x < (construct_sa w).length := by omega
  have hidx : (construct_sa w).indexOf ((construct_sa w).getD x 0) = x := by
    rw [List.getD_eq_getElem _ _ hx1]
    exact List.indexOf_getElem (construct_sa_nodup w) x hx1
  unfold permuted_lcp
  rw [List.getD_eq_getElem _ _ (by rw [List.length_map, List.length_range]; exact hlt),
    List.getElem_map, List.getElem_range, hidx]

/-- A string that starts one of two strings starts the other exactly when their
common prefix is at least as long. -/
theorem lcp_ge_iff (P s t : List Nat) (h : P <+: s) : P.length ≤ lcp s t ↔ P <+: t := by
  induction P generalizing s t with
  | nil => simp
  | cons c P ih =>
    cases s with
    | nil => simp at h
    | cons a s =>
      obtain ⟨e, h1⟩ := List.cons_prefix_cons.mp h
      cases t with
      | nil => simp [lcp]
      | cons b t =>
        rw [List.cons_prefix_cons, List.length_cons]
        unfold lcp
        by_cases hab : a = b
        · rw [if_pos hab]
          constructor
          · intro hle
            exact ⟨e.trans hab, (ih s t h1).mp (by omega)⟩
          · intro hp
            have := (ih s t h1).mpr hp.2
            omega
        · rw [if_neg hab]
          constructor
          · intro hle
            omega
          · intro hp
            exact absurd (e.symm.trans hp.1) hab

theorem lcp_comm (s t : List Nat) : lcp s t = lcp t s := by
  induction s generalizing t with
  | nil => cases t <;> simp [lcp]
  | cons a s ih =>
    cases t with
    | nil => simp [lcp]
    | cons b t =>
      unfold lcp
      by_cases hab : a = b
      · rw [if_pos hab, if_pos hab.symm, ih t]
      · rw [if_neg hab, if_neg (fun e => hab e.symm)]

/-- Inside the range of `P`, the permuted LCP entry of a row is at least `|P|`
exactly when the row before is in the range too; and past a row of the range
it is at least `|P|` exactly when the row is in the range. -/
theorem plcp_range (w P : List Nat) (x : Nat) (hx : x < w.length) (hP : P ≠ [])
    (hne : rows_below false w P < rows_below true w P) :
    (((pattern_range w P).1 ≤ x ∧ x ≤ (pattern_range w P).2) →
      (P.length ≤ (permuted_lcp w (construct_sa w)).getD ((construct_sa w).getD x 0) 0
        ↔ (pattern_range w P).1 < x)) ∧
    ((1 ≤ x ∧ (pattern_range w P).1 ≤ x - 1 ∧ x - 1 ≤ (pattern_range w P).2) →
      (P.length ≤ (permuted_lcp w (construct_sa w)).getD ((construct_sa w).getD x 0) 0
        ↔ x ≤ (pattern_range w P).2)) := by
  have hlen : 0 < P.length := List.length_pos.mpr hP
  rw [plcp_row w x hx]
  constructor
  · intro hin
    have hpre := (mem_pattern_range w P x hx hne).mp hin
    by_cases h0 : x = 0
    · rw [if_pos h0]
      constructor
      · intro h; omega
      · intro h; omega
    · rw [if_neg h0, lcp_ge_iff P _ _ hpre, ← mem_pattern_range w P (x - 1) (by omega) hne]
      constructor
      · intro h; omega
      · intro h; omega
  · intro hin
    have hpre := (mem_pattern_range w P (x - 1) (by omega) hne).mp hin.2
    rw [if_neg (by omega), lcp_comm, lcp_ge_iff P _ _ hpre, ← mem_pattern_range w P x hx hne]
    constructor
    · intro h; omega
    · intro h; omega

/-! ## The loops of `locate`, step by step -/

theorem locate_front_stop (I : br_index_naive) (fuel pos : Nat) (deq : List Nat)
    (h : I.plcp.getD pos 0 < I.len) :
    I.locate_front (fuel + 1) pos deq = Except.ok deq := by
  unfold br_index_naive.locate_front
  rw [if_neg (by omega)]

theorem locate_front_step (I : br_index_naive) (fuel pos pos1 : Nat) (deq : List Nat)
    (h : I.len ≤ I.plcp.getD pos 0) (hphi : I.Phi pos = Except.ok pos1) :
    I.locate_front (fuel + 1) pos deq = I.locate_front fuel pos1 (pos1 :: deq) := by
  conv => lhs; unfold br_index_naive.locate_front
  rw [if_pos h, hphi]

theorem locate_back_last (I : br_index_naive) (fuel pos : Nat) (deq : List Nat)
    (h : pos = I.last_SA_val) : I.locate_back (fuel + 1) pos deq = Except.ok deq := by
  unfold br_index_naive.locate_back
  rw [if_pos h]

theorem locate_back_stop (I : br_index_naive) (fuel pos pos1 : Nat) (deq : List Nat)
    (h : pos ≠ I.last_SA_val) (hphi : I.PhiI pos = Except.ok pos1)
    (hp : I.plcp.getD pos1 0 < I.len) :
    I.locate_back (fuel + 1) pos deq = Except.ok deq := by
  unfold br_index_naive.locate_back
  rw [if_neg h, hphi]
  exact if_pos hp

theorem locate_back_step (I : br_index_naive) (fuel pos pos1 : Nat) (deq : List Nat)
    (h : pos ≠ I.last_SA_val) (hphi : I.PhiI pos = Except.ok pos1)
    (hp : I.len ≤ I.plcp.getD pos1 0) :
    I.locate_back (fuel + 1) pos deq = I.locate_back fuel pos1 (deq ++ [pos1]) := by
  conv => lhs; unfold br_index_naive.locate_back
  rw [if_neg h, hphi]
  exact if_neg (by omega)

theorem locate_front_calls_stop (I : br_index_naive) (fuel pos : Nat)
    (h : I.plcp.getD pos 0 < I.len) : I.locate_front_calls (fuel + 1) pos = [] := by
  unfold br_index_naive.locate_front_calls
  rw [if_neg (by omega)]

theorem locate_front_calls_step (I : br_index_naive) (fuel pos pos1 : Nat)
    (h : I.len ≤ I.plcp.getD pos 0) (hphi : I.Phi pos = Except.ok pos1) :
    I.locate_front_calls (fuel + 1) pos = pos :: I.locate_front_calls fuel pos1 := by
  conv => lhs; unfold br_index_naive.locate_front_calls
  rw [if_pos h, hphi]

theorem locate_back_calls_last (I : br_index_naive) (fuel pos : Nat)
    (h : pos = I.last_SA_val) : I.locate_back_calls (fuel + 1) pos = [] := by
  unfold br_index_naive.locate_back_calls
  rw [if_pos h]

theorem locate_back_calls_stop (I : br_index_naive) (fuel pos pos1 : Nat)
    (h : pos ≠ I.last_SA_val) (hphi : I.PhiI pos = Except.ok pos1)
    (hp : I.plcp.getD pos1 0 < I.len) :
    I.locate_back_calls (fuel + 1) pos = [pos] := by
  unfold br_index_naive.locate_back_calls
  rw [if_neg h, hphi]
  simp only []
  rw [if_pos hp]

theorem locate_back_calls_step (I : br_index_naive) (fuel pos pos1 : Nat)
    (h : pos ≠ I.last_SA_val) (hphi : I.PhiI pos = Except.ok pos1)
    (hp : I.len ≤ I.plcp.getD pos1 0) :
    I.locate_back_calls (fuel + 1) pos = pos :: I.locate_back_calls fuel pos1 := by
  conv => lhs; unfold br_index_naive.locate_back_calls
  rw [if_neg h, hphi]
  simp only []
  rw [if_neg (by omega)]

/-! ## `locate` walks the rows of the range -/

/-- The facts about a state that tracks a non-empty pattern. -/
theorem range_facts (J : br_index_naive) (T P : List Nat) (hL : J.linked T)
    (hP : J.tracks T P) (hPne : P ≠ []) :
    J.len = (J.pattern P).length ∧ J.pattern P ≠ [] ∧
    J.range = pattern_range (J.text T) (J.pattern P) ∧
    rows_below false (J.text T) (J.pattern P) < rows_below true (J.text T) (J.pattern P) ∧
    J.range.1 ≤ J.range.2 ∧ J.range.2 < (J.text T).length ∧
    J.plcp = permuted_lcp (J.text T) (construct_sa (J.text T)) := by
  obtain ⟨_, hr, _, hne, hlen⟩ := hP
  have hpl : (J.pattern P).length = P.length := by
    unfold br_index_naive.pattern
    rw [List.length_map]
  have hpne : J.pattern P ≠ [] := by
    intro e
    rw [e] at hpl
    exact hPne (List.length_eq_zero.mp hpl.symm)
  have hle := rows_below_le_length true (J.text T) (J.pattern P)
  refine ⟨by rw [hlen, hpl], hpne, hr, hne, ?_, ?_, hL.2.2.2.2.2.2.2.2.2.2⟩
  · rw [hr]
    simp only [pattern_range]
    omega
  · rw [hr]
    simp only [pattern_range]
    omega

/-- The first loop of `locate` started at the suffix of the row `range.first + k`
of the range: it pushes the suffixes of the rows before, down to `range.first`,
to the front. -/
theorem locate_front_rows (J : br_index_naive) (T P : List Nat) (hI : J.indexes T)
    (hS : J.sampled T) (hL : J.linked T) (hP : J.tracks T P) (hPne : P ≠ []) :
    ∀ k fuel deq, J.range.1 + k ≤ J.range.2 → k + 1 ≤ fuel →
      J.locate_front fuel ((construct_sa (J.text T)).getD (J.range.1 + k) 0) deq
        = Except.ok ((List.range' J.range.1 k).map
            (fun x => (construct_sa (J.text T)).getD x 0) ++ deq) := by
  obtain ⟨hlen, hpne, hr, hne, _, hhi, hplcp⟩ := range_facts J T P hL hP hPne
  intro k
  induction k with
  | zero =>
    intro fuel deq hk hf
    obtain ⟨f, rfl⟩ : ∃ f, fuel = f + 1 := ⟨fuel - 1, by omega⟩
    have h1 := (plcp_range (J.text T) (J.pattern P) J.range.1 (by omega) hpne hne).1
      (by rw [← hr]; omega)
    rw [← hr, ← hplcp, ← hlen] at h1
    have hstop : J.plcp.getD ((construct_sa (J.text T)).getD J.range.1 0) 0 < J.len := by
      by_contra hge
      have := h1.mp (by omega)
      omega
    exact locate_front_stop J f _ deq hstop
  | succ k ih =>
    intro fuel deq hk hf
    obtain ⟨f, rfl⟩ : ∃ f, fuel = f + 1 := ⟨fuel - 1, by omega⟩
    have h1 := (plcp_range (J.text T) (J.pattern P) (J.range.1 + (k + 1)) (by omega) hpne
      hne).1 (by rw [← hr]; omega)
    rw [← hr, ← hplcp, ← hlen] at h1
    have hphi := Phi_correct J T hI hS hL _ (J.range.1 + (k + 1)) (by omega) (by omega) rfl
    rw [show J.range.1 + (k + 1) - 1 = J.range.1 + k by omega] at hphi
    rw [locate_front_step J f _ _ deq (h1.mpr (by omega)) hphi,
      ih f _ (by omega) (by omega), List.range'_concat, List.map_append, List.append_assoc,
      Nat.one_mul]
    rfl

/-- The second loop of `locate` started at the suffix of a row of the range
that has `m` rows of the range after it: it pushes their suffixes to the
back. -/
theorem locate_back_rows (J : br_index_naive) (T P : List Nat) (hI : J.indexes T)
    (hS : J.sampled T) (hL : J.linked T) (hP : J.tracks T P) (hPne : P ≠ []) :
    ∀ m fuel x deq, J.range.1 ≤ x → x + m = J.range.2 → m + 1 ≤ fuel →
      J.locate_back fuel ((construct_sa (J.text T)).getD x 0) deq
        = Except.ok (deq ++ (List.range' (x + 1) m).map
            (fun y => (construct_sa (J.text T)).getD y 0)) := by
  obtain ⟨hlen, hpne, hr, hne, _, hhi, hplcp⟩ := range_facts J T P hL hP hPne
  obtain ⟨_, _, hsz, _, _, _, _⟩ := tables_facts J T hI hL
  have hlast := hL.2.2.2.2.2.2.2.2.2.1
  rw [hsz] at hlast
  intro m
  induction m with
  | zero =>
    intro fuel x deq hx hm hf
    obtain ⟨f, rfl⟩ : ∃ f, fuel = f + 1 := ⟨fuel - 1, by omega⟩
    rw [List.range'_zero, List.map_nil, List.append_nil]
    by_cases hl : (construct_sa (J.text T)).getD x 0 = J.last_SA_val
    · exact locate_back_last J f _ deq hl
    · have hx1 : x + 1 < (J.text T).length := by
        by_contra hge
        have : x = (J.text T).length - 1 := by omega
        rw [this] at hl
        exact hl hlast.symm
      have hphi := PhiI_correct J T hI hS hL _ x hx1 rfl
      have h1 := (plcp_range (J.text T) (J.pattern P) (x + 1) hx1 hpne hne).2
        (by rw [← hr, Nat.add_sub_cancel]; omega)
      rw [← hr, ← hplcp, ← hlen] at h1
      exact locate_back_stop J f _ _ deq hl hphi (by
        by_contra hge
        have := h1.mp (by omega)
        omega)
  | succ m ih =>
    intro fuel x deq hx hm hf
    obtain ⟨f, rfl⟩ : ∃ f, fuel = f + 1 := ⟨fuel - 1, by omega⟩
    have hx1 : x + 1 < (J.text T).length := by omega
    have hl : (construct_sa (J.text T)).getD x 0 ≠ J.last_SA_val := by
      rw [hlast]
      intro e
      have := construct_sa_inj (J.text T) x ((J.text T).length - 1) (by omega) (by omega) e
      omega
    have hphi := PhiI_correct J T hI hS hL _ x hx1 rfl
    have h1 := (plcp_range (J.text T) (J.pattern P) (x + 1) hx1 hpne hne).2
      (by rw [← hr, Nat.add_sub_cancel]; omega)
    rw [← hr, ← hplcp, ← hlen] at h1
    rw [locate_back_step J f _ _ deq hl hphi (h1.mpr (by omega)),
      ih f (x + 1) _ (by omega) (by omega) (by omega), List.range'_succ, List.map_cons,
      List.append_assoc]
    rfl

/-- The result of `locate()` in a state that tracks a non-empty pattern and
whose anchor marks an occurrence: the suffixes of the rows of the range, in
row order. -/
theorem locate_correct (J : br_index_naive) (T P : List Nat) (hI : J.indexes T)
    (hS : J.sampled T) (hL : J.linked T) (hP : J.tracks T P) (hA : J.anchored T P)
    (hPne : P ≠ []) (fuel : Nat) (hf : J.count ≤ fuel) :
    J.locate fuel = Except.ok ((List.range' J.range.1 J.count).map
      (fun x => (construct_sa (J.text T)).getD x 0)) := by
  obtain ⟨_, _, _, _, hle, _, _⟩ := range_facts J T P hL hP hPne
  obtain ⟨x, _, hx1, hx2, hx⟩ := anchored_row J T P hI hP hA
  have hcount : J.count = J.range.2 + 1 - J.range.1 := rfl
  unfold br_index_naive.locate
  rw [if_neg (not_not.mpr hA.1)]
  simp only []
  rw [← hx]
  have hfront := locate_front_rows J T P hI hS hL hP hPne (x - J.range.1) fuel
    [(construct_sa (J.text T)).getD x 0] (by omega) (by omega)
  rw [show J.range.1 + (x - J.range.1) = x by omega] at hfront
  rw [hfront]
  simp only []
  rw [locate_back_rows J T P hI hS hL hP hPne (J.range.2 - x) fuel x _ hx1 (by omega)
    (by omega)]
  congr 1
  have es : [(construct_sa (J.text T)).getD x 0]
      = [x].map (fun y => (construct_sa (J.text T)).getD y 0) := rfl
  rw [es, ← List.map_append, ← List.map_append]
  congr 1
  have e1 : [x] = List.range' (J.range.1 + 1 * (x - J.range.1)) 1 := by
    rw [Nat.one_mul, show J.range.1 + (x - J.range.1) = x by omega]
    rfl
  rw [e1, List.range'_append]
  have e2 : x + 1 = J.range.1 + 1 * (1 + (x - J.range.1)) := by omega
  rw [e2, List.range'_append, hcount]
  congr 1
  omega

/-! ## `locate` in the states reached by extensions -/

/-- A state reached by extensions over a constructed index has the tables of
the text, tracks the spelled pattern and is anchored at an occurrence. -/
theorem reached_linked (T : List Nat) (I J : br_index_naive) (ops : List extension)
    (hT : valid_text T) (hc : br_index_naive.construct T = Except.ok I)
    (hrun : I.reset_pattern.extend_all ops = some J) :
    J.indexes T ∧ J.sampled T ∧ J.linked T ∧ J.tracks T (spell ops) ∧
    J.anchored T (spell ops) := by
  obtain ⟨h1, h2, h3, h4⟩ := reached_anchored T I J ops hT hc hrun
  obtain ⟨_, _, hs⟩ := reached_tracks T I J ops hT hc hrun
  exact ⟨h1, h2, linked_same_tables I J T (construct_linked T I hc) hs, h3, h4⟩

/-- The suffixes of distinct rows are distinct. -/
theorem rows_nodup (w : List Nat) (lo c : Nat) (h : lo + c ≤ w.length) :
    ((List.range' lo c).map (fun x => (construct_sa w).getD x 0)).Nodup := by
  refine List.Nodup.map_on (fun x hx y hy e => ?_) (List.nodup_range' lo c)
  rw [List.mem_range'_1] at hx hy
  exact construct_sa_inj w x y (by omega) (by omega) e

/-- The suffixes of the rows of the range of a non-empty pattern are the
occurrences of the pattern. -/
theorem rows_are_occurrences (J : br_index_naive) (T P : List Nat) (hI : J.indexes T)
    (hL : J.linked T) (hP : J.tracks T P) (hPne : P ≠ []) (o : Nat) :
    o ∈ (List.range' J.range.1 J.count).map (fun x => (construct_sa (J.text T)).getD x 0)
      ↔ o ∈ occurrences T P := by
  obtain ⟨_, hpne, hr, hne, hle, hhi, _⟩ := range_facts J T P hL hP hPne
  have hcount : J.count = J.range.2 + 1 - J.range.1 := rfl
  have hlen : 0 < P.length := List.length_pos.mpr hPne
  have htl := text_length J T
  rw [List.mem_map]
  unfold occurrences
  rw [List.mem_filter, List.mem_range]
  constructor
  · rintro ⟨x, hx, e⟩
    rw [List.mem_range'_1] at hx
    have hxn : x < (J.text T).length := by omega
    have hpre := (mem_pattern_range (J.text T) (J.pattern P) x hxn hne).mp
      (by rw [← hr]; omega)
    have ho := construct_sa_lt (J.text T) x hxn
    have e1 : (construct_sa (J.text T)).getD x 0 = o := e
    rw [e1] at hpre ho
    have hocc := (occurs_at_iff J T T P hI (fun b hb => hb) hP.1 o (by omega)).mpr hpre
    have := occurs_at_bound T P o (by omega) hocc
    exact ⟨by omega, hocc⟩
  · rintro ⟨ho, hocc⟩
    have hpre := (occurs_at_iff J T T P hI (fun b hb => hb) hP.1 o (by omega)).mp hocc
    obtain ⟨x, hx, e⟩ := construct_sa_surj (J.text T) o (by omega)
    rw [← e] at hpre
    have hin := (mem_pattern_range (J.text T) (J.pattern P) x hx hne).mpr hpre
    rw [← hr] at hin
    exact ⟨x, List.mem_range'_1.mpr (by omega), e⟩

/-- The first loop of `locate` calls `Phi` only at suffixes of rows after the
first row of the range: never at `n - 1`, the suffix of row 0. -/
theorem locate_front_calls_rows (J : br_index_naive) (T P : List Nat) (hI : J.indexes T)
    (hS : J.sampled T) (hL : J.linked T) (hP : J.tracks T P) (hPne : P ≠ []) :
    ∀ fuel x, J.range.1 ≤ x → x ≤ J.range.2 →
      ∀ p ∈ J.locate_front_calls fuel ((construct_sa (J.text T)).getD x 0),
        p ≠ rle_string.size J.bwt - 1 := by
  obtain ⟨hlen, hpne, hr, hne, _, hhi, hplcp⟩ := range_facts J T P hL hP hPne
  obtain ⟨_, _, hsz, _, _, _, hsa0⟩ := tables_facts J T hI hL
  intro fuel
  induction fuel with
  | zero =>
    intro x _ _ p hp
    unfold br_index_naive.locate_front_calls at hp
    exact absurd hp (List.not_mem_nil _)
  | succ f ih =>
    intro x hx1 hx2 p hp
    have h1 := (plcp_range (J.text T) (J.pattern P) x (by omega) hpne hne).1
      (by rw [← hr]; omega)
    rw [← hr, ← hplcp, ← hlen] at h1
    by_cases hge : J.len ≤ J.plcp.getD ((construct_sa (J.text T)).getD x 0) 0
    · have hlt := h1.mp hge
      have hphi := Phi_correct J T hI hS hL _ x (by omega) (by omega) rfl
      rw [locate_front_calls_step J f _ _ hge hphi, List.mem_cons] at hp
      rcases hp with hp | hp
      · rw [hp, hsz, ← hsa0]
        intro e
        have := construct_sa_inj (J.text T) x 0 (by omega) (by omega) e
        omega
      · exact ih (x - 1) (by omega) (by omega) p hp
    · rw [locate_front_calls_stop J f _ (by omega)] at hp
      exact absurd hp (List.not_mem_nil _)

/-- The second loop of `locate` tests `pos == last_SA_val` before every call of
`PhiI`. -/
theorem locate_back_calls_guard (I : br_index_naive) :
    ∀ fuel pos, I.last_SA_val ∉ I.locate_back_calls fuel pos := by
  intro fuel
  induction fuel with
  | zero =>
    intro pos hp
    unfold br_index_naive.locate_back_calls at hp
    exact absurd hp (List.not_mem_nil _)
  | succ f ih =>
    intro pos hp
    by_cases hl : pos = I.last_SA_val
    · rw [locate_back_calls_last I f pos hl] at hp
      exact absurd hp (List.not_mem_nil _)
    · cases hphi : I.PhiI pos with
      | error e =>
        unfold br_index_naive.locate_back_calls at hp
        rw [if_neg hl, hphi] at hp
        simp only [List.mem_singleton] at hp
        exact hl hp.symm
      | ok pos1 =>
        by_cases hs : I.plcp.getD pos1 0 < I.len
        · rw [locate_back_calls_stop I f pos pos1 hl hphi hs, List.mem_singleton] at hp
          exact hl hp.symm
        · rw [locate_back_calls_step I f pos pos1 hl hphi (by omega), List.mem_cons] at hp
          rcases hp with hp | hp
          · exact hl hp.symm
          · exact ih pos1 hp

/-- The recorded calls of the first loop are the calls that build its result:
the values pushed to the front are the values of `Phi` at the recorded
arguments, the latest in front. -/
theorem locate_front_calls_trace (I : br_index_naive) :
    ∀ fuel pos deq res, I.locate_front fuel pos deq = Except.ok res →
      res = ((I.locate_front_calls fuel pos).map
        (fun p => (I.Phi p).toOption.getD 0)).reverse ++ deq := by
  intro fuel
  induction fuel with
  | zero =>
    intro pos deq res h
    unfold br_index_naive.locate_front at h
    exact absurd h (by simp)
  | succ f ih =>
    intro pos deq res h
    by_cases hge : I.len ≤ I.plcp.getD pos 0
    · cases hphi : I.Phi pos with
      | error e =>
        unfold br_index_naive.locate_front at h
        rw [if_pos hge, hphi] at h
        exact absurd h (by simp)
      | ok pos1 =>
        rw [locate_front_step I f pos pos1 deq hge hphi] at h
        rw [locate_front_calls_step I f pos pos1 hge hphi, List.map_cons, List.reverse_cons,
          List.append_assoc, hphi, ih pos1 (pos1 :: deq) res h]
        rfl
    · rw [locate_front_stop I f pos deq (by omega)] at h
      rw [locate_front_calls_stop I f pos (by omega)]
      injection h with h
      rw [← h]
      rfl

/-- The recorded calls of the second loop are the calls that build its result:
the values pushed to the back are the values of `PhiI` at the recorded
arguments that pass the test `plcp[pos] >= len`. -/
theorem locate_back_calls_trace (I : br_index_naive) :
    ∀ fuel pos deq res, I.locate_back fuel pos deq = Except.ok res →
      res = deq ++ ((I.locate_back_calls fuel pos).map
        (fun p => (I.PhiI p).toOption.getD 0)).filter
          (fun v => decide (I.len ≤ I.plcp.getD v 0)) := by
  intro fuel
  induction fuel with
  | zero =>
    intro pos deq res h
    unfold br_index_naive.locate_back at h
    exact absurd h (by simp)
  | succ f ih =>
    intro pos deq res h
    by_cases hl : pos = I.last_SA_val
    · rw [locate_back_last I f pos deq hl] at h
      rw [locate_back_calls_last I f pos hl]
      injection h with h
      rw [← h]
      simp
    · cases hphi : I.PhiI pos with
      | error e =>
        unfold br_index_naive.locate_back at h
        rw [if_neg hl, hphi] at h
        exact absurd h (by simp)
      | ok pos1 =>
        by_cases hs : I.plcp.getD pos1 0 < I.len
        · rw [locate_back_stop I f pos pos1 deq hl hphi hs] at h
          rw [locate_back_calls_stop I f pos pos1 hl hphi hs]
          injection h with h
          have hv : (Except.ok pos1 : Except failure Nat).toOption.getD 0 = pos1 := rfl
          rw [← h, List.map_singleton, hphi, hv,
            List.filter_cons_of_neg (by rw [decide_eq_true_eq]; omega), List.filter_nil,
            List.append_nil]
        · rw [locate_back_step I f pos pos1 deq hl hphi (by omega)] at h
          rw [locate_back_calls_step I f pos pos1 hl hphi (by omega), List.map_cons, hphi,
            ih pos1 (deq ++ [pos1]) res h]
          have hv : (Except.ok pos1 : Except failure Nat).toOption.getD 0 = pos1 := rfl
          rw [hv, List.filter_cons_of_pos (by rw [decide_eq_true_eq]; omega),
            List.append_assoc]
          rfl

/-! ## `locate`: order, occurrences, termination -/

/-- C34: in every state `J` reached from `reset_pattern` by one or more
successful extensions over the index of a valid text, `locate()` returns (with
an iteration budget of at least `count()` per loop) exactly the sequence
`SA[range.first], SA[range.first + 1], …, SA[range.second]` of the suffix array
of the text: the occurrences in suffix-array order, without duplicates. -/
theorem locate_suffix_array_order (T : List Nat) (I J : br_index_naive)
    (ops : List extension) (hT : valid_text T)
    (hc : br_index_naive.construct T = Except.ok I) (hops : ops ≠ [])
    (hrun : I.reset_pattern.extend_all ops = some J) (fuel : Nat) (hf : J.count ≤ fuel) :
    J.range.1 ≤ J.range.2 ∧ J.range.1 + J.count = J.range.2 + 1 ∧
    J.locate fuel = Except.ok ((List.range' J.range.1 J.count).map
      (fun x => (construct_sa (J.text T)).getD x 0)) ∧
    ((List.range' J.range.1 J.count).map
      (fun x => (construct_sa (J.text T)).getD x 0)).Nodup := by
  obtain ⟨hI, hS, hL, hP, hA⟩ := reached_linked T I J ops hT hc hrun
  have hPne := spell_ne_nil ops hops
  obtain ⟨_, _, _, _, hle, hhi, _⟩ := range_facts J T (spell ops) hL hP hPne
  have hcount : J.count = J.range.2 + 1 - J.range.1 := rfl
  exact ⟨hle, by omega, locate_correct J T (spell ops) hI hS hL hP hA hPne fuel hf,
    rows_nodup (J.text T) J.range.1 J.count (by omega)⟩

set_option maxRecDepth 1000000 in
set_option maxHeartbeats 4000000 in
/-- Witness of C34: "abb" after `right_extension('b')`, range `(2, 3)`. -/
theorem locate_suffix_array_order_witness :
    ∃ I J, br_index_naive.construct [97, 98, 98] = Except.ok I ∧
      I.reset_pattern.extend_all [extension.right 98] = some J ∧
      J.locate J.count = Except.ok ((List.range' J.range.1 J.count).map
        (fun x => (construct_sa (J.text [97, 98, 98])).getD x 0)) := by
  obtain ⟨I, J, hI, hJ⟩ := run_of_isSome [97, 98, 98] [extension.right 98] (by decide)
  exact ⟨I, J, hI, hJ,
    (locate_suffix_array_order _ I J _ (by decide) hI (by decide) hJ J.count
      (le_refl _)).2.2.1⟩

set_option maxRecDepth 1000000 in
set_option maxHeartbeats 4000000 in
/-- The call of C34 on "abb" (`n = 4`, suffix array `3, 0, 2, 1`) after
`right_extension('b')`: the range is `(2, 3)` and `locate()` returns
`SA[2], SA[3] = 2, 1`. -/
theorem locate_abb_b :
    ((br_index_naive.construct [97, 98, 98]).toOption.bind (fun I =>
      (I.reset_pattern.extend_all [extension.right 98]).map (fun J =>
        (construct_sa (J.text [97, 98, 98]), J.range, J.count, J.locate J.count))))
      = some ([3, 0, 2, 1], (2, 3), 2, Except.ok [2, 1]) := by
  decide

/-- C2: for every valid text `T` and every non-empty pattern reached from
`reset_pattern` by successful extensions `ops`, `locate()` returns (with an
iteration budget of at least `count()` per loop) a sequence whose values are
exactly the text positions `o` at which the pattern is read,
`T[o .. o + len - 1] = P`; no position is returned twice and the number of
returned values is `count()`. -/
theorem locate_eq_occurrences (T : List Nat) (I J : br_index_naive)
    (ops : List extension) (hT : valid_text T)
    (hc : br_index_naive.construct T = Except.ok I) (hops : ops ≠ [])
    (hrun : I.reset_pattern.extend_all ops = some J) (fuel : Nat) (hf : J.count ≤ fuel) :
    ∃ res, J.locate fuel = Except.ok res ∧
      (∀ o, o ∈ res ↔ o ∈ occurrences T (spell ops)) ∧
      (∀ o, o ∈ res ↔ (o < T.length ∧ (T.drop o).take J.len = spell ops)) ∧
      res.Nodup ∧ res.length = J.count := by
  obtain ⟨hI, hS, hL, hP, hA⟩ := reached_linked T I J ops hT hc hrun
  have hPne := spell_ne_nil ops hops
  obtain ⟨_, _, _, _, hle, hhi, _⟩ := range_facts J T (spell ops) hL hP hPne
  have hcount : J.count = J.range.2 + 1 - J.range.1 := rfl
  have hocc := rows_are_occurrences J T (spell ops) hI hL hP hPne
  refine ⟨_, locate_correct J T (spell ops) hI hS hL hP hA hPne fuel hf, hocc, fun o => ?_,
    rows_nodup (J.text T) J.range.1 J.count (by omega), ?_⟩
  · rw [hocc o, hP.2.2.2.2]
    unfold occurrences occurs_at
    rw [List.mem_filter, List.mem_range, decide_eq_true_eq]
  · rw [List.length_map, List.length_range']

set_option maxRecDepth 1000000 in
set_option maxHeartbeats 4000000 in
/-- Witness of C2: "mississippi" with the pattern "issi" built by four left
extensions; the occurrences are 1 and 4. -/
theorem locate_eq_occurrences_witness :
    occurrences [109, 105, 115, 115, 105, 115, 115, 105, 112, 112, 105]
      (spell [extension.left 105, extension.left 115, extension.left 115, extension.left 105])
      = [1, 4] ∧
    ∃ I J, br_index_naive.construct [109, 105, 115, 115, 105, 115, 115, 105, 112, 112, 105]
        = Except.ok I ∧
      I.reset_pattern.extend_all
        [extension.left 105, extension.left 115, extension.left 115, extension.left 105]
        = some J ∧
      ∃ res, J.locate J.count = Except.ok res ∧
        (∀ o, o ∈ res ↔ o ∈ occurrences
          [109, 105, 115, 115, 105, 115, 115, 105, 112, 112, 105]
          (spell [extension.left 105, extension.left 115, extension.left 115,
            extension.left 105])) ∧
        res.length = J.count := by
  obtain ⟨I, J, hI, hJ⟩ := run_of_isSome [109, 105, 115, 115, 105, 115, 115, 105, 112, 112, 105]
    [extension.left 105, extension.left 115, extension.left 115, extension.left 105]
    (by decide)
  obtain ⟨res, h1, h2, _, _, h5⟩ :=
    locate_eq_occurrences _ I J _ (by decide) hI (by decide) hJ J.count (le_refl _)
  exact ⟨by decide, I, J, hI, hJ, res, h1, h2, h5⟩

set_option maxRecDepth 1000000 in
set_option maxHeartbeats 4000000 in
/-- The calls of C2 on "mississippi" with the pattern "issi" (four left
extensions): `count() = 2` and `locate()` returns `4, 1`; on "aaaaaa" with the
pattern "aa": `count() = 5` and `locate()` returns `4, 3, 2, 1, 0`. -/
theorem locate_mississippi_issi :
    ((br_index_naive.construct [109, 105, 115, 115, 105, 115, 115, 105, 112, 112, 105]).toOption.bind
      (fun I => (I.reset_pattern.extend_all
        [extension.left 105, extension.left 115, extension.left 115, extension.left 105]).map
        (fun J => (J.range, J.count, J.locate J.count))))
      = some ((3, 4), 2, Except.ok [4, 1]) ∧
    ((br_index_naive.construct [97, 97, 97, 97, 97, 97]).toOption.bind
      (fun I => (I.reset_pattern.extend_all [extension.left 97, extension.right 97]).map
        (fun J => (J.range, J.count, J.locate J.count))))
      = some ((2, 6), 5, Except.ok [4, 3, 2, 1, 0]) := by
  decide

/-- C31: in every state `J` reached from `reset_pattern` by one or more
successful extensions over the index of a valid text, `len ≥ 1` and `j ≥ d`;
`locate()` terminates: each of its loops ends within `count()` iterations and
the call returns a result; no call of `Phi` made by the first loop has the
argument `n - 1`, and no call of `PhiI` made by the second loop has the
argument `last_SA_val`, whatever the iteration budget. -/
theorem locate_terminates (T : List Nat) (I J : br_index_naive)
    (ops : List extension) (hT : valid_text T)
    (hc : br_index_naive.construct T = Except.ok I) (hops : ops ≠ [])
    (hrun : I.reset_pattern.extend_all ops = some J) :
    1 ≤ J.len ∧ J.j ≥ J.d ∧
    (∀ fuel, J.count ≤ fuel → ∃ res, J.locate fuel = Except.ok res) ∧
    (∀ fuel, rle_string.size J.bwt - 1 ∉ J.locate_front_calls fuel (J.j - J.d)) ∧
    (∀ fuel, J.last_SA_val ∉ J.locate_back_calls fuel (J.j - J.d)) := by
  obtain ⟨hI, hS, hL, hP, hA⟩ := reached_linked T I J ops hT hc hrun
  have hPne := spell_ne_nil ops hops
  obtain ⟨x, _, hx1, hx2, hx⟩ := anchored_row J T (spell ops) hI hP hA
  refine ⟨?_, hA.1, fun fuel hf => ⟨_, locate_correct J T (spell ops) hI hS hL hP hA hPne
    fuel hf⟩, fun fuel hmem => ?_, fun fuel => locate_back_calls_guard J fuel _⟩
  · rw [hP.2.2.2.2]
    exact List.length_pos.mpr hPne
  · rw [← hx] at hmem
    exact locate_front_calls_rows J T (spell ops) hI hS hL hP hPne fuel x hx1 hx2 _ hmem rfl

set_option maxRecDepth 1000000 in
set_option maxHeartbeats 4000000 in
/-- Witness of C31: "aba" after `left_extension('a')`. -/
theorem locate_terminates_witness :
    ∃ I J, br_index_naive.construct [97, 98, 97] = Except.ok I ∧
      I.reset_pattern.extend_all [extension.left 97] = some J ∧
      1 ≤ J.len ∧ J.j ≥ J.d ∧ (∃ res, J.locate J.count = Except.ok res) ∧
      rle_string.size J.bwt - 1 ∉ J.locate_front_calls J.count (J.j - J.d) ∧
      J.last_SA_val ∉ J.locate_back_calls J.count (J.j - J.d) := by
  obtain ⟨I, J, hI, hJ⟩ := run_of_isSome [97, 98, 97] [extension.left 97] (by decide)
  obtain ⟨h1, h2, h3, h4, h5⟩ := locate_terminates _ I J _ (by decide) hI (by decide) hJ
  exact ⟨I, J, hI, hJ, h1, h2, h3 J.count (le_refl _), h4 J.count, h5 J.count⟩

set_option maxRecDepth 1000000 in
set_option maxHeartbeats 4000000 in
/-- The call of C31 on "aba" (`n = 4`, suffix array `3, 2, 0, 1`,
`last_SA_val = 1`) after `left_extension('a')`: `len = 1`, `j = d = 0`, the
range is `(1, 2)`; the first loop calls `Phi(0) = 2` and stops, the second loop
calls `PhiI(0) = 1` and stops; `locate()` returns `2, 0`. -/
theorem locate_aba_loops :
    ((br_index_naive.construct [97, 98, 97]).toOption.bind (fun I =>
      (I.reset_pattern.extend_all [extension.left 97]).map (fun J =>
        (J.bwt_size, J.last_SA_val, J.len, J.range))))
      = some (4, 1, 1, (1, 2)) ∧
    ((br_index_naive.construct [97, 98, 97]).toOption.bind (fun I =>
      (I.reset_pattern.extend_all [extension.left 97]).map (fun J =>
        (J.j, J.d, J.Phi 0, J.PhiI 0))))
      = some (0, 0, Except.ok 2, Except.ok 1) ∧
    ((br_index_naive.construct [97, 98, 97]).toOption.bind (fun I =>
      (I.reset_pattern.extend_all [extension.left 97]).map (fun J =>
        (J.locate_front_calls 10 (J.j - J.d), J.locate_back_calls 10 (J.j - J.d),
          J.locate J.count))))
      = some ([0], [0], Except.ok [2, 0]) := by
  refine ⟨by decide, by decide, by decide⟩

end bri
